import Mathlib

/-!
# The major collector of the OCaml runtime (byterun/major_gc.c) and the
allocation profiler (asmrun/alloc_profiling.c)

A shallow embedding of the incremental mark and sweep collector, of its pacing
scheduler, and of the heap walks and the lifetime histogram of the allocation
profiler.

Conventions of the embedding.

* A machine word and an address are natural numbers; the word size is 8 bytes.
  Memory is a function from byte addresses to words.
* The C type double is embedded as the rationals with exact arithmetic.  The
  concrete states of the pacing scheduler used below hold dyadic values only,
  on which the IEEE operations performed by the code are exact as well; the
  examples of the lifetime histogram use a table of log to four decimal places
  and values that lie well inside a bucket.
* The conditional code for NATIVE_CODE_AND_NO_NAKED_POINTERS is taken with the
  symbol undefined, and DEBUG and CAML_INSTR code is left out, except for the
  field counter of mark_slice, which is kept as a ghost counter.
* Functions of the runtime that live in other files (root enumeration,
  finalisation, the free list, the page table, realloc) are fields of Env.
* In the allocation profiler the function log of the C library and the
  environment variables are fields of ProfEnv, caml_gc_full_major is a
  parameter, and the text written to files is left out.  Counters of type
  uint64_t are natural numbers reduced modulo 2^64.
-/

namespace MajorGC

/-! ## Header codec

The header layout of caml/mlvalues.h: tag in bits 0 to 7, colour in bits 8 and
9, size in words from bit 10 up to the profiling information, which occupies
the PROFINFO_WIDTH highest bits. -/

/-- Modelled from the spec: caml/mlvalues.h is not among the sources.  The
colour white, (0 << 8). -/
def Caml_white : Nat := 0

/-- Modelled from the spec: the colour gray, (1 << 8). -/
def Caml_gray : Nat := 256

/-- Modelled from the spec: the colour blue, (2 << 8). -/
def Caml_blue : Nat := 512

/-- Modelled from the spec: the colour black, (3 << 8). -/
def Caml_black : Nat := 768

/-- Modelled from the spec: number of high header bits that hold the
allocation-site information. -/
def PROFINFO_WIDTH : Nat := 26

/-- Modelled from the spec: first bit of the profiling information. -/
def PROFINFO_SHIFT : Nat := 64 - PROFINFO_WIDTH

/-- Modelled from the spec: Tag_hd (hd) is hd & 0xFF. -/
def Tag_hd (hd : Nat) : Nat := hd % 256

/-- Modelled from the spec: Color_hd (hd) is hd & Caml_black. -/
def Color_hd (hd : Nat) : Nat := hd / 256 % 4 * 256

/-- Modelled from the spec: Wosize_hd (hd), the size field between the colour
and the profiling information. -/
def Wosize_hd (hd : Nat) : Nat := hd % 2 ^ PROFINFO_SHIFT / 1024

/-- Modelled from the spec: Whsize_wosize (sz) is sz + 1. -/
def Whsize_wosize (sz : Nat) : Nat := sz + 1

/-- Modelled from the spec: Whsize_hd (hd), the size with the header. -/
def Whsize_hd (hd : Nat) : Nat := Whsize_wosize (Wosize_hd hd)

/-- Modelled from the spec: Bhsize_hd (hd), the size in bytes with the header. -/
def Bhsize_hd (hd : Nat) : Nat := 8 * Whsize_hd hd

/-- Modelled from the spec: Whitehd_hd (hd) is hd & ~Caml_black. -/
def Whitehd_hd (hd : Nat) : Nat := hd - Color_hd hd

/-- Modelled from the spec: Grayhd_hd (hd) is Whitehd_hd (hd) | Caml_gray. -/
def Grayhd_hd (hd : Nat) : Nat := Whitehd_hd hd + Caml_gray

/-- Modelled from the spec: Blackhd_hd (hd) is hd | Caml_black. -/
def Blackhd_hd (hd : Nat) : Nat := Whitehd_hd hd + Caml_black

/-- Modelled from the spec: Is_white_hd. -/
def Is_white_hd (hd : Nat) : Bool := Color_hd hd == Caml_white

/-- Modelled from the spec: Is_gray_hd. -/
def Is_gray_hd (hd : Nat) : Bool := Color_hd hd == Caml_gray

/-- Modelled from the spec: Is_block (v) is (v & 1) == 0. -/
def Is_block (v : Nat) : Bool := v % 2 == 0

/-- Modelled from the spec: tags of caml/mlvalues.h. -/
def Lazy_tag : Nat := 246

/-- Modelled from the spec: tag of an infix header inside a closure block. -/
def Infix_tag : Nat := 249

/-- Modelled from the spec: tag of a forwarding block. -/
def Forward_tag : Nat := 250

/-- Modelled from the spec: blocks with a tag from No_scan_tag on hold no
pointers. -/
def No_scan_tag : Nat := 251

/-- Modelled from the spec: tag of a boxed float. -/
def Double_tag : Nat := 253

/-- Modelled from the spec: tag of a custom block. -/
def Custom_tag : Nat := 255

/-- Memory: a word for every byte address. -/
abbrev Mem := Nat → Nat

/-- Store the word w at address a. -/
def Mem.set (m : Mem) (a w : Nat) : Mem := fun x => if x = a then w else m x

/-- Modelled from the spec: Hd_val (v), the word before the block. -/
def Hd_val (m : Mem) (v : Nat) : Nat := m (v - 8)

/-- Modelled from the spec: Field (v, i). -/
def Field (m : Mem) (v i : Nat) : Nat := m (v + 8 * i)

/-- Modelled from the spec: Hd_hp (hp). -/
def Hd_hp (m : Mem) (hp : Nat) : Nat := m hp

/-- Modelled from the spec: Val_hp (hp), the block whose header is at hp; Bp_hp
is the same address. -/
def Val_hp (hp : Nat) : Nat := hp + 8

/-- Modelled from the spec: Tag_val (v). -/
def Tag_val (m : Mem) (v : Nat) : Nat := Tag_hd (Hd_val m v)

/-- Modelled from the spec: Infix_offset_val (v), the byte size stored in the
infix header. -/
def Infix_offset_val (m : Mem) (v : Nat) : Nat := 8 * Wosize_hd (Hd_val m v)

/-- Chunk_size (c) of caml/major_gc.h: field size of the heap_chunk_head that
ends at c. -/
def Chunk_size (m : Mem) (c : Nat) : Nat := m (c - 16)

/-- Chunk_next (c) of caml/major_gc.h: field next of the heap_chunk_head that
ends at c. -/
def Chunk_next (m : Mem) (c : Nat) : Nat := m (c - 8)

/-- Phase_mark of caml/major_gc.h. -/
def Phase_mark : Nat := 0

/-- Phase_sweep of caml/major_gc.h. -/
def Phase_sweep : Nat := 1

/-- Phase_idle of caml/major_gc.h. -/
def Phase_idle : Nat := 2

/-- Subphase_roots of caml/major_gc.h. -/
def Subphase_roots : Nat := 10

/-- Subphase_main of caml/major_gc.h. -/
def Subphase_main : Nat := 11

/-- Subphase_weak1 of caml/major_gc.h. -/
def Subphase_weak1 : Nat := 12

/-- Subphase_weak2 of caml/major_gc.h. -/
def Subphase_weak2 : Nat := 13

/-- Subphase_final of caml/major_gc.h. -/
def Subphase_final : Nat := 14

/-- Modelled from the spec: Max_major_window of caml/config.h, the length of
the array caml_major_ring. -/
def Max_major_window : Nat := 50

/-- Calls of functions defined outside major_gc.c, recorded in call order. -/
inductive Event where
  | darken_all_roots_start
  | darken_all_roots_slice (work : Int)
  | final_update
  | fl_init_merge
  | fl_merge_block (v : Nat)
  | finalize (v : Nat)
  | major_gc_hook
  | compact_heap_maybe
  deriving DecidableEq, Repr

/-- The global variables of major_gc.c and the globals of other files that it
reads or writes. -/
structure State where
  mem : Mem
  caml_percent_free : Nat
  caml_major_heap_increment : Nat
  caml_heap_start : Nat
  caml_gc_sweep_hp : Nat
  caml_gc_phase : Nat
  /-- The entries gray_vals[0] to gray_vals_cur[-1], the top of the stack first. -/
  gray_vals : List Nat
  gray_vals_size : Nat
  heap_is_pure : Bool
  caml_allocated_words : Nat
  caml_dependent_size : Nat
  caml_dependent_allocated : Nat
  caml_extra_heap_resources : ℚ
  caml_fl_wsz_at_phase_change : Nat
  caml_fl_merge : Nat
  caml_fl_cur_wsz : Nat
  markhp : Nat
  chunk : Nat
  limit : Nat
  caml_gc_subphase : Nat
  weak_prev : Nat
  caml_major_window : Nat
  caml_major_ring : Nat → ℚ
  caml_major_ring_index : Nat
  caml_major_work_credit : ℚ
  caml_gc_clock : ℚ
  current_value : Nat
  current_index : Nat
  caml_stat_heap_wsz : Nat
  caml_stat_major_collections : Nat
  caml_stat_major_words : ℚ
  caml_incremental_roots_count : Nat
  /-- The addresses added to caml_ref_table, the latest first. -/
  ref_table : List Nat
  /-- The addresses added to caml_weak_ref_table, the latest first. -/
  weak_ref_table : List Nat
  /-- Ghost: the calls made to other files, the latest first. -/
  events : List Event

/-- What a call of caml_fl_merge_block leaves behind. -/
structure FlResult where
  mem : Mem
  caml_fl_merge : Nat
  caml_fl_cur_wsz : Nat
  /-- The returned address, where the sweep goes on. -/
  next : Nat

/-- The collaborators of major_gc.c: page table queries, constants and
functions of other files. -/
structure Env where
  Is_in_heap : Nat → Bool
  Is_young : Nat → Bool
  Is_in_value_area : Nat → Bool
  /-- The value caml_weak_none. -/
  caml_weak_none : Nat
  /-- The address of the variable caml_weak_list_head. -/
  caml_weak_list_head : Nat
  /-- The value Fl_head that caml_fl_init_merge stores in caml_fl_merge. -/
  Fl_head : Nat
  /-- Heap_chunk_min of caml/config.h. -/
  Heap_chunk_min : Nat
  /-- Whether realloc of gray_vals to the given number of words succeeds. -/
  realloc_ok : State → Nat → Bool
  /-- The values that one call of caml_darken_all_roots_slice passes to
  caml_darken, in order, and the work it reports. -/
  roots_slice : State → Int → List Nat × Nat
  /-- The values that caml_final_update passes to caml_darken, in order. -/
  final_update : State → List Nat
  /-- The function caml_fl_merge_block. -/
  fl_merge_block : State → Nat → FlResult
  /-- Custom_ops_val (v)->finalize, 0 for NULL. -/
  custom_finalize : Mem → Nat → Nat
  /-- The effect on memory of calling the finalizer fn on the block v. -/
  call_finalizer : Nat → Nat → Mem → Mem
  /-- Whether caml_major_gc_hook is set. -/
  major_gc_hook : Bool

/-- Is_in_heap_or_young of caml/address_class.h. -/
def Env.Is_in_heap_or_young (env : Env) (v : Nat) : Bool :=
  env.Is_in_heap v || env.Is_young v

/-! ## caml_clip_heap_chunk_wsz -/

/-- The local incr of caml_clip_heap_chunk_wsz, an uintnat. -/
def heap_increment_wsz (s : State) : Nat :=
  if s.caml_major_heap_increment > 1000 then s.caml_major_heap_increment
  else s.caml_stat_heap_wsz / 100 * s.caml_major_heap_increment % 2 ^ 64

/-- The function caml_clip_heap_chunk_wsz (major_gc.c, lines 692 to 711). -/
def caml_clip_heap_chunk_wsz (env : Env) (s : State) (wsz : Nat) : Nat :=
  let result := wsz
  let incr := heap_increment_wsz s
  let result := if result < incr then incr else result
  let result := if result < env.Heap_chunk_min then env.Heap_chunk_min else result
  result

/-! ## The gray worklist and caml_darken -/

/-- The assignment Hd_val (v) = hd. -/
def set_Hd_val (m : Mem) (v hd : Nat) : Mem := m.set (v - 8) hd

/-- The assignment Field (v, i) = x. -/
def set_Field (m : Mem) (v i x : Nat) : Mem := m.set (v + 8 * i) x

/-- Modelled from the spec: Forward_val (v) is Field (v, 0). -/
def Forward_val (m : Mem) (v : Nat) : Nat := Field m v 0

/-- The function realloc_gray_vals (major_gc.c, lines 71 to 96).  Setting
gray_vals_cur to gray_vals + n keeps the n entries at the bottom of the
stack. -/
def realloc_gray_vals (env : Env) (s : State) : State :=
  if s.gray_vals_size < s.caml_stat_heap_wsz / 32 then
    if env.realloc_ok s (2 * s.gray_vals_size) then
      { s with
        gray_vals := s.gray_vals.drop (s.gray_vals.length - s.gray_vals_size)
        gray_vals_size := 2 * s.gray_vals_size }
    else
      { s with gray_vals := [], heap_is_pure := false }
  else
    { s with
      gray_vals := s.gray_vals.drop (s.gray_vals.length - s.gray_vals_size / 2)
      heap_is_pure := false }

/-- The statements that push v on the gray stack and call realloc_gray_vals
when the stack pointer reaches gray_vals_end (lines 125 and 126, 239 to
244). -/
def gray_push (env : Env) (s : State) (v : Nat) : State :=
  let s1 := { s with gray_vals := v :: s.gray_vals }
  if s1.gray_vals.length ≥ s1.gray_vals_size then realloc_gray_vals env s1 else s1

/-- The function caml_darken (major_gc.c, lines 98 to 132). -/
def caml_darken (env : Env) (s : State) (v : Nat) : State :=
  if Is_block v && env.Is_in_heap v then
    let t := Tag_hd (Hd_val s.mem v)
    let v1 := if t = Infix_tag then v - Infix_offset_val s.mem v else v
    let h := Hd_val s.mem v1
    if Is_white_hd h then
      if Tag_hd h < No_scan_tag then
        gray_push env { s with mem := set_Hd_val s.mem v1 (Grayhd_hd h) } v1
      else
        { s with mem := set_Hd_val s.mem v1 (Blackhd_hd h) }
    else s
  else s

/-- The function start_cycle (major_gc.c, lines 134 to 147). -/
def start_cycle (s : State) : State :=
  { s with
    events := Event.darken_all_roots_start :: s.events
    caml_gc_phase := Phase_mark
    caml_gc_subphase := Subphase_roots
    markhp := 0 }

/-! ## mark_slice -/

/-- The local variables of mark_slice together with the globals.  The local
gray_vals_ptr is the field gray_vals of the state. -/
structure MarkState where
  s : State
  work : Int
  v : Nat
  start : Nat
  /-- Ghost: the counter slice_fields of the CAML_INSTR code. -/
  slice_fields : Nat

/-- Lines 237 to 245: a white child becomes gray and is pushed. -/
def mark_child (env : Env) (s : State) (child chd : Nat) : State :=
  if Is_white_hd chd then
    gray_push env { s with mem := set_Hd_val s.mem child (Grayhd_hd chd) } child
  else s

/-- The condition of lines 220 to 222 under which a forwarding pointer is not
short-circuited. -/
def no_short_circuit (env : Env) (m : Mem) (f : Nat) : Bool :=
  Is_block f && (!env.Is_in_value_area f || Tag_val m f == Forward_tag
    || Tag_val m f == Lazy_tag || Tag_val m f == Double_tag)

/-- The body of the for loop of mark_slice (lines 204 to 246) for field i of
the block v. -/
def mark_field (env : Env) (v i : Nat) (s : State) : State :=
  let child := Field s.mem v i
  if Is_block child && env.Is_in_heap child then
    let chd := Hd_val s.mem child
    if Tag_hd chd = Forward_tag then
      let f := Forward_val s.mem child
      if no_short_circuit env s.mem f then
        mark_child env s child chd
      else
        let s1 := { s with mem := set_Field s.mem v i f }
        let s2 :=
          if Is_block f && env.Is_young f && !env.Is_young child then
            { s1 with ref_table := (v + 8 * i) :: s1.ref_table }
          else s1
        mark_child env s2 child chd
    else if Tag_hd chd = Infix_tag then
      let child1 := child - Infix_offset_val s.mem child
      mark_child env s child1 (Hd_val s.mem child1)
    else
      mark_child env s child chd
  else s

/-- The for loop of lines 203 to 247: the n fields from index i on. -/
def mark_fields (env : Env) (v : Nat) : Nat → Nat → State → State
  | 0, _, s => s
  | n + 1, i, s => mark_fields env v n (i + 1) (mark_field env v i s)

/-- Lines 182 to 186: take a value from the gray stack when none is being
scanned. -/
def mark_pop (st : MarkState) : MarkState :=
  if st.v = 0 then
    match st.s.gray_vals with
    | [] => st
    | x :: rest => { st with v := x, s := { st.s with gray_vals := rest } }
  else st

/-- Lines 188 to 266: the block v is scanned or blackened. -/
def mark_value (env : Env) (st : MarkState) : MarkState :=
  let hd := Hd_val st.s.mem st.v
  let size := Wosize_hd hd
  let end0 := st.start + st.work.toNat
  if Tag_hd hd < No_scan_tag then
    let start := if size < st.start then size else st.start
    let end1 := if size < end0 then size else end0
    let s1 := mark_fields env st.v (end1 - start) start st.s
    if end1 < size then
      { st with s := s1, work := 0, start := end1,
                slice_fields := st.slice_fields + (end1 - start) }
    else
      { s := { s1 with mem := set_Hd_val s1.mem st.v (Blackhd_hd hd) }
        work := st.work - Whsize_wosize (end1 - start)
        start := 0
        v := 0
        slice_fields := st.slice_fields + (end1 - start) }
  else
    { st with
      s := { st.s with mem := set_Hd_val st.s.mem st.v (Blackhd_hd hd) }
      work := st.work - Whsize_wosize size
      v := 0 }

/-- Lines 267 to 283: one step of the heap-order scan for gray blocks. -/
def mark_heap_scan (st : MarkState) : MarkState :=
  let s := st.s
  if s.markhp = s.limit then
    let chunk := Chunk_next s.mem s.chunk
    if chunk = 0 then
      { st with s := { s with chunk := chunk, markhp := 0 } }
    else
      { st with s := { s with chunk := chunk, markhp := chunk,
                              limit := chunk + Chunk_size s.mem chunk } }
  else
    let v := if Is_gray_hd (Hd_val s.mem (Val_hp s.markhp)) then Val_hp s.markhp
             else st.v
    { st with v := v, s := { s with markhp := s.markhp + Bhsize_hd (Hd_hp s.mem s.markhp) } }

/-- Lines 337 to 339 of Subphase_weak1: a field whose referent is white and
not young is cleared. -/
def weak_clear (env : Env) (cur i curfield : Nat) (s : State) : State :=
  if Is_white_hd (Hd_val s.mem curfield) && !env.Is_young curfield then
    { s with mem := set_Field s.mem cur i env.caml_weak_none }
  else s

/-- Lines 320 to 340: the code from the label weak_again on, for the field i
of the weak block cur, the local curfield being given.  The first argument
bounds the number of times the label is reached. -/
def weak_again (env : Env) (cur i : Nat) : Nat → Nat → State → State
  | 0, _, s => s
  | fuel + 1, curfield, s =>
    if curfield != env.caml_weak_none && Is_block curfield
        && env.Is_in_heap_or_young curfield then
      if Tag_val s.mem curfield = Forward_tag then
        let f := Forward_val s.mem curfield
        if Is_block f then
          if !env.Is_in_value_area f || Tag_val s.mem f == Forward_tag
              || Tag_val s.mem f == Lazy_tag || Tag_val s.mem f == Double_tag then
            weak_clear env cur i curfield s
          else
            let s1 := { s with mem := set_Field s.mem cur i f }
            let s2 :=
              if Is_block f && env.Is_young f then
                { s1 with weak_ref_table := (cur + 8 * i) :: s1.weak_ref_table }
              else s1
            weak_again env cur i fuel f s2
        else weak_clear env cur i curfield s
      else weak_clear env cur i curfield s
    else s

/-- The label weak_again is reached at most twice for one field: the jump is
taken only to a block whose tag is not Forward_tag. -/
def weak_fuel : Nat := 2

/-- The for loop of lines 318 to 341: the n fields of cur from index i on. -/
def weak_fields (env : Env) (cur : Nat) : Nat → Nat → State → State
  | 0, _, s => s
  | n + 1, i, s =>
    weak_fields env cur n (i + 1) (weak_again env cur i weak_fuel (Field s.mem cur i) s)

/-- The case Subphase_roots (lines 291 to 301). -/
def mark_roots (env : Env) (st : MarkState) : MarkState :=
  let r := env.roots_slice st.s st.work
  let s1 := { st.s with events := Event.darken_all_roots_slice st.work :: st.s.events }
  let s2 := r.1.foldl (caml_darken env) s1
  let s3 := if (r.2 : Int) < st.work then { s2 with caml_gc_subphase := Subphase_main }
            else s2
  { st with s := s3, work := st.work - r.2 }

/-- The case Subphase_weak1 (lines 309 to 358). -/
def mark_weak1 (env : Env) (st : MarkState) : MarkState :=
  let s := st.s
  let cur := s.mem s.weak_prev
  if cur ≠ 0 then
    let hd := Hd_val s.mem cur
    let sz := Wosize_hd hd
    let s1 := weak_fields env cur (sz - 1) 1 s
    { st with s := { s1 with weak_prev := cur }, work := st.work - Whsize_hd hd }
  else
    let s1 := { s with events := Event.final_update :: s.events }
    let s2 := (env.final_update s).foldl (caml_darken env) s1
    let s3 := { s2 with caml_gc_subphase := Subphase_weak2
                        weak_prev := env.caml_weak_list_head }
    match s2.gray_vals with
    | [] => { st with s := s3 }
    | x :: rest => { st with s := { s3 with gray_vals := rest }, v := x }

/-- The case Subphase_weak2 (lines 359 to 378). -/
def mark_weak2 (st : MarkState) : MarkState :=
  let s := st.s
  let cur := s.mem s.weak_prev
  if cur ≠ 0 then
    let hd := Hd_val s.mem cur
    if Color_hd hd = Caml_white then
      { st with s := { s with mem := s.mem.set s.weak_prev (Field s.mem cur 0) }
                work := st.work - 1 }
    else
      { st with s := { s with weak_prev := cur }, work := st.work - 1 }
  else
    { st with s := { s with caml_gc_subphase := Subphase_final } }

/-- The case Subphase_final (lines 379 to 391). -/
def mark_final (env : Env) (st : MarkState) : MarkState :=
  let s := st.s
  let s1 :=
    { s with
      events := Event.fl_init_merge :: s.events
      caml_fl_merge := env.Fl_head
      caml_gc_phase := Phase_sweep
      chunk := s.caml_heap_start
      caml_gc_sweep_hp := s.caml_heap_start
      limit := s.caml_heap_start + Chunk_size s.mem s.caml_heap_start
      caml_fl_wsz_at_phase_change := s.caml_fl_cur_wsz }
  let s2 := if env.major_gc_hook then
              { s1 with events := Event.major_gc_hook :: s1.events }
            else s1
  { st with s := s2, work := 0 }

/-- The switch on caml_gc_subphase (lines 290 to 393). -/
def mark_subphase (env : Env) (st : MarkState) : MarkState :=
  if st.s.caml_gc_subphase = Subphase_roots then mark_roots env st
  else if st.s.caml_gc_subphase = Subphase_main then
    { st with s := { st.s with caml_gc_subphase := Subphase_weak1
                               weak_prev := env.caml_weak_list_head } }
  else if st.s.caml_gc_subphase = Subphase_weak1 then mark_weak1 env st
  else if st.s.caml_gc_subphase = Subphase_weak2 then mark_weak2 st
  else if st.s.caml_gc_subphase = Subphase_final then mark_final env st
  else st

/-- The body of the while loop of mark_slice (lines 182 to 394). -/
def mark_step (env : Env) (st0 : MarkState) : MarkState :=
  let st := mark_pop st0
  if st.v ≠ 0 then mark_value env st
  else if st.s.markhp ≠ 0 then mark_heap_scan st
  else if !st.s.heap_is_pure then
    { st with s := { st.s with heap_is_pure := true
                               chunk := st.s.caml_heap_start
                               markhp := st.s.caml_heap_start
                               limit := st.s.caml_heap_start
                                        + Chunk_size st.s.mem st.s.caml_heap_start } }
  else mark_subphase env st

/-- The while loop of mark_slice, for at most the given number of
iterations. -/
def mark_loop (env : Env) : Nat → MarkState → MarkState
  | 0, st => st
  | fuel + 1, st => if st.work > 0 then mark_loop env fuel (mark_step env st) else st

/-- The local variables of mark_slice on entry (lines 178 to 180). -/
def mark_enter (s : State) (work : Int) : MarkState :=
  { s := s, work := work, v := s.current_value, start := s.current_index,
    slice_fields := 0 }

/-- The statements after the loop of mark_slice (lines 396 to 398). -/
def mark_leave (st : MarkState) : State :=
  { st.s with current_value := st.v, current_index := st.start }

/-- The function mark_slice (major_gc.c, lines 162 to 401), the loop being run
for at most fuel iterations. -/
def mark_slice (env : Env) (fuel : Nat) (s : State) (work : Int) : State :=
  mark_leave (mark_loop env fuel (mark_enter s work))

/-! ## sweep_slice -/

/-- The local work of sweep_slice together with the globals. -/
structure SweepState where
  s : State
  work : Int

/-- The case Caml_white of sweep_slice (lines 416 to 422) for the block whose
header is at hp. -/
def sweep_white (env : Env) (s : State) (hp hd : Nat) : State :=
  let s1 :=
    if Tag_hd hd = Custom_tag then
      let final_fun := env.custom_finalize s.mem (Val_hp hp)
      if final_fun ≠ 0 then
        { s with mem := env.call_finalizer final_fun (Val_hp hp) s.mem
                 events := Event.finalize (Val_hp hp) :: s.events }
      else s
    else s
  let r := env.fl_merge_block s1 (Val_hp hp)
  { s1 with
    mem := r.mem
    caml_fl_merge := r.caml_fl_merge
    caml_fl_cur_wsz := r.caml_fl_cur_wsz
    caml_gc_sweep_hp := r.next
    events := Event.fl_merge_block (Val_hp hp) :: s1.events }

/-- The body of the while loop of sweep_slice (lines 410 to 444). -/
def sweep_step (env : Env) (st : SweepState) : SweepState :=
  let s := st.s
  if s.caml_gc_sweep_hp < s.limit then
    let hp := s.caml_gc_sweep_hp
    let hd := Hd_hp s.mem hp
    let work := st.work - Whsize_hd hd
    let s1 := { s with caml_gc_sweep_hp := s.caml_gc_sweep_hp + Bhsize_hd hd }
    if Color_hd hd = Caml_white then
      { s := sweep_white env s1 hp hd, work := work }
    else if Color_hd hd = Caml_blue then
      { s := { s1 with caml_fl_merge := Val_hp hp }, work := work }
    else
      { s := { s1 with mem := s1.mem.set hp (Whitehd_hd hd) }, work := work }
  else
    let chunk := Chunk_next s.mem s.chunk
    if chunk = 0 then
      { s := { s with chunk := chunk
                      caml_stat_major_collections := s.caml_stat_major_collections + 1
                      caml_gc_phase := Phase_idle }
        work := 0 }
    else
      { st with s := { s with chunk := chunk, caml_gc_sweep_hp := chunk,
                              limit := chunk + Chunk_size s.mem chunk } }

/-- The while loop of sweep_slice, for at most the given number of
iterations. -/
def sweep_loop (env : Env) : Nat → SweepState → SweepState
  | 0, st => st
  | fuel + 1, st => if st.work > 0 then sweep_loop env fuel (sweep_step env st) else st

/-- The function sweep_slice (major_gc.c, lines 403 to 446), the loop being run
for at most fuel iterations. -/
def sweep_slice (env : Env) (fuel : Nat) (s : State) (work : Int) : State :=
  (sweep_loop env fuel { s := s, work := work }).s

/-! ## The pacing scheduler: caml_major_collection_slice -/

/-- Conversion of a double to an integer type: the fractional part is
discarded. -/
def double_to_intnat (x : ℚ) : Int := if 0 ≤ x then ⌊x⌋ else ⌈x⌉

/-- The value of p after lines 539 to 549: the proportion ordered by the
allocation since the last slice, at most 0.3. -/
def slice_raw_p (s : State) : ℚ :=
  let p : ℚ := (s.caml_allocated_words : ℚ) * 3 * ((100 + s.caml_percent_free : Nat) : ℚ)
    / (s.caml_stat_heap_wsz : ℚ) / (s.caml_percent_free : ℚ) / 2
  let dp : ℚ :=
    if s.caml_dependent_size > 0 then
      (s.caml_dependent_allocated : ℚ) * ((100 + s.caml_percent_free : Nat) : ℚ)
        / (s.caml_dependent_size : ℚ) / (s.caml_percent_free : ℚ)
    else 0
  let p := if p < dp then dp else p
  let p := if p < s.caml_extra_heap_resources then s.caml_extra_heap_resources else p
  if p > 3 / 10 then 3 / 10 else p

/-- The loops of lines 564 to 566 and 664: x is added to each of the buckets 0
to window - 1. -/
def ring_add (ring : Nat → ℚ) (window : Nat) (x : ℚ) : Nat → ℚ :=
  fun i => if i < window then ring i + x else ring i

/-- The assignment caml_major_ring[i] = x. -/
def ring_set (ring : Nat → ℚ) (i : Nat) (x : ℚ) : Nat → ℚ :=
  fun j => if j = i then x else ring j

/-- Lines 564 to 574: p is spread over the window and the clock advances the
ring index. -/
def slice_distribute (s : State) : State :=
  let s1 := { s with
    caml_major_ring :=
      ring_add s.caml_major_ring s.caml_major_window
        (slice_raw_p s / (s.caml_major_window : ℚ)) }
  if s1.caml_gc_clock ≥ 1 then
    let index := s1.caml_major_ring_index + 1
    { s1 with
      caml_gc_clock := s1.caml_gc_clock - 1
      caml_major_ring_index := if index ≥ s1.caml_major_window then 0 else index }
  else s1

/-- The value of filt_p set by lines 575 to 600, in the state after line
574. -/
def slice_filt_p (s : State) (howmuch : Int) : ℚ :=
  if howmuch = -1 then
    s.caml_major_ring s.caml_major_ring_index
      - min s.caml_major_work_credit (s.caml_major_ring s.caml_major_ring_index)
  else if howmuch = 0 then
    let i := s.caml_major_ring_index + 1
    s.caml_major_ring (if i ≥ s.caml_major_window then 0 else i)
  else
    (howmuch : ℚ) * 3 * ((100 + s.caml_percent_free : Nat) : ℚ)
      / (s.caml_stat_heap_wsz : ℚ) / (s.caml_percent_free : ℚ) / 2

/-- Lines 575 to 600: the work credit and the current bucket are updated. -/
def slice_credit (s : State) (howmuch : Int) : State :=
  if howmuch = -1 then
    let spend := min s.caml_major_work_credit (s.caml_major_ring s.caml_major_ring_index)
    { s with
      caml_major_work_credit := s.caml_major_work_credit - spend
      caml_major_ring := ring_set s.caml_major_ring s.caml_major_ring_index 0 }
  else
    { s with caml_major_work_credit := s.caml_major_work_credit + slice_filt_p s howmuch }

/-- The value of computed_work (lines 620 to 626). -/
def computed_work (s : State) (p : ℚ) : Int :=
  if s.caml_gc_phase = Phase_mark then
    double_to_intnat
      (p * (((s.caml_stat_heap_wsz * 250 / (100 + s.caml_percent_free)
              + s.caml_incremental_roots_count) % 2 ^ 64 : Nat) : ℚ))
  else
    double_to_intnat (p * (s.caml_stat_heap_wsz : ℚ) * 5 / 3)

/-- Lines 608 to 649: the state after the collection work of the slice, and
the value of p at the label finished. -/
def slice_work (env : Env) (fuel : Nat) (s : State) (filt_p : ℚ) : State × ℚ :=
  if s.caml_gc_phase = Phase_idle then (start_cycle s, 0)
  else if filt_p < 0 then (s, 0)
  else
    let s1 :=
      if s.caml_gc_phase = Phase_mark then mark_slice env fuel s (computed_work s filt_p)
      else sweep_slice env fuel s (computed_work s filt_p)
    let s2 :=
      if s1.caml_gc_phase = Phase_idle then
        { s1 with events := Event.compact_heap_maybe :: s1.events }
      else s1
    (s2, filt_p)

/-- Lines 651 to 670: the work that was not done is taken back from the credit
or spread over the buckets, and the allocation counters are reset. -/
def slice_finish (s : State) (filt_p p : ℚ) : State :=
  let p1 := filt_p - p
  let spend := min p1 s.caml_major_work_credit
  let credit := s.caml_major_work_credit - spend
  let ring :=
    if p1 > spend then
      ring_add s.caml_major_ring s.caml_major_window
        ((p1 - spend) / (s.caml_major_window : ℚ))
    else s.caml_major_ring
  { s with
    caml_major_work_credit := credit
    caml_major_ring := ring
    caml_stat_major_words := s.caml_stat_major_words + (s.caml_allocated_words : ℚ)
    caml_allocated_words := 0
    caml_dependent_allocated := 0
    caml_extra_heap_resources := 0 }

/-- The function caml_major_collection_slice (major_gc.c, lines 474 to 672),
the loops of mark_slice and sweep_slice being run for at most fuel iterations.
The hooks caml_major_slice_begin_hook and caml_major_slice_end_hook are not
set. -/
def caml_major_collection_slice (env : Env) (fuel : Nat) (s : State) (howmuch : Int) :
    State :=
  let s1 := slice_distribute s
  let filt_p := slice_filt_p s1 howmuch
  let s2 := slice_credit s1 howmuch
  let r := slice_work env fuel s2 filt_p
  slice_finish r.1 filt_p r.2

/-- The sum caml_major_ring[0] + ... + caml_major_ring[window - 1]. -/
def ring_sum (ring : Nat → ℚ) (window : Nat) : ℚ :=
  (Finset.range window).sum ring

/-- The work outstanding in a state: the buckets of the window and the work
credit. -/
def outstanding (s : State) : ℚ :=
  ring_sum s.caml_major_ring s.caml_major_window + s.caml_major_work_credit

/-! ## caml_set_major_window -/

/-- Conversion of a double to uintnat. -/
def double_to_uintnat (x : ℚ) : Nat := (double_to_intnat x).toNat % 2 ^ 64

/-- The first loop of caml_set_major_window (lines 759 to 761): the value of
the uintnat total after n additions of a double. -/
def window_total (ring : Nat → ℚ) : Nat → Nat
  | 0 => 0
  | n + 1 => double_to_uintnat ((window_total ring n : ℚ) + ring n)

/-- The function caml_set_major_window (major_gc.c, lines 753 to 767). -/
def caml_set_major_window (s : State) (w : Nat) : State :=
  if w = s.caml_major_window then s
  else
    let total := window_total s.caml_major_ring s.caml_major_window
    { s with
      caml_major_ring := fun i => if i < w then ((total / w : Nat) : ℚ)
                                  else s.caml_major_ring i
      caml_major_window := w }

/-! ## A small heap used to instantiate the theorems

One chunk of 96 bytes at address 1000 that holds four blocks: a white record A
of two fields at 1008 whose first field points to B, a white string B of two
words at 1032, a blue free block of one word at 1056 and a black record D of
three fields at 1072. -/

/-- Memory given by a list of address and word pairs; 0 elsewhere. -/
def mem_of (l : List (Nat × Nat)) : Mem := fun a => (l.lookup a).getD 0

/-- The memory of the example heap. -/
def ex_mem : Mem :=
  mem_of [(984, 96), (992, 0),
          (1000, 2048), (1008, 1032), (1016, 3),
          (1024, 2300), (1032, 0), (1040, 0),
          (1048, 1536), (1056, 0),
          (1064, 3840), (1072, 1), (1080, 1), (1088, 1)]

/-- Collaborators for the example heap: the root slice darkens the block A,
the free-list merge paints the block blue. -/
def ex_env : Env :=
  { Is_in_heap := fun v => 1000 ≤ v && v < 1096
    Is_young := fun _ => false
    Is_in_value_area := fun v => 1000 ≤ v && v < 1096
    caml_weak_none := 72
    caml_weak_list_head := 64
    Fl_head := 80
    Heap_chunk_min := 61440
    realloc_ok := fun _ _ => true
    roots_slice := fun _ _ => ([1008], 1)
    final_update := fun _ => []
    fl_merge_block := fun s v =>
      { mem := set_Hd_val s.mem v (Whitehd_hd (Hd_val s.mem v) + Caml_blue)
        caml_fl_merge := v
        caml_fl_cur_wsz := s.caml_fl_cur_wsz + Whsize_hd (Hd_val s.mem v)
        next := s.caml_gc_sweep_hp }
    custom_finalize := fun _ _ => 0
    call_finalizer := fun _ _ m => m
    major_gc_hook := false }

/-- The example heap with the collector idle. -/
def ex_idle : State :=
  { mem := ex_mem
    caml_percent_free := 100
    caml_major_heap_increment := 15
    caml_heap_start := 1000
    caml_gc_sweep_hp := 1000
    caml_gc_phase := Phase_idle
    gray_vals := []
    gray_vals_size := 2048
    heap_is_pure := true
    caml_allocated_words := 0
    caml_dependent_size := 0
    caml_dependent_allocated := 0
    caml_extra_heap_resources := 0
    caml_fl_wsz_at_phase_change := 0
    caml_fl_merge := 80
    caml_fl_cur_wsz := 0
    markhp := 0
    chunk := 1000
    limit := 1096
    caml_gc_subphase := Subphase_final
    weak_prev := 64
    caml_major_window := 1
    caml_major_ring := fun _ => 0
    caml_major_ring_index := 0
    caml_major_work_credit := 0
    caml_gc_clock := 0
    current_value := 0
    current_index := 0
    caml_stat_heap_wsz := 1024
    caml_stat_major_collections := 0
    caml_stat_major_words := 0
    caml_incremental_roots_count := 0
    ref_table := []
    weak_ref_table := []
    events := [] }

/-- The example heap at the start of a marking phase. -/
def ex_mark : State := start_cycle ex_idle

/-- The example heap in the sweep phase, the sweep pointer at hp. -/
def ex_sweep (hp : Nat) : State :=
  { ex_idle with caml_gc_phase := Phase_sweep, caml_gc_sweep_hp := hp }

/-! ## The collection cycle and the runs of the slices -/

/-- The positions of the collection cycle, in cyclic order. -/
inductive CyclePos where
  | idle
  | roots
  | main
  | weak1
  | weak2
  | final
  | sweep
  deriving DecidableEq, Repr

/-- The immediate successor in the cycle Idle, Mark/Roots, Mark/Main,
Mark/Weak1, Mark/Weak2, Mark/Final, Sweep, Idle. -/
def CyclePos.next : CyclePos → CyclePos
  | .idle => .roots
  | .roots => .main
  | .main => .weak1
  | .weak1 => .weak2
  | .weak2 => .final
  | .final => .sweep
  | .sweep => .idle

/-- The position that the pair (caml_gc_phase, caml_gc_subphase) stands for;
the subphase counts in the mark phase only. -/
def cycle_pos (s : State) : Option CyclePos :=
  if s.caml_gc_phase = Phase_idle then some .idle
  else if s.caml_gc_phase = Phase_sweep then some .sweep
  else if s.caml_gc_phase = Phase_mark then
    if s.caml_gc_subphase = Subphase_roots then some .roots
    else if s.caml_gc_subphase = Subphase_main then some .main
    else if s.caml_gc_subphase = Subphase_weak1 then some .weak1
    else if s.caml_gc_subphase = Subphase_weak2 then some .weak2
    else if s.caml_gc_subphase = Subphase_final then some .final
    else none
  else none

/-- From a to b the position is unchanged or moves to its immediate
successor. -/
def phase_step (a b : State) : Prop :=
  cycle_pos b = cycle_pos a ∨ cycle_pos b = (cycle_pos a).map CyclePos.next

/-- The states at the head of the loop of mark_slice, in order, for at most
the given number of iterations. -/
def mark_trace (env : Env) : Nat → MarkState → List State
  | 0, st => [st.s]
  | fuel + 1, st =>
    st.s :: (if st.work > 0 then mark_trace env fuel (mark_step env st) else [])

/-- The states at the head of the loop of sweep_slice, in order, for at most
the given number of iterations. -/
def sweep_trace (env : Env) : Nat → SweepState → List State
  | 0, st => [st.s]
  | fuel + 1, st =>
    st.s :: (if st.work > 0 then sweep_trace env fuel (sweep_step env st) else [])

/-- The state s2 differs from s1 at most in memory, the gray stack and its
capacity, heap_is_pure and the two reference tables. -/
def HeapFrame (s1 s2 : State) : Prop :=
  s2 = { s1 with
         mem := s2.mem
         gray_vals := s2.gray_vals
         gray_vals_size := s2.gray_vals_size
         heap_is_pure := s2.heap_is_pure
         ref_table := s2.ref_table
         weak_ref_table := s2.weak_ref_table }

/-- The state s2 agrees with s1 on the variables of the pacing scheduler and
on the statistics that mark_slice and sweep_slice do not own. -/
def PacingFrame (s1 s2 : State) : Prop :=
  s2.caml_major_ring = s1.caml_major_ring
  ∧ s2.caml_major_window = s1.caml_major_window
  ∧ s2.caml_major_ring_index = s1.caml_major_ring_index
  ∧ s2.caml_major_work_credit = s1.caml_major_work_credit
  ∧ s2.caml_gc_clock = s1.caml_gc_clock
  ∧ s2.caml_percent_free = s1.caml_percent_free
  ∧ s2.caml_stat_heap_wsz = s1.caml_stat_heap_wsz
  ∧ s2.caml_allocated_words = s1.caml_allocated_words
  ∧ s2.caml_stat_major_words = s1.caml_stat_major_words

/-! ## Quantities of the pacing scheduler -/

/-- The value of p at the label finished of caml_major_collection_slice: the
proportion of a cycle whose work the call performs.  It is filt_p when
mark_slice or sweep_slice is called, and 0 when the phase is Phase_idle on
entry or filt_p is negative. -/
def slice_done (s : State) (howmuch : Int) : ℚ :=
  if s.caml_gc_phase = Phase_idle then 0
  else if slice_filt_p (slice_distribute s) howmuch < 0 then 0
  else slice_filt_p (slice_distribute s) howmuch

/-- The work owed in a state: the buckets of the window less the work credit,
which stands for work done in advance. -/
def owed (s : State) : ℚ :=
  ring_sum s.caml_major_ring s.caml_major_window - s.caml_major_work_credit

/-- The example heap in the mark phase with 1/256 of a cycle in the only
bucket of the ring. -/
def ex_compute : State := { ex_mark with caml_major_ring := fun _ => 1 / 256 }

/-- The example heap in the mark phase with a window of one bucket that holds
half a cycle. -/
def ex_window : State := { ex_mark with caml_major_ring := fun _ => 1 / 2 }

/-! ## The heap at the start of a cycle and the invariant of marking -/

/-- The headers met by a walk from hp up to limit that adds the size of each
block to the pointer, as the heap-order scans do, are those of the list. -/
def tiles (m : Mem) : Nat → List Nat → Nat → Prop
  | hp, [], limit => hp = limit
  | hp, h :: hs, limit =>
    h = hp ∧ hp ≠ limit ∧ tiles m (hp + Bhsize_hd (Hd_hp m hp)) hs limit

/-- The chunks met by following Chunk_next from c up to NULL are those of the
list, each tiled by its blocks. -/
def chain (m : Mem) : Nat → List (Nat × List Nat) → Prop
  | c, [] => c = 0
  | c, p :: rest =>
    c = p.1 ∧ c ≠ 0 ∧ tiles m c p.2 (c + Chunk_size m c) ∧ chain m (Chunk_next m c) rest

/-- The block that a pointer stands for: the code of caml_darken and of
mark_slice that steps from an infix pointer back to its closure block (lines
107 to 111, 229 to 232). -/
def resolve (m : Mem) (x : Nat) : Nat :=
  if Tag_val m x = Infix_tag then x - Infix_offset_val m x else x

/-- A description of the heap when a cycle starts: the memory, the chunks with
the header addresses of their blocks in heap order, the header addresses of
all blocks and those of the weak arrays. -/
structure HeapCtx where
  env : Env
  m0 : Mem
  heap_start : Nat
  chunks : List (Nat × List Nat)
  H : List Nat
  Wl : List Nat

/-- The size of the block with header at h when the cycle starts. -/
def HeapCtx.size0 (c : HeapCtx) (h : Nat) : Nat := Wosize_hd (c.m0 h)

/-- The tag of the block with header at h when the cycle starts. -/
def HeapCtx.tag0 (c : HeapCtx) (h : Nat) : Nat := Tag_hd (c.m0 h)

/-- The block with header at h is white when the cycle starts. -/
def HeapCtx.white0 (c : HeapCtx) (h : Nat) : Prop := Color_hd (c.m0 h) = Caml_white

/-- The address a is a field of a block of the heap. -/
def HeapCtx.IsFld (c : HeapCtx) (a : Nat) : Prop :=
  ∃ h ∈ c.H, ∃ i, i < c.size0 h ∧ a = h + 8 + 8 * i

/-- The block that the pointer x stands for, in the memory at the start of the
cycle. -/
def HeapCtx.target0 (c : HeapCtx) (x : Nat) : Nat := resolve c.m0 x

/-- The value x is a block of the heap that is not free. -/
def HeapCtx.BlkV (c : HeapCtx) (x : Nat) : Prop := ∃ h ∈ c.H, c.white0 h ∧ x = h + 8

/-- The value x, if it is a pointer into the heap, stands for a block of the
heap that is not free. -/
def HeapCtx.VPtr (c : HeapCtx) (x : Nat) : Prop :=
  Is_block x = true → c.env.Is_in_heap x = true → c.BlkV (c.target0 x)

/-- The list of weak arrays in the memory m: the variable caml_weak_list_head
and the link field of each weak array hold NULL or a weak array. -/
def HeapCtx.LinkOK (c : HeapCtx) (m : Mem) : Prop :=
  (m c.env.caml_weak_list_head = 0 ∨ ∃ h ∈ c.Wl, m c.env.caml_weak_list_head = h + 8)
  ∧ ∀ h ∈ c.Wl, m (h + 8) = 0 ∨ ∃ h' ∈ c.Wl, m (h + 8) = h' + 8

/-- The fields of the scannable blocks that are not free hold no stray
pointers into the heap. -/
def HeapCtx.PV (c : HeapCtx) (m : Mem) : Prop :=
  ∀ h ∈ c.H, c.white0 h → c.tag0 h < No_scan_tag →
    ∀ i, i < c.size0 h → c.VPtr (m (h + 8 + 8 * i))

/-- Well-formedness of the heap and of the collaborators when a cycle starts. -/
structure HeapCtx.WF (c : HeapCtx) : Prop where
  /-- The chunks are linked from caml_heap_start and tiled by the blocks. -/
  chain : chain c.m0 c.heap_start c.chunks
  chunks_sub : ∀ p ∈ c.chunks, ∀ h ∈ p.2, h ∈ c.H
  /-- Every block lies in a chunk. -/
  all_blocks : ∀ h ∈ c.H, h ∈ c.chunks.flatMap (fun p => p.2)
  /-- After a sweep every block is white or, on the free list, blue. -/
  colors : ∀ h ∈ c.H, Color_hd (c.m0 h) = Caml_white ∨ Color_hd (c.m0 h) = Caml_blue
  even : ∀ h ∈ c.H, h % 2 = 0
  /-- No header is a field of a block. -/
  hdr_fld : ∀ h ∈ c.H, ∀ h' ∈ c.H, ∀ i, i < c.size0 h' → h ≠ h' + 8 + 8 * i
  /-- Blocks do not share fields. -/
  fld_inj : ∀ h ∈ c.H, ∀ h' ∈ c.H, ∀ i j, i < c.size0 h → j < c.size0 h' →
    h + 8 + 8 * i = h' + 8 + 8 * j → h = h'
  /-- The variable caml_weak_list_head lies outside the blocks. -/
  head_sep : ∀ h ∈ c.H, c.env.caml_weak_list_head ≠ h
    ∧ ∀ i, i < c.size0 h → c.env.caml_weak_list_head ≠ h + 8 + 8 * i
  /-- The chunk heads lie outside the blocks. -/
  chunk_sep : ∀ p ∈ c.chunks, ∀ a, a = p.1 - 16 ∨ a = p.1 - 8 →
    a ∉ c.H ∧ ¬ c.IsFld a ∧ a ≠ c.env.caml_weak_list_head
  /-- A forwarding block has its field. -/
  fwd_size : ∀ h ∈ c.H, c.tag0 h = Forward_tag → 1 ≤ c.size0 h
  pv : c.PV c.m0
  /-- Weak arrays are blocks without scannable fields that have a link field. -/
  weak_sub : ∀ h ∈ c.Wl, h ∈ c.H ∧ No_scan_tag ≤ c.tag0 h ∧ 1 ≤ c.size0 h
  weak_links : c.LinkOK c.m0
  /-- The roots are values or blocks of the heap. -/
  roots_ok : ∀ s w, ∀ x ∈ (c.env.roots_slice s w).1, c.VPtr x
  /-- The values with a finalisation function are values or blocks of the heap. -/
  final_ok : ∀ s, ∀ x ∈ c.env.final_update s, c.VPtr x

/-- The memory m differs from the memory at the start of the cycle only in the
colours of blocks that are not free, in fields of blocks that held a pointer
or an even value, and in the variable caml_weak_list_head. -/
def HeapCtx.Stable (c : HeapCtx) (m : Mem) : Prop :=
  (∀ h ∈ c.H, Whitehd_hd (m h) = Whitehd_hd (c.m0 h)
      ∧ (c.white0 h → Color_hd (m h) ≠ Caml_blue)
      ∧ (¬ c.white0 h → m h = c.m0 h))
  ∧ (∀ a, a ∉ c.H → c.m0 a % 2 = 1 → m a = c.m0 a)
  ∧ (∀ a, a ∉ c.H → ¬ c.IsFld a → a ≠ c.env.caml_weak_list_head → m a = c.m0 a)

/-- The pointer x, if it points into the heap, stands for a block that is not
white in the memory m. -/
def HeapCtx.VDark (c : HeapCtx) (m : Mem) (x : Nat) : Prop :=
  Is_block x = true → c.env.Is_in_heap x = true → Color_hd (m (c.target0 x - 8)) ≠ Caml_white

/-- The value x is the field of a gray forwarding block that has not been
scanned: v is the block being scanned and idx its next field. -/
def HeapCtx.Exc (c : HeapCtx) (m : Mem) (v idx x : Nat) : Prop :=
  ∃ f ∈ c.H, Color_hd (m f) = Caml_gray ∧ c.tag0 f = Forward_tag ∧ m (f + 8) = x
    ∧ (f + 8 = v → idx = 0)

/-- The value x, found in a scanned field, has been taken care of. -/
def HeapCtx.OKv (c : HeapCtx) (m : Mem) (v idx x : Nat) : Prop :=
  c.VDark m x ∨ c.Exc m v idx x

/-- The invariant of marking on the heap: s is the state, v the block being
scanned or 0, idx its next field, todo the headers that the heap-order scan has
still to visit; P holds of the values whose block is about to be darkened, in
the middle of the scan of a field. -/
structure HeapCtx.HInv (c : HeapCtx) (P : Nat → Prop) (s : State) (v idx : Nat)
    (todo : List Nat) : Prop where
  stable : c.Stable s.mem
  pv : c.PV s.mem
  links : c.LinkOK s.mem
  stack_blk : ∀ x ∈ s.gray_vals, c.BlkV x
  stack_len : s.gray_vals.length < s.gray_vals_size
  cur_blk : v ≠ 0 → ∃ h ∈ c.H, c.white0 h ∧ v = h + 8 ∧ Color_hd (s.mem h) = Caml_gray
    ∧ idx ≤ c.size0 h
  cur_idx : v = 0 → idx = 0
  /-- Every gray block is on the stack, is being scanned, or is still to be
  met by the heap-order scan. -/
  gray : s.heap_is_pure = true → ∀ h ∈ c.H, Color_hd (s.mem h) = Caml_gray →
    h + 8 ∈ s.gray_vals ∨ h + 8 = v ∨ h ∈ todo
  /-- The fields of the black blocks have been taken care of. -/
  black : ∀ h ∈ c.H, Color_hd (s.mem h) = Caml_black → c.tag0 h < No_scan_tag →
    ∀ i, i < c.size0 h →
      c.OKv s.mem v idx (s.mem (h + 8 + 8 * i)) ∨ P (s.mem (h + 8 + 8 * i))
  /-- And so have the scanned fields of the block being scanned. -/
  scanned_ok : ∀ h ∈ c.H, h + 8 = v → c.tag0 h < No_scan_tag →
    ∀ i, i < idx → i < c.size0 h →
      c.OKv s.mem v idx (s.mem (h + 8 + 8 * i)) ∨ P (s.mem (h + 8 + 8 * i))
  /-- The blocks on the gray stack are gray. -/
  stack_gray : ∀ h ∈ c.H, h + 8 ∈ s.gray_vals → Color_hd (s.mem h) = Caml_gray
  /-- No block is twice on the gray stack, and the block being scanned is
  not on it. -/
  stack_nodup : (v :: s.gray_vals).Nodup

/-- Nothing is about to be darkened. -/
def no_pending : Nat → Prop := fun _ => False

/-- The position of the heap-order scan of mark_slice: nothing is left when
markhp is NULL; otherwise the current chunk is followed by the chunks of rest
and the walk from markhp to limit meets the headers hps. -/
def HeapCtx.ScanPos (c : HeapCtx) (s : State) (todo : List Nat) : Prop :=
  (s.markhp = 0 ∧ todo = [])
  ∨ (s.markhp ≠ 0 ∧ ∃ hps rest,
      todo = hps ++ rest.flatMap (fun p => p.2)
      ∧ (∀ h ∈ todo, h ∈ c.H)
      ∧ (∀ p ∈ rest, p ∈ c.chunks)
      ∧ (s.chunk ∈ c.chunks.map (fun p => p.1))
      ∧ s.limit = s.chunk + Chunk_size c.m0 s.chunk
      ∧ tiles c.m0 s.markhp hps s.limit
      ∧ chain c.m0 (Chunk_next c.m0 s.chunk) rest)

/-- The property at the start of the sweep phase: no field of a black scannable
block is a pointer into the heap that stands for a white block. -/
def no_black_to_white (env : Env) (H : List Nat) (m : Mem) : Prop :=
  ∀ h ∈ H, Color_hd (Hd_hp m h) = Caml_black → Tag_hd (Hd_hp m h) < No_scan_tag →
    ∀ i, i < Wosize_hd (Hd_hp m h) →
      Is_block (Field m (Val_hp h) i) = true →
      env.Is_in_heap (Field m (Val_hp h) i) = true →
      Color_hd (Hd_val m (resolve m (Field m (Val_hp h) i))) ≠ Caml_white

/-- No block of the heap is gray. -/
def no_gray (H : List Nat) (m : Mem) : Prop :=
  ∀ h ∈ H, Color_hd (Hd_hp m h) ≠ Caml_gray

/-- The pointer weak_prev of the weak phases points to the variable
caml_weak_list_head or to the link field of a weak array. -/
def HeapCtx.WP (c : HeapCtx) (a : Nat) : Prop :=
  a = c.env.caml_weak_list_head ∨ ∃ h ∈ c.Wl, a = h + 8

/-- The invariant of the loop of mark_slice: s holds the globals, v and start
the locals of the same names. -/
structure HeapCtx.MInv (c : HeapCtx) (s : State) (v start : Nat) : Prop where
  phase : s.caml_gc_phase = Phase_mark
  hstart : s.caml_heap_start = c.heap_start
  wp : s.caml_gc_subphase = Subphase_weak1 ∨ s.caml_gc_subphase = Subphase_weak2 →
    c.WP s.weak_prev
  /-- A block without scannable fields is blackened with start equal to 0. -/
  noscan : ∀ h, v = h + 8 → ¬ c.tag0 h < No_scan_tag → start = 0
  heap : ∃ todo, c.HInv no_pending s v start todo ∧ c.ScanPos s todo

/-- The mark phase is over: the phase is Phase_sweep, no block is gray and no
black block points to a white one. -/
def HeapCtx.Done (c : HeapCtx) (s : State) : Prop :=
  s.caml_gc_phase = Phase_sweep ∧ no_gray c.H s.mem ∧ no_black_to_white c.env c.H s.mem

/-- What holds between two iterations of the loop of mark_slice. -/
def HeapCtx.Good (c : HeapCtx) (st : MarkState) : Prop :=
  c.MInv st.s st.v st.start ∨ (st.work ≤ 0 ∧ c.Done st.s)

/-- The calls of mark_slice that drive the mark phase: each element gives the
iteration bound and the budget of one call, and calls are made while the
phase is Phase_mark, as in caml_major_collection_slice and
caml_finish_major_cycle. -/
def drive (env : Env) : List (Nat × Int) → State → State
  | [], s => s
  | p :: rest, s =>
    if s.caml_gc_phase = Phase_mark then drive env rest (mark_slice env p.1 s p.2) else s

/-- The memory of the example heap at the end of a sweep: the record A at 1008
points to the string B and to the record D, whose second field points back to
A; all blocks but the free one are white. -/
def ex_white_mem : Mem :=
  mem_of [(984, 96), (992, 0),
          (1000, 2048), (1008, 1032), (1016, 1072),
          (1024, 2300), (1032, 0), (1040, 0),
          (1048, 1536), (1056, 0),
          (1064, 3072), (1072, 1), (1080, 1008), (1088, 1)]

/-- The example heap with the collector idle after a sweep. -/
def ex_white : State := { ex_idle with mem := ex_white_mem }

/-- The description of the example heap. -/
def ex_ctx : HeapCtx :=
  { env := ex_env
    m0 := ex_white_mem
    heap_start := 1000
    chunks := [(1000, [1000, 1024, 1048, 1064])]
    H := [1000, 1024, 1048, 1064]
    Wl := [] }

/-! ## Allocation profiling (asmrun/alloc_profiling.c): the heap walks -/

/-- Modelled from the spec: Decode_profinfo_hd (hd) of caml/mlvalues.h, which
is not among the sources: the allocation-site information held in the
PROFINFO_WIDTH highest bits of a header of 64 bits. -/
def Decode_profinfo_hd (hd : Nat) : Nat := hd / 2 ^ PROFINFO_SHIFT % 2 ^ PROFINFO_WIDTH

/-- Modelled from the spec: Make_header (wosize, tag, color) is
(wosize << 10) + color + tag. -/
def Make_header (wosize tag color : Nat) : Nat := wosize * 1024 + color + tag

/-- Modelled from the spec: Make_header_with_profinfo (wosize, tag, color,
profinfo), the header with the allocation-site information in its highest
bits. -/
def Make_header_with_profinfo (wosize tag color profinfo : Nat) : Nat :=
  Make_header wosize tag color + profinfo * 2 ^ PROFINFO_SHIFT

/-- The constant BUILTIN_RETURN_ADDRESS_FAILURE (alloc_profiling.c, line 162). -/
def BUILTIN_RETURN_ADDRESS_FAILURE : Nat := 1 * 2 ^ 4

/-- The constant CONSTANT_CLOSURE (line 163). -/
def CONSTANT_CLOSURE : Nat := 2 * 2 ^ 4

/-- The constant STRUCTURED_CONSTANT (line 164). -/
def STRUCTURED_CONSTANT : Nat := 3 * 2 ^ 4

/-- The constant COMPILATION_UNIT (line 165). -/
def COMPILATION_UNIT : Nat := 4 * 2 ^ 4

/-- Addition of uint64_t. -/
def add64 (a b : Nat) : Nat := (a + b) % 2 ^ 64

/-- The local counters of caml_dump_allocators_of_major_heap_blocks (lines 233
to 239) and its parameter sample_strings.  The text written to the file is
left out. -/
structure DumpCounters where
  blue : Nat
  accounted_for : Nat
  builtin_return_address_failures : Nat
  constant_closures : Nat
  structured_constants : Nat
  compilation_units : Nat
  unaccounted_for : Nat
  unaccounted_for_by_tag : Nat → Nat
  sample_strings : Int

/-- The counters after lines 241 to 250. -/
def dump_init (sample_strings : Int) : DumpCounters :=
  { blue := 0, accounted_for := 0, builtin_return_address_failures := 0,
    constant_closures := 0, structured_constants := 0, compilation_units := 0,
    unaccounted_for := 0, unaccounted_for_by_tag := fun _ => 0,
    sample_strings := sample_strings }

/-- The switch of lines 269 to 314 for a block with header hd. -/
def dump_block (hd : Nat) (c : DumpCounters) : DumpCounters :=
  if Color_hd hd = Caml_blue then
    { c with blue := add64 c.blue (Whsize_hd hd) }
  else
    let approx_instr_pointer := Decode_profinfo_hd hd
    if approx_instr_pointer = BUILTIN_RETURN_ADDRESS_FAILURE then
      { c with builtin_return_address_failures :=
                 add64 c.builtin_return_address_failures (Whsize_hd hd) }
    else if approx_instr_pointer = CONSTANT_CLOSURE then
      { c with constant_closures := add64 c.constant_closures (Whsize_hd hd) }
    else if approx_instr_pointer = STRUCTURED_CONSTANT then
      { c with structured_constants := add64 c.structured_constants (Whsize_hd hd) }
    else if approx_instr_pointer = COMPILATION_UNIT then
      { c with compilation_units := add64 c.compilation_units (Whsize_hd hd) }
    else if approx_instr_pointer ≠ 0 then
      { c with accounted_for := add64 c.accounted_for (Whsize_hd hd) }
    else
      { c with
        unaccounted_for := add64 c.unaccounted_for (Whsize_hd hd)
        unaccounted_for_by_tag := fun t =>
          if t = Tag_hd hd then add64 (c.unaccounted_for_by_tag t) 1
          else c.unaccounted_for_by_tag t
        sample_strings := if c.sample_strings > 0 then c.sample_strings - 1
                          else c.sample_strings }

/-- The inner loop of lines 267 to 317, for at most fuel iterations. -/
def dump_blocks (m : Mem) : Nat → Nat → Nat → DumpCounters → DumpCounters
  | 0, _, _, c => c
  | fuel + 1, hp, limit, c =>
    if hp < limit then
      let hd := Hd_hp m hp
      dump_blocks m fuel (hp + Bhsize_hd hd) limit (dump_block hd c)
    else c

/-- The outer loop of lines 260 to 320, for at most fuel iterations, each
running the inner loop for at most fuel_blocks iterations. -/
def dump_chunks (m : Mem) (fuel_blocks : Nat) : Nat → Nat → DumpCounters → DumpCounters
  | 0, _, c => c
  | fuel + 1, chunk, c =>
    if chunk ≠ 0 then
      dump_chunks m fuel_blocks fuel (Chunk_next m chunk)
        (dump_blocks m fuel_blocks chunk (chunk + Chunk_size m chunk) c)
    else c

/-- The function caml_dump_allocators_of_major_heap_blocks (lines 227 to 343)
when the file can be opened: the counters when the loops end. -/
def caml_dump_allocators_of_major_heap_blocks (fuel : Nat) (s : State)
    (sample_strings : Int) : DumpCounters :=
  dump_chunks s.mem fuel fuel s.caml_heap_start (dump_init sample_strings)

/-- The number that line 339 prints as the word size of all blocks. -/
def dump_all_blocks (c : DumpCounters) : Nat :=
  add64 (add64 c.blue c.accounted_for) c.unaccounted_for

/-- The number of words, headers included, of the blocks with headers at
hs. -/
def total_words (m : Mem) (hs : List Nat) : Nat :=
  (hs.map (fun h => Whsize_hd (Hd_hp m h))).sum

/-- The sum of the seven word counters. -/
def dump_counted (c : DumpCounters) : Nat :=
  c.blue + c.accounted_for + c.unaccounted_for + c.builtin_return_address_failures
    + c.constant_closures + c.structured_constants + c.compilation_units

/-- The result of caml_where_was_this_allocated: None, or Some of the boxed
integer. -/
def caml_where_was_this_allocated (m : Mem) (v : Nat) : Option Nat :=
  if !Is_block v then none
  else
    let approx_instr_pointer := Decode_profinfo_hd (Hd_val m v)
    if approx_instr_pointer = 0 then none
    else some approx_instr_pointer

/-- The inner loop of caml_forget_where_values_were_allocated (lines 399 to
404), for at most fuel iterations. -/
def forget_blocks : Nat → Mem → Nat → Nat → Mem
  | 0, m, _, _ => m
  | fuel + 1, m, hp, limit =>
    if hp < limit then
      let hd := Hd_hp m hp
      forget_blocks fuel
        (m.set hp (Make_header_with_profinfo (Wosize_hd hd) (Tag_hd hd) (Color_hd hd) 0))
        (hp + Bhsize_hd hd) limit
    else m

/-- The outer loop of caml_forget_where_values_were_allocated (lines 392 to
407). -/
def forget_chunks (fuel_blocks : Nat) : Nat → Mem → Nat → Mem
  | 0, m, _ => m
  | fuel + 1, m, chunk =>
    if chunk ≠ 0 then
      let m1 := forget_blocks fuel_blocks m chunk (chunk + Chunk_size m chunk)
      forget_chunks fuel_blocks fuel m1 (Chunk_next m1 chunk)
    else m

/-- The function caml_forget_where_values_were_allocated (lines 381 to 410).
The function caml_gc_full_major of another file is the parameter
full_major. -/
def caml_forget_where_values_were_allocated (full_major : State → State) (fuel : Nat)
    (s : State) : State :=
  let s1 := full_major s
  { s1 with mem := forget_chunks fuel fuel s1.mem s1.caml_heap_start }

/-- The header hd with the allocation-site information cleared, as line 401
rebuilds it. -/
def clear_hd (hd : Nat) : Nat :=
  Make_header_with_profinfo (Wosize_hd hd) (Tag_hd hd) (Color_hd hd) 0

/-- The memory m with the headers at hs cleared of their allocation-site
information. -/
def forgotten (m : Mem) (hs : List Nat) : Mem :=
  fun a => if a ∈ hs then clear_hd (m a) else m a

/-- The heap is well formed for a walk: the chunks are linked from start and
tiled exactly by blocks, and the two words before a chunk are not the header
of a block. -/
def HeapLayout (m : Mem) (start : Nat) (chunks : List (Nat × List Nat)) : Prop :=
  chain m start chunks
  ∧ ∀ p ∈ chunks, ∀ q ∈ chunks, p.1 - 16 ∉ q.2 ∧ p.1 - 8 ∉ q.2

/-- The headers of all blocks of the chunks. -/
def all_headers (chunks : List (Nat × List Nat)) : List Nat :=
  chunks.flatMap (fun p => p.2)

/-- A heap of one chunk at 1000 with two blocks of two fields: the first
carries the allocation-site information BUILTIN_RETURN_ADDRESS_FAILURE, the
second 0xABCD. -/
def ex_prof_mem : Mem :=
  mem_of [(984, 48), (992, 0),
          (1000, 2048 + 16 * 2 ^ 38), (1008, 1), (1016, 1),
          (1024, 2048 + 43981 * 2 ^ 38), (1032, 1), (1040, 1)]

/-- The example heap with allocation-site information. -/
def ex_prof : State := { ex_idle with mem := ex_prof_mem }

/-- The collaborators of the example heap when realloc finds no room. -/
def ex_env_noroom : Env := { ex_env with realloc_ok := fun _ _ => false }

/-- The example heap in the mark phase with a full gray stack of two entries;
gray_vals[0] is 1008. -/
def ex_full : State := { ex_mark with gray_vals := [1032, 1008], gray_vals_size := 2 }

/-! ## The lifetime histogram (alloc_profiling.c, lines 514 to 606) -/

/-- The constant MAX_LOG2_OBJECT_SIZE (line 514). -/
def MAX_LOG2_OBJECT_SIZE : Int := 9

/-- The type lifetime_bucket (lines 515 to 520).  The two arrays are indexed
by the C int that the code computes; the indices 0 to MAX_LOG2_OBJECT_SIZE are
those of the C arrays. -/
structure lifetime_bucket where
  num_words_by_log2_object_size : Int → Nat
  num_blocks_by_log2_object_size : Int → Nat
  total_words : Nat
  total_blocks : Nat

/-- A lifetime_bucket as calloc returns it. -/
def lifetime_bucket_zero : lifetime_bucket :=
  { num_words_by_log2_object_size := fun _ => 0
    num_blocks_by_log2_object_size := fun _ => 0
    total_words := 0
    total_blocks := 0 }

/-- The collaborators of the lifetime histogram: the function log of the C
library on doubles, and the three environment variables as atoll reads them,
none when getenv returns NULL. -/
structure ProfEnv where
  log : ℚ → ℚ
  CAML_LIFETIME_MIN_BYTES : Option Int
  CAML_LIFETIME_MAX_BYTES : Option Int
  CAML_LIFETIME_NUM_BUCKETS : Option Int

/-- The static variables of lines 521 to 526; a NULL array is none. -/
structure LifetimeState where
  lifetime_buckets_minor : Option (Nat → lifetime_bucket)
  lifetime_buckets_major : Option (Nat → lifetime_bucket)
  lifetime_log10_bytes_min : ℚ
  lifetime_log10_bytes_max : ℚ
  num_lifetime_buckets : Nat
  lifetime_bucket_width : ℚ

/-- The static variables when the program starts. -/
def lifetime_start : LifetimeState :=
  { lifetime_buckets_minor := none
    lifetime_buckets_major := none
    lifetime_log10_bytes_min := 2
    lifetime_log10_bytes_max := 8
    num_lifetime_buckets := 1000
    lifetime_bucket_width := 0 }

/-- The static variables after init_lifetime_buckets has run at the start of
the program with no environment variable set. -/
def lifetime_default : LifetimeState :=
  { lifetime_buckets_minor := some (fun _ => lifetime_bucket_zero)
    lifetime_buckets_major := some (fun _ => lifetime_bucket_zero)
    lifetime_log10_bytes_min := 2
    lifetime_log10_bytes_max := 8
    num_lifetime_buckets := 1000
    lifetime_bucket_width := 6 / 1000 }

/-- The function init_lifetime_buckets (lines 529 to 562); none when it calls
abort.  The two calls of calloc are taken to succeed. -/
def init_lifetime_buckets (env : ProfEnv) (st : LifetimeState) : Option LifetimeState :=
  let min := match env.CAML_LIFETIME_MIN_BYTES with
    | some n => env.log (n : ℚ) / env.log 10
    | none => st.lifetime_log10_bytes_min
  let max := match env.CAML_LIFETIME_MAX_BYTES with
    | some n => env.log (n : ℚ) / env.log 10
    | none => st.lifetime_log10_bytes_max
  let num := match env.CAML_LIFETIME_NUM_BUCKETS with
    | some n => (n % 2 ^ 64).toNat
    | none => st.num_lifetime_buckets
  if min > max then none
  else
    some { lifetime_buckets_minor := some (fun _ => lifetime_bucket_zero)
           lifetime_buckets_major := some (fun _ => lifetime_bucket_zero)
           lifetime_log10_bytes_min := min
           lifetime_log10_bytes_max := max
           num_lifetime_buckets := num
           lifetime_bucket_width := (max - min) / (num : ℚ) }

/-- Lines 576 to 578: the buckets are set up at the first sample. -/
def lifetime_ready (env : ProfEnv) (st : LifetimeState) : Option LifetimeState :=
  if st.lifetime_buckets_minor.isNone then init_lifetime_buckets env st else some st

/-- Line 581: log10_lifetime for the sample of a block allocated at
allocation_time. -/
def log10_lifetime (env : ProfEnv) (allocation_time now : Nat) : ℚ :=
  env.log ((add64 (now - allocation_time) 1 : Nat) : ℚ) / env.log 10

/-- Line 585: the conversion to uint64_t of the quotient. -/
def lifetime_bucket_index (st : LifetimeState) (l : ℚ) : Nat :=
  double_to_uintnat ((l - st.lifetime_log10_bytes_min) / st.lifetime_bucket_width)

/-- Lines 590 to 593: the size class of a block with header hd. -/
def log2_object_size (env : ProfEnv) (hd : Nat) : Int :=
  let k := ⌊env.log ((Wosize_hd hd : Nat) : ℚ)⌋
  if k > MAX_LOG2_OBJECT_SIZE then MAX_LOG2_OBJECT_SIZE else k

/-- Lines 597 to 601: the block with header hd is counted in the bucket b of
the array, in the size class k. -/
def lifetime_count (buckets : Nat → lifetime_bucket) (b : Nat) (k : Int) (hd : Nat) :
    Nat → lifetime_bucket :=
  fun i =>
    if i = b then
      { num_blocks_by_log2_object_size := fun j =>
          if j = k then add64 ((buckets b).num_blocks_by_log2_object_size j) 1
          else (buckets b).num_blocks_by_log2_object_size j
        total_blocks := add64 (buckets b).total_blocks 1
        num_words_by_log2_object_size := fun j =>
          if j = k then add64 ((buckets b).num_words_by_log2_object_size j) (Wosize_hd hd)
          else (buckets b).num_words_by_log2_object_size j
        total_words := add64 (buckets b).total_words (Wosize_hd hd) }
    else buckets i

/-- The function caml_record_lifetime_sample (lines 564 to 606); none when
init_lifetime_buckets aborts or the array to update is NULL. -/
def caml_record_lifetime_sample (env : ProfEnv) (st : LifetimeState) (hd : Nat)
    (in_major_heap : Int) (now : Nat) : Option LifetimeState :=
  let allocation_time := Decode_profinfo_hd hd
  if allocation_time > 0 then
    if now ≥ allocation_time then
      match lifetime_ready env st with
      | none => none
      | some st1 =>
        let l := log10_lifetime env allocation_time now
        if l ≥ st1.lifetime_log10_bytes_min ∧ l < st1.lifetime_log10_bytes_max then
          let bucket := lifetime_bucket_index st1 l
          if bucket < st1.num_lifetime_buckets then
            let k := log2_object_size env hd
            if in_major_heap ≠ 0 then
              match st1.lifetime_buckets_major with
              | none => none
              | some f =>
                some { st1 with lifetime_buckets_major := some (lifetime_count f bucket k hd) }
            else
              match st1.lifetime_buckets_minor with
              | none => none
              | some f =>
                some { st1 with lifetime_buckets_minor := some (lifetime_count f bucket k hd) }
          else some st1
        else some st1
    else some st
  else some st

/-- The accumulators of the bucket b of an array; an array that is not
allocated holds nothing. -/
def lifetime_acc (a : Option (Nat → lifetime_bucket)) (b : Nat) : lifetime_bucket :=
  match a with
  | none => lifetime_bucket_zero
  | some f => f b

/-- A table of the natural logarithm to four decimal places for the arguments
that the examples use. -/
def ex_log (x : ℚ) : ℚ :=
  if x = 8 then 20794 / 10000
  else if x = 10 then 23026 / 10000
  else if x = 10001 then 92104 / 10000
  else 0

/-- Collaborators for the examples: no environment variable is set. -/
def ex_prof_env : ProfEnv :=
  { log := ex_log
    CAML_LIFETIME_MIN_BYTES := none
    CAML_LIFETIME_MAX_BYTES := none
    CAML_LIFETIME_NUM_BUCKETS := none }

/-- The header of a white block of 8 words with tag 0 that carries the
allocation time 10. -/
def ex_sample_hd : Nat := Make_header_with_profinfo 8 0 Caml_white 10

/-! ## A whole collection cycle and the headers of the blocks that survive -/

/-- The calls of sweep_slice that drive the sweep phase: each element gives
the iteration bound and the budget of one call, and calls are made while the
phase is Phase_sweep. -/
def sweeps (env : Env) : List (Nat × Int) → State → State
  | [], s => s
  | p :: rest, s =>
    if s.caml_gc_phase = Phase_sweep then sweeps env rest (sweep_slice env p.1 s p.2) else s

/-- What the collector relies on from the free list and from the finalizers
of custom blocks: caml_fl_merge_block rewrites the header of the block it is
given, of blocks of the free list (blue) and of blocks given to it before, and
of no other block; a finalizer rewrites no header. -/
structure HeapCtx.Collab (c : HeapCtx) : Prop where
  merge_frame : ∀ (s : State) (bp : Nat), ∀ h ∈ c.H, h + 8 ≠ bp →
    Color_hd (s.mem h) ≠ Caml_blue → Event.fl_merge_block (h + 8) ∉ s.events →
    (c.env.fl_merge_block s bp).mem h = s.mem h
  final_frame : ∀ (fn v : Nat) (m : Mem), ∀ h ∈ c.H, c.env.call_finalizer fn v m h = m h

/-- Every block that was not free when the cycle started has the header of
that time, up to the colour, or has been given to caml_fl_merge_block. -/
def HeapCtx.Kept (c : HeapCtx) (s : State) : Prop :=
  ∀ h ∈ c.H, c.white0 h →
    (Whitehd_hd (s.mem h) = Whitehd_hd (c.m0 h) ∧ Color_hd (s.mem h) ≠ Caml_blue)
    ∨ Event.fl_merge_block (h + 8) ∈ s.events

/-- The mark phase is over and the memory is that of the start of the cycle
up to colours and rewritten fields. -/
def HeapCtx.DoneStable (c : HeapCtx) (s : State) : Prop :=
  c.Done s ∧ c.Stable s.mem

/-- What holds between two iterations of the loop of mark_slice, with the
memory. -/
def HeapCtx.GoodStable (c : HeapCtx) (st : MarkState) : Prop :=
  c.MInv st.s st.v st.start ∨ (st.work ≤ 0 ∧ c.DoneStable st.s)

/-! ## Node encodings of the allocation profiler (`asmrun/allocation_profiling.h`)

Program counters and encoded words are 64-bit machine words, kept as
natural numbers below `2 ^ 64`. -/

/-- Classification of the entries of a node, `c_node_type`. -/
inductive c_node_type where
  | CALL
  | ALLOCATION
  deriving DecidableEq, Repr

/-- `Encode_node_pc(pc)`: `((value) pc) | 1`. -/
def Encode_node_pc (pc : Nat) : Nat := (pc % 2 ^ 64) ||| 1

/-- `Decode_node_pc(encoded_pc)`: `encoded_pc & ~1`, where `~1` is the
64-bit word `2 ^ 64 - 2`. -/
def Decode_node_pc (encoded_pc : Nat) : Nat := encoded_pc &&& (2 ^ 64 - 2)

/-- The encoding that the layout comment of `allocation_profiling.h`
(lines 33-35) documents for the first tail call word: the PC value
"shifted left by 1, with bottom bit then set". -/
def documented_node_pc (pc : Nat) : Nat := ((pc % 2 ^ 64) <<< 1) % 2 ^ 64 ||| 1

/-- `Call_or_allocation_point(node, offset)`:
`((Field(node, offset) & 3) == 1) ? ALLOCATION : CALL`. -/
def Call_or_allocation_point (m : Mem) (node offset : Nat) : c_node_type :=
  if Field m node offset &&& 3 = 1 then c_node_type.ALLOCATION else c_node_type.CALL

/-- `Encode_alloc_point_pc(pc)`: `(((value) pc) << 2) | 1`. -/
def Encode_alloc_point_pc (pc : Nat) : Nat := ((pc % 2 ^ 64) <<< 2) % 2 ^ 64 ||| 1

/-- The shift `>> 2` of a 64-bit word read as the signed type `value`: the
sign bit is copied into the two bits that the shift frees, as the compilers
that build the runtime do for a negative operand. -/
def asr2 (w : Nat) : Nat := if w < 2 ^ 63 then w >>> 2 else (w >>> 2) ||| (3 * 2 ^ 62)

/-- `Decode_alloc_point_pc(pc)`: `((value) pc) >> 2`. -/
def Decode_alloc_point_pc (pc : Nat) : Nat := asr2 pc

/-- `Encode_call_point_pc(pc)`: `(((value) pc) << 2) | 3`. -/
def Encode_call_point_pc (pc : Nat) : Nat := ((pc % 2 ^ 64) <<< 2) % 2 ^ 64 ||| 3

/-- `Decode_call_point_pc(pc)`: `((value) pc) >> 2`. -/
def Decode_call_point_pc (pc : Nat) : Nat := asr2 pc

/-- `Encode_c_node_pc_for_call(pc)`: `(((value) pc) << 2) | 3`. -/
def Encode_c_node_pc_for_call (pc : Nat) : Nat := ((pc % 2 ^ 64) <<< 2) % 2 ^ 64 ||| 3

/-- `Encode_c_node_pc_for_alloc_point(pc)`: `(((value) pc) << 2) | 1`. -/
def Encode_c_node_pc_for_alloc_point (pc : Nat) : Nat :=
  ((pc % 2 ^ 64) <<< 2) % 2 ^ 64 ||| 1

/-- `Decode_c_node_pc(pc)`: `(pc) >> 2`, for the field `pc` of a `c_node`,
which has the unsigned type `uintnat`. -/
def Decode_c_node_pc (pc : Nat) : Nat := pc >>> 2

/-- A node at 1000 whose word 2 holds the encoded allocation point
`0x401000` and whose word 4 holds the encoded call point `0x401040`. -/
def ex_node_mem : Mem :=
  Mem.set (Mem.set (fun _ => 0) 1016 (Encode_alloc_point_pc 4198400))
    1032 (Encode_call_point_pc 4198464)

/-- The example heap at the end of marking: the phase is Phase_mark, the
subphase Subphase_final, nothing is gray, and the only bucket of the ring
holds half a cycle. -/
def ex_final : State :=
  { ex_idle with caml_gc_phase := Phase_mark, caml_major_ring := fun _ => 1 / 2 }

/-- The example heap with the collector idle and half a cycle in the only
bucket of the ring. -/
def ex_idle_half : State := { ex_idle with caml_major_ring := fun _ => 1 / 2 }

/-- The memory of the example heap in the middle of marking: the records A at
1008 and D at 1072 are gray, the string B at 1032 is white. -/
def ex_gray_mem : Mem :=
  mem_of [(984, 96), (992, 0),
          (1000, 2304), (1008, 1032), (1016, 1072),
          (1024, 2300), (1032, 0), (1040, 0),
          (1048, 1536), (1056, 0),
          (1064, 3328), (1072, 1), (1080, 1008), (1088, 1)]

/-- The example heap in the mark phase with a full gray stack of two entries,
the gray records D and A. -/
def ex_gray_full : State :=
  { ex_mark with mem := ex_gray_mem, gray_vals := [1072, 1008], gray_vals_size := 2 }

/-- A heap in which the record A at 1008 points to the forwarding block F at
1032, whose field holds the address 5000 of a block outside the heap with tag
0 (the word at 4992 is its header). -/
def ex_fwd_mem : Mem :=
  mem_of [(984, 96), (992, 0),
          (1000, 2304), (1008, 1032), (1016, 1),
          (1024, 1274), (1032, 5000),
          (1040, 6144), (1048, 1), (1056, 1), (1064, 1), (1072, 1), (1080, 1), (1088, 1),
          (4992, 2048)]

/-- The example heap in the mark phase with the memory ex_fwd_mem. -/
def ex_fwd : State := { ex_mark with mem := ex_fwd_mem }

/-- The same heap with the field of the forwarding block holding the record
at 1048, a block of the heap with tag 0. -/
def ex_fwd_in : State := { ex_mark with mem := ex_fwd_mem.set 1032 1048 }

/-! ## Specification of Subphase_weak1 for one field of a weak array -/

/-- Whether Subphase_weak1 short-circuits the field value x in the memory m:
x is a pointer, other than caml_weak_none, into the heap or the minor heap,
to a block with Forward_tag whose field is a pointer into the value area to a
block whose tag is none of Forward_tag, Lazy_tag and Double_tag. -/
def weak_short_circuits (env : Env) (m : Mem) (x : Nat) : Bool :=
  x != env.caml_weak_none && Is_block x && env.Is_in_heap_or_young x
    && Tag_val m x == Forward_tag && Is_block (Forward_val m x)
    && env.Is_in_value_area (Forward_val m x)
    && Tag_val m (Forward_val m x) != Forward_tag
    && Tag_val m (Forward_val m x) != Lazy_tag
    && Tag_val m (Forward_val m x) != Double_tag

/-- The short-circuited referent of the field value x: its forwarding target
when the field is short-circuited, x itself otherwise. -/
def weak_referent (env : Env) (m : Mem) (x : Nat) : Nat :=
  if weak_short_circuits env m x then Forward_val m x else x

/-- The referent r is dead: a pointer, other than caml_weak_none, into the heap
or the minor heap, to a white block that is not young. -/
def weak_dead (env : Env) (m : Mem) (r : Nat) : Bool :=
  (r != env.caml_weak_none && Is_block r && env.Is_in_heap_or_young r)
    && (Is_white_hd (Hd_val m r) && !env.Is_young r)

/-- What the field that holds x is to hold after Subphase_weak1:
caml_weak_none when the short-circuited referent is dead, the short-circuited
referent otherwise. -/
def weak1_field (env : Env) (m : Mem) (x : Nat) : Nat :=
  if weak_dead env m (weak_referent env m x) then env.caml_weak_none
  else weak_referent env m x

/-- The words that Subphase_weak1 reads for the fields 1 to sz - 1 of the weak
array cur are not among these fields: for a field that holds a pointer x,
other than caml_weak_none, into the heap or the minor heap, the header of x
and, when x is a forwarding block, its field and the header of the block the
field points to. -/
def weak_apart (env : Env) (m : Mem) (cur sz : Nat) : Prop :=
  ∀ i j, 1 ≤ i → i < sz → 1 ≤ j → j < sz →
    (Field m cur i != env.caml_weak_none && Is_block (Field m cur i)
      && env.Is_in_heap_or_young (Field m cur i)) = true →
    cur + 8 * j ≠ Field m cur i - 8
    ∧ (Tag_val m (Field m cur i) = Forward_tag →
        cur + 8 * j ≠ Field m cur i ∧ cur + 8 * j ≠ Forward_val m (Field m cur i) - 8)

/-- A heap with the weak array W at 1008, of four fields: the link, a pointer
to the white record X at 1048, a pointer to the black record Y at 1064 and a
pointer to the forwarding block F at 1080, whose field points to Y.  The
variable caml_weak_list_head, at 64, points to W. -/
def ex_weak_mem : Mem :=
  mem_of [(64, 1008), (984, 96), (992, 0),
          (1000, 5115), (1008, 0), (1016, 1048), (1024, 1064), (1032, 1080),
          (1040, 1024), (1048, 1),
          (1056, 1792), (1064, 1),
          (1072, 2042), (1080, 1064),
          (1088, 0)]

/-- The example heap with the weak array in Subphase_weak1, weak_prev being
the address of caml_weak_list_head. -/
def ex_weak : State :=
  { ex_mark with mem := ex_weak_mem, caml_gc_subphase := Subphase_weak1, weak_prev := 64 }

/-! ## What marking writes -/

/-- The memory m2 differs from m1 only by what marking writes: each word is
unchanged, or is the header of a block that was not black and is now gray or
black, or is a field of a scannable block, or is a field other than the link
of a weak array. -/
def HeapCtx.Wr (c : HeapCtx) (m1 m2 : Mem) : Prop :=
  ∀ a, m2 a = m1 a
    ∨ (a ∈ c.H ∧ Color_hd (m1 a) ≠ Caml_black
        ∧ (Color_hd (m2 a) = Caml_gray ∨ Color_hd (m2 a) = Caml_black))
    ∨ (∃ h ∈ c.H, c.tag0 h < No_scan_tag ∧ ∃ i, i < c.size0 h ∧ a = h + 8 + 8 * i)
    ∨ (∃ h ∈ c.Wl, ∃ i, 1 ≤ i ∧ i < c.size0 h ∧ a = h + 8 + 8 * i)

/-- The blocks only get darker from m1 to m2: a black block is still black, a
gray block is gray or black. -/
def HeapCtx.Darker (c : HeapCtx) (m1 m2 : Mem) : Prop :=
  ∀ h ∈ c.H,
    (Color_hd (m1 h) = Caml_black → Color_hd (m2 h) = Caml_black)
    ∧ (Color_hd (m1 h) = Caml_gray →
        Color_hd (m2 h) = Caml_gray ∨ Color_hd (m2 h) = Caml_black)

/-- The mark phase is over with nothing left to scan: the heap is as Done
says, the gray stack is empty, no block is being scanned and the heap is
pure. -/
def HeapCtx.DoneClean (c : HeapCtx) (s : State) (v : Nat) : Prop :=
  c.Done s ∧ s.gray_vals = [] ∧ v = 0 ∧ s.heap_is_pure = true

/-- What holds between two iterations of the loop of mark_slice, with the
end of marking described by DoneClean. -/
def HeapCtx.GoodClean (c : HeapCtx) (st : MarkState) : Prop :=
  c.MInv st.s st.v st.start ∨ (st.work ≤ 0 ∧ c.DoneClean st.s st.v)

/-- The description of the example heap with a realloc that fails. -/
def ex_ctx_noroom : HeapCtx := { ex_ctx with env := ex_env_noroom }

/-- The example heap with the collector idle after a sweep and a gray stack
of one entry. -/
def ex_white_one : State := { ex_white with gray_vals_size := 1 }

/-! ## Progress of the mark phase -/

/-- Ghost: the number of calls of caml_darken_all_roots_slice in a log of
calls. -/
def roots_calls : List Event → Nat
  | [] => 0
  | Event.darken_all_roots_slice _ :: l => roots_calls l + 1
  | _ :: l => roots_calls l

/-- The weak arrays met by following the links from the word at a up to NULL
are those of the list, by their headers. -/
def wpath (m : Mem) : Nat → List Nat → Prop
  | a, [] => m a = 0
  | a, h :: l => m a = h + 8 ∧ wpath m (h + 8) l

/-- The weak list when the cycle starts: from caml_weak_list_head the links go
through the weak arrays of L, each once, and end with NULL. -/
def HeapCtx.WeakList (c : HeapCtx) (L : List Nat) : Prop :=
  wpath c.m0 c.env.caml_weak_list_head L ∧ L.Nodup ∧ ∀ h ∈ L, h ∈ c.Wl

/-- What marking relies on from caml_darken_all_roots_slice: once it has been
called N times, a call with a positive budget reports less work than its
budget, which is how it says that the roots are finished. -/
def HeapCtx.RootsEnd (c : HeapCtx) (N : Nat) : Prop :=
  ∀ (s : State) (w : Int), 0 < w → N ≤ roots_calls s.events →
    ((c.env.roots_slice s w).2 : Int) < w

/-- The unscanned words of the heap: the words, header included, of the
blocks that are not black. -/
def HeapCtx.unscanned (c : HeapCtx) (m : Mem) : Nat :=
  (c.H.map (fun h => if Color_hd (m h) = Caml_black then 0 else c.size0 h + 1)).sum

/-- The number of iterations of a complete heap-order scan: one for each
block and one for each chunk. -/
def HeapCtx.scan_room (c : HeapCtx) : Nat :=
  (c.chunks.map (fun p => p.2.length + 1)).sum

/-- The subphases in the order of the cycle, counted down. -/
def sub_rank (subphase : Nat) : Nat :=
  if subphase = Subphase_roots then 5
  else if subphase = Subphase_main then 4
  else if subphase = Subphase_weak1 then 3
  else if subphase = Subphase_weak2 then 2
  else if subphase = Subphase_final then 1
  else 0

/-- The calls of caml_darken_all_roots_slice still to come, at most. -/
def roots_left (N : Nat) (s : State) : Nat :=
  if s.caml_gc_subphase = Subphase_roots then N - roots_calls s.events else 0

/-- The iterations that the heap-order scan under way has still to make: none
when markhp is NULL, otherwise one for each block from markhp to limit, one
for each later chunk and each of its blocks, and one to end the scan. -/
def HeapCtx.ScanLeft (c : HeapCtx) (s : State) (k : Nat) : Prop :=
  (s.markhp = 0 ∧ k = 0)
  ∨ (s.markhp ≠ 0 ∧ ∃ hps rest,
      (∀ h ∈ hps, h ∈ c.H)
      ∧ (∀ p ∈ rest, p ∈ c.chunks)
      ∧ s.chunk ∈ c.chunks.map (fun p => p.1)
      ∧ s.limit = s.chunk + Chunk_size c.m0 s.chunk
      ∧ tiles c.m0 s.markhp hps s.limit
      ∧ chain c.m0 (Chunk_next c.m0 s.chunk) rest
      ∧ k = hps.length + (rest.map (fun p => p.2.length + 1)).sum + 1)

/-- The weak arrays that the weak subphases have still to visit: the whole
list L twice before Subphase_weak1, the arrays from weak_prev on and the
whole list once more in Subphase_weak1, the arrays from weak_prev on in
Subphase_weak2. -/
def HeapCtx.WeakLeft (c : HeapCtx) (L : List Nat) (s : State) (w : Nat) : Prop :=
  if s.caml_gc_subphase = Subphase_roots ∨ s.caml_gc_subphase = Subphase_main then
    wpath s.mem c.env.caml_weak_list_head L ∧ w = 2 * L.length
  else if s.caml_gc_subphase = Subphase_weak1 then
    wpath s.mem c.env.caml_weak_list_head L
    ∧ ∃ l, wpath s.mem s.weak_prev l ∧ (∀ h ∈ l, h ∈ c.Wl) ∧ w = l.length + L.length
  else if s.caml_gc_subphase = Subphase_weak2 then
    ∃ l, wpath s.mem s.weak_prev l ∧ l.Nodup ∧ (∀ h ∈ l, h ∈ c.Wl)
      ∧ (∀ h ∈ l, s.weak_prev ≠ h + 8) ∧ w = l.length
  else w = 0

/-- The measure of what the mark phase has still to do in the state s, with v
the block being scanned and start its next field: n combines, in this order,
the subphase, the calls of caml_darken_all_roots_slice and the weak arrays
still to come, the unscanned words of the heap, and the heap-order scan
pending or under way. -/
structure HeapCtx.Pot (c : HeapCtx) (N : Nat) (L : List Nat) (s : State) (v start n : Nat) :
    Prop where
  minv : c.MInv s v start
  valid : 1 ≤ sub_rank s.caml_gc_subphase
  pot : ∃ k w, c.ScanLeft s k ∧ k ≤ c.scan_room ∧ c.WeakLeft L s w
    ∧ n = (2 * c.scan_room + 2)
            * ((c.unscanned s.mem - start) + w + roots_left N s
                + sub_rank s.caml_gc_subphase)
          + ((if s.heap_is_pure = true then 0 else c.scan_room + 1) + k)

/-- A bound on the measure at the start of a cycle. -/
def HeapCtx.mark_bound (c : HeapCtx) (N : Nat) (L : List Nat) : Nat :=
  (2 * c.scan_room + 2) * (c.unscanned c.m0 + 2 * L.length + N + 5) + (c.scan_room + 1)

/-- Collaborators for the example heap when the roots are integers, more of
them than any budget: caml_darken_all_roots_slice darkens as many roots as its
budget, none of them a block, and reports its whole budget as done. -/
def ex_env_stall : Env :=
  { ex_env with roots_slice := fun _ w => (List.replicate w.toNat 1, w.toNat) }

/-- Collaborators for the example heap when caml_darken_all_roots_slice needs
two calls: the first darkens the block A and reports its whole budget as done,
the second finds no root left and reports no work. -/
def ex_env_two : Env :=
  { ex_env with
    roots_slice := fun s w => if roots_calls s.events = 0 then ([1008], w.toNat) else ([], 0) }

/-- The description of the example heap with these collaborators. -/
def ex_ctx_two : HeapCtx := { ex_ctx with env := ex_env_two }

/-! ## Progress of the sweep phase -/

/-- The words that the layout of a chunk rests on: the fields size and next of
its head and the headers of its blocks. -/
def chunk_cells (p : Nat × List Nat) : List Nat := [p.1 - 16, p.1 - 8] ++ p.2

/-- The headers of the blocks of each chunk of the list lie apart from the
head of their chunk and from the words that the layouts of the later chunks
rest on. -/
def rest_sep : List (Nat × List Nat) → Prop
  | [] => True
  | p :: rest =>
    (∀ h ∈ p.2, h ≠ p.1 - 16 ∧ h ≠ p.1 - 8 ∧ ∀ q ∈ rest, h ∉ chunk_cells q) ∧ rest_sep rest

/-- The part of the heap that a sweep has still to walk, in the memory m: from
hp to limit, the end of the chunk, lie the blocks with the headers hps, and
the chunks after this one are those of rest. -/
structure SwLay (m : Mem) (chunk hp limit : Nat) (hps : List Nat)
    (rest : List (Nat × List Nat)) : Prop where
  lim : limit = chunk + Chunk_size m chunk
  blocks : tiles m hp hps limit
  chunks : chain m (Chunk_next m chunk) rest
  sep : rest_sep ((chunk, hps) :: rest)

/-- What sweep_slice relies on from the free list and from the finalizers of
custom blocks.  caml_fl_merge_block, called on the block at hp when
caml_gc_sweep_hp has been moved past it, returns the address of the header of
a later block of the chunk, or the end of the chunk, and leaves the heap from
there on as it was; a finalizer leaves the layout of the heap as it was. -/
structure SweepCollab (env : Env) : Prop where
  merge_next : ∀ (s : State) (hp : Nat) (hs : List Nat) (rest : List (Nat × List Nat)),
    SwLay s.mem s.chunk hp s.limit (hp :: hs) rest →
    s.caml_gc_sweep_hp = hp + Bhsize_hd (Hd_hp s.mem hp) →
    ∃ k, SwLay (env.fl_merge_block s (Val_hp hp)).mem s.chunk
      (env.fl_merge_block s (Val_hp hp)).next s.limit (hs.drop k) rest
  final_keep : ∀ (fn v : Nat) (m : Mem) (chunk hp limit : Nat) (hps : List Nat)
    (rest : List (Nat × List Nat)),
    SwLay m chunk hp limit hps rest → SwLay (env.call_finalizer fn v m) chunk hp limit hps rest

/-- The invariant of the loop of sweep_slice: the phase is Phase_sweep and the
sweep has still to walk the blocks hps of the current chunk and the chunks of
rest. -/
def SwInv (s : State) (hps : List Nat) (rest : List (Nat × List Nat)) : Prop :=
  s.caml_gc_phase = Phase_sweep
  ∧ SwLay s.mem s.chunk s.caml_gc_sweep_hp s.limit hps rest

/-- The sweep position of t is strictly after that of s in heap order: the
chunk is the same and caml_gc_sweep_hp is higher, or the chunk is one of the
chunks that came after that of s. -/
def SwAdv (s : State) (rest : List (Nat × List Nat)) (t : State)
    (rest' : List (Nat × List Nat)) : Prop :=
  (t.chunk = s.chunk ∧ rest' = rest ∧ s.caml_gc_sweep_hp < t.caml_gc_sweep_hp)
  ∨ ∃ pre p, rest = pre ++ p :: rest' ∧ t.chunk = p.1

/-- The number of iterations that the sweep has still to make: one for each
block, one for each chunk. -/
def sweep_left (hps : List Nat) (rest : List (Nat × List Nat)) : Nat :=
  hps.length + (rest.map (fun p => p.2.length + 1)).sum + 1

/-! ## The word budget of a slice -/

/-- The budget MS of a marking slice as the comment of
caml_major_collection_slice derives it (major_gc.c, lines 524 to 528):
P * (caml_stat_heap_wsz * 250 / (100 + caml_percent_free)
+ 2.5 * caml_incremental_roots_count), truncated to an integer. -/
def documented_mark_work (s : State) (p : ℚ) : Int :=
  double_to_intnat
    (p * ((s.caml_stat_heap_wsz : ℚ) * 250 / ((100 + s.caml_percent_free : Nat) : ℚ)
          + 5 / 2 * (s.caml_incremental_roots_count : ℚ)))

/-- The budget SS of a sweeping slice as the same comment derives it (lines
529 to 531): P * caml_stat_heap_wsz * 5 / 3, truncated to an integer. -/
def documented_sweep_work (s : State) (p : ℚ) : Int :=
  double_to_intnat (p * (s.caml_stat_heap_wsz : ℚ) * 5 / 3)

/-- The example heap in the mark phase with a heap of 1000 words and 100 words
of roots counted by the last cycle; caml_percent_free is 100. -/
def ex_budget : State :=
  { ex_mark with caml_stat_heap_wsz := 1000, caml_incremental_roots_count := 100 }

/-- The seven word counters of caml_dump_allocators_of_major_heap_blocks, in
the order blue, accounted_for, unaccounted_for,
builtin_return_address_failures, constant_closures, structured_constants,
compilation_units. -/
def dump_seven (c : DumpCounters) : List Nat :=
  [c.blue, c.accounted_for, c.unaccounted_for, c.builtin_return_address_failures,
   c.constant_closures, c.structured_constants, c.compilation_units]

/-- The table ex_log with a value for the argument 0, where the logarithm of
the C library is minus infinity: any negative number has the same effect on
the size class, and -1000 stands for it. -/
def ex_log_neg (x : ℚ) : ℚ := if x = 0 then -1000 else ex_log x

/-- Collaborators for the examples with the table ex_log_neg. -/
def ex_prof_env_neg : ProfEnv := { ex_prof_env with log := ex_log_neg }

/-- The header of a white block of no words with tag 0 that carries the
allocation time 10. -/
def ex_empty_hd : Nat := Make_header_with_profinfo 0 0 Caml_white 10

/-- The sum over the size classes 0 to MAX_LOG2_OBJECT_SIZE, the indices of the
C arrays, of an array of accumulators. -/
def sum_classes (f : Int → Nat) : Nat :=
  ((List.range 10).map (fun k => f (k : Int))).sum

/-- The accumulators of a lifetime bucket agree: total_blocks and total_words
are the sums over the size classes, as uint64_t. -/
def bucket_sums_ok (b : lifetime_bucket) : Prop :=
  b.total_blocks % 2 ^ 64 = sum_classes b.num_blocks_by_log2_object_size % 2 ^ 64
  ∧ b.total_words % 2 ^ 64 = sum_classes b.num_words_by_log2_object_size % 2 ^ 64

/-- Every bucket of a histogram has totals that agree with its size
classes. -/
def hist_ok (a : Option (Nat → lifetime_bucket)) : Prop :=
  ∀ b, bucket_sums_ok (lifetime_acc a b)

/-- The uint64_t accumulator has not decreased from x to y, the case apart
where adding d to it passes 2^64. -/
def acc_le (d x y : Nat) : Prop := x ≤ y ∨ 2 ^ 64 ≤ x + d

/-- No accumulator of the bucket has decreased from x to y, overflow by an
addition of at most d apart. -/
def bucket_le (d : Nat) (x y : lifetime_bucket) : Prop :=
  acc_le d x.total_blocks y.total_blocks
  ∧ acc_le d x.total_words y.total_words
  ∧ ∀ k, acc_le d (x.num_blocks_by_log2_object_size k) (y.num_blocks_by_log2_object_size k)
      ∧ acc_le d (x.num_words_by_log2_object_size k) (y.num_words_by_log2_object_size k)

/-! ## The window and the index of the pacing ring -/

/-- What changes the variables of the pacing ring: a call of
caml_major_collection_slice, a call of caml_set_major_window, and the minor
collector, which adds to caml_gc_clock. -/
inductive PacingOp where
  | slice (fuel : Nat) (howmuch : Int)
  | set_window (w : Nat)
  | clock_add (d : ℚ)

/-- The state after one operation. -/
def run_op (env : Env) (s : State) : PacingOp → State
  | PacingOp.slice fuel howmuch => caml_major_collection_slice env fuel s howmuch
  | PacingOp.set_window w => caml_set_major_window s w
  | PacingOp.clock_add d => { s with caml_gc_clock := s.caml_gc_clock + d }

/-- The state after a sequence of operations. -/
def run_ops (env : Env) (ops : List PacingOp) (s : State) : State :=
  ops.foldl (run_op env) s

/-- The window that caml_set_major_window is given lies between 1 and
Max_major_window. -/
def op_ok : PacingOp → Prop
  | PacingOp.set_window w => 1 ≤ w ∧ w ≤ Max_major_window
  | _ => True

/-- The bucket that a slice requested with howmuch reads: the current bucket
for an automatic slice (lines 581 to 585), the next one for howmuch = 0 (lines
591 to 593), none for a manual slice. -/
def slice_bucket (s : State) (howmuch : Int) : Option Nat :=
  if howmuch = -1 then some s.caml_major_ring_index
  else if howmuch = 0 then
    some (if s.caml_major_ring_index + 1 ≥ s.caml_major_window then 0
          else s.caml_major_ring_index + 1)
  else none

/-! ## The call of caml_final_update -/

/-- Ghost: the number of calls of caml_final_update in a log of calls. -/
def final_calls : List Event → Nat
  | [] => 0
  | Event.final_update :: l => final_calls l + 1
  | _ :: l => final_calls l

/-- In the mark phase of a cycle that started with base calls of
caml_final_update in the log, the log holds base calls up to Subphase_weak1
and base + 1 calls in Subphase_weak2 and Subphase_final. -/
def FinalMark (base : Nat) (s : State) : Prop :=
  s.caml_gc_phase = Phase_mark
  ∧ ((s.caml_gc_subphase = Subphase_roots ∨ s.caml_gc_subphase = Subphase_main
        ∨ s.caml_gc_subphase = Subphase_weak1) ∧ final_calls s.events = base
    ∨ (s.caml_gc_subphase = Subphase_weak2 ∨ s.caml_gc_subphase = Subphase_final)
        ∧ final_calls s.events = base + 1)

/-- Once the mark phase is over the log holds base + 1 calls of
caml_final_update. -/
def FinalDone (base : Nat) (s : State) : Prop :=
  s.caml_gc_phase ≠ Phase_mark ∧ final_calls s.events = base + 1

/-- The example heap at the end of Subphase_weak1: the weak list is empty and
weak_prev is the address of caml_weak_list_head. -/
def ex_weak1_end : State :=
  { ex_mark with caml_gc_subphase := Subphase_weak1, weak_prev := 64 }

/-! ## caml_dump_heapgraph (alloc_profiling.c, lines 412 to 501) -/

/-- A line that caml_dump_heapgraph prints: "B site,tag,words" or
"E parent,child". -/
inductive GraphLine where
  | B (site tag words : Nat)
  | E (parent child : Nat)
  deriving DecidableEq, Repr

/-- The lines written to node_fp and to edge_fp, in the order of the calls of
fprintf. -/
structure GraphOut where
  node_file : List GraphLine
  edge_file : List GraphLine
  deriving DecidableEq, Repr

/-- The body of the for loop of lines 463 to 487 for one field of the block
parent with header hd_parent: the lines are given to fprintf with the file
named in the code, and the tag of the child is read by Tag_val (hd_child). -/
def graph_field (env : Env) (m : Mem) (hd_parent parent field : Nat) (out : GraphOut) :
    GraphOut :=
  let child := Field m parent field
  if Is_block child && env.Is_in_value_area child then
    let hd_child := Hd_val m child
    let approx_instr_pointer_child := Decode_profinfo_hd hd_child
    if approx_instr_pointer_child ≠ 0 then
      { out with
        edge_file := out.edge_file ++
          [GraphLine.B (Decode_profinfo_hd hd_parent) (Tag_hd hd_parent) (Wosize_hd hd_parent),
           GraphLine.B approx_instr_pointer_child (Tag_val m hd_child) (Wosize_hd hd_child),
           GraphLine.E (Decode_profinfo_hd hd_parent) approx_instr_pointer_child] }
    else out
  else out

/-- The for loop of lines 463 to 487: the n fields from index field on. -/
def graph_fields (env : Env) (m : Mem) (hd_parent parent : Nat) :
    Nat → Nat → GraphOut → GraphOut
  | 0, _, out => out
  | n + 1, field, out =>
    graph_fields env m hd_parent parent n (field + 1)
      (graph_field env m hd_parent parent field out)

/-- The switch of lines 440 to 492 for the block whose header is at hp. -/
def graph_block (env : Env) (m : Mem) (hp : Nat) (out : GraphOut) : GraphOut :=
  let hd_parent := Hd_hp m hp
  if Color_hd hd_parent = Caml_blue then out
  else if Decode_profinfo_hd hd_parent ≠ 0 then
    if Tag_hd hd_parent < No_scan_tag then
      graph_fields env m hd_parent (Val_hp hp) (Wosize_hd (Hd_val m (Val_hp hp))) 0 out
    else out
  else out

/-- The inner loop of lines 438 to 495, for at most fuel iterations. -/
def graph_blocks (env : Env) (m : Mem) : Nat → Nat → Nat → GraphOut → GraphOut
  | 0, _, _, out => out
  | fuel + 1, hp, limit, out =>
    if hp < limit then
      graph_blocks env m fuel (hp + Bhsize_hd (Hd_hp m hp)) limit (graph_block env m hp out)
    else out

/-- The outer loop of lines 431 to 498, for at most fuel iterations, each
running the inner loop for at most fuel_blocks iterations. -/
def graph_chunks (env : Env) (m : Mem) (fuel_blocks : Nat) : Nat → Nat → GraphOut → GraphOut
  | 0, _, out => out
  | fuel + 1, chunk, out =>
    if chunk ≠ 0 then
      graph_chunks env m fuel_blocks fuel (Chunk_next m chunk)
        (graph_blocks env m fuel_blocks chunk (chunk + Chunk_size m chunk) out)
    else out

/-- The function caml_dump_heapgraph (lines 412 to 501) when both files can be
opened: the state after caml_gc_full_major, a function of another file that is
the parameter full_major, and the contents of the two files when they are
closed. -/
def caml_dump_heapgraph (env : Env) (full_major : State → State) (fuel : Nat) (s : State) :
    State × GraphOut :=
  let s1 := full_major s
  (s1, graph_chunks env s1.mem fuel fuel s1.caml_heap_start { node_file := [], edge_file := [] })

/-- A heap of one chunk at 1000 with two blocks of two fields: the record at
1008 carries the allocation-site information 0xABCD and its first field points
to the string at 1032, which carries 0x1234. -/
def ex_graph_mem : Mem :=
  mem_of [(984, 48), (992, 0),
          (1000, 2048 + 43981 * 2 ^ 38), (1008, 1032), (1016, 1),
          (1024, 2048 + 252 + 4660 * 2 ^ 38), (1032, 1), (1040, 1)]

/-- The example heap of the graph dump. -/
def ex_graph : State := { ex_idle with mem := ex_graph_mem }

/-- The heap of ex_fwd_mem in the mark phase with the field 0 of the record at
1008 pointing to the white record at 1048. -/
def ex_plain : State := { ex_mark with mem := ex_fwd_mem.set 1008 1048 }

/-- The same state with a gray stack of one entry, so that one push fills
it. -/
def ex_plain_one : State := { ex_plain with gray_vals_size := 1 }

/-! ## The weak list after Subphase_weak2 -/

/-- The weak arrays of the list, by their headers, whose header is not white
in the memory m, in the order of the list. -/
def kept_weak (m : Mem) (l : List Nat) : List Nat :=
  l.filter (fun h => !Is_white_hd (Hd_hp m h))

/-- The links from the word at a go through the weak arrays of the list and
end at the word b: b is a for the empty list and the link field of the last
array otherwise. -/
def wseg (m : Mem) : Nat → List Nat → Nat → Prop
  | a, [], b => a = b
  | a, h :: l, b => m a = h + 8 ∧ wseg m (h + 8) l b

/-- Nothing is left to mark: no block is being scanned, the gray stack is
empty, no heap-order scan is pending or under way. -/
def MarkIdle (s : State) (v : Nat) : Prop :=
  v = 0 ∧ s.gray_vals = [] ∧ s.markhp = 0 ∧ s.heap_is_pure = true

/-- Where the weak list L of the start of the cycle stands in the state s, v
being the block that is scanned: before Subphase_weak2 it is linked as at the
start; in Subphase_weak2 the arrays before weak_prev that are not white are
linked from caml_weak_list_head up to weak_prev, the others of them are out of
the list, and the rest of L follows weak_prev; after Subphase_weak2 the list
holds the arrays of L that are not white.  Once Subphase_weak2 has visited an
array nothing is left to mark. -/
def HeapCtx.WeakPos (c : HeapCtx) (L : List Nat) (s : State) (v : Nat) : Prop :=
  if s.caml_gc_subphase = Subphase_weak2 then
    ∃ seen rest, L = seen ++ rest
      ∧ wseg s.mem c.env.caml_weak_list_head (kept_weak s.mem seen) s.weak_prev
      ∧ wpath s.mem s.weak_prev rest
      ∧ (seen ≠ [] → MarkIdle s v)
  else if s.caml_gc_subphase = Subphase_final then
    wpath s.mem c.env.caml_weak_list_head (kept_weak s.mem L) ∧ MarkIdle s v
  else wpath s.mem c.env.caml_weak_list_head L

/-- What holds between two iterations of the loop of mark_slice, with the
place of the weak list. -/
def HeapCtx.GoodWeak (c : HeapCtx) (L : List Nat) (st : MarkState) : Prop :=
  c.Good st ∧ c.WeakPos L st.s st.v
    ∧ (st.s.caml_gc_phase = Phase_sweep → st.s.caml_gc_subphase = Subphase_final)

/-- A heap with the record A at 1008 and three weak arrays of two fields, W1
at 1032, W2 at 1056 and W3 at 1080, linked in this order from
caml_weak_list_head at 64; the record A points to W2. -/
def ex_weak3_mem : Mem :=
  mem_of [(64, 1032), (984, 96), (992, 0),
          (1000, 2048), (1008, 1056), (1016, 1),
          (1024, 2299), (1032, 1056), (1040, 1),
          (1048, 2299), (1056, 1080), (1064, 1),
          (1072, 2299), (1080, 0), (1088, 1)]

/-- The heap of the three weak arrays with the collector idle after a
sweep. -/
def ex_weak3 : State := { ex_idle with mem := ex_weak3_mem }

/-- The description of the heap of the three weak arrays. -/
def ex_ctx_weak3 : HeapCtx :=
  { env := ex_env
    m0 := ex_weak3_mem
    heap_start := 1000
    chunks := [(1000, [1000, 1024, 1048, 1072])]
    H := [1000, 1024, 1048, 1072]
    Wl := [1024, 1048, 1072] }

/-! # Theorems -/

/-! ## Facts about the header codec -/

theorem Color_hd_le (hd : Nat) : Color_hd hd ≤ hd := by
  unfold Color_hd; omega

theorem Color_hd_Whitehd_hd (hd : Nat) : Color_hd (Whitehd_hd hd) = Caml_white := by
  unfold Whitehd_hd Color_hd Caml_white; omega

theorem Tag_hd_Whitehd_hd (hd : Nat) : Tag_hd (Whitehd_hd hd) = Tag_hd hd := by
  unfold Whitehd_hd Color_hd Tag_hd; omega

theorem Whitehd_hd_div (hd : Nat) : Whitehd_hd hd / 1024 = hd / 1024 := by
  unfold Whitehd_hd Color_hd; omega

theorem Wosize_hd_Whitehd_hd (hd : Nat) : Wosize_hd (Whitehd_hd hd) = Wosize_hd hd := by
  unfold Wosize_hd Whitehd_hd Color_hd PROFINFO_SHIFT PROFINFO_WIDTH
  norm_num
  omega

/-- C10. caml_clip_heap_chunk_wsz (wsz) is at least wsz, at least Heap_chunk_min
and at least the current heap increment, and it is the maximum of the three. -/
theorem caml_clip_heap_chunk_wsz_is_max (env : Env) (s : State) (wsz : Nat) :
    wsz ≤ caml_clip_heap_chunk_wsz env s wsz
    ∧ env.Heap_chunk_min ≤ caml_clip_heap_chunk_wsz env s wsz
    ∧ (if s.caml_major_heap_increment > 1000 then s.caml_major_heap_increment
       else s.caml_stat_heap_wsz / 100 * s.caml_major_heap_increment % 2 ^ 64)
        ≤ caml_clip_heap_chunk_wsz env s wsz
    ∧ caml_clip_heap_chunk_wsz env s wsz
        = max wsz (max env.Heap_chunk_min
            (if s.caml_major_heap_increment > 1000 then s.caml_major_heap_increment
             else s.caml_stat_heap_wsz / 100 * s.caml_major_heap_increment % 2 ^ 64)) := by
  simp only [caml_clip_heap_chunk_wsz, heap_increment_wsz]
  generalize (if s.caml_major_heap_increment > 1000 then s.caml_major_heap_increment
       else s.caml_stat_heap_wsz / 100 * s.caml_major_heap_increment % 2 ^ 64) = incr
  split_ifs <;> omega

/-! ## sweep_slice: the treatment of one block and the end of the heap -/

/-- C4. A block that sweep_slice visits is treated by colour.  A white block
is handed to caml_fl_merge_block, after its finalizer when the tag is
Custom_tag and the finalizer is not NULL; for a blue block memory is unchanged
and caml_fl_merge is set to the block; the header of a gray or black block is
replaced by the same header with colour white. -/
theorem sweep_step_block_cases (env : Env) (st : SweepState) (hp hd : Nat)
    (hlt : st.s.caml_gc_sweep_hp < st.s.limit)
    (hhp : hp = st.s.caml_gc_sweep_hp) (hhd : hd = Hd_hp st.s.mem hp) :
    (Color_hd hd = Caml_white →
      (Tag_hd hd = Custom_tag ∧ env.custom_finalize st.s.mem (Val_hp hp) ≠ 0 →
        (sweep_step env st).s.events
            = Event.fl_merge_block (Val_hp hp) :: Event.finalize (Val_hp hp) :: st.s.events
        ∧ (sweep_step env st).s.mem
            = (env.fl_merge_block
                { st.s with
                  caml_gc_sweep_hp := hp + Bhsize_hd hd
                  mem := env.call_finalizer (env.custom_finalize st.s.mem (Val_hp hp))
                           (Val_hp hp) st.s.mem
                  events := Event.finalize (Val_hp hp) :: st.s.events }
                (Val_hp hp)).mem)
      ∧ (¬ (Tag_hd hd = Custom_tag ∧ env.custom_finalize st.s.mem (Val_hp hp) ≠ 0) →
        (sweep_step env st).s.events = Event.fl_merge_block (Val_hp hp) :: st.s.events
        ∧ (sweep_step env st).s.mem
            = (env.fl_merge_block { st.s with caml_gc_sweep_hp := hp + Bhsize_hd hd }
                (Val_hp hp)).mem))
    ∧ (Color_hd hd = Caml_blue →
        (sweep_step env st).s.mem = st.s.mem
        ∧ (sweep_step env st).s.caml_fl_merge = Val_hp hp
        ∧ (sweep_step env st).s.events = st.s.events)
    ∧ (Color_hd hd = Caml_gray ∨ Color_hd hd = Caml_black →
        (sweep_step env st).s.mem = st.s.mem.set hp (Whitehd_hd hd)
        ∧ (sweep_step env st).s.events = st.s.events
        ∧ Color_hd (Whitehd_hd hd) = Caml_white
        ∧ Tag_hd (Whitehd_hd hd) = Tag_hd hd
        ∧ Wosize_hd (Whitehd_hd hd) = Wosize_hd hd
        ∧ Whitehd_hd hd / 1024 = hd / 1024) := by
  subst hhp hhd
  refine ⟨fun hw => ⟨fun hc => ?_, fun hc => ?_⟩, fun hb => ?_, fun hg => ?_⟩
  · simp [sweep_step, hlt, hw, sweep_white, hc.1, hc.2]
  · by_cases ht : Tag_hd (Hd_hp st.s.mem st.s.caml_gc_sweep_hp) = Custom_tag
    · have hf : env.custom_finalize st.s.mem (Val_hp st.s.caml_gc_sweep_hp) = 0 := by
        by_contra hne
        exact hc ⟨ht, hne⟩
      simp [sweep_step, hlt, hw, sweep_white, ht, hf]
    · simp [sweep_step, hlt, hw, sweep_white, ht]
  · have hnw : Color_hd (Hd_hp st.s.mem st.s.caml_gc_sweep_hp) ≠ Caml_white := by
      rw [hb]; decide
    have hbw : Caml_blue ≠ Caml_white := by decide
    simp [sweep_step, hlt, hb, hbw]
  · have hnw : Color_hd (Hd_hp st.s.mem st.s.caml_gc_sweep_hp) ≠ Caml_white := by
      rcases hg with hg | hg <;> rw [hg] <;> decide
    have hnb : Color_hd (Hd_hp st.s.mem st.s.caml_gc_sweep_hp) ≠ Caml_blue := by
      rcases hg with hg | hg <;> rw [hg] <;> decide
    simp [sweep_step, hlt, hnw, hnb, Color_hd_Whitehd_hd, Tag_hd_Whitehd_hd,
      Wosize_hd_Whitehd_hd, Whitehd_hd_div]

/-- Witness of C4 on the example heap: the black block D is repainted white,
its header 3840 becomes 3072. -/
theorem sweep_step_block_cases_witness :
    (ex_sweep 1064).caml_gc_sweep_hp < (ex_sweep 1064).limit
    ∧ (sweep_step ex_env { s := ex_sweep 1064, work := 5 }).s.mem 1064 = 3072 := by
  refine ⟨by decide, ?_⟩
  have h := (sweep_step_block_cases ex_env { s := ex_sweep 1064, work := 5 } 1064 3840
    (by decide) (by decide) (by decide)).2.2 (Or.inr (by decide))
  rw [h.1]
  decide

/-- The step of sweep_slice past the last chunk, and every other step, on the
collection counter and the phase. -/
theorem sweep_step_end_cases (env : Env) (st : SweepState) :
    (¬ st.s.caml_gc_sweep_hp < st.s.limit ∧ Chunk_next st.s.mem st.s.chunk = 0 →
      (sweep_step env st).s.caml_stat_major_collections
          = st.s.caml_stat_major_collections + 1
      ∧ (sweep_step env st).s.caml_gc_phase = Phase_idle
      ∧ (sweep_step env st).work = 0
      ∧ ∀ fuel, sweep_loop env fuel (sweep_step env st) = sweep_step env st)
    ∧ (¬ (¬ st.s.caml_gc_sweep_hp < st.s.limit ∧ Chunk_next st.s.mem st.s.chunk = 0) →
      (sweep_step env st).s.caml_stat_major_collections = st.s.caml_stat_major_collections
      ∧ (sweep_step env st).s.caml_gc_phase = st.s.caml_gc_phase) := by
  constructor
  · rintro ⟨h1, h2⟩
    have hw : (sweep_step env st).work = 0 := by simp [sweep_step, h1, h2]
    refine ⟨by simp [sweep_step, h1, h2], by simp [sweep_step, h1, h2], hw, ?_⟩
    intro fuel
    cases fuel with
    | zero => rfl
    | succ n => simp [sweep_loop, hw]
  · intro h
    by_cases h1 : st.s.caml_gc_sweep_hp < st.s.limit
    · simp only [sweep_step, h1, if_true]
      split_ifs
      · simp only [sweep_white]
        split_ifs <;> simp
      · simp
      · simp
    · have h2 : Chunk_next st.s.mem st.s.chunk ≠ 0 := fun h2 => h ⟨h1, h2⟩
      simp [sweep_step, h1, h2]

/-- C5. When sweep_slice is past the end of the last chunk it increments
caml_stat_major_collections by one, sets the phase to Phase_idle and stops the
slice; every other step of the sweep leaves the counter and the phase
unchanged. -/
theorem sweep_step_end_of_heap (env : Env) (st : SweepState) :
    (¬ st.s.caml_gc_sweep_hp < st.s.limit ∧ Chunk_next st.s.mem st.s.chunk = 0 →
      (sweep_step env st).s.caml_stat_major_collections
          = st.s.caml_stat_major_collections + 1
      ∧ (sweep_step env st).s.caml_gc_phase = Phase_idle
      ∧ (sweep_step env st).work = 0
      ∧ ∀ fuel, sweep_loop env fuel (sweep_step env st) = sweep_step env st)
    ∧ (¬ (¬ st.s.caml_gc_sweep_hp < st.s.limit ∧ Chunk_next st.s.mem st.s.chunk = 0) →
      (sweep_step env st).s.caml_stat_major_collections = st.s.caml_stat_major_collections
      ∧ (sweep_step env st).s.caml_gc_phase = st.s.caml_gc_phase) :=
  sweep_step_end_cases env st

/-- Witness of C5 on the example heap: with the sweep pointer at the limit of
the only chunk the step ends the cycle. -/
theorem sweep_step_end_of_heap_witness :
    (sweep_step ex_env { s := ex_sweep 1096, work := 5 }).s.caml_stat_major_collections = 1
    ∧ (sweep_step ex_env { s := ex_sweep 1096, work := 5 }).s.caml_gc_phase = Phase_idle := by
  have h := (sweep_step_end_of_heap ex_env { s := ex_sweep 1096, work := 5 }).1
    ⟨by decide, by decide⟩
  exact ⟨h.1, h.2.1⟩

/-! ## caml_major_collection_slice called in the idle phase -/

theorem slice_distribute_phase (s : State) :
    (slice_distribute s).caml_gc_phase = s.caml_gc_phase := by
  simp only [slice_distribute]; split_ifs <;> rfl

theorem slice_credit_phase (s : State) (howmuch : Int) :
    (slice_credit s howmuch).caml_gc_phase = s.caml_gc_phase := by
  simp only [slice_credit]; split_ifs <;> rfl

/-- C9. Called with the phase Phase_idle, caml_major_collection_slice starts a
cycle: on return the phase is Phase_mark and the subphase Subphase_roots, and
no marking or sweeping was done: memory, the gray stack, the scan and sweep
positions are as before and the only call to another file is
caml_darken_all_roots_start. -/
theorem slice_in_idle_starts_cycle (env : Env) (fuel : Nat) (s : State) (howmuch : Int)
    (h : s.caml_gc_phase = Phase_idle) :
    (caml_major_collection_slice env fuel s howmuch).caml_gc_phase = Phase_mark
    ∧ (caml_major_collection_slice env fuel s howmuch).caml_gc_subphase = Subphase_roots
    ∧ (caml_major_collection_slice env fuel s howmuch).mem = s.mem
    ∧ (caml_major_collection_slice env fuel s howmuch).gray_vals = s.gray_vals
    ∧ (caml_major_collection_slice env fuel s howmuch).heap_is_pure = s.heap_is_pure
    ∧ (caml_major_collection_slice env fuel s howmuch).current_value = s.current_value
    ∧ (caml_major_collection_slice env fuel s howmuch).current_index = s.current_index
    ∧ (caml_major_collection_slice env fuel s howmuch).caml_gc_sweep_hp = s.caml_gc_sweep_hp
    ∧ (caml_major_collection_slice env fuel s howmuch).caml_stat_major_collections
        = s.caml_stat_major_collections
    ∧ (caml_major_collection_slice env fuel s howmuch).events
        = Event.darken_all_roots_start :: s.events := by
  have h2 : (slice_credit (slice_distribute s) howmuch).caml_gc_phase = Phase_idle := by
    rw [slice_credit_phase, slice_distribute_phase, h]
  simp only [caml_major_collection_slice, slice_work, h2, if_true, slice_finish, start_cycle]
  refine ⟨trivial, trivial, ?_, ?_, ?_, ?_, ?_, ?_, ?_, ?_⟩ <;>
    (simp only [slice_credit, slice_distribute]; split_ifs <;> rfl)

/-- Witness of C9 on the example heap, for an automatic slice. -/
theorem slice_in_idle_starts_cycle_witness :
    ex_idle.caml_gc_phase = Phase_idle
    ∧ (caml_major_collection_slice ex_env 10 ex_idle (-1)).caml_gc_phase = Phase_mark
    ∧ (caml_major_collection_slice ex_env 10 ex_idle (-1)).caml_gc_subphase
        = Subphase_roots :=
  ⟨rfl, (slice_in_idle_starts_cycle ex_env 10 ex_idle (-1) rfl).1,
    (slice_in_idle_starts_cycle ex_env 10 ex_idle (-1) rfl).2.1⟩

/-! ## What the heap operations leave unchanged -/

theorem HeapFrame.frame_refl (s : State) : HeapFrame s s := rfl

theorem HeapFrame.frame_trans {a b c : State} (h1 : HeapFrame a b) (h2 : HeapFrame b c) :
    HeapFrame a c := by
  unfold HeapFrame at *
  rw [h2, h1]

theorem HeapFrame.frame_phase {a b : State} (h : HeapFrame a b) :
    b.caml_gc_phase = a.caml_gc_phase := by rw [h]

theorem HeapFrame.frame_subphase {a b : State} (h : HeapFrame a b) :
    b.caml_gc_subphase = a.caml_gc_subphase := by rw [h]

theorem HeapFrame.frame_pos {a b : State} (h : HeapFrame a b) :
    cycle_pos b = cycle_pos a := by
  unfold cycle_pos
  rw [h.frame_phase, h.frame_subphase]

theorem HeapFrame.to_pacing {a b : State} (h : HeapFrame a b) : PacingFrame a b := by
  unfold PacingFrame
  rw [h]
  exact ⟨rfl, rfl, rfl, rfl, rfl, rfl, rfl, rfl, rfl⟩

theorem realloc_gray_vals_frame (env : Env) (s : State) :
    HeapFrame s (realloc_gray_vals env s) := by
  unfold realloc_gray_vals
  split_ifs <;> rfl

theorem gray_push_frame (env : Env) (s : State) (v : Nat) :
    HeapFrame s (gray_push env s v) := by
  simp only [gray_push]
  split_ifs
  · exact HeapFrame.frame_trans (b := { s with gray_vals := v :: s.gray_vals }) rfl
      (realloc_gray_vals_frame env _)
  · rfl

theorem caml_darken_frame (env : Env) (s : State) (v : Nat) :
    HeapFrame s (caml_darken env s v) := by
  simp only [caml_darken]
  split_ifs
  all_goals first
    | rfl
    | exact HeapFrame.frame_trans (b := { s with mem := _ }) rfl (gray_push_frame env _ _)

theorem foldl_caml_darken_frame (env : Env) (l : List Nat) (s : State) :
    HeapFrame s (l.foldl (caml_darken env) s) := by
  induction l generalizing s with
  | nil => rfl
  | cons x xs ih => exact HeapFrame.frame_trans (caml_darken_frame env s x) (ih _)

theorem mark_child_frame (env : Env) (s : State) (child chd : Nat) :
    HeapFrame s (mark_child env s child chd) := by
  simp only [mark_child]
  split_ifs
  · exact HeapFrame.frame_trans (b := { s with mem := _ }) rfl (gray_push_frame env _ _)
  · rfl

theorem mark_field_frame (env : Env) (v i : Nat) (s : State) :
    HeapFrame s (mark_field env v i s) := by
  simp only [mark_field]
  split_ifs
  all_goals first
    | rfl
    | exact mark_child_frame env _ _ _

theorem mark_fields_frame (env : Env) (v n i : Nat) (s : State) :
    HeapFrame s (mark_fields env v n i s) := by
  induction n generalizing i s with
  | zero => rfl
  | succ n ih => exact HeapFrame.frame_trans (mark_field_frame env v i s) (ih _ _)

theorem weak_clear_frame (env : Env) (cur i curfield : Nat) (s : State) :
    HeapFrame s (weak_clear env cur i curfield s) := by
  simp only [weak_clear]
  split_ifs <;> rfl

theorem weak_again_frame (env : Env) (cur i fuel curfield : Nat) (s : State) :
    HeapFrame s (weak_again env cur i fuel curfield s) := by
  induction fuel generalizing curfield s with
  | zero => rfl
  | succ n ih =>
    simp only [weak_again]
    split_ifs
    all_goals first
      | rfl
      | exact weak_clear_frame env _ _ _ _
      | exact HeapFrame.frame_trans (b := { s with mem := _ }) rfl (ih _ _)

theorem weak_fields_frame (env : Env) (cur n i : Nat) (s : State) :
    HeapFrame s (weak_fields env cur n i s) := by
  induction n generalizing i s with
  | zero => rfl
  | succ n ih => exact HeapFrame.frame_trans (weak_again_frame env cur i _ _ s) (ih _ _)

/-! ## The positions visited by start_cycle, mark_slice and sweep_slice -/

theorem cycle_pos_congr {a b : State} (h1 : b.caml_gc_phase = a.caml_gc_phase)
    (h2 : b.caml_gc_subphase = a.caml_gc_subphase) : cycle_pos b = cycle_pos a := by
  unfold cycle_pos
  rw [h1, h2]

theorem mark_pop_pos (st : MarkState) :
    (mark_pop st).s.caml_gc_phase = st.s.caml_gc_phase
    ∧ (mark_pop st).s.caml_gc_subphase = st.s.caml_gc_subphase := by
  unfold mark_pop
  split_ifs
  · split <;> exact ⟨rfl, rfl⟩
  · exact ⟨rfl, rfl⟩

theorem mark_value_frame (env : Env) (st : MarkState) :
    HeapFrame st.s (mark_value env st).s := by
  simp only [mark_value]
  split_ifs
  all_goals first
    | rfl
    | exact mark_fields_frame env _ _ _ _
    | exact HeapFrame.frame_trans (mark_fields_frame env _ _ _ st.s) rfl

theorem mark_heap_scan_pos (st : MarkState) :
    (mark_heap_scan st).s.caml_gc_phase = st.s.caml_gc_phase
    ∧ (mark_heap_scan st).s.caml_gc_subphase = st.s.caml_gc_subphase := by
  simp only [mark_heap_scan]
  split_ifs <;> exact ⟨rfl, rfl⟩

theorem mark_roots_step (env : Env) (st : MarkState)
    (hp : st.s.caml_gc_phase = Phase_mark) (hs : st.s.caml_gc_subphase = Subphase_roots) :
    (mark_roots env st).s.caml_gc_phase = Phase_mark
    ∧ ((mark_roots env st).s.caml_gc_subphase = Subphase_roots
       ∨ (mark_roots env st).s.caml_gc_subphase = Subphase_main) := by
  have hf := foldl_caml_darken_frame env (env.roots_slice st.s st.work).1
    { st.s with events := Event.darken_all_roots_slice st.work :: st.s.events }
  simp only [mark_roots]
  split_ifs
  · exact ⟨by simpa [hp] using hf.frame_phase, Or.inr rfl⟩
  · exact ⟨by simpa [hp] using hf.frame_phase, Or.inl (by simpa [hs] using hf.frame_subphase)⟩

theorem mark_weak1_step (env : Env) (st : MarkState)
    (hp : st.s.caml_gc_phase = Phase_mark) (hs : st.s.caml_gc_subphase = Subphase_weak1) :
    (mark_weak1 env st).s.caml_gc_phase = Phase_mark
    ∧ ((mark_weak1 env st).s.caml_gc_subphase = Subphase_weak1
       ∨ (mark_weak1 env st).s.caml_gc_subphase = Subphase_weak2) := by
  simp only [mark_weak1]
  split_ifs
  · have hf := weak_fields_frame env (st.s.mem st.s.weak_prev)
      (Wosize_hd (Hd_val st.s.mem (st.s.mem st.s.weak_prev)) - 1) 1 st.s
    exact ⟨by simpa [hp] using hf.frame_phase, Or.inl (by simpa [hs] using hf.frame_subphase)⟩
  · have hf := foldl_caml_darken_frame env (env.final_update st.s)
      { st.s with events := Event.final_update :: st.s.events }
    split <;> exact ⟨by simpa [hp] using hf.frame_phase, Or.inr rfl⟩

theorem mark_weak2_step (st : MarkState)
    (hp : st.s.caml_gc_phase = Phase_mark) (hs : st.s.caml_gc_subphase = Subphase_weak2) :
    (mark_weak2 st).s.caml_gc_phase = Phase_mark
    ∧ ((mark_weak2 st).s.caml_gc_subphase = Subphase_weak2
       ∨ (mark_weak2 st).s.caml_gc_subphase = Subphase_final) := by
  simp only [mark_weak2]
  split_ifs
  · exact ⟨hp, Or.inl hs⟩
  · exact ⟨hp, Or.inl hs⟩
  · exact ⟨hp, Or.inr rfl⟩

theorem mark_final_step (env : Env) (st : MarkState) :
    (mark_final env st).s.caml_gc_phase = Phase_sweep ∧ (mark_final env st).work = 0 := by
  simp only [mark_final]
  split_ifs <;> simp

/-- One switch on the subphase keeps the position or moves it to its
successor, and leaves the mark phase only with the budget set to 0. -/
theorem mark_subphase_step (env : Env) (st : MarkState)
    (hp : st.s.caml_gc_phase = Phase_mark) :
    phase_step st.s (mark_subphase env st).s
    ∧ ((mark_subphase env st).s.caml_gc_phase = Phase_mark
       ∨ (mark_subphase env st).work ≤ 0) := by
  unfold mark_subphase
  by_cases h0 : st.s.caml_gc_subphase = Subphase_roots
  · rw [if_pos h0]
    obtain ⟨h1, h2⟩ := mark_roots_step env st hp h0
    refine ⟨?_, Or.inl h1⟩
    rcases h2 with h2 | h2
    · exact Or.inl (cycle_pos_congr (h1.trans hp.symm) (h2.trans h0.symm))
    · right
      simp [cycle_pos, h1, h2, hp, h0, Phase_mark, Phase_idle, Phase_sweep, Subphase_roots,
        Subphase_main, CyclePos.next]
  rw [if_neg h0]
  by_cases h1 : st.s.caml_gc_subphase = Subphase_main
  · rw [if_pos h1]
    refine ⟨Or.inr ?_, Or.inl hp⟩
    simp [cycle_pos, hp, h1, Phase_mark, Phase_idle, Phase_sweep, Subphase_roots,
        Subphase_main, Subphase_weak1, CyclePos.next]
  rw [if_neg h1]
  by_cases h2 : st.s.caml_gc_subphase = Subphase_weak1
  · rw [if_pos h2]
    obtain ⟨k1, k2⟩ := mark_weak1_step env st hp h2
    refine ⟨?_, Or.inl k1⟩
    rcases k2 with k2 | k2
    · exact Or.inl (cycle_pos_congr (k1.trans hp.symm) (k2.trans h2.symm))
    · right
      simp [cycle_pos, k1, k2, hp, h2, Phase_mark, Phase_idle, Phase_sweep, Subphase_roots,
        Subphase_main, Subphase_weak1, Subphase_weak2, CyclePos.next]
  rw [if_neg h2]
  by_cases h3 : st.s.caml_gc_subphase = Subphase_weak2
  · rw [if_pos h3]
    obtain ⟨k1, k2⟩ := mark_weak2_step st hp h3
    refine ⟨?_, Or.inl k1⟩
    rcases k2 with k2 | k2
    · exact Or.inl (cycle_pos_congr (k1.trans hp.symm) (k2.trans h3.symm))
    · right
      simp [cycle_pos, k1, k2, hp, h3, Phase_mark, Phase_idle, Phase_sweep, Subphase_roots,
        Subphase_main, Subphase_weak1, Subphase_weak2, Subphase_final, CyclePos.next]
  rw [if_neg h3]
  by_cases h4 : st.s.caml_gc_subphase = Subphase_final
  · rw [if_pos h4]
    obtain ⟨k1, k2⟩ := mark_final_step env st
    refine ⟨Or.inr ?_, Or.inr (le_of_eq k2)⟩
    simp [cycle_pos, k1, hp, h4, Phase_mark, Phase_idle, Phase_sweep, Subphase_roots,
        Subphase_main, Subphase_weak1, Subphase_weak2, Subphase_final, CyclePos.next]
  rw [if_neg h4]
  exact ⟨Or.inl rfl, Or.inl hp⟩

/-- One iteration of the loop of mark_slice keeps the position or moves it to
its successor, and leaves the mark phase only with the budget set to 0. -/
theorem mark_step_phase_step (env : Env) (st : MarkState)
    (hp : st.s.caml_gc_phase = Phase_mark) :
    phase_step st.s (mark_step env st).s
    ∧ ((mark_step env st).s.caml_gc_phase = Phase_mark ∨ (mark_step env st).work ≤ 0) := by
  obtain ⟨p1, p2⟩ := mark_pop_pos st
  have hp1 : (mark_pop st).s.caml_gc_phase = Phase_mark := p1.trans hp
  have hc : cycle_pos (mark_pop st).s = cycle_pos st.s := cycle_pos_congr p1 p2
  simp only [mark_step]
  split_ifs
  · have hf := mark_value_frame env (mark_pop st)
    exact ⟨Or.inl (hf.frame_pos.trans hc), Or.inl (hf.frame_phase.trans hp1)⟩
  · obtain ⟨q1, q2⟩ := mark_heap_scan_pos (mark_pop st)
    exact ⟨Or.inl ((cycle_pos_congr q1 q2).trans hc), Or.inl (q1.trans hp1)⟩
  · exact ⟨Or.inl ((cycle_pos_congr rfl rfl).trans hc), Or.inl hp1⟩
  · obtain ⟨r1, r2⟩ := mark_subphase_step env (mark_pop st) hp1
    refine ⟨?_, r2⟩
    unfold phase_step at r1 ⊢
    rw [hc] at r1
    exact r1

/-- One iteration of the loop of sweep_slice keeps the position or moves it
from Sweep to Idle, and leaves the sweep phase only with the budget set to 0. -/
theorem sweep_step_phase_step (env : Env) (st : SweepState)
    (hp : st.s.caml_gc_phase = Phase_sweep) :
    phase_step st.s (sweep_step env st).s
    ∧ ((sweep_step env st).s.caml_gc_phase = Phase_sweep ∨ (sweep_step env st).work ≤ 0) := by
  by_cases h : ¬ st.s.caml_gc_sweep_hp < st.s.limit ∧ Chunk_next st.s.mem st.s.chunk = 0
  · obtain ⟨-, k2, k3, -⟩ := (sweep_step_end_cases env st).1 h
    refine ⟨Or.inr ?_, Or.inr (le_of_eq k3)⟩
    simp [cycle_pos, k2, hp, Phase_idle, Phase_sweep, CyclePos.next]
  · obtain ⟨-, k2⟩ := (sweep_step_end_cases env st).2 h
    refine ⟨Or.inl ?_, Or.inl (k2.trans hp)⟩
    simp [cycle_pos, k2, hp, Phase_idle, Phase_sweep]

theorem mark_trace_head (env : Env) (fuel : Nat) (st : MarkState) :
    (mark_trace env fuel st).head? = some st.s := by
  cases fuel <;> rfl

theorem sweep_trace_head (env : Env) (fuel : Nat) (st : SweepState) :
    (sweep_trace env fuel st).head? = some st.s := by
  cases fuel <;> rfl

theorem mark_trace_getLast (env : Env) (fuel : Nat) (st : MarkState) :
    (mark_trace env fuel st).getLast? = some (mark_loop env fuel st).s := by
  induction fuel generalizing st with
  | zero => rfl
  | succ n ih =>
    simp only [mark_trace, mark_loop]
    split_ifs with h
    · rw [List.getLast?_cons, ih]
      rfl
    · rfl

theorem sweep_trace_getLast (env : Env) (fuel : Nat) (st : SweepState) :
    (sweep_trace env fuel st).getLast? = some (sweep_loop env fuel st).s := by
  induction fuel generalizing st with
  | zero => rfl
  | succ n ih =>
    simp only [sweep_trace, sweep_loop]
    split_ifs with h
    · rw [List.getLast?_cons, ih]
      rfl
    · rfl

theorem mark_trace_chain (env : Env) (fuel : Nat) (st : MarkState)
    (h : st.s.caml_gc_phase = Phase_mark ∨ st.work ≤ 0) :
    List.Chain' phase_step (mark_trace env fuel st) := by
  induction fuel generalizing st with
  | zero => simp [mark_trace]
  | succ n ih =>
    simp only [mark_trace]
    split_ifs with hw
    · have hp : st.s.caml_gc_phase = Phase_mark := by
        rcases h with h | h
        · exact h
        · omega
      obtain ⟨k1, k2⟩ := mark_step_phase_step env st hp
      rw [List.chain'_cons']
      refine ⟨?_, ih _ k2⟩
      intro y hy
      rw [mark_trace_head] at hy
      cases hy
      exact k1
    · simp

theorem sweep_trace_chain (env : Env) (fuel : Nat) (st : SweepState)
    (h : st.s.caml_gc_phase = Phase_sweep ∨ st.work ≤ 0) :
    List.Chain' phase_step (sweep_trace env fuel st) := by
  induction fuel generalizing st with
  | zero => simp [sweep_trace]
  | succ n ih =>
    simp only [sweep_trace]
    split_ifs with hw
    · have hp : st.s.caml_gc_phase = Phase_sweep := by
        rcases h with h | h
        · exact h
        · omega
      obtain ⟨k1, k2⟩ := sweep_step_phase_step env st hp
      rw [List.chain'_cons']
      refine ⟨?_, ih _ k2⟩
      intro y hy
      rw [sweep_trace_head] at hy
      cases hy
      exact k1
    · simp

/-- C1. Every change of the pair (caml_gc_phase, caml_gc_subphase) made by
start_cycle, mark_slice and sweep_slice moves to the immediate successor in the
cycle Idle, Mark/Roots, Mark/Main, Mark/Weak1, Mark/Weak2, Mark/Final, Sweep,
Idle.  start_cycle, called in Idle, moves to Mark/Roots; along the states that
the loop of mark_slice, called in the mark phase, goes through, and along those
of sweep_slice, called in the sweep phase, each state has the position of the
one before or its successor; the last of these states is the one the slice
returns in. -/
theorem phase_changes_follow_cycle :
    (∀ s : State, s.caml_gc_phase = Phase_idle →
      cycle_pos s = some CyclePos.idle
      ∧ cycle_pos (start_cycle s) = (cycle_pos s).map CyclePos.next)
    ∧ (∀ (env : Env) (fuel : Nat) (s : State) (work : Int),
        s.caml_gc_phase = Phase_mark →
        List.Chain' phase_step (mark_trace env fuel (mark_enter s work))
        ∧ (mark_trace env fuel (mark_enter s work)).head? = some s
        ∧ ((mark_trace env fuel (mark_enter s work)).getLast?).map cycle_pos
            = some (cycle_pos (mark_slice env fuel s work)))
    ∧ (∀ (env : Env) (fuel : Nat) (s : State) (work : Int),
        s.caml_gc_phase = Phase_sweep →
        List.Chain' phase_step (sweep_trace env fuel { s := s, work := work })
        ∧ (sweep_trace env fuel { s := s, work := work }).head? = some s
        ∧ (sweep_trace env fuel { s := s, work := work }).getLast?
            = some (sweep_slice env fuel s work)) := by
  refine ⟨fun s h => ?_, fun env fuel s work h => ?_, fun env fuel s work h => ?_⟩
  · simp [cycle_pos, start_cycle, h, Phase_idle, Phase_mark, Phase_sweep, CyclePos.next]
  · refine ⟨mark_trace_chain env fuel _ (Or.inl h), mark_trace_head env fuel _, ?_⟩
    rw [mark_trace_getLast]
    rfl
  · exact ⟨sweep_trace_chain env fuel _ (Or.inl h), sweep_trace_head env fuel _,
      sweep_trace_getLast env fuel _⟩

/-- Witness of C1 on the example heap: a marking slice of 400 words started at
Mark/Roots goes through every subphase in order and ends in Sweep. -/
theorem phase_changes_follow_cycle_witness :
    ex_mark.caml_gc_phase = Phase_mark
    ∧ List.Chain' phase_step (mark_trace ex_env 30 (mark_enter ex_mark 400))
    ∧ ((mark_trace ex_env 30 (mark_enter ex_mark 400)).map cycle_pos).dedup
        = [some CyclePos.roots, some CyclePos.main, some CyclePos.weak1,
           some CyclePos.weak2, some CyclePos.final, some CyclePos.sweep] :=
  ⟨rfl, (phase_changes_follow_cycle.2.1 ex_env 30 ex_mark 400 rfl).1, by decide⟩

/-! ## The budget of mark_slice -/

theorem mark_pop_work (st : MarkState) :
    (mark_pop st).work = st.work ∧ (mark_pop st).slice_fields = st.slice_fields := by
  unfold mark_pop
  split_ifs
  · split <;> exact ⟨rfl, rfl⟩
  · exact ⟨rfl, rfl⟩

theorem mark_value_work (env : Env) (st : MarkState) (hw : st.work > 0) :
    ((mark_value env st).slice_fields : Int) + max (mark_value env st).work 0
      ≤ st.slice_fields + st.work := by
  have ht : ((st.work.toNat : Nat) : Int) = st.work := Int.toNat_of_nonneg (le_of_lt hw)
  simp only [mark_value, Whsize_wosize]
  split_ifs <;> simp only [] <;> push_cast <;> omega

theorem mark_heap_scan_work (st : MarkState) :
    (mark_heap_scan st).work = st.work
    ∧ (mark_heap_scan st).slice_fields = st.slice_fields := by
  simp only [mark_heap_scan]
  split_ifs <;> exact ⟨rfl, rfl⟩

theorem mark_subphase_work (env : Env) (st : MarkState) (hw : st.work > 0) :
    (mark_subphase env st).slice_fields = st.slice_fields
    ∧ (mark_subphase env st).work ≤ st.work := by
  simp only [mark_subphase, mark_roots, mark_weak1, mark_weak2, mark_final]
  split_ifs <;> first
    | exact ⟨rfl, le_refl _⟩
    | (refine ⟨rfl, ?_⟩; simp only []; omega)
    | (split <;> exact ⟨rfl, le_refl _⟩)

theorem mark_step_work (env : Env) (st : MarkState) (hw : st.work > 0) :
    ((mark_step env st).slice_fields : Int) + max (mark_step env st).work 0
      ≤ st.slice_fields + st.work := by
  obtain ⟨p1, p2⟩ := mark_pop_work st
  have hw1 : (mark_pop st).work > 0 := by rw [p1]; exact hw
  simp only [mark_step]
  split_ifs
  · have := mark_value_work env (mark_pop st) hw1
    rw [p1, p2] at this
    exact this
  · obtain ⟨q1, q2⟩ := mark_heap_scan_work (mark_pop st)
    rw [q1, q2, p1, p2]
    omega
  · simp only []
    rw [p1, p2]
    omega
  · obtain ⟨q1, q2⟩ := mark_subphase_work env (mark_pop st) hw1
    rw [q1, p2]
    rw [p1] at q2
    omega

theorem mark_loop_work (env : Env) (fuel : Nat) (st : MarkState) :
    ((mark_loop env fuel st).slice_fields : Int) + max (mark_loop env fuel st).work 0
      ≤ st.slice_fields + max st.work 0 := by
  induction fuel generalizing st with
  | zero => exact le_refl _
  | succ n ih =>
    simp only [mark_loop]
    split_ifs with hw
    · have h1 := ih (mark_step env st)
      have h2 := mark_step_work env st hw
      omega
    · exact le_refl _

/-- C3, counterexample.  On the example heap, in the mark phase, mark_slice
called with a budget of 5 words charges 7: after the root and the record A the
counter is 1, and the string B of two words is charged whole, header
included, which leaves the counter at -2. -/
theorem mark_slice_budget_counterexample :
    ex_mark.caml_gc_phase = Phase_mark
    ∧ (mark_loop ex_env 10 (mark_enter ex_mark 5)).work = -2 := by
  decide

/-- C3, amended.  One call of mark_slice with a budget work that is not
negative scans at most work fields of scannable blocks, the counter
slice_fields of the source, and the fields scanned and what is left of the
budget together never exceed the budget.  The work counter itself may end
below zero, since a block is charged whole. -/
theorem mark_slice_fields_within_budget (env : Env) (fuel : Nat) (s : State) (work : Int)
    (h : 0 ≤ work) :
    ((mark_loop env fuel (mark_enter s work)).slice_fields : Int) ≤ work
    ∧ ((mark_loop env fuel (mark_enter s work)).slice_fields : Int)
        + max (mark_loop env fuel (mark_enter s work)).work 0 ≤ work := by
  have h1 := mark_loop_work env fuel (mark_enter s work)
  have h2 : ((mark_enter s work).slice_fields : Int) = 0 := rfl
  have h3 : (mark_enter s work).work = work := rfl
  rw [h2, h3] at h1
  constructor <;> omega

/-- Witness of C3 (amended) on the example heap: with a budget of 5 the slice
scans the two fields of the record A. -/
theorem mark_slice_fields_within_budget_witness :
    (0 : Int) ≤ 5
    ∧ (mark_loop ex_env 10 (mark_enter ex_mark 5)).slice_fields = 2
    ∧ ((mark_loop ex_env 10 (mark_enter ex_mark 5)).slice_fields : Int) ≤ 5 :=
  ⟨by decide, by decide,
    (mark_slice_fields_within_budget ex_env 10 ex_mark 5 (by decide)).1⟩

/-! ## mark_slice and sweep_slice leave the pacing variables alone -/

theorem PacingFrame.pacing_refl (s : State) : PacingFrame s s :=
  ⟨rfl, rfl, rfl, rfl, rfl, rfl, rfl, rfl, rfl⟩

theorem PacingFrame.pacing_trans {a b c : State} (h1 : PacingFrame a b) (h2 : PacingFrame b c) :
    PacingFrame a c := by
  obtain ⟨a1, a2, a3, a4, a5, a6, a7, a8, a9⟩ := h1
  obtain ⟨b1, b2, b3, b4, b5, b6, b7, b8, b9⟩ := h2
  exact ⟨b1.trans a1, b2.trans a2, b3.trans a3, b4.trans a4, b5.trans a5, b6.trans a6,
    b7.trans a7, b8.trans a8, b9.trans a9⟩

theorem mark_pop_pacing (st : MarkState) : PacingFrame st.s (mark_pop st).s := by
  unfold mark_pop
  split_ifs
  · split <;> exact PacingFrame.pacing_refl _
  · exact PacingFrame.pacing_refl _

theorem mark_heap_scan_pacing (st : MarkState) : PacingFrame st.s (mark_heap_scan st).s := by
  simp only [mark_heap_scan]
  split_ifs <;> exact PacingFrame.pacing_refl st.s

theorem mark_subphase_pacing (env : Env) (st : MarkState) :
    PacingFrame st.s (mark_subphase env st).s := by
  have h1 := (foldl_caml_darken_frame env (env.roots_slice st.s st.work).1
    { st.s with events := Event.darken_all_roots_slice st.work :: st.s.events }).to_pacing
  have h2 := (weak_fields_frame env (st.s.mem st.s.weak_prev)
      (Wosize_hd (Hd_val st.s.mem (st.s.mem st.s.weak_prev)) - 1) 1 st.s).to_pacing
  have h3 := (foldl_caml_darken_frame env (env.final_update st.s)
      { st.s with events := Event.final_update :: st.s.events }).to_pacing
  simp only [mark_subphase, mark_roots, mark_weak1, mark_weak2, mark_final]
  split_ifs <;> first
    | exact PacingFrame.pacing_refl st.s
    | exact h1
    | exact h2
    | (split <;> exact h3)

theorem mark_step_pacing (env : Env) (st : MarkState) :
    PacingFrame st.s (mark_step env st).s := by
  have h0 := mark_pop_pacing st
  simp only [mark_step]
  split_ifs
  · exact h0.pacing_trans (mark_value_frame env _).to_pacing
  · exact h0.pacing_trans (mark_heap_scan_pacing _)
  · exact h0.pacing_trans (PacingFrame.pacing_refl (mark_pop st).s)
  · exact h0.pacing_trans (mark_subphase_pacing env _)

theorem mark_loop_pacing (env : Env) (fuel : Nat) (st : MarkState) :
    PacingFrame st.s (mark_loop env fuel st).s := by
  induction fuel generalizing st with
  | zero => exact PacingFrame.pacing_refl _
  | succ n ih =>
    simp only [mark_loop]
    split_ifs
    · exact (mark_step_pacing env st).pacing_trans (ih _)
    · exact PacingFrame.pacing_refl _

theorem mark_slice_pacing (env : Env) (fuel : Nat) (s : State) (work : Int) :
    PacingFrame s (mark_slice env fuel s work) :=
  mark_loop_pacing env fuel (mark_enter s work)

theorem sweep_step_pacing (env : Env) (st : SweepState) :
    PacingFrame st.s (sweep_step env st).s := by
  simp only [sweep_step, sweep_white]
  split_ifs <;> exact PacingFrame.pacing_refl st.s

theorem sweep_loop_pacing (env : Env) (fuel : Nat) (st : SweepState) :
    PacingFrame st.s (sweep_loop env fuel st).s := by
  induction fuel generalizing st with
  | zero => exact PacingFrame.pacing_refl _
  | succ n ih =>
    simp only [sweep_loop]
    split_ifs
    · exact (sweep_step_pacing env st).pacing_trans (ih _)
    · exact PacingFrame.pacing_refl _

theorem sweep_slice_pacing (env : Env) (fuel : Nat) (s : State) (work : Int) :
    PacingFrame s (sweep_slice env fuel s work) :=
  sweep_loop_pacing env fuel { s := s, work := work }

/-- The phase that a step of mark_slice taken in the mark phase leaves. -/
theorem mark_step_phase_cases (env : Env) (st : MarkState)
    (hp : st.s.caml_gc_phase = Phase_mark) :
    (mark_step env st).s.caml_gc_phase = Phase_mark
    ∨ ((mark_step env st).s.caml_gc_phase = Phase_sweep ∧ (mark_step env st).work ≤ 0) := by
  obtain ⟨p1, -⟩ := mark_pop_pos st
  have hp1 : (mark_pop st).s.caml_gc_phase = Phase_mark := p1.trans hp
  simp only [mark_step]
  split_ifs
  · exact Or.inl ((mark_value_frame env (mark_pop st)).frame_phase.trans hp1)
  · exact Or.inl ((mark_heap_scan_pos (mark_pop st)).1.trans hp1)
  · exact Or.inl hp1
  · generalize mark_pop st = st1 at hp1 ⊢
    unfold mark_subphase
    by_cases h0 : st1.s.caml_gc_subphase = Subphase_roots
    · rw [if_pos h0]; exact Or.inl (mark_roots_step env st1 hp1 h0).1
    rw [if_neg h0]
    by_cases h1 : st1.s.caml_gc_subphase = Subphase_main
    · rw [if_pos h1]; exact Or.inl hp1
    rw [if_neg h1]
    by_cases h2 : st1.s.caml_gc_subphase = Subphase_weak1
    · rw [if_pos h2]; exact Or.inl (mark_weak1_step env st1 hp1 h2).1
    rw [if_neg h2]
    by_cases h3 : st1.s.caml_gc_subphase = Subphase_weak2
    · rw [if_pos h3]; exact Or.inl (mark_weak2_step st1 hp1 h3).1
    rw [if_neg h3]
    by_cases h4 : st1.s.caml_gc_subphase = Subphase_final
    · rw [if_pos h4]
      exact Or.inr ⟨(mark_final_step env st1).1, le_of_eq (mark_final_step env st1).2⟩
    rw [if_neg h4]
    exact Or.inl hp1

theorem mark_loop_phase_cases (env : Env) (fuel : Nat) (st : MarkState)
    (hp : st.s.caml_gc_phase = Phase_mark
          ∨ (st.s.caml_gc_phase = Phase_sweep ∧ st.work ≤ 0)) :
    (mark_loop env fuel st).s.caml_gc_phase = Phase_mark
    ∨ (mark_loop env fuel st).s.caml_gc_phase = Phase_sweep := by
  induction fuel generalizing st with
  | zero => exact hp.imp id (fun h => h.1)
  | succ n ih =>
    simp only [mark_loop]
    split_ifs with hw
    · refine ih _ (mark_step_phase_cases env st ?_)
      rcases hp with hp | hp
      · exact hp
      · omega
    · exact hp.imp id (fun h => h.1)

/-- Called in the mark phase, mark_slice returns in the mark or the sweep
phase. -/
theorem mark_slice_phase_cases (env : Env) (fuel : Nat) (s : State) (work : Int)
    (hp : s.caml_gc_phase = Phase_mark) :
    (mark_slice env fuel s work).caml_gc_phase = Phase_mark
    ∨ (mark_slice env fuel s work).caml_gc_phase = Phase_sweep :=
  mark_loop_phase_cases env fuel (mark_enter s work) (Or.inl hp)

/-! ## The balance of caml_major_collection_slice -/

theorem ring_sum_ring_add (ring : Nat → ℚ) (w : Nat) (x : ℚ) :
    ring_sum (ring_add ring w x) w = ring_sum ring w + w * x := by
  unfold ring_sum ring_add
  rw [Finset.sum_congr rfl (g := fun i => ring i + x)]
  · rw [Finset.sum_add_distrib, Finset.sum_const, Finset.card_range, nsmul_eq_mul]
  · intro i hi
    rw [if_pos (Finset.mem_range.mp hi)]

theorem ring_sum_ring_set (ring : Nat → ℚ) (w i : Nat) (x : ℚ) (hi : i < w) :
    ring_sum (ring_set ring i x) w = ring_sum ring w - ring i + x := by
  unfold ring_sum
  have hmem : i ∈ Finset.range w := Finset.mem_range.mpr hi
  rw [← Finset.add_sum_erase _ _ hmem, ← Finset.add_sum_erase _ ring hmem]
  have : ∑ j ∈ (Finset.range w).erase i, ring_set ring i x j
      = ∑ j ∈ (Finset.range w).erase i, ring j := by
    apply Finset.sum_congr rfl
    intro j hj
    simp [ring_set, Finset.ne_of_mem_erase hj]
  rw [this]
  simp [ring_set]
  ring

theorem slice_distribute_window (s : State) :
    (slice_distribute s).caml_major_window = s.caml_major_window := by
  simp only [slice_distribute]; split_ifs <;> rfl

theorem slice_distribute_credit (s : State) :
    (slice_distribute s).caml_major_work_credit = s.caml_major_work_credit := by
  simp only [slice_distribute]; split_ifs <;> rfl

theorem slice_distribute_ring (s : State) :
    (slice_distribute s).caml_major_ring
      = ring_add s.caml_major_ring s.caml_major_window
          (slice_raw_p s / (s.caml_major_window : ℚ)) := by
  simp only [slice_distribute]; split_ifs <;> rfl

theorem slice_distribute_index (s : State)
    (hi : s.caml_major_ring_index < s.caml_major_window) :
    (slice_distribute s).caml_major_ring_index < s.caml_major_window := by
  simp only [slice_distribute]
  split_ifs <;> simp only [] <;> omega

theorem slice_distribute_owed (s : State) (hw : 0 < s.caml_major_window) :
    owed (slice_distribute s) = owed s + slice_raw_p s := by
  unfold owed
  rw [slice_distribute_window, slice_distribute_credit, slice_distribute_ring,
    ring_sum_ring_add]
  have : (s.caml_major_window : ℚ) ≠ 0 := by exact_mod_cast hw.ne'
  field_simp
  ring

theorem slice_credit_window (s : State) (howmuch : Int) :
    (slice_credit s howmuch).caml_major_window = s.caml_major_window := by
  simp only [slice_credit]; split_ifs <;> rfl

theorem slice_credit_owed (s : State) (howmuch : Int)
    (hi : s.caml_major_ring_index < s.caml_major_window) :
    owed (slice_credit s howmuch) = owed s - slice_filt_p s howmuch := by
  unfold owed
  rw [slice_credit_window]
  by_cases h : howmuch = -1
  · simp only [slice_credit, slice_filt_p, if_pos h]
    rw [ring_sum_ring_set _ _ _ _ hi]
    ring
  · simp only [slice_credit, if_neg h]
    ring

theorem slice_work_pacing (env : Env) (fuel : Nat) (s : State) (filt_p : ℚ) :
    PacingFrame s (slice_work env fuel s filt_p).1 := by
  simp only [slice_work]
  split_ifs
  · exact PacingFrame.pacing_refl s
  · exact PacingFrame.pacing_refl s
  · exact mark_slice_pacing env fuel s _
  · exact mark_slice_pacing env fuel s _
  · exact sweep_slice_pacing env fuel s _
  · exact sweep_slice_pacing env fuel s _

theorem slice_work_done (env : Env) (fuel : Nat) (s : State) (howmuch : Int) :
    (slice_work env fuel (slice_credit (slice_distribute s) howmuch)
        (slice_filt_p (slice_distribute s) howmuch)).2 = slice_done s howmuch := by
  simp only [slice_work, slice_done, slice_credit_phase, slice_distribute_phase]
  split_ifs <;> rfl

theorem slice_finish_owed (s : State) (filt_p p : ℚ) (hw : 0 < s.caml_major_window) :
    owed (slice_finish s filt_p p) = owed s + (filt_p - p) := by
  have hw0 : (s.caml_major_window : ℚ) ≠ 0 := by exact_mod_cast hw.ne'
  unfold owed
  simp only [slice_finish]
  split_ifs with h
  · rw [ring_sum_ring_add]
    field_simp
    ring
  · have : min (filt_p - p) s.caml_major_work_credit = filt_p - p :=
      le_antisymm (min_le_left _ _) (not_lt.mp h)
    rw [this]
    ring

theorem PacingFrame.pacing_owed {a b : State} (h : PacingFrame a b) :
    owed b = owed a := by
  unfold owed
  rw [h.1, h.2.1, h.2.2.2.1]

theorem slice_finish_phase (s : State) (filt_p p : ℚ) :
    (slice_finish s filt_p p).caml_gc_phase = s.caml_gc_phase := rfl

/-- Called in the mark phase, caml_major_collection_slice returns in the mark
or the sweep phase. -/
theorem slice_in_mark_phase_cases (env : Env) (fuel : Nat) (s : State) (howmuch : Int)
    (hp : s.caml_gc_phase = Phase_mark) :
    (caml_major_collection_slice env fuel s howmuch).caml_gc_phase = Phase_mark
    ∨ (caml_major_collection_slice env fuel s howmuch).caml_gc_phase = Phase_sweep := by
  have h2 : (slice_credit (slice_distribute s) howmuch).caml_gc_phase = Phase_mark := by
    rw [slice_credit_phase, slice_distribute_phase, hp]
  have hm := mark_slice_phase_cases env fuel (slice_credit (slice_distribute s) howmuch)
    (computed_work (slice_credit (slice_distribute s) howmuch)
      (slice_filt_p (slice_distribute s) howmuch)) h2
  have hne : Phase_mark ≠ Phase_idle := by decide
  simp only [caml_major_collection_slice, slice_finish_phase, slice_work, h2, hne, if_false,
    if_true]
  split_ifs with h3 h4
  · exact Or.inl h2
  · rcases hm with hm | hm <;> rw [hm] at h4 <;> exact absurd h4 (by decide)
  · exact hm

/-- The pacing variables after caml_major_collection_slice are those that the
statements before and after the collection work compute. -/
theorem slice_pacing_result (env : Env) (fuel : Nat) (s : State) (howmuch : Int) :
    PacingFrame
      (slice_finish (slice_credit (slice_distribute s) howmuch)
        (slice_filt_p (slice_distribute s) howmuch) (slice_done s howmuch))
      (caml_major_collection_slice env fuel s howmuch) := by
  have hf := slice_work_pacing env fuel (slice_credit (slice_distribute s) howmuch)
    (slice_filt_p (slice_distribute s) howmuch)
  obtain ⟨a1, a2, a3, a4, a5, a6, a7, a8, a9⟩ := hf
  simp only [caml_major_collection_slice, slice_work_done]
  simp only [PacingFrame, slice_finish, a1, a2, a3, a4, a5, a6, a7, a8, a9]
  exact ⟨trivial, trivial, trivial, trivial, trivial, trivial, trivial, trivial, trivial⟩

/-- C6, counterexample.  On the example heap in the mark phase, with 1/256 in
the only bucket, no credit and nothing allocated, a slice requested with
howmuch = 0 neither starts nor finishes a cycle, and the buckets plus the
credit go from 1/256 to 1/128: the slice adds its proportion to the credit and
leaves the bucket as it is. -/
theorem slice_outstanding_counterexample :
    ex_compute.caml_gc_phase ≠ Phase_idle
    ∧ (caml_major_collection_slice ex_env 10 ex_compute 0).caml_gc_phase ≠ Phase_idle
    ∧ outstanding ex_compute = 1 / 256
    ∧ outstanding (caml_major_collection_slice ex_env 10 ex_compute 0) = 1 / 128 := by
  refine ⟨by decide, ?_, ?_, ?_⟩
  · rcases slice_in_mark_phase_cases ex_env 10 ex_compute 0 rfl with h | h <;> rw [h] <;>
      decide
  · simp [outstanding, ring_sum, ex_compute, ex_mark, start_cycle, ex_idle]
  · obtain ⟨a1, a2, -, a4, -⟩ := slice_pacing_result ex_env 10 ex_compute 0
    unfold outstanding
    rw [a1, a2, a4]
    have e1 : ex_compute.caml_gc_clock = 0 := rfl
    have e2 : ex_compute.caml_major_window = 1 := rfl
    have e3 : ex_compute.caml_major_ring = fun _ => 1 / 256 := rfl
    have e4 : ex_compute.caml_major_ring_index = 0 := rfl
    have e5 : ex_compute.caml_major_work_credit = 0 := rfl
    have e6 : ex_compute.caml_gc_phase = Phase_mark := rfl
    have hp : slice_raw_p ex_compute = 0 := by
      norm_num [slice_raw_p, ex_compute, ex_mark, start_cycle, ex_idle]
    have hf : slice_filt_p (slice_distribute ex_compute) 0 = 1 / 256 := by
      norm_num [slice_filt_p, slice_distribute, hp, ring_add, e1, e2, e3, e4]
    have hdone : slice_done ex_compute 0 = 1 / 256 := by
      simp only [slice_done, hf, e6]
      norm_num [Phase_mark, Phase_idle]
    rw [hf, hdone]
    norm_num [slice_finish, slice_credit, slice_distribute, slice_filt_p, hp, ring_sum,
      ring_add, e1, e2, e3, e4, e5]

/-- C6, amended.  With a window of at least one bucket and the ring index
inside the window, every call of caml_major_collection_slice changes the work
owed, the sum of the buckets of the window less the work credit, by exactly
the proportion ordered by the allocation since the last slice less the
proportion of work that the call performs; the window is unchanged.  Work
enters the ring by allocation only and leaves it by collection work only. -/
theorem slice_owed_balance (env : Env) (fuel : Nat) (s : State) (howmuch : Int)
    (hw : 0 < s.caml_major_window)
    (hi : s.caml_major_ring_index < s.caml_major_window) :
    owed (caml_major_collection_slice env fuel s howmuch)
        = owed s + slice_raw_p s - slice_done s howmuch
    ∧ (caml_major_collection_slice env fuel s howmuch).caml_major_window
        = s.caml_major_window := by
  have h1 := slice_pacing_result env fuel s howmuch
  have hw2 : 0 < (slice_credit (slice_distribute s) howmuch).caml_major_window := by
    rw [slice_credit_window, slice_distribute_window]; exact hw
  have hi2 : (slice_distribute s).caml_major_ring_index
      < (slice_distribute s).caml_major_window := by
    rw [slice_distribute_window]; exact slice_distribute_index s hi
  constructor
  · rw [h1.pacing_owed, slice_finish_owed _ _ _ hw2, slice_credit_owed _ _ hi2,
      slice_distribute_owed _ hw]
    ring
  · rw [h1.2.1]
    exact (slice_credit_window _ _).trans (slice_distribute_window s)

/-- Witness of C6 (amended) on the example heap: the slice requested with
howmuch = 0 orders nothing, performs 1/256 of a cycle, and the work owed goes
from 1/256 to 0. -/
theorem slice_owed_balance_witness :
    0 < ex_compute.caml_major_window
    ∧ ex_compute.caml_major_ring_index < ex_compute.caml_major_window
    ∧ owed (caml_major_collection_slice ex_env 10 ex_compute 0)
        = owed ex_compute + slice_raw_p ex_compute - slice_done ex_compute 0 :=
  ⟨by decide, by decide, (slice_owed_balance ex_env 10 ex_compute 0 (by decide) (by decide)).1⟩

/-! ## caml_set_major_window -/

/-- C7, the code at a failing input.  With a window of one bucket that holds
half a cycle, caml_set_major_window (2) leaves two empty buckets: the uintnat
total drops the fraction and the half cycle of outstanding work is lost. -/
theorem set_major_window_loses_work :
    ex_window.caml_major_window = 1
    ∧ 2 ≤ Max_major_window
    ∧ ring_sum ex_window.caml_major_ring ex_window.caml_major_window = 1 / 2
    ∧ (caml_set_major_window ex_window 2).caml_major_window = 2
    ∧ ring_sum (caml_set_major_window ex_window 2).caml_major_ring 2 = 0 := by
  have e2 : ex_window.caml_major_window = 1 := rfl
  have e3 : ex_window.caml_major_ring = fun _ => 2⁻¹ := by
    funext i
    show (1 / 2 : ℚ) = 2⁻¹
    norm_num
  have ht : window_total (fun _ => (2⁻¹ : ℚ)) 1 = 0 := by
    have hfl : ⌊(2 : ℚ)⁻¹⌋ = 0 := by
      rw [Int.floor_eq_iff]; norm_num
    simp [window_total, double_to_uintnat, double_to_intnat, hfl]
  refine ⟨rfl, by decide, ?_, ?_, ?_⟩
  · rw [e2, e3]
    simp [ring_sum]
  · simp [caml_set_major_window, e2]
  · simp [caml_set_major_window, e2, e3, ht, ring_sum, Finset.sum_range_succ]

/-! ## The ceiling on the proportion of a slice -/

theorem slice_raw_p_nonneg (s : State) : 0 ≤ slice_raw_p s := by
  have h0 : (0 : ℚ) ≤ (s.caml_allocated_words : ℚ) * 3
      * ((100 + s.caml_percent_free : Nat) : ℚ)
      / (s.caml_stat_heap_wsz : ℚ) / (s.caml_percent_free : ℚ) / 2 := by positivity
  simp only [slice_raw_p]
  split_ifs <;> linarith

theorem slice_raw_p_le (s : State) : slice_raw_p s ≤ 3 / 10 := by
  simp only [slice_raw_p]
  split_ifs <;> linarith

/-- C8, counterexample.  On the example heap in the mark phase, a slice
requested with howmuch = 1024 (the heap has 1024 words and caml_percent_free is
100) takes three cycles as its proportion and turns it into a marking budget
of 3840 words: the proportion of a forced slice is not clamped. -/
theorem slice_proportion_counterexample :
    ex_mark.caml_gc_phase = Phase_mark
    ∧ slice_filt_p (slice_distribute ex_mark) 1024 = 3
    ∧ slice_done ex_mark 1024 = 3
    ∧ computed_work (slice_credit (slice_distribute ex_mark) 1024) 3 = 3840
    ∧ ¬ ((3 : ℚ) ≤ 3 / 10) := by
  have e0 : (slice_distribute ex_mark).caml_percent_free = 100 := by
    simp only [slice_distribute]; split_ifs <;> rfl
  have e1 : (slice_distribute ex_mark).caml_stat_heap_wsz = 1024 := by
    simp only [slice_distribute]; split_ifs <;> rfl
  have hf : slice_filt_p (slice_distribute ex_mark) 1024 = 3 := by
    norm_num [slice_filt_p, e0, e1]
  have e2 : (slice_credit (slice_distribute ex_mark) 1024).caml_percent_free = 100 := by
    simp only [slice_credit]; split_ifs <;> exact e0
  have e3 : (slice_credit (slice_distribute ex_mark) 1024).caml_stat_heap_wsz = 1024 := by
    simp only [slice_credit]; split_ifs <;> exact e1
  have e4 : (slice_credit (slice_distribute ex_mark) 1024).caml_incremental_roots_count
      = 0 := by
    simp only [slice_credit, slice_distribute]; split_ifs <;> rfl
  have e5 : (slice_credit (slice_distribute ex_mark) 1024).caml_gc_phase = Phase_mark := by
    rw [slice_credit_phase, slice_distribute_phase]; rfl
  refine ⟨rfl, hf, ?_, ?_, by norm_num⟩
  · have e6 : ex_mark.caml_gc_phase = Phase_mark := rfl
    simp only [slice_done, hf, e6]
    norm_num [Phase_mark, Phase_idle]
  · simp only [computed_work, e2, e3, e4, e5, if_true, double_to_intnat]
    norm_num

/-- C8, amended.  The proportion p that caml_major_collection_slice computes
from the allocation since the last slice lies between 0 and 0.3 when it is
spread over the ring, so that one call adds at most 0.3 of a cycle to a
bucket.  The proportion that is turned into the word budget is read from the
ring or from the request and is not clamped. -/
theorem slice_ordered_proportion_le (s : State) :
    0 ≤ slice_raw_p s
    ∧ slice_raw_p s ≤ 3 / 10
    ∧ ∀ i, (slice_distribute s).caml_major_ring i ≤ s.caml_major_ring i + 3 / 10 := by
  refine ⟨slice_raw_p_nonneg s, slice_raw_p_le s, fun i => ?_⟩
  rw [slice_distribute_ring]
  have h0 := slice_raw_p_nonneg s
  have h1 := slice_raw_p_le s
  have h2 : slice_raw_p s / (s.caml_major_window : ℚ) ≤ slice_raw_p s := by
    rcases Nat.eq_zero_or_pos s.caml_major_window with hz | hpos
    · rw [hz]; simpa using h0
    · have : (1 : ℚ) ≤ (s.caml_major_window : ℚ) := by exact_mod_cast hpos
      exact div_le_self h0 this
  unfold ring_add
  split_ifs <;> linarith

/-! ## The tri-colour invariant of marking -/

/-! ## The invariant of marking: colours and memory updates -/

theorem Color_hd_cases (hd : Nat) :
    Color_hd hd = Caml_white ∨ Color_hd hd = Caml_gray ∨ Color_hd hd = Caml_blue
      ∨ Color_hd hd = Caml_black := by
  unfold Color_hd Caml_white Caml_gray Caml_blue Caml_black; omega

theorem Whitehd_hd_Grayhd_hd (hd : Nat) : Whitehd_hd (Grayhd_hd hd) = Whitehd_hd hd := by
  unfold Grayhd_hd Whitehd_hd Color_hd Caml_gray; omega

theorem Whitehd_hd_Blackhd_hd (hd : Nat) : Whitehd_hd (Blackhd_hd hd) = Whitehd_hd hd := by
  unfold Blackhd_hd Whitehd_hd Color_hd Caml_black; omega

theorem Color_hd_Grayhd_hd (hd : Nat) : Color_hd (Grayhd_hd hd) = Caml_gray := by
  unfold Grayhd_hd Whitehd_hd Color_hd Caml_gray; omega

theorem Color_hd_Blackhd_hd (hd : Nat) : Color_hd (Blackhd_hd hd) = Caml_black := by
  unfold Blackhd_hd Whitehd_hd Color_hd Caml_black; omega

theorem Tag_hd_of_Whitehd_hd {a b : Nat} (h : Whitehd_hd a = Whitehd_hd b) :
    Tag_hd a = Tag_hd b := by
  rw [← Tag_hd_Whitehd_hd a, ← Tag_hd_Whitehd_hd b, h]

theorem Wosize_hd_of_Whitehd_hd {a b : Nat} (h : Whitehd_hd a = Whitehd_hd b) :
    Wosize_hd a = Wosize_hd b := by
  rw [← Wosize_hd_Whitehd_hd a, ← Wosize_hd_Whitehd_hd b, h]

theorem Whitehd_hd_of_white {hd : Nat} (h : Color_hd hd = Caml_white) :
    Whitehd_hd hd = hd := by
  unfold Whitehd_hd; rw [h]; rfl

theorem odd_of_Tag_hd_Infix {hd : Nat} (h : Tag_hd hd = Infix_tag) : hd % 2 = 1 := by
  unfold Tag_hd Infix_tag at h; omega

theorem Mem.set_same (m : Mem) (a w : Nat) : m.set a w a = w := by
  simp [Mem.set]

theorem Mem.set_other (m : Mem) {a b : Nat} (w : Nat) (h : b ≠ a) : m.set a w b = m b := by
  simp [Mem.set, h]

theorem set_Hd_val_add (m : Mem) (h hd : Nat) : set_Hd_val m (h + 8) hd = m.set h hd := by
  simp [set_Hd_val]

theorem set_Field_eq (m : Mem) (h i x : Nat) :
    set_Field m (h + 8) i x = m.set (h + 8 + 8 * i) x := rfl

theorem Hd_val_add (m : Mem) (h : Nat) : Hd_val m (h + 8) = m h := by
  simp [Hd_val]

theorem Field_add (m : Mem) (h i : Nat) : Field m (h + 8) i = m (h + 8 + 8 * i) := rfl

namespace HeapCtx

variable {c : HeapCtx}

theorem Stable.st_tag {m : Mem} (hs : c.Stable m) {h : Nat} (hh : h ∈ c.H) :
    Tag_hd (m h) = c.tag0 h :=
  Tag_hd_of_Whitehd_hd (hs.1 h hh).1

theorem Stable.st_size {m : Mem} (hs : c.Stable m) {h : Nat} (hh : h ∈ c.H) :
    Wosize_hd (m h) = c.size0 h :=
  Wosize_hd_of_Whitehd_hd (hs.1 h hh).1

theorem Stable.st_start (c : HeapCtx) : c.Stable c.m0 :=
  ⟨fun h _ => ⟨rfl, fun hw hb => by
      unfold white0 at hw; rw [hw] at hb; exact absurd hb (by decide), fun _ => rfl⟩,
    fun _ _ _ => rfl, fun _ _ _ _ => rfl⟩

/-- In a stable memory the header before a valid pointer has the tag and the
size that it had at the start of the cycle. -/
theorem Stable.st_hd_ptr {m : Mem} (hs : c.Stable m) {x : Nat}
    (hv : c.BlkV (c.target0 x)) :
    Tag_hd (m (x - 8)) = Tag_hd (c.m0 (x - 8))
    ∧ Wosize_hd (m (x - 8)) = Wosize_hd (c.m0 (x - 8)) := by
  by_cases hx : x - 8 ∈ c.H
  · exact ⟨Tag_hd_of_Whitehd_hd (hs.1 _ hx).1, Wosize_hd_of_Whitehd_hd (hs.1 _ hx).1⟩
  · have hinf : Tag_hd (c.m0 (x - 8)) = Infix_tag := by
      by_contra hne
      obtain ⟨h, hh, -, he⟩ := hv
      have : c.target0 x = x := by
        simp [target0, resolve, Tag_val, Hd_val, hne]
      rw [this] at he
      apply hx
      rw [he]
      simpa using hh
    have := hs.2.1 _ hx (odd_of_Tag_hd_Infix hinf)
    rw [this]
    exact ⟨rfl, rfl⟩

theorem Stable.st_resolve {m : Mem} (hs : c.Stable m) {x : Nat}
    (hv : c.BlkV (c.target0 x)) : resolve m x = c.target0 x := by
  obtain ⟨h1, h2⟩ := hs.st_hd_ptr hv
  simp only [target0, MajorGC.resolve, Tag_val, Hd_val, Infix_offset_val, h1, h2]

theorem Stable.st_set_hdr {m : Mem} (hs : c.Stable m) {h nh : Nat} (hh : h ∈ c.H)
    (hw : c.white0 h) (h1 : Whitehd_hd nh = Whitehd_hd (m h))
    (h2 : Color_hd nh ≠ Caml_blue) : c.Stable (m.set h nh) := by
  refine ⟨fun h' hh' => ?_, fun a ha ho => ?_, fun a ha hf hw' => ?_⟩
  · by_cases e : h' = h
    · subst e
      rw [Mem.set_same]
      exact ⟨h1.trans (hs.1 _ hh).1, fun _ => h2, fun hn => absurd hw hn⟩
    · rw [Mem.set_other _ _ e]
      exact hs.1 h' hh'
  · have e : a ≠ h := fun e => ha (e ▸ hh)
    rw [Mem.set_other _ _ e]
    exact hs.2.1 a ha ho
  · have e : a ≠ h := fun e => ha (e ▸ hh)
    rw [Mem.set_other _ _ e]
    exact hs.2.2 a ha hf hw'

theorem Stable.st_set_fld (wf : c.WF) {m : Mem} (hs : c.Stable m) {h i x : Nat} (hh : h ∈ c.H)
    (hi : i < c.size0 h) (hev : m (h + 8 + 8 * i) % 2 = 0) :
    c.Stable (m.set (h + 8 + 8 * i) x) := by
  refine ⟨fun h' hh' => ?_, fun a ha ho => ?_, fun a ha hf hw' => ?_⟩
  · rw [Mem.set_other _ _ (wf.hdr_fld h' hh' h hh i hi)]
    exact hs.1 h' hh'
  · by_cases e : a = h + 8 + 8 * i
    · subst e
      have := hs.2.1 _ ha ho
      omega
    · rw [Mem.set_other _ _ e]
      exact hs.2.1 a ha ho
  · have e : a ≠ h + 8 + 8 * i := fun e => hf ⟨h, hh, i, hi, e⟩
    rw [Mem.set_other _ _ e]
    exact hs.2.2 a ha hf hw'

theorem Stable.st_set_head (wf : c.WF) {m : Mem} (hs : c.Stable m) {x : Nat}
    (hev : m c.env.caml_weak_list_head % 2 = 0) :
    c.Stable (m.set c.env.caml_weak_list_head x) := by
  refine ⟨fun h' hh' => ?_, fun a ha ho => ?_, fun a ha hf hw' => ?_⟩
  · rw [Mem.set_other _ _ (fun e => (wf.head_sep h' hh').1 e.symm)]
    exact hs.1 h' hh'
  · by_cases e : a = c.env.caml_weak_list_head
    · subst e
      have := hs.2.1 _ ha ho
      omega
    · rw [Mem.set_other _ _ e]
      exact hs.2.1 a ha ho
  · rw [Mem.set_other _ _ hw']
    exact hs.2.2 a ha hf hw'

theorem fld_cell_inj (wf : c.WF) {h h' i j : Nat} (hh : h ∈ c.H) (hh' : h' ∈ c.H)
    (hi : i < c.size0 h) (hj : j < c.size0 h') (e : h + 8 + 8 * i = h' + 8 + 8 * j) :
    h = h' ∧ i = j := by
  have := wf.fld_inj h hh h' hh' i j hi hj e
  subst this
  exact ⟨rfl, by omega⟩

theorem PV.pv_set_hdr (wf : c.WF) {m : Mem} (hp : c.PV m) {h nh : Nat} (hh : h ∈ c.H) :
    c.PV (m.set h nh) := by
  intro h' hh' hw ht i hi
  rw [Mem.set_other _ _ (fun e => wf.hdr_fld h hh h' hh' i hi e.symm)]
  exact hp h' hh' hw ht i hi

theorem PV.pv_set_fld (wf : c.WF) {m : Mem} (hp : c.PV m) {h i x : Nat} (hh : h ∈ c.H)
    (hi : i < c.size0 h) (hx : c.white0 h → c.tag0 h < No_scan_tag → c.VPtr x) :
    c.PV (m.set (h + 8 + 8 * i) x) := by
  intro h' hh' hw ht j hj
  by_cases e : h' + 8 + 8 * j = h + 8 + 8 * i
  · obtain ⟨e1, e2⟩ := fld_cell_inj wf hh' hh hj hi e
    subst e1 e2
    rw [Mem.set_same]
    exact hx hw ht
  · rw [Mem.set_other _ _ e]
    exact hp h' hh' hw ht j hj

theorem PV.pv_set_head (wf : c.WF) {m : Mem} (hp : c.PV m) {x : Nat} :
    c.PV (m.set c.env.caml_weak_list_head x) := by
  intro h' hh' hw ht j hj
  rw [Mem.set_other _ _ (fun e => (wf.head_sep h' hh').2 j hj e.symm)]
  exact hp h' hh' hw ht j hj

theorem LinkOK.lk_congr {m m' : Mem} (hl : c.LinkOK m)
    (h1 : m' c.env.caml_weak_list_head = m c.env.caml_weak_list_head)
    (h2 : ∀ h ∈ c.Wl, m' (h + 8) = m (h + 8)) : c.LinkOK m' := by
  refine ⟨by rw [h1]; exact hl.1, fun h hh => ?_⟩
  rw [h2 h hh]
  exact hl.2 h hh

theorem LinkOK.lk_set_hdr (wf : c.WF) {m : Mem} (hl : c.LinkOK m) {h nh : Nat} (hh : h ∈ c.H) :
    c.LinkOK (m.set h nh) := by
  refine hl.lk_congr (Mem.set_other _ _ (wf.head_sep h hh).1) (fun h' hh' => ?_)
  obtain ⟨k1, -, k3⟩ := wf.weak_sub h' hh'
  have := wf.hdr_fld h hh h' k1 0 (by omega)
  exact Mem.set_other _ _ (fun e => this (by omega))

theorem LinkOK.lk_set_fld (wf : c.WF) {m : Mem} (hl : c.LinkOK m) {h i x : Nat} (hh : h ∈ c.H)
    (hi : i < c.size0 h) (hne : h ∈ c.Wl → i ≠ 0) :
    c.LinkOK (m.set (h + 8 + 8 * i) x) := by
  refine hl.lk_congr (Mem.set_other _ _ ((wf.head_sep h hh).2 i hi)) (fun h' hh' => ?_)
  obtain ⟨k1, -, k3⟩ := wf.weak_sub h' hh'
  apply Mem.set_other
  intro e
  obtain ⟨e1, e2⟩ := fld_cell_inj wf k1 hh (i := 0) (by omega) hi (by omega)
  subst e1
  exact hne hh' e2.symm

end HeapCtx

/-! ## The invariant of marking: darkening a block -/

theorem gray_push_spec (env : Env) (s : State) (x : Nat)
    (hl : s.gray_vals.length < s.gray_vals_size) :
    (gray_push env s x).mem = s.mem
    ∧ (gray_push env s x).gray_vals.length < (gray_push env s x).gray_vals_size
    ∧ (∀ y ∈ (gray_push env s x).gray_vals, y = x ∨ y ∈ s.gray_vals)
    ∧ (gray_push env s x).gray_vals.Sublist (x :: s.gray_vals)
    ∧ (((gray_push env s x).gray_vals = x :: s.gray_vals
          ∧ (gray_push env s x).heap_is_pure = s.heap_is_pure)
        ∨ (gray_push env s x).heap_is_pure = false) := by
  have hsub : ∀ (n : Nat) (y : Nat), y ∈ (x :: s.gray_vals).drop n → y = x ∨ y ∈ s.gray_vals := by
    intro n y hy
    have := List.mem_of_mem_drop hy
    simpa using this
  simp only [gray_push]
  by_cases h1 : (x :: s.gray_vals).length ≥ s.gray_vals_size
  · rw [if_pos h1]
    have hlen : (x :: s.gray_vals).length = s.gray_vals_size := by
      simp only [List.length_cons] at h1 ⊢; omega
    simp only [realloc_gray_vals]
    split_ifs with h2 h3
    · refine ⟨rfl, ?_, fun y hy => hsub _ y hy, List.drop_sublist _ _, Or.inl ⟨?_, rfl⟩⟩
      · simp only [List.length_drop, hlen]
        simp only [List.length_cons] at hlen; omega
      · simp only [hlen, Nat.sub_self, List.drop_zero]
    · refine ⟨rfl, ?_, fun y hy => by simp at hy, List.nil_sublist _, Or.inr rfl⟩
      simp only [List.length_nil]; omega
    · refine ⟨rfl, ?_, fun y hy => hsub _ y hy, List.drop_sublist _ _, Or.inr rfl⟩
      simp only [List.length_drop, hlen]
      simp only [List.length_cons] at hlen; omega
  · rw [if_neg h1]
    refine ⟨rfl, ?_, fun y hy => by simpa using hy, List.Sublist.refl _, Or.inl ⟨rfl, rfl⟩⟩
    simp only [List.length_cons] at h1 ⊢; omega

namespace HeapCtx

variable {c : HeapCtx}

theorem HInv.hi_congr {P : Nat → Prop} {s s' : State} {v idx : Nat} {todo : List Nat}
    (hi : c.HInv P s v idx todo) (e1 : s'.mem = s.mem) (e2 : s'.gray_vals = s.gray_vals)
    (e3 : s'.gray_vals_size = s.gray_vals_size) (e4 : s'.heap_is_pure = s.heap_is_pure) :
    c.HInv P s' v idx todo := by
  obtain ⟨a1, a2, a3, a4, a5, a6, a7, a8, a9, a10, a11, a12⟩ := hi
  exact ⟨e1 ▸ a1, e1 ▸ a2, e1 ▸ a3, e2 ▸ a4, by rw [e2, e3]; exact a5, by rw [e1]; exact a6, a7,
    by rw [e1, e2, e4]; exact a8, by rw [e1]; exact a9, by rw [e1]; exact a10,
    by rw [e1, e2]; exact a11, by rw [e2]; exact a12⟩

theorem VDark.vd_set_hdr {m : Mem} {h nh x : Nat} (hnw : Color_hd nh ≠ Caml_white)
    (hd : c.VDark m x) : c.VDark (m.set h nh) x := by
  intro hb hin
  by_cases e : c.target0 x - 8 = h
  · rw [e, Mem.set_same]; exact hnw
  · rw [Mem.set_other _ _ e]; exact hd hb hin

theorem Exc.ex_set_hdr (wf : c.WF) {m : Mem} {h nh v idx x : Nat} (hh : h ∈ c.H)
    (hng : Color_hd (m h) ≠ Caml_gray) (he : c.Exc m v idx x) :
    c.Exc (m.set h nh) v idx x := by
  obtain ⟨f, hf, hg, ht, hv, hc⟩ := he
  have e1 : f ≠ h := fun e => hng (e ▸ hg)
  have e2 : f + 8 ≠ h := by
    have := wf.hdr_fld h hh f hf 0 (wf.fwd_size f hf ht)
    omega
  exact ⟨f, hf, by rw [Mem.set_other _ _ e1]; exact hg, ht, by rw [Mem.set_other _ _ e2]; exact hv, hc⟩

theorem OKv.ok_set_hdr (wf : c.WF) {m : Mem} {h nh v idx x : Nat} (hh : h ∈ c.H)
    (hnw : Color_hd nh ≠ Caml_white) (hng : Color_hd (m h) ≠ Caml_gray)
    (ho : c.OKv m v idx x) : c.OKv (m.set h nh) v idx x :=
  ho.imp (fun hd => hd.vd_set_hdr hnw) (fun he => he.ex_set_hdr wf hh hng)

/-- A white block that is made gray and pushed on the gray stack. -/
theorem HInv.hi_darken_push (wf : c.WF) {P : Nat → Prop} {s : State} {v idx h : Nat} {todo : List Nat}
    (hi : c.HInv P s v idx todo) (hh : h ∈ c.H) (hw0 : c.white0 h)
    (hw : Color_hd (s.mem h) = Caml_white) :
    c.HInv P (gray_push c.env { s with mem := set_Hd_val s.mem (h + 8) (Grayhd_hd (s.mem h)) }
      (h + 8)) v idx todo
    ∧ (gray_push c.env { s with mem := set_Hd_val s.mem (h + 8) (Grayhd_hd (s.mem h)) }
        (h + 8)).mem = s.mem.set h (Grayhd_hd (s.mem h)) := by
  obtain ⟨g1, g2, g3, g5, g4⟩ := gray_push_spec c.env
    { s with mem := set_Hd_val s.mem (h + 8) (Grayhd_hd (s.mem h)) } (h + 8) hi.stack_len
  have hm : (gray_push c.env { s with mem := set_Hd_val s.mem (h + 8) (Grayhd_hd (s.mem h)) }
        (h + 8)).mem = s.mem.set h (Grayhd_hd (s.mem h)) := by
    rw [g1]; exact set_Hd_val_add _ _ _
  have hgray : Color_hd (Grayhd_hd (s.mem h)) = Caml_gray := Color_hd_Grayhd_hd _
  have hnw : Color_hd (Grayhd_hd (s.mem h)) ≠ Caml_white := by rw [hgray]; decide
  have hnb : Color_hd (Grayhd_hd (s.mem h)) ≠ Caml_blue := by rw [hgray]; decide
  have hng : Color_hd (s.mem h) ≠ Caml_gray := by rw [hw]; decide
  have hnin : h + 8 ∉ s.gray_vals := fun hm' => hng (hi.stack_gray h hh hm')
  have hvne : v ≠ h + 8 := by
    intro e
    obtain ⟨hv', k1, k2, k3, k4, k5⟩ := hi.cur_blk (by omega)
    have : hv' = h := by omega
    subst this
    exact hng k4
  refine ⟨⟨?_, ?_, ?_, ?_, g2, ?_, hi.cur_idx, ?_, ?_, ?_, ?_, ?_⟩, hm⟩
  · rw [hm]; exact hi.stable.st_set_hdr hh hw0 (Whitehd_hd_Grayhd_hd _) hnb
  · rw [hm]; exact hi.pv.pv_set_hdr wf hh
  · rw [hm]; exact hi.links.lk_set_hdr wf hh
  · intro y hy
    rcases g3 y hy with e | e
    · exact ⟨h, hh, hw0, e⟩
    · exact hi.stack_blk y e
  · intro hv
    obtain ⟨hv', k1, k2, k3, k4, k5⟩ := hi.cur_blk hv
    refine ⟨hv', k1, k2, k3, ?_, k5⟩
    have e : hv' ≠ h := fun e => hng (e ▸ k4)
    rw [hm, Mem.set_other _ _ e]; exact k4
  · intro hp h' hh' hg'
    rcases g4 with ⟨e1, e2⟩ | e
    · rw [e1]
      by_cases e : h' = h
      · subst e; exact Or.inl (List.mem_cons_self _ _)
      · rw [hm, Mem.set_other _ _ e] at hg'
        rw [e2] at hp
        rcases hi.gray hp h' hh' hg' with r | r | r
        · exact Or.inl (List.mem_cons_of_mem _ r)
        · exact Or.inr (Or.inl r)
        · exact Or.inr (Or.inr r)
    · rw [e] at hp; exact absurd hp (by decide)
  · intro h' hh' hb ht i hi'
    have e : h' ≠ h := by
      intro e; subst e
      rw [hm, Mem.set_same, hgray] at hb; exact absurd hb (by decide)
    rw [hm, Mem.set_other _ _ e] at hb
    rw [hm, Mem.set_other _ _ (fun e => wf.hdr_fld h hh h' hh' i hi' e.symm)]
    exact (hi.black h' hh' hb ht i hi').imp (fun o => o.ok_set_hdr wf hh hnw hng) id
  · intro h' hh' hv ht i hi1 hi2
    rw [hm, Mem.set_other _ _ (fun e => wf.hdr_fld h hh h' hh' i hi2 e.symm)]
    exact (hi.scanned_ok h' hh' hv ht i hi1 hi2).imp (fun o => o.ok_set_hdr wf hh hnw hng) id
  · intro h' hh' hmem
    by_cases e : h' = h
    · subst e; rw [hm, Mem.set_same]; exact hgray
    · rw [hm, Mem.set_other _ _ e]
      rcases g3 _ hmem with e' | e'
      · exact absurd (by omega) e
      · exact hi.stack_gray h' hh' e'
  · have hnd : (v :: (h + 8) :: s.gray_vals).Nodup := by
      have h0 := hi.stack_nodup
      rw [List.nodup_cons] at h0 ⊢
      refine ⟨?_, ?_⟩
      · intro hm'
        rcases List.mem_cons.1 hm' with e | e
        · exact hvne e
        · exact h0.1 e
      · exact List.nodup_cons.2 ⟨hnin, h0.2⟩
    exact hnd.sublist (List.Sublist.cons₂ _ g5)

/-- A white block without scannable fields that is made black. -/
theorem HInv.hi_blacken_noscan (wf : c.WF) {P : Nat → Prop} {s : State} {v idx h : Nat} {todo : List Nat}
    (hi : c.HInv P s v idx todo) (hh : h ∈ c.H) (hw0 : c.white0 h)
    (hw : Color_hd (s.mem h) = Caml_white) (ht : ¬ c.tag0 h < No_scan_tag) :
    c.HInv P { s with mem := set_Hd_val s.mem (h + 8) (Blackhd_hd (s.mem h)) } v idx todo := by
  have hblack : Color_hd (Blackhd_hd (s.mem h)) = Caml_black := Color_hd_Blackhd_hd _
  have hnw : Color_hd (Blackhd_hd (s.mem h)) ≠ Caml_white := by rw [hblack]; decide
  have hnb : Color_hd (Blackhd_hd (s.mem h)) ≠ Caml_blue := by rw [hblack]; decide
  have hng : Color_hd (s.mem h) ≠ Caml_gray := by rw [hw]; decide
  have hm : ({ s with mem := set_Hd_val s.mem (h + 8) (Blackhd_hd (s.mem h)) } : State).mem
      = s.mem.set h (Blackhd_hd (s.mem h)) := set_Hd_val_add _ _ _
  refine ⟨?_, ?_, ?_, hi.stack_blk, hi.stack_len, ?_, hi.cur_idx, ?_, ?_, ?_, ?_, hi.stack_nodup⟩
  · rw [hm]; exact hi.stable.st_set_hdr hh hw0 (Whitehd_hd_Blackhd_hd _) hnb
  · rw [hm]; exact hi.pv.pv_set_hdr wf hh
  · rw [hm]; exact hi.links.lk_set_hdr wf hh
  · intro hv
    obtain ⟨hv', k1, k2, k3, k4, k5⟩ := hi.cur_blk hv
    refine ⟨hv', k1, k2, k3, ?_, k5⟩
    have e : hv' ≠ h := fun e => hng (e ▸ k4)
    rw [hm, Mem.set_other _ _ e]; exact k4
  · intro hp h' hh' hg'
    have e : h' ≠ h := by
      intro e; subst e
      rw [hm, Mem.set_same, hblack] at hg'; exact absurd hg' (by decide)
    rw [hm, Mem.set_other _ _ e] at hg'
    exact hi.gray hp h' hh' hg'
  · intro h' hh' hb ht' i hi'
    have e : h' ≠ h := fun e => ht (e ▸ ht')
    rw [hm, Mem.set_other _ _ e] at hb
    rw [hm, Mem.set_other _ _ (fun e => wf.hdr_fld h hh h' hh' i hi' e.symm)]
    exact (hi.black h' hh' hb ht' i hi').imp (fun o => o.ok_set_hdr wf hh hnw hng) id
  · intro h' hh' hv ht' i hi1 hi2
    rw [hm, Mem.set_other _ _ (fun e => wf.hdr_fld h hh h' hh' i hi2 e.symm)]
    exact (hi.scanned_ok h' hh' hv ht' i hi1 hi2).imp (fun o => o.ok_set_hdr wf hh hnw hng) id
  · intro h' hh' hmem
    have hg' := hi.stack_gray h' hh' hmem
    have e : h' ≠ h := fun e => hng (e ▸ hg')
    rw [hm, Mem.set_other _ _ e]; exact hg'

end HeapCtx

/-! ## The invariant of marking: caml_darken and the scan of a field -/

namespace HeapCtx

variable {c : HeapCtx}

theorem HInv.hi_weaken {P Q : Nat → Prop} {s : State} {v idx : Nat} {todo : List Nat}
    (hi : c.HInv P s v idx todo)
    (h : ∀ y, P y → c.OKv s.mem v idx y ∨ Q y) : c.HInv Q s v idx todo := by
  obtain ⟨a1, a2, a3, a4, a5, a6, a7, a8, a9, a10, a11, a12⟩ := hi
  refine ⟨a1, a2, a3, a4, a5, a6, a7, a8, ?_, ?_, a11, a12⟩
  · intro h' hh' hb ht i hi'
    rcases a9 h' hh' hb ht i hi' with r | r
    · exact Or.inl r
    · exact h _ r
  · intro h' hh' hv ht i hi1 hi2
    rcases a10 h' hh' hv ht i hi1 hi2 with r | r
    · exact Or.inl r
    · exact h _ r

/-- A block of the heap that is not free is not blue. -/
theorem Stable.st_not_blue {m : Mem} (hs : c.Stable m) {h : Nat} (hh : h ∈ c.H)
    (hw : c.white0 h) : Color_hd (m h) ≠ Caml_blue :=
  (hs.1 h hh).2.1 hw

/-- A block that is gray or black was white at the start of the cycle. -/
theorem Stable.st_white0_of_color (wf : c.WF) {m : Mem} (hs : c.Stable m) {h : Nat}
    (hh : h ∈ c.H) (hc : Color_hd (m h) ≠ Caml_blue) : c.white0 h := by
  by_contra hn
  have e := (hs.1 h hh).2.2 hn
  rcases wf.colors h hh with k | k
  · exact hn k
  · rw [e] at hc; exact hc k

theorem HInv.hi_mark_child (wf : c.WF) {P : Nat → Prop} {s : State} {v idx ht chd : Nat}
    {todo : List Nat} (hi : c.HInv P s v idx todo) (hh : ht ∈ c.H) (hw0 : c.white0 ht)
    (hchd : chd = s.mem ht) :
    c.HInv P (mark_child c.env s (ht + 8) chd) v idx todo
    ∧ Color_hd ((mark_child c.env s (ht + 8) chd).mem ht) ≠ Caml_white
    ∧ (∀ a, a ≠ ht → (mark_child c.env s (ht + 8) chd).mem a = s.mem a)
    ∧ (Color_hd (s.mem ht) = Caml_white →
        Color_hd ((mark_child c.env s (ht + 8) chd).mem ht) = Caml_gray) := by
  subst hchd
  simp only [mark_child, Is_white_hd, beq_iff_eq]
  split_ifs with hw
  · obtain ⟨k1, k2⟩ := hi.hi_darken_push wf hh hw0 hw
    refine ⟨k1, ?_, fun a ha => ?_, fun _ => ?_⟩
    · rw [k2, Mem.set_same, Color_hd_Grayhd_hd]; decide
    · rw [k2, Mem.set_other _ _ ha]
    · rw [k2, Mem.set_same, Color_hd_Grayhd_hd]
  · exact ⟨hi, hw, fun _ _ => rfl, fun h => absurd h hw⟩

theorem HInv.hi_caml_darken (wf : c.WF) {P : Nat → Prop} {s : State} {v idx x : Nat}
    {todo : List Nat} (hi : c.HInv P s v idx todo) (hx : c.VPtr x) :
    c.HInv P (caml_darken c.env s x) v idx todo := by
  simp only [MajorGC.caml_darken]
  by_cases hb : (Is_block x && c.env.Is_in_heap x) = true
  · rw [if_pos hb]
    simp only [Bool.and_eq_true] at hb
    have hv := hx hb.1 hb.2
    have hr : (if Tag_hd (Hd_val s.mem x) = Infix_tag then x - Infix_offset_val s.mem x else x)
        = c.target0 x := hi.stable.st_resolve hv
    rw [hr]
    obtain ⟨ht, hh, hw0, he⟩ := hv
    rw [he, Hd_val_add]
    simp only [Is_white_hd, beq_iff_eq]
    split_ifs with hw hs
    · exact (hi.hi_darken_push wf hh hw0 hw).1
    · refine hi.hi_blacken_noscan wf hh hw0 hw ?_
      rw [← hi.stable.st_tag hh]; exact hs
    · exact hi
  · rw [if_neg hb]; exact hi

theorem HInv.hi_foldl_darken (wf : c.WF) {P : Nat → Prop} {v idx : Nat} {todo : List Nat}
    (l : List Nat) (hl : ∀ x ∈ l, c.VPtr x) {s : State} (hi : c.HInv P s v idx todo) :
    c.HInv P (l.foldl (MajorGC.caml_darken c.env) s) v idx todo := by
  induction l generalizing s with
  | nil => exact hi
  | cons x xs ih =>
    exact ih (fun y hy => hl y (List.mem_cons_of_mem _ hy))
      (hi.hi_caml_darken wf (hl x (List.mem_cons_self _ _)))

/-- What is known of a value y before the field i of v is scanned carries over
to the memory in which this field holds nv, the next field to scan being
i + 1, unless y is the value that the field held. -/
theorem OKv.ok_scan (wf : c.WF) {m : Mem} {hv i w y : Nat} (hvH : hv ∈ c.H)
    (hlt : i < c.size0 hv) (hy : c.VPtr y) (ho : c.OKv m (hv + 8) i y) :
    c.OKv (m.set (hv + 8 + 8 * i) w) (hv + 8) (i + 1) y ∨ y = m (hv + 8 + 8 * i) := by
  rcases ho with hd | ⟨f, hf, hg, ht, hfv, hc⟩
  · left; left
    intro hb hin
    obtain ⟨h, hh, -, he⟩ := hy hb hin
    have e : c.target0 y - 8 ≠ hv + 8 + 8 * i := by
      rw [he]
      have := wf.hdr_fld h hh hv hvH i hlt
      omega
    rw [Mem.set_other _ _ e]
    exact hd hb hin
  · by_cases e : f = hv
    · right
      subst e
      have := hc rfl
      subst this
      exact hfv.symm
    · left; right
      have e2 : f + 8 ≠ hv + 8 + 8 * i := by
        intro e2
        exact e (fld_cell_inj wf hf hvH (i := 0) (wf.fwd_size f hf ht) hlt (by omega)).1
      have e3 : f ≠ hv + 8 + 8 * i := wf.hdr_fld f hf hv hvH i hlt
      refine ⟨f, hf, by rw [Mem.set_other _ _ e3]; exact hg, ht,
        by rw [Mem.set_other _ _ e2]; exact hfv, fun h => absurd (by omega) e⟩

end HeapCtx

/-! ## The invariant of marking: the scan of a field -/

theorem Mem.set_self (m : Mem) (a : Nat) : m.set a (m a) = m := by
  funext x
  by_cases e : x = a
  · subst e; simp [Mem.set]
  · simp [Mem.set, e]

namespace HeapCtx

variable {c : HeapCtx}

theorem HInv.cur_eq {P : Nat → Prop} {s : State} {hv idx : Nat} {todo : List Nat}
    (hi : c.HInv P s (hv + 8) idx todo) :
    hv ∈ c.H ∧ c.white0 hv ∧ Color_hd (s.mem hv) = Caml_gray ∧ idx ≤ c.size0 hv := by
  obtain ⟨h, k1, k2, k3, k4, k5⟩ := hi.cur_blk (by omega)
  have : hv = h := by omega
  subst this
  exact ⟨k1, k2, k4, k5⟩

/-- The field i of the block being scanned keeps its value. -/
theorem HInv.advance_keep (wf : c.WF) {s : State} {hv i : Nat} {todo : List Nat}
    (hi : c.HInv no_pending s (hv + 8) i todo) (htag : c.tag0 hv < No_scan_tag)
    (hlt : i < c.size0 hv) :
    c.HInv (fun y => y = s.mem (hv + 8 + 8 * i)) s (hv + 8) (i + 1) todo := by
  obtain ⟨hvH, hv0, hvg, -⟩ := hi.cur_eq
  have conv : ∀ y, c.VPtr y → c.OKv s.mem (hv + 8) i y ∨ no_pending y →
      c.OKv s.mem (hv + 8) (i + 1) y ∨ y = s.mem (hv + 8 + 8 * i) := by
    intro y hy ho
    rcases ho with ho | ho
    · have := ho.ok_scan wf (w := s.mem (hv + 8 + 8 * i)) hvH hlt hy
      rwa [Mem.set_self] at this
    · exact absurd ho id
  refine ⟨hi.stable, hi.pv, hi.links, hi.stack_blk, hi.stack_len, ?_, ?_, hi.gray, ?_, ?_,
    hi.stack_gray, hi.stack_nodup⟩
  · intro _; exact ⟨hv, hvH, hv0, rfl, hvg, hlt⟩
  · intro h; omega
  · intro h' hh' hb ht j hj
    have hw' : c.white0 h' := hi.stable.st_white0_of_color wf hh' (by rw [hb]; decide)
    exact conv _ (hi.pv h' hh' hw' ht j hj) (hi.black h' hh' hb ht j hj)
  · intro h' hh' he ht j hj1 hj2
    have : h' = hv := by omega
    subst this
    by_cases e : j = i
    · subst e; exact Or.inr rfl
    · exact conv _ (hi.pv h' hh' hv0 ht j hj2)
        (hi.scanned_ok h' hh' rfl ht j (by omega) hj2)

/-- The field i of the block being scanned is overwritten by nv. -/
theorem HInv.advance_write (wf : c.WF) {s s1 : State} {hv i nv : Nat} {todo : List Nat}
    {Q : Prop} (hi : c.HInv no_pending s (hv + 8) i todo) (htag : c.tag0 hv < No_scan_tag)
    (hlt : i < c.size0 hv)
    (e1 : s1.mem = s.mem.set (hv + 8 + 8 * i) nv) (e2 : s1.gray_vals = s.gray_vals)
    (e3 : s1.gray_vals_size = s.gray_vals_size) (e4 : s1.heap_is_pure = s.heap_is_pure)
    (hev : s.mem (hv + 8 + 8 * i) % 2 = 0) (hnv : c.VPtr nv)
    (hok : c.OKv s.mem (hv + 8) i nv ∨ Q) :
    c.HInv (fun y => y = s.mem (hv + 8 + 8 * i) ∨ (Q ∧ y = nv)) s1 (hv + 8) (i + 1) todo := by
  obtain ⟨hvH, hv0, hvg, -⟩ := hi.cur_eq
  have conv : ∀ y, c.VPtr y → c.OKv s.mem (hv + 8) i y ∨ no_pending y →
      c.OKv s1.mem (hv + 8) (i + 1) y ∨ (y = s.mem (hv + 8 + 8 * i) ∨ (Q ∧ y = nv)) := by
    intro y hy ho
    rcases ho with ho | ho
    · rw [e1]
      exact (ho.ok_scan wf (w := nv) hvH hlt hy).imp id Or.inl
    · exact absurd ho id
  have hhdr : ∀ h' ∈ c.H, s1.mem h' = s.mem h' := by
    intro h' hh'
    rw [e1, Mem.set_other _ _ (wf.hdr_fld h' hh' hv hvH i hlt)]
  refine ⟨?_, ?_, ?_, ?_, ?_, ?_, ?_, ?_, ?_, ?_, ?_, ?_⟩
  · rw [e1]; exact hi.stable.st_set_fld wf hvH hlt hev
  · rw [e1]; exact hi.pv.pv_set_fld wf hvH hlt (fun _ _ => hnv)
  · rw [e1]
    refine hi.links.lk_set_fld wf hvH hlt (fun hw => ?_)
    have := (wf.weak_sub hv hw).2.1
    omega
  · rw [e2]; exact hi.stack_blk
  · rw [e2, e3]; exact hi.stack_len
  · intro _; exact ⟨hv, hvH, hv0, rfl, by rw [hhdr hv hvH]; exact hvg, hlt⟩
  · intro h; omega
  · intro hp h' hh' hg
    rw [hhdr h' hh'] at hg
    rw [e4] at hp
    rw [e2]
    exact hi.gray hp h' hh' hg
  · intro h' hh' hb ht j hj
    rw [hhdr h' hh'] at hb
    have hw' : c.white0 h' := hi.stable.st_white0_of_color wf hh' (by rw [hb]; decide)
    have hne : h' ≠ hv := by
      intro e; subst e; rw [hvg] at hb; exact absurd hb (by decide)
    have hcell : h' + 8 + 8 * j ≠ hv + 8 + 8 * i :=
      fun e => hne (fld_cell_inj wf hh' hvH hj hlt e).1
    have hval : s1.mem (h' + 8 + 8 * j) = s.mem (h' + 8 + 8 * j) := by
      rw [e1, Mem.set_other _ _ hcell]
    rw [hval]
    exact conv _ (hi.pv h' hh' hw' ht j hj) (hi.black h' hh' hb ht j hj)
  · intro h' hh' he ht j hj1 hj2
    have : h' = hv := by omega
    subst this
    by_cases e : j = i
    · subst e
      have hval : s1.mem (h' + 8 + 8 * j) = nv := by rw [e1, Mem.set_same]
      rw [hval]
      rcases hok with hok | hq
      · exact conv _ hnv (Or.inl hok)
      · exact Or.inr (Or.inr ⟨hq, rfl⟩)
    · have hval : s1.mem (h' + 8 + 8 * j) = s.mem (h' + 8 + 8 * j) := by
        rw [e1, Mem.set_other _ _ (by omega)]
      rw [hval]
      exact conv _ (hi.pv h' hh' hv0 ht j hj2)
        (hi.scanned_ok h' hh' rfl ht j (by omega) hj2)
  · intro h' hh' hmem
    rw [hhdr h' hh']
    rw [e2] at hmem
    exact hi.stack_gray h' hh' hmem
  · rw [e2]; exact hi.stack_nodup

end HeapCtx

namespace HeapCtx

variable {c : HeapCtx}

/-- The scan of the field i of the block being scanned (the body of the for
loop of mark_slice) keeps the invariant and moves on to the field i + 1. -/
theorem HInv.hi_mark_field (wf : c.WF) {s : State} {hv i : Nat} {todo : List Nat}
    (hi : c.HInv no_pending s (hv + 8) i todo) (htag : c.tag0 hv < No_scan_tag)
    (hlt : i < c.size0 hv) :
    c.HInv no_pending (mark_field c.env (hv + 8) i s) (hv + 8) (i + 1) todo := by
  obtain ⟨hvH, hv0, hvg, -⟩ := hi.cur_eq
  have hkeep := hi.advance_keep wf htag hlt
  have hpv := hi.pv hv hvH hv0 htag i hlt
  simp only [mark_field, Field_add]
  generalize hchild : s.mem (hv + 8 + 8 * i) = child at hkeep hpv ⊢
  by_cases hb : (Is_block child && c.env.Is_in_heap child) = true
  swap
  · rw [if_neg hb]
    refine hkeep.hi_weaken (fun y hy => ?_)
    subst hy
    left; left
    intro h1 h2
    exact absurd (by simp [h1, h2]) hb
  rw [if_pos hb]
  simp only [Bool.and_eq_true] at hb
  have hval := hpv hb.1 hb.2
  obtain ⟨ktag, ksize⟩ := hi.stable.st_hd_ptr hval
  have hres := hi.stable.st_resolve hval
  obtain ⟨ht, hh, hw0, he⟩ := hval
  -- the field keeps its value and the block it stands for is darkened
  have close_keep :
      c.HInv no_pending (mark_child c.env s (ht + 8) (s.mem ht)) (hv + 8) (i + 1) todo := by
    obtain ⟨k1, k2, -, -⟩ := hkeep.hi_mark_child wf hh hw0 rfl
    refine k1.hi_weaken (fun y hy => ?_)
    subst hy
    left; left
    intro _ _
    rw [he]; simpa using k2
  by_cases hF : Tag_hd (Hd_val s.mem child) = Forward_tag
  · rw [if_pos hF]
    have hc : child = ht + 8 := by
      rw [← he, ← hres]
      have : Tag_hd (Hd_val s.mem child) ≠ Infix_tag := by rw [hF]; decide
      simp [resolve, Tag_val, this]
    subst hc
    rw [Hd_val_add] at hF ⊢
    have htF : c.tag0 ht = Forward_tag := by rw [← hi.stable.st_tag hh]; exact hF
    have hsz : 0 < c.size0 ht := wf.fwd_size ht hh htF
    have htsc : c.tag0 ht < No_scan_tag := by rw [htF]; decide
    by_cases hns : no_short_circuit c.env s.mem (Forward_val s.mem (ht + 8)) = true
    · rw [if_pos hns]; exact close_keep
    · rw [if_neg hns]
      simp only [Forward_val, Field_add] at hns ⊢
      generalize hf : s.mem (ht + 8 + 8 * 0) = f at hns ⊢
      have hfv : c.VPtr f := by rw [← hf]; exact hi.pv ht hh hw0 htsc 0 hsz
      have hev : s.mem (hv + 8 + 8 * i) % 2 = 0 := by
        rw [hchild]
        have := hb.1
        simp only [Is_block, beq_iff_eq] at this
        exact this
      have hok : c.OKv s.mem (hv + 8) i f ∨ Color_hd (s.mem ht) = Caml_white := by
        rcases Color_hd_cases (s.mem ht) with k | k | k | k
        · exact Or.inr k
        · left
          by_cases e : ht = hv
          · subst e
            by_cases i0 : i = 0
            · subst i0
              exfalso
              apply hns
              have e2 : f = ht + 8 := by rw [← hf]; exact hchild
              subst e2
              simp [no_short_circuit, Tag_val, Hd_val_add, hF, hb.1]
            · have := hi.scanned_ok ht hh rfl htsc 0 (by omega) hsz
              rw [hf] at this
              exact this.resolve_right (fun h => h)
          · exact Or.inr ⟨ht, hh, k, htF, by simpa using hf, fun h => absurd (by omega) e⟩
        · exact absurd k (hi.stable.st_not_blue hh hw0)
        · left
          have := hi.black ht hh k htsc 0 hsz
          rw [hf] at this
          exact this.resolve_right (fun h => h)
      generalize hs2 :
        (if (Is_block f && c.env.Is_young f && !c.env.Is_young (ht + 8)) = true then
            { ({ s with mem := set_Field s.mem (hv + 8) i f } : State) with
              ref_table := (hv + 8 + 8 * i) ::
                ({ s with mem := set_Field s.mem (hv + 8) i f } : State).ref_table }
          else { s with mem := set_Field s.mem (hv + 8) i f }) = s2
      have e1 : s2.mem = s.mem.set (hv + 8 + 8 * i) f := by
        rw [← hs2]; split_ifs <;> rfl
      have e2 : s2.gray_vals = s.gray_vals := by rw [← hs2]; split_ifs <;> rfl
      have e3 : s2.gray_vals_size = s.gray_vals_size := by rw [← hs2]; split_ifs <;> rfl
      have e4 : s2.heap_is_pure = s.heap_is_pure := by rw [← hs2]; split_ifs <;> rfl
      have hw := hi.advance_write wf htag hlt e1 e2 e3 e4 hev hfv hok
      have hmt : s.mem ht = s2.mem ht := by
        rw [e1, Mem.set_other _ _ (wf.hdr_fld ht hh hv hvH i hlt)]
      obtain ⟨k1, k2, k3, k4⟩ := hw.hi_mark_child wf hh hw0 hmt
      refine k1.hi_weaken (fun y hy => ?_)
      left
      rcases hy with hy | ⟨hq, hy⟩
      · subst hy
        left
        intro _ _
        rw [hchild, he]; simpa using k2
      · subst hy
        right
        have hne : ht ≠ hv := by
          intro e; subst e; rw [hvg] at hq; exact absurd hq (by decide)
        refine ⟨ht, hh, k4 (hmt ▸ hq), htF, ?_, fun h => absurd (by omega) hne⟩
        rw [k3 _ (by omega), e1]
        by_cases e : ht + 8 = hv + 8 + 8 * i
        · rw [e, Mem.set_same]
        · rw [Mem.set_other _ _ e]; simpa using hf
  · rw [if_neg hF]
    by_cases hI : Tag_hd (Hd_val s.mem child) = Infix_tag
    · rw [if_pos hI]
      have hc : child - Infix_offset_val s.mem child = ht + 8 := by
        rw [← he, ← hres]
        simp [resolve, Tag_val, hI]
      rw [hc, Hd_val_add]
      exact close_keep
    · rw [if_neg hI]
      have hc : child = ht + 8 := by
        rw [← he, ← hres]
        simp [resolve, Tag_val, hI]
      subst hc
      rw [Hd_val_add]
      exact close_keep

/-- The for loop of mark_slice over n fields from the field i on. -/
theorem HInv.hi_mark_fields (wf : c.WF) {hv : Nat} {todo : List Nat}
    (htag : c.tag0 hv < No_scan_tag) (n : Nat) {i : Nat} {s : State}
    (hi : c.HInv no_pending s (hv + 8) i todo) (hlt : i + n ≤ c.size0 hv) :
    c.HInv no_pending (mark_fields c.env (hv + 8) n i s) (hv + 8) (i + n) todo := by
  induction n generalizing i s with
  | zero => exact hi
  | succ n ih =>
    have := ih (hi.hi_mark_field wf htag (by omega)) (by omega)
    simp only [mark_fields]
    rw [show i + (n + 1) = i + 1 + n by omega]
    exact this

end HeapCtx

/-! ## The invariant of marking: the end of the scan of a block -/

namespace HeapCtx

variable {c : HeapCtx}

theorem ScanPos.sp_congr {s s' : State} {todo : List Nat} (h : c.ScanPos s todo)
    (e1 : s'.markhp = s.markhp) (e2 : s'.chunk = s.chunk) (e3 : s'.limit = s.limit) :
    c.ScanPos s' todo := by
  unfold ScanPos at h ⊢
  rw [e1, e2, e3]; exact h

/-- The block being scanned is made black once its fields are scanned. -/
theorem HInv.hi_blacken_cur (wf : c.WF) {s : State} {hv idx nh : Nat} {todo : List Nat}
    (hi : c.HInv no_pending s (hv + 8) idx todo)
    (hfull : c.tag0 hv < No_scan_tag → idx = c.size0 hv)
    (hwh : Whitehd_hd nh = Whitehd_hd (s.mem hv)) (hbl : Color_hd nh = Caml_black) :
    c.HInv no_pending { s with mem := set_Hd_val s.mem (hv + 8) nh } 0 0 todo := by
  obtain ⟨hvH, hv0, hvg, hle⟩ := hi.cur_eq
  have hnw : Color_hd nh ≠ Caml_white := by rw [hbl]; decide
  have hnb : Color_hd nh ≠ Caml_blue := by rw [hbl]; decide
  have hm : ({ s with mem := set_Hd_val s.mem (hv + 8) nh } : State).mem
      = s.mem.set hv nh := set_Hd_val_add _ _ _
  have conv : ∀ y, c.OKv s.mem (hv + 8) idx y ∨ no_pending y →
      c.OKv (s.mem.set hv nh) 0 0 y ∨ no_pending y := by
    intro y hy
    rcases hy with hy | hy
    · left
      rcases hy with hd | ⟨f, hf, hg, ht, hval, hc⟩
      · exact Or.inl (hd.vd_set_hdr hnw)
      · right
        have hfs := wf.fwd_size f hf ht
        have e1 : f ≠ hv := by
          intro e; subst e
          have h1 := hc rfl
          have h2 := hfull (by rw [ht]; decide)
          omega
        have e2 : f + 8 ≠ hv := by
          have := wf.hdr_fld hv hvH f hf 0 hfs
          omega
        exact ⟨f, hf, by rw [Mem.set_other _ _ e1]; exact hg, ht,
          by rw [Mem.set_other _ _ e2]; exact hval, fun h => absurd h (by omega)⟩
    · exact absurd hy id
  have hnot : hv + 8 ∉ s.gray_vals := (List.nodup_cons.1 hi.stack_nodup).1
  refine ⟨?_, ?_, ?_, hi.stack_blk, hi.stack_len, fun h => absurd rfl h, fun _ => rfl,
    ?_, ?_, ?_, ?_, ?_⟩
  · rw [hm]; exact hi.stable.st_set_hdr hvH hv0 hwh hnb
  · rw [hm]; exact hi.pv.pv_set_hdr wf hvH
  · rw [hm]; exact hi.links.lk_set_hdr wf hvH
  · intro hp h' hh' hg'
    have e : h' ≠ hv := by
      intro e; subst e
      rw [hm, Mem.set_same, hbl] at hg'; exact absurd hg' (by decide)
    rw [hm, Mem.set_other _ _ e] at hg'
    rcases hi.gray hp h' hh' hg' with r | r | r
    · exact Or.inl r
    · exact absurd (by omega) e
    · exact Or.inr (Or.inr r)
  · intro h' hh' hb ht i hi'
    rw [hm, Mem.set_other _ _ (fun e => wf.hdr_fld hv hvH h' hh' i hi' e.symm)]
    by_cases e : h' = hv
    · subst e
      have := hfull ht
      exact conv _ (hi.scanned_ok h' hh' rfl ht i (by omega) hi')
    · rw [hm, Mem.set_other _ _ e] at hb
      exact conv _ (hi.black h' hh' hb ht i hi')
  · intro h' hh' he; omega
  · intro h' hh' hmem
    have e : h' ≠ hv := fun e => hnot (e ▸ hmem)
    rw [hm, Mem.set_other _ _ e]
    exact hi.stack_gray h' hh' hmem
  · have := (List.nodup_cons.1 hi.stack_nodup).2
    refine List.nodup_cons.2 ⟨fun h0 => ?_, this⟩
    obtain ⟨h, -, -, e⟩ := hi.stack_blk 0 h0
    omega

/-- A block is taken from the gray stack. -/
theorem HInv.hi_pop {s : State} {x : Nat} {rest todo : List Nat}
    (hi : c.HInv no_pending s 0 0 todo) (hs : s.gray_vals = x :: rest) :
    c.HInv no_pending { s with gray_vals := rest } x 0 todo := by
  have hx : x ∈ s.gray_vals := by rw [hs]; exact List.mem_cons_self _ _
  obtain ⟨hx', k1, k2, k3⟩ := hi.stack_blk x hx
  have hnd := (List.nodup_cons.1 hi.stack_nodup).2
  rw [hs] at hnd
  have conv : ∀ y, c.OKv s.mem 0 0 y ∨ no_pending y → c.OKv s.mem x 0 y ∨ no_pending y := by
    intro y hy
    rcases hy with hy | hy
    · left
      rcases hy with hd | ⟨f, hf, hg, ht, hval, hc⟩
      · exact Or.inl hd
      · exact Or.inr ⟨f, hf, hg, ht, hval, fun _ => rfl⟩
    · exact absurd hy id
  refine ⟨hi.stable, hi.pv, hi.links, ?_, ?_, ?_, ?_, ?_, ?_, ?_, ?_, hnd⟩
  · intro y hy; exact hi.stack_blk y (by rw [hs]; exact List.mem_cons_of_mem _ hy)
  · have := hi.stack_len
    rw [hs] at this
    simp only [List.length_cons] at this
    show rest.length < s.gray_vals_size
    omega
  · intro _
    exact ⟨hx', k1, k2, k3, hi.stack_gray hx' k1 (k3 ▸ hx), Nat.zero_le _⟩
  · intro e; rfl
  · intro hp h' hh' hg'
    rcases hi.gray hp h' hh' hg' with r | r | r
    · rw [hs] at r
      rcases List.mem_cons.1 r with e | e
      · exact Or.inr (Or.inl e)
      · exact Or.inl e
    · omega
    · exact Or.inr (Or.inr r)
  · intro h' hh' hb ht i hi'
    exact conv _ (hi.black h' hh' hb ht i hi')
  · intro h' hh' he ht i hi1; omega
  · intro h' hh' hmem
    exact hi.stack_gray h' hh' (by rw [hs]; exact List.mem_cons_of_mem _ hmem)

end HeapCtx

/-! ## The invariant of marking: the steps of the loop of mark_slice -/

namespace HeapCtx

variable {c : HeapCtx}

theorem MInv.mi_frame {s t : State} {v start v' start' : Nat} {todo : List Nat}
    (hm : c.MInv s v start) (hf : HeapFrame s t)
    (hn : ∀ h, v' = h + 8 → ¬ c.tag0 h < No_scan_tag → start' = 0)
    (hi : c.HInv no_pending t v' start' todo) (sp : c.ScanPos s todo) :
    c.MInv t v' start' := by
  have e1 : t.caml_gc_phase = s.caml_gc_phase := by rw [hf]
  have e2 : t.caml_heap_start = s.caml_heap_start := by rw [hf]
  have e3 : t.caml_gc_subphase = s.caml_gc_subphase := by rw [hf]
  have e4 : t.weak_prev = s.weak_prev := by rw [hf]
  have e5 : t.markhp = s.markhp := by rw [hf]
  have e6 : t.chunk = s.chunk := by rw [hf]
  have e7 : t.limit = s.limit := by rw [hf]
  exact ⟨e1.trans hm.phase, e2.trans hm.hstart, by rw [e3, e4]; exact hm.wp, hn,
    todo, hi, sp.sp_congr e5 e6 e7⟩

/-- Lines 182 to 186 keep the invariant, and leave v at 0 only when the gray
stack is empty. -/
theorem MInv.mi_pop {st : MarkState} (hm : c.MInv st.s st.v st.start) :
    c.MInv (mark_pop st).s (mark_pop st).v (mark_pop st).start
    ∧ ((mark_pop st).v = 0 → (mark_pop st).s.gray_vals = []) := by
  obtain ⟨s, work, v, start, sf⟩ := st
  simp only at hm
  simp only [mark_pop]
  by_cases h0 : v = 0
  · rw [if_pos h0]
    subst h0
    obtain ⟨todo, hi, sp⟩ := hm.heap
    have hst : start = 0 := hi.cur_idx rfl
    subst hst
    cases hs : s.gray_vals with
    | nil => exact ⟨hm, fun _ => hs⟩
    | cons x rest =>
      simp only
      have hx : x ≠ 0 := by
        obtain ⟨h, -, -, e⟩ := hi.stack_blk x (by rw [hs]; exact List.mem_cons_self _ _)
        omega
      refine ⟨hm.mi_frame (t := { s with gray_vals := rest }) ?_ (fun _ _ _ => rfl)
        (hi.hi_pop hs) sp, fun h => absurd h hx⟩
      show _ = _
      rfl
  · rw [if_neg h0]
    exact ⟨hm, fun h => absurd h h0⟩

/-- Lines 188 to 266 keep the invariant. -/
theorem MInv.mi_mark_value (wf : c.WF) {st : MarkState} (hm : c.MInv st.s st.v st.start)
    (hv : st.v ≠ 0) :
    c.MInv (mark_value c.env st).s (mark_value c.env st).v (mark_value c.env st).start := by
  obtain ⟨s, work, v, start, sf⟩ := st
  simp only at hm hv
  obtain ⟨todo, hi, sp⟩ := hm.heap
  obtain ⟨h, hh, hw0, e, hg, hle⟩ := hi.cur_blk hv
  subst e
  have hns := hm.noscan h rfl
  have etag : Tag_hd (s.mem h) = c.tag0 h := hi.stable.st_tag hh
  have esize : Wosize_hd (s.mem h) = c.size0 h := hi.stable.st_size hh
  have hbl : ∀ m : Mem, c.Stable m → Whitehd_hd (Blackhd_hd (s.mem h)) = Whitehd_hd (m h) := by
    intro m hs
    rw [Whitehd_hd_Blackhd_hd, (hi.stable.1 h hh).1, (hs.1 h hh).1]
  simp only [mark_value, Hd_val_add, etag, esize]
  by_cases htag : c.tag0 h < No_scan_tag
  · rw [if_pos htag]
    have hst : (if c.size0 h < start then c.size0 h else start) = start :=
      if_neg (by omega)
    simp only [hst]
    generalize hend : (if c.size0 h < start + work.toNat then c.size0 h
      else start + work.toNat) = end1
    have hb1 : start ≤ end1 ∧ end1 ≤ c.size0 h := by
      rw [← hend]; split_ifs <;> omega
    have hscan := hi.hi_mark_fields wf htag (end1 - start) (by omega)
    have hidx : start + (end1 - start) = end1 := by omega
    rw [hidx] at hscan
    have hfr := mark_fields_frame c.env (h + 8) (end1 - start) start s
    by_cases hlt : end1 < c.size0 h
    · rw [if_pos hlt]
      exact hm.mi_frame hfr (fun h' e hn => by
        have e' : h + 8 = h' + 8 := e
        have : h' = h := by omega
        subst this; exact absurd htag hn) hscan sp
    · rw [if_neg hlt]
      have hfull : end1 = c.size0 h := by omega
      have := hscan.hi_blacken_cur wf (fun _ => hfull) (hbl _ hscan.stable)
        (Color_hd_Blackhd_hd _)
      refine hm.mi_frame (HeapFrame.frame_trans hfr ?_) (fun h' e => by
        have e' : 0 = h' + 8 := e
        omega)
        this sp
      show _ = _
      rfl
  · rw [if_neg htag]
    have hs0 := hns htag
    subst hs0
    have := hi.hi_blacken_cur wf (fun ht => absurd ht htag) (hbl _ hi.stable)
      (Color_hd_Blackhd_hd _)
    refine hm.mi_frame ?_ (fun h' e => by
        have e' : 0 = h' + 8 := e
        omega) this sp
    show _ = _
    rfl

end HeapCtx

/-! ## The invariant of marking: the heap-order scan -/

namespace HeapCtx

variable {c : HeapCtx}

/-- The words before a chunk are not written during marking. -/
theorem Stable.st_chunk (wf : c.WF) {m : Mem} (hs : c.Stable m) {p : Nat × List Nat}
    (hp : p ∈ c.chunks) :
    Chunk_next m p.1 = Chunk_next c.m0 p.1 ∧ Chunk_size m p.1 = Chunk_size c.m0 p.1 := by
  obtain ⟨a1, a2, a3⟩ := wf.chunk_sep p hp (p.1 - 8) (Or.inr rfl)
  obtain ⟨b1, b2, b3⟩ := wf.chunk_sep p hp (p.1 - 16) (Or.inl rfl)
  exact ⟨hs.2.2 _ a1 a2 a3, hs.2.2 _ b1 b2 b3⟩

theorem Stable.st_bhsize {m : Mem} (hs : c.Stable m) {h : Nat} (hh : h ∈ c.H) :
    Bhsize_hd (Hd_hp m h) = Bhsize_hd (Hd_hp c.m0 h) := by
  have := hs.st_size hh
  unfold size0 at this
  simp only [Bhsize_hd, Whsize_hd, Hd_hp, this]

/-- The heap-order scan meets the header h. -/
theorem HInv.hi_scan_head (wf : c.WF) {s : State} {h : Nat} {todo : List Nat}
    (hi : c.HInv no_pending s 0 0 (h :: todo)) (hh : h ∈ c.H) (hs : s.gray_vals = []) :
    (Color_hd (s.mem h) = Caml_gray → c.HInv no_pending s (h + 8) 0 todo)
    ∧ (Color_hd (s.mem h) ≠ Caml_gray → c.HInv no_pending s 0 0 todo) := by
  have conv : ∀ y, c.OKv s.mem 0 0 y ∨ no_pending y →
      c.OKv s.mem (h + 8) 0 y ∨ no_pending y := by
    intro y hy
    rcases hy with hy | hy
    · left
      rcases hy with hd | ⟨f, hf, hg, ht, hval, hc⟩
      · exact Or.inl hd
      · exact Or.inr ⟨f, hf, hg, ht, hval, fun _ => rfl⟩
    · exact absurd hy id
  refine ⟨fun hg => ?_, fun hg => ?_⟩
  · refine ⟨hi.stable, hi.pv, hi.links, hi.stack_blk, hi.stack_len, ?_, ?_, ?_, ?_, ?_,
      hi.stack_gray, ?_⟩
    · intro _
      exact ⟨h, hh, hi.stable.st_white0_of_color wf hh (by rw [hg]; decide), rfl, hg,
        Nat.zero_le _⟩
    · intro e; omega
    · intro hp h' hh' hg'
      rcases hi.gray hp h' hh' hg' with r | r | r
      · exact Or.inl r
      · omega
      · rcases List.mem_cons.1 r with e | e
        · exact Or.inr (Or.inl (by rw [e]))
        · exact Or.inr (Or.inr e)
    · intro h' hh' hb ht i hi'
      exact conv _ (hi.black h' hh' hb ht i hi')
    · intro h' hh' he ht i hi1; omega
    · rw [hs]; simp
  · refine ⟨hi.stable, hi.pv, hi.links, hi.stack_blk, hi.stack_len, hi.cur_blk, hi.cur_idx,
      ?_, hi.black, hi.scanned_ok, hi.stack_gray, hi.stack_nodup⟩
    intro hp h' hh' hg'
    rcases hi.gray hp h' hh' hg' with r | r | r
    · exact Or.inl r
    · exact Or.inr (Or.inl r)
    · rcases List.mem_cons.1 r with e | e
      · exact absurd (e ▸ hg') hg
      · exact Or.inr (Or.inr e)

theorem tiles_nil_of_eq {m : Mem} {hp limit : Nat} {hps : List Nat}
    (ht : tiles m hp hps limit) (e : hp = limit) : hps = [] := by
  cases hps with
  | nil => rfl
  | cons h hs => exact absurd e ht.2.1

theorem tiles_cons_of_ne {m : Mem} {hp limit : Nat} {hps : List Nat}
    (ht : tiles m hp hps limit) (e : hp ≠ limit) :
    ∃ hs, hps = hp :: hs ∧ tiles m (hp + Bhsize_hd (Hd_hp m hp)) hs limit := by
  cases hps with
  | nil => exact absurd ht e
  | cons h hs =>
    obtain ⟨e1, -, e3⟩ := ht
    subst e1
    exact ⟨hs, rfl, e3⟩

theorem chain_nil_of_zero {m : Mem} {a : Nat} {l : List (Nat × List Nat)}
    (hc : chain m a l) (e : a = 0) : l = [] := by
  cases l with
  | nil => rfl
  | cons p rest => exact absurd e hc.2.1

theorem chain_cons_of_ne {m : Mem} {a : Nat} {l : List (Nat × List Nat)}
    (hc : chain m a l) (e : a ≠ 0) :
    ∃ p rest, l = p :: rest ∧ a = p.1 ∧ tiles m a p.2 (a + Chunk_size m a)
      ∧ chain m (Chunk_next m a) rest := by
  cases l with
  | nil => exact absurd hc e
  | cons p rest =>
    obtain ⟨e1, -, e3, e4⟩ := hc
    exact ⟨p, rest, rfl, e1, e3, e4⟩

/-- Lines 267 to 283 keep the invariant. -/
theorem MInv.mi_heap_scan (wf : c.WF) {st : MarkState} (hm : c.MInv st.s st.v st.start)
    (hv : st.v = 0) (hstack : st.s.gray_vals = []) (hmk : st.s.markhp ≠ 0) :
    c.MInv (mark_heap_scan st).s (mark_heap_scan st).v (mark_heap_scan st).start := by
  obtain ⟨s, work, v, start, sf⟩ := st
  simp only at hm hv hstack hmk
  subst hv
  obtain ⟨todo, hi, sp⟩ := hm.heap
  have hst : start = 0 := hi.cur_idx rfl
  subst hst
  rcases sp with ⟨e, -⟩ | ⟨-, hps, rest, etodo, hsub, hrest, hchunk, hlimit, htiles, hchain⟩
  · exact absurd e hmk
  obtain ⟨p0, hp0, ep0⟩ := List.mem_map.1 hchunk
  obtain ⟨cn, cs⟩ := hi.stable.st_chunk wf hp0
  rw [ep0] at cn cs
  simp only [mark_heap_scan]
  by_cases hlim : s.markhp = s.limit
  · rw [if_pos hlim]
    have hnil := tiles_nil_of_eq htiles hlim
    subst hnil
    rw [cn]
    by_cases hz : Chunk_next c.m0 s.chunk = 0
    · rw [if_pos hz]
      have := chain_nil_of_zero hchain hz
      subst this
      refine ⟨hm.phase, hm.hstart, hm.wp, fun _ _ _ => rfl, todo,
        hi.hi_congr rfl rfl rfl rfl, Or.inl ⟨rfl, ?_⟩⟩
      rw [etodo]; rfl
    · rw [if_neg hz]
      obtain ⟨p, rest', e1, e2, e3, e4⟩ := chain_cons_of_ne hchain hz
      subst e1
      have hp : p ∈ c.chunks := hrest p (List.mem_cons_self _ _)
      obtain ⟨-, cs'⟩ := hi.stable.st_chunk wf hp
      rw [← e2] at cs'
      refine ⟨hm.phase, hm.hstart, hm.wp, fun _ _ _ => rfl, todo,
        hi.hi_congr rfl rfl rfl rfl, Or.inr ⟨hz, p.2, rest', ?_, hsub,
          fun q hq => hrest q (List.mem_cons_of_mem _ hq), ?_, ?_, ?_, e4⟩⟩
      · rw [etodo]; simp
      · exact List.mem_map.2 ⟨p, hp, e2.symm⟩
      · show _ + Chunk_size s.mem _ = _
        rw [cs']
      · show tiles c.m0 _ p.2 (_ + Chunk_size s.mem _)
        rw [cs']; exact e3
  · rw [if_neg hlim]
    obtain ⟨hs, e1, e2⟩ := tiles_cons_of_ne htiles hlim
    subst e1
    have hh : s.markhp ∈ c.H := hsub _ (by rw [etodo]; simp)
    have hb := hi.stable.st_bhsize hh
    rw [hb]
    have hpos : s.markhp + Bhsize_hd (Hd_hp c.m0 s.markhp) ≠ 0 := by
      unfold Bhsize_hd Whsize_hd Whsize_wosize; omega
    have etodo' : todo = s.markhp :: (hs ++ rest.flatMap (fun p => p.2)) := by
      rw [etodo]; rfl
    rw [etodo'] at hi
    obtain ⟨k1, k2⟩ := hi.hi_scan_head wf hh hstack
    have sp' : c.ScanPos { s with markhp := s.markhp + Bhsize_hd (Hd_hp c.m0 s.markhp) }
        (hs ++ rest.flatMap (fun p => p.2)) :=
      Or.inr ⟨hpos, hs, rest, rfl, fun h hh' => hsub h (by rw [etodo']; exact List.mem_cons_of_mem _ hh'),
        hrest, hchunk, hlimit, e2, hchain⟩
    simp only [Val_hp, Hd_val_add, Is_gray_hd, beq_iff_eq]
    by_cases hg : Color_hd (s.mem s.markhp) = Caml_gray
    · rw [if_pos hg]
      exact ⟨hm.phase, hm.hstart, hm.wp, fun _ _ _ => rfl, _,
        (k1 hg).hi_congr rfl rfl rfl rfl, sp'⟩
    · rw [if_neg hg]
      exact ⟨hm.phase, hm.hstart, hm.wp, fun _ _ _ => rfl, _,
        (k2 hg).hi_congr rfl rfl rfl rfl, sp'⟩

/-- Lines 284 to 289, the heap-order scan is started, keep the invariant. -/
theorem MInv.mi_restart (wf : c.WF) {s : State} {v start : Nat} (hm : c.MInv s v start) :
    c.MInv { s with heap_is_pure := true
                    chunk := s.caml_heap_start
                    markhp := s.caml_heap_start
                    limit := s.caml_heap_start + Chunk_size s.mem s.caml_heap_start }
      v start := by
  obtain ⟨todo, hi, -⟩ := hm.heap
  have hch := wf.chain
  rw [← hm.hstart] at hch
  refine ⟨hm.phase, hm.hstart, hm.wp, hm.noscan, c.chunks.flatMap (fun p => p.2), ?_, ?_⟩
  · exact ⟨hi.stable, hi.pv, hi.links, hi.stack_blk, hi.stack_len, hi.cur_blk, hi.cur_idx,
      fun _ h hh _ => Or.inr (Or.inr (wf.all_blocks h hh)), hi.black, hi.scanned_ok,
      hi.stack_gray, hi.stack_nodup⟩
  · by_cases hz : s.caml_heap_start = 0
    · have := chain_nil_of_zero hch hz
      left
      exact ⟨hz, by rw [this]; rfl⟩
    · obtain ⟨p, rest, e1, e2, e3, e4⟩ := chain_cons_of_ne hch hz
      have hp : p ∈ c.chunks := by rw [e1]; exact List.mem_cons_self _ _
      obtain ⟨-, cs⟩ := hi.stable.st_chunk wf hp
      rw [← e2] at cs
      refine Or.inr ⟨hz, p.2, rest, by rw [e1]; simp, ?_, ?_, ?_, ?_, ?_, e4⟩
      · intro h hh
        obtain ⟨q, hq, hq'⟩ := List.mem_flatMap.1 hh
        exact wf.chunks_sub q hq h hq'
      · intro q hq; rw [e1]; exact List.mem_cons_of_mem _ hq
      · exact List.mem_map.2 ⟨p, hp, e2.symm⟩
      · show _ + Chunk_size s.mem _ = _
        rw [cs]
      · show tiles c.m0 _ p.2 (_ + Chunk_size s.mem _)
        rw [cs]; exact e3

end HeapCtx

/-! ## The invariant of marking: the weak phases -/

namespace HeapCtx

variable {c : HeapCtx}

/-- A write outside the headers and outside the fields of the scannable
blocks. -/
theorem HInv.hi_write (wf : c.WF) {P : Nat → Prop} {s s' : State} {v idx a x : Nat}
    {todo : List Nat} (hi : c.HInv P s v idx todo)
    (h1 : ∀ h ∈ c.H, h ≠ a)
    (h2 : ∀ h ∈ c.H, c.tag0 h < No_scan_tag → ∀ i, i < c.size0 h → h + 8 + 8 * i ≠ a)
    (hst : c.Stable (s.mem.set a x)) (hlk : c.LinkOK (s.mem.set a x))
    (e1 : s'.mem = s.mem.set a x) (e2 : s'.gray_vals = s.gray_vals)
    (e3 : s'.gray_vals_size = s.gray_vals_size) (e4 : s'.heap_is_pure = s.heap_is_pure) :
    c.HInv P s' v idx todo := by
  have hhdr : ∀ h ∈ c.H, s'.mem h = s.mem h := fun h hh => by
    rw [e1, Mem.set_other _ _ (h1 h hh)]
  have hfld : ∀ h ∈ c.H, c.tag0 h < No_scan_tag → ∀ i, i < c.size0 h →
      s'.mem (h + 8 + 8 * i) = s.mem (h + 8 + 8 * i) := fun h hh ht i hi' => by
    rw [e1, Mem.set_other _ _ (h2 h hh ht i hi')]
  have conv : ∀ y, c.VPtr y → c.OKv s.mem v idx y ∨ P y → c.OKv s'.mem v idx y ∨ P y := by
    intro y hy ho
    rcases ho with ho | ho
    · left
      rcases ho with hd | ⟨f, hf, hg, ht, hval, hc⟩
      · left
        intro hb hin
        obtain ⟨h, hh, -, he⟩ := hy hb hin
        have := hd hb hin
        rw [he] at this ⊢
        simp only [Nat.add_sub_cancel] at this ⊢
        rw [hhdr h hh]; exact this
      · right
        refine ⟨f, hf, by rw [hhdr f hf]; exact hg, ht, ?_, hc⟩
        have := hfld f hf (by rw [ht]; decide) 0 (wf.fwd_size f hf ht)
        simp only [Nat.mul_zero, Nat.add_zero] at this
        rw [this]; exact hval
    · exact Or.inr ho
  refine ⟨e1 ▸ hst, ?_, e1 ▸ hlk, e2 ▸ hi.stack_blk, by rw [e2, e3]; exact hi.stack_len,
    ?_, hi.cur_idx, ?_, ?_, ?_, ?_, e2 ▸ hi.stack_nodup⟩
  · intro h hh hw ht i hi'
    rw [hfld h hh ht i hi']
    exact hi.pv h hh hw ht i hi'
  · intro hv
    obtain ⟨h, k1, k2, k3, k4, k5⟩ := hi.cur_blk hv
    exact ⟨h, k1, k2, k3, by rw [hhdr h k1]; exact k4, k5⟩
  · intro hp h hh hg
    rw [hhdr h hh] at hg
    rw [e4] at hp
    rw [e2]
    exact hi.gray hp h hh hg
  · intro h hh hb ht i hi'
    rw [hhdr h hh] at hb
    rw [hfld h hh ht i hi']
    have hw : c.white0 h := hi.stable.st_white0_of_color wf hh (by rw [hb]; decide)
    exact conv _ (hi.pv h hh hw ht i hi') (hi.black h hh hb ht i hi')
  · intro h hh he ht i hi1 hi2
    rw [hfld h hh ht i hi2]
    have hw : c.white0 h := by
      obtain ⟨h', k1, k2, k3, -⟩ := hi.cur_blk (by omega)
      have : h = h' := by omega
      subst this; exact k2
    exact conv _ (hi.pv h hh hw ht i hi2) (hi.scanned_ok h hh he ht i hi1 hi2)
  · intro h hh hm
    rw [hhdr h hh]
    rw [e2] at hm
    exact hi.stack_gray h hh hm

/-- A write to a field, other than the link, of a weak array. -/
theorem HInv.hi_write_weak (wf : c.WF) {P : Nat → Prop} {s s' : State} {v idx h i x : Nat}
    {todo : List Nat} (hi : c.HInv P s v idx todo) (hw : h ∈ c.Wl) (hi1 : i ≠ 0)
    (hi2 : i < c.size0 h) (hev : s.mem (h + 8 + 8 * i) % 2 = 0)
    (e1 : s'.mem = s.mem.set (h + 8 + 8 * i) x) (e2 : s'.gray_vals = s.gray_vals)
    (e3 : s'.gray_vals_size = s.gray_vals_size) (e4 : s'.heap_is_pure = s.heap_is_pure) :
    c.HInv P s' v idx todo := by
  obtain ⟨hh, htag, -⟩ := wf.weak_sub h hw
  refine hi.hi_write wf (fun h' hh' => wf.hdr_fld h' hh' h hh i hi2) ?_
    (hi.stable.st_set_fld wf hh hi2 hev) (hi.links.lk_set_fld wf hh hi2 (fun _ => hi1))
    e1 e2 e3 e4
  intro h' hh' ht j hj e
  have := (fld_cell_inj wf hh' hh hj hi2 e).1
  subst this
  omega

theorem HInv.hi_weak_clear (wf : c.WF) {P : Nat → Prop} {s : State} {v idx h i cf : Nat}
    {todo : List Nat} (hi : c.HInv P s v idx todo) (hw : h ∈ c.Wl) (hi1 : i ≠ 0)
    (hi2 : i < c.size0 h) (hev : s.mem (h + 8 + 8 * i) % 2 = 0) :
    c.HInv P (weak_clear c.env (h + 8) i cf s) v idx todo := by
  simp only [weak_clear]
  split_ifs
  · exact hi.hi_write_weak wf hw hi1 hi2 hev (set_Field_eq _ _ _ _) rfl rfl rfl
  · exact hi

theorem HInv.hi_weak_again (wf : c.WF) {P : Nat → Prop} {v idx h i : Nat}
    {todo : List Nat} (hw : h ∈ c.Wl) (hi1 : i ≠ 0) (hi2 : i < c.size0 h)
    (fuel : Nat) {s : State} {cf : Nat} (hi : c.HInv P s v idx todo)
    (hcf : s.mem (h + 8 + 8 * i) = cf) :
    c.HInv P (weak_again c.env (h + 8) i fuel cf s) v idx todo := by
  induction fuel generalizing s cf with
  | zero => exact hi
  | succ fuel ih =>
    simp only [weak_again]
    by_cases hc : (cf != c.env.caml_weak_none && Is_block cf
        && c.env.Is_in_heap_or_young cf) = true
    swap
    · rw [if_neg hc]; exact hi
    rw [if_pos hc]
    simp only [Bool.and_eq_true] at hc
    have hev : s.mem (h + 8 + 8 * i) % 2 = 0 := by
      rw [hcf]
      have := hc.1.2
      simpa [Is_block] using this
    have hclear : c.HInv P (weak_clear c.env (h + 8) i cf s) v idx todo :=
      hi.hi_weak_clear wf hw hi1 hi2 hev
    split_ifs
    · exact hclear
    · refine ih (hi.hi_write_weak (x := Forward_val s.mem cf) wf hw hi1 hi2 hev
        (set_Field_eq _ _ _ _) rfl rfl rfl) ?_
      show (set_Field s.mem (h + 8) i _) _ = _
      rw [set_Field_eq, Mem.set_same]
    · refine ih (hi.hi_write_weak (x := Forward_val s.mem cf) wf hw hi1 hi2 hev
        (set_Field_eq _ _ _ _) rfl rfl rfl) ?_
      show (set_Field s.mem (h + 8) i _) _ = _
      rw [set_Field_eq, Mem.set_same]
    · exact hclear
    · exact hclear

theorem HInv.hi_weak_fields (wf : c.WF) {P : Nat → Prop} {v idx h : Nat}
    {todo : List Nat} (hw : h ∈ c.Wl) (n : Nat) {i : Nat} {s : State}
    (hi : c.HInv P s v idx todo) (hi1 : i ≠ 0) (hi2 : i + n ≤ c.size0 h) :
    c.HInv P (weak_fields c.env (h + 8) n i s) v idx todo := by
  induction n generalizing i s with
  | zero => exact hi
  | succ n ih =>
    simp only [weak_fields]
    exact ih (hi.hi_weak_again wf hw hi1 (by omega) weak_fuel rfl) (by omega) (by omega)

end HeapCtx

/-! ## The invariant of marking: the subphases -/

namespace HeapCtx

variable {c : HeapCtx}

/-- The invariant is carried to a state that differs from a state of the same
frame in fields that the heap invariant does not read. -/
theorem MInv.mi_carry {s s1 s' : State} {v start v' start' : Nat} {todo : List Nat}
    (hm : c.MInv s v start) (hf : HeapFrame s s1)
    (e1 : s'.mem = s1.mem) (e2 : s'.gray_vals = s1.gray_vals)
    (e3 : s'.gray_vals_size = s1.gray_vals_size) (e4 : s'.heap_is_pure = s1.heap_is_pure)
    (e5 : s'.caml_gc_phase = s1.caml_gc_phase) (e6 : s'.caml_heap_start = s1.caml_heap_start)
    (e7 : s'.markhp = s1.markhp) (e8 : s'.chunk = s1.chunk) (e9 : s'.limit = s1.limit)
    (hwp : s'.caml_gc_subphase = Subphase_weak1 ∨ s'.caml_gc_subphase = Subphase_weak2 →
      c.WP s'.weak_prev)
    (hn : ∀ h, v' = h + 8 → ¬ c.tag0 h < No_scan_tag → start' = 0)
    (hi : c.HInv no_pending s1 v' start' todo) (sp : c.ScanPos s todo) :
    c.MInv s' v' start' := by
  have f1 : s1.caml_gc_phase = s.caml_gc_phase := by rw [hf]
  have f2 : s1.caml_heap_start = s.caml_heap_start := by rw [hf]
  have f5 : s1.markhp = s.markhp := by rw [hf]
  have f6 : s1.chunk = s.chunk := by rw [hf]
  have f7 : s1.limit = s.limit := by rw [hf]
  exact ⟨(e5.trans f1).trans hm.phase, (e6.trans f2).trans hm.hstart, hwp, hn, todo,
    hi.hi_congr e1 e2 e3 e4, sp.sp_congr (e7.trans f5) (e8.trans f6) (e9.trans f7)⟩

theorem WP.wp_cases {a : Nat} {m : Mem} (hw : c.WP a) (hl : c.LinkOK m) :
    m a = 0 ∨ ∃ h ∈ c.Wl, m a = h + 8 := by
  rcases hw with e | ⟨h, hh, e⟩
  · rw [e]; exact hl.1
  · rw [e]; exact hl.2 h hh

/-- The case Subphase_roots keeps the invariant. -/
theorem MInv.mi_roots (wf : c.WF) {st : MarkState} (hm : c.MInv st.s st.v st.start) :
    c.MInv (mark_roots c.env st).s (mark_roots c.env st).v (mark_roots c.env st).start := by
  obtain ⟨s, work, v, start, sf⟩ := st
  simp only at hm
  obtain ⟨todo, hi, sp⟩ := hm.heap
  have hm1 : c.MInv { s with events := Event.darken_all_roots_slice work :: s.events } v start :=
    hm.mi_carry (HeapFrame.frame_refl s) rfl rfl rfl rfl rfl rfl rfl rfl rfl hm.wp hm.noscan hi sp
  obtain ⟨todo1, hi1, sp1⟩ := hm1.heap
  have hfr := foldl_caml_darken_frame c.env (c.env.roots_slice s work).1
    { s with events := Event.darken_all_roots_slice work :: s.events }
  have hi2 := hi1.hi_foldl_darken wf _ (wf.roots_ok s work)
  have hsub := hfr.frame_subphase
  have hwpv : ((c.env.roots_slice s work).1.foldl (caml_darken c.env)
      { s with events := Event.darken_all_roots_slice work :: s.events }).weak_prev
      = s.weak_prev := by rw [hfr]
  simp only [mark_roots]
  split_ifs
  · refine hm1.mi_carry hfr rfl rfl rfl rfl rfl rfl rfl rfl rfl ?_ hm.noscan hi2 sp1
    intro h
    rcases h with h | h
    · have h' : Subphase_main = Subphase_weak1 := h
      exact absurd h' (by decide)
    · have h' : Subphase_main = Subphase_weak2 := h
      exact absurd h' (by decide)
  · refine hm1.mi_carry hfr rfl rfl rfl rfl rfl rfl rfl rfl rfl ?_ hm.noscan hi2 sp1
    rw [hsub, hwpv]
    exact hm.wp

/-- The case Subphase_main keeps the invariant. -/
theorem MInv.mi_main {s : State} {v start : Nat} (hm : c.MInv s v start) :
    c.MInv { s with caml_gc_subphase := Subphase_weak1
                    weak_prev := c.env.caml_weak_list_head } v start := by
  obtain ⟨todo, hi, sp⟩ := hm.heap
  exact hm.mi_carry (HeapFrame.frame_refl s) rfl rfl rfl rfl rfl rfl rfl rfl rfl
    (fun _ => Or.inl rfl) hm.noscan hi sp

/-- The case Subphase_weak1 keeps the invariant. -/
theorem MInv.mi_weak1 (wf : c.WF) {st : MarkState} (hm : c.MInv st.s st.v st.start)
    (hsub : st.s.caml_gc_subphase = Subphase_weak1) (hv : st.v = 0) :
    c.MInv (mark_weak1 c.env st).s (mark_weak1 c.env st).v (mark_weak1 c.env st).start := by
  obtain ⟨s, work, v, start, sf⟩ := st
  simp only at hm hsub hv
  subst hv
  obtain ⟨todo, hi, sp⟩ := hm.heap
  have hst : start = 0 := hi.cur_idx rfl
  subst hst
  have hcases := (hm.wp (Or.inl hsub)).wp_cases hi.links
  simp only [mark_weak1]
  by_cases hc : s.mem s.weak_prev ≠ 0
  · rw [if_pos hc]
    rcases hcases with e | ⟨h, hw, e⟩
    · exact absurd e hc
    obtain ⟨hh, -, hsz⟩ := wf.weak_sub h hw
    rw [e, Hd_val_add, hi.stable.st_size hh]
    have hfr := weak_fields_frame c.env (h + 8) (c.size0 h - 1) 1 s
    have hi1 := hi.hi_weak_fields wf hw (c.size0 h - 1) (i := 1) (by decide) (by omega)
    exact hm.mi_carry hfr rfl rfl rfl rfl rfl rfl rfl rfl rfl
      (fun _ => Or.inr ⟨h, hw, rfl⟩) hm.noscan hi1 sp
  · rw [if_neg hc]
    have hm1 : c.MInv { s with events := Event.final_update :: s.events } 0 0 :=
      hm.mi_carry (HeapFrame.frame_refl s) rfl rfl rfl rfl rfl rfl rfl rfl rfl hm.wp hm.noscan
        hi sp
    obtain ⟨todo1, hi1, sp1⟩ := hm1.heap
    have hfr := foldl_caml_darken_frame c.env (c.env.final_update s)
      { s with events := Event.final_update :: s.events }
    have hi2 := hi1.hi_foldl_darken wf _ (wf.final_ok s)
    generalize (c.env.final_update s).foldl (caml_darken c.env)
      { s with events := Event.final_update :: s.events } = s2 at hfr hi2 ⊢
    cases hs : s2.gray_vals with
    | nil =>
      simp only
      exact hm1.mi_carry hfr rfl hs.symm rfl rfl rfl rfl rfl rfl rfl
        (fun _ => Or.inl rfl) hm.noscan hi2 sp1
    | cons x rest =>
      simp only
      have hpop := hi2.hi_pop hs
      have hfr' : HeapFrame { s with events := Event.final_update :: s.events }
          { s2 with gray_vals := rest } := HeapFrame.frame_trans hfr rfl
      exact hm1.mi_carry hfr' rfl rfl rfl rfl rfl rfl rfl rfl rfl
        (fun _ => Or.inl rfl) (fun _ _ _ => rfl) hpop sp1

/-- The case Subphase_weak2 keeps the invariant. -/
theorem MInv.mi_weak2 (wf : c.WF) {st : MarkState} (hm : c.MInv st.s st.v st.start)
    (hsub : st.s.caml_gc_subphase = Subphase_weak2) :
    c.MInv (mark_weak2 st).s (mark_weak2 st).v (mark_weak2 st).start := by
  obtain ⟨s, work, v, start, sf⟩ := st
  simp only at hm hsub
  obtain ⟨todo, hi, sp⟩ := hm.heap
  have hwp := hm.wp (Or.inr hsub)
  have hcases := hwp.wp_cases hi.links
  simp only [mark_weak2]
  by_cases hc : s.mem s.weak_prev ≠ 0
  swap
  · rw [if_neg hc]
    refine hm.mi_carry (HeapFrame.frame_refl s) rfl rfl rfl rfl rfl rfl rfl rfl rfl ?_
      hm.noscan hi sp
    intro h
    rcases h with h | h
    · have h' : Subphase_final = Subphase_weak1 := h
      exact absurd h' (by decide)
    · have h' : Subphase_final = Subphase_weak2 := h
      exact absurd h' (by decide)
  rw [if_pos hc]
  rcases hcases with e | ⟨h, hw, e⟩
  · exact absurd e hc
  obtain ⟨hh, htag, hsz⟩ := wf.weak_sub h hw
  have hev : s.mem s.weak_prev % 2 = 0 := by
    rw [e]
    have := wf.even h hh
    omega
  rw [e, Hd_val_add, Field_add]
  simp only [Nat.mul_zero, Nat.add_zero]
  have hx := hi.links.2 h hw
  by_cases hwhite : Color_hd (s.mem h) = Caml_white
  swap
  · rw [if_neg hwhite]
    exact hm.mi_carry (HeapFrame.frame_refl s) rfl rfl rfl rfl rfl rfl rfl rfl rfl
      (fun _ => Or.inr ⟨h, hw, rfl⟩) hm.noscan hi sp
  rw [if_pos hwhite]
  have hfr : HeapFrame s { s with mem := s.mem.set s.weak_prev (s.mem (h + 8)) } := rfl
  refine hm.mi_carry hfr rfl rfl rfl rfl rfl rfl rfl rfl rfl (fun _ => hwp) hm.noscan ?_ sp
  rcases hwp with ep | ⟨hp, hpw, ep⟩
  · -- the link is taken out of the variable caml_weak_list_head
    rw [ep] at hev ⊢
    refine hi.hi_write wf (fun h' hh' => fun e' => (wf.head_sep h' hh').1 e'.symm)
      (fun h' hh' _ i hi' => fun e' => (wf.head_sep h' hh').2 i hi' e'.symm)
      (hi.stable.st_set_head wf hev) ?_ rfl rfl rfl rfl
    refine ⟨by rw [Mem.set_same]; exact hx, fun h' hw' => ?_⟩
    obtain ⟨hh', -, hsz'⟩ := wf.weak_sub h' hw'
    have hne : h' + 8 ≠ c.env.caml_weak_list_head := by
      have := (wf.head_sep h' hh').2 0 (by omega)
      omega
    rw [Mem.set_other _ _ hne]
    exact hi.links.2 h' hw'
  · -- the link is taken out of the weak array before
    obtain ⟨hph, hptag, hpsz⟩ := wf.weak_sub hp hpw
    rw [ep] at hev ⊢
    have hst := hi.stable.st_set_fld (x := s.mem (h + 8)) wf hph (i := 0) (by omega) hev
    simp only [Nat.mul_zero, Nat.add_zero] at hst
    refine hi.hi_write wf (fun h' hh' => ?_) (fun h' hh' ht i hi' => ?_) hst ?_ rfl rfl rfl rfl
    · have := wf.hdr_fld h' hh' hp hph 0 (by omega)
      omega
    · intro e'
      have := (fld_cell_inj (i := i) (j := 0) wf hh' hph hi' (by omega) (by omega)).1
      subst this
      omega
    · refine ⟨?_, fun h' hw' => ?_⟩
      · have hne : c.env.caml_weak_list_head ≠ hp + 8 := by
          have := (wf.head_sep hp hph).2 0 (by omega)
          omega
        rw [Mem.set_other _ _ hne]
        exact hi.links.1
      · by_cases e' : h' = hp
        · subst e'
          rw [Mem.set_same]; exact hx
        · rw [Mem.set_other _ _ (by omega)]
          exact hi.links.2 h' hw'

/-- The case Subphase_final: the phase becomes Phase_sweep with the heap in
the state described by no_gray and no_black_to_white. -/
theorem MInv.mi_final (wf : c.WF) {st : MarkState} (hm : c.MInv st.s st.v st.start)
    (hv : st.v = 0) (hstack : st.s.gray_vals = []) (hmk : st.s.markhp = 0)
    (hpure : st.s.heap_is_pure = true) :
    (mark_final c.env st).work ≤ 0 ∧ c.Done (mark_final c.env st).s := by
  obtain ⟨s, work, v, start, sf⟩ := st
  simp only at hm hv hstack hmk hpure
  subst hv
  obtain ⟨todo, hi, sp⟩ := hm.heap
  have htodo : todo = [] := by
    rcases sp with ⟨-, e⟩ | ⟨e, -⟩
    · exact e
    · exact absurd hmk e
  subst htodo
  have hmem : (mark_final c.env ⟨s, work, 0, start, sf⟩).s.mem = s.mem := by
    simp only [mark_final]; split_ifs <;> rfl
  have hph : (mark_final c.env ⟨s, work, 0, start, sf⟩).s.caml_gc_phase = Phase_sweep := by
    simp only [mark_final]; split_ifs <;> rfl
  have hng : ∀ h ∈ c.H, Color_hd (s.mem h) ≠ Caml_gray := by
    intro h hh hg
    rcases hi.gray hpure h hh hg with r | r | r
    · rw [hstack] at r; exact absurd r (List.not_mem_nil _)
    · omega
    · exact absurd r (List.not_mem_nil _)
  refine ⟨le_refl _, hph, ?_, ?_⟩
  · rw [hmem]; exact hng
  · rw [hmem]
    intro h hh hb ht i hi' hblk hin
    simp only [Hd_hp, Val_hp, Field_add, Hd_val] at hb ht hi' hblk hin ⊢
    rw [hi.stable.st_tag hh] at ht
    rw [hi.stable.st_size hh] at hi'
    have hw : c.white0 h := hi.stable.st_white0_of_color wf hh (by rw [hb]; decide)
    have hval := hi.pv h hh hw ht i hi' hblk hin
    rw [hi.stable.st_resolve hval]
    rcases hi.black h hh hb ht i hi' with (hd | ⟨f, hf, hg, -⟩) | hp
    · exact hd hblk hin
    · exact absurd hg (hng f hf)
    · exact absurd hp id

end HeapCtx

/-! ## The invariant of marking: the loop of mark_slice and its callers -/

namespace HeapCtx

variable {c : HeapCtx}

/-- One iteration of the loop of mark_slice keeps the invariant or ends the
mark phase. -/
theorem MInv.mi_step (wf : c.WF) {st : MarkState} (hm : c.MInv st.s st.v st.start) :
    c.Good (mark_step c.env st) := by
  obtain ⟨hp, hpe⟩ := hm.mi_pop
  simp only [mark_step]
  generalize mark_pop st = st1 at hp hpe ⊢
  by_cases hv : st1.v ≠ 0
  · rw [if_pos hv]; exact Or.inl (hp.mi_mark_value wf hv)
  rw [if_neg hv]
  have hv0 : st1.v = 0 := not_not.1 hv
  have hstack := hpe hv0
  by_cases hmk : st1.s.markhp ≠ 0
  · rw [if_pos hmk]; exact Or.inl (hp.mi_heap_scan wf hv0 hstack hmk)
  rw [if_neg hmk]
  have hmk0 : st1.s.markhp = 0 := not_not.1 hmk
  by_cases hpure : st1.s.heap_is_pure = true
  · have hnp : ¬ ((!st1.s.heap_is_pure) = true) := by simp [hpure]
    rw [if_neg hnp]
    simp only [mark_subphase]
    split_ifs with h1 h2 h3 h4 h5
    · exact Or.inl (hp.mi_roots wf)
    · exact Or.inl hp.mi_main
    · exact Or.inl (hp.mi_weak1 wf h3 hv0)
    · exact Or.inl (hp.mi_weak2 wf h4)
    · exact Or.inr (hp.mi_final wf hv0 hstack hmk0 hpure)
    · exact Or.inl hp
  · have hnp : (!st1.s.heap_is_pure) = true := by simp [hpure]
    rw [if_pos hnp]
    exact Or.inl (hp.mi_restart wf)

theorem Good.good_loop (wf : c.WF) (fuel : Nat) {st : MarkState} (hg : c.Good st) :
    c.Good (mark_loop c.env fuel st) := by
  induction fuel generalizing st with
  | zero => exact hg
  | succ fuel ih =>
    simp only [mark_loop]
    split_ifs with hw
    · rcases hg with hm | ⟨hw', -⟩
      · exact ih (hm.mi_step wf)
      · omega
    · exact hg

/-- What holds of the globals between two calls of mark_slice: the invariant
of marking, or the mark phase is over. -/
theorem MInv.mi_slice (wf : c.WF) (fuel : Nat) (work : Int) {s : State}
    (hm : c.MInv s s.current_value s.current_index) :
    c.MInv (mark_slice c.env fuel s work) (mark_slice c.env fuel s work).current_value
        (mark_slice c.env fuel s work).current_index
      ∨ c.Done (mark_slice c.env fuel s work) := by
  have hg : c.Good (mark_enter s work) := Or.inl hm
  have := hg.good_loop wf fuel
  simp only [mark_slice]
  generalize mark_loop c.env fuel (mark_enter s work) = st at this
  rcases this with hm' | ⟨-, hd⟩
  · left
    obtain ⟨todo, hi, sp⟩ := hm'.heap
    exact hm'.mi_carry (HeapFrame.frame_refl _) rfl rfl rfl rfl rfl rfl rfl rfl rfl hm'.wp
      hm'.noscan hi sp
  · exact Or.inr hd

theorem MInv.mi_drive (wf : c.WF) (l : List (Nat × Int)) {s : State}
    (h : c.MInv s s.current_value s.current_index ∨ c.Done s) :
    c.MInv (drive c.env l s) (drive c.env l s).current_value (drive c.env l s).current_index
      ∨ c.Done (drive c.env l s) := by
  induction l generalizing s with
  | nil => exact h
  | cons p rest ih =>
    simp only [drive]
    split_ifs with hp
    · rcases h with hm | hd
      · exact ih (hm.mi_slice wf p.1 p.2)
      · have := hd.1
        rw [hp] at this
        exact absurd this (by decide)
    · exact h

/-- The invariant of marking holds when start_cycle has run on a well-formed
heap. -/
theorem MInv.mi_start (wf : c.WF) {s0 : State} (hmem : s0.mem = c.m0)
    (hhs : s0.caml_heap_start = c.heap_start) (hgv : s0.gray_vals = [])
    (hsz : 0 < s0.gray_vals_size) (hcv : s0.current_value = 0)
    (hci : s0.current_index = 0) :
    c.MInv (start_cycle s0) (start_cycle s0).current_value (start_cycle s0).current_index := by
  have e1 : (start_cycle s0).mem = c.m0 := hmem
  have e2 : (start_cycle s0).gray_vals = [] := hgv
  have e3 : (start_cycle s0).current_value = 0 := hcv
  have e4 : (start_cycle s0).current_index = 0 := hci
  have e5 : (start_cycle s0).gray_vals_size = s0.gray_vals_size := rfl
  have hc : ∀ h ∈ c.H, Color_hd (c.m0 h) ≠ Caml_gray ∧ Color_hd (c.m0 h) ≠ Caml_black := by
    intro h hh
    rcases wf.colors h hh with k | k <;> rw [k] <;> exact ⟨by decide, by decide⟩
  rw [e3, e4]
  refine ⟨rfl, hhs, ?_, fun h e => absurd e (by omega), [], ?_, Or.inl ⟨rfl, rfl⟩⟩
  · intro h
    rcases h with h | h
    · have h' : Subphase_roots = Subphase_weak1 := h
      exact absurd h' (by decide)
    · have h' : Subphase_roots = Subphase_weak2 := h
      exact absurd h' (by decide)
  · refine ⟨e1 ▸ Stable.st_start c, e1 ▸ wf.pv, e1 ▸ wf.weak_links, ?_, ?_, fun h => absurd rfl h,
      fun _ => rfl, ?_, ?_, ?_, ?_, ?_⟩
    · rw [e2]; intro x hx; exact absurd hx (List.not_mem_nil _)
    · rw [e2, e5]; exact hsz
    · intro _ h hh hg
      rw [e1] at hg
      exact absurd hg (hc h hh).1
    · intro h hh hb
      rw [e1] at hb
      exact absurd hb (hc h hh).2
    · intro h hh he; omega
    · rw [e2]; intro h hh hx; exact absurd hx (List.not_mem_nil _)
    · rw [e2]; simp

end HeapCtx

theorem ex_ctx_wf : ex_ctx.WF := by
  have hH : ∀ h ∈ ex_ctx.H, h = 1000 ∨ h = 1024 ∨ h = 1048 ∨ h = 1064 := by decide
  have s1 : ex_ctx.size0 1000 = 2 := by decide
  have s2 : ex_ctx.size0 1024 = 2 := by decide
  have s3 : ex_ctx.size0 1048 = 1 := by decide
  have s4 : ex_ctx.size0 1064 = 3 := by decide
  have w1 : ex_ctx.white0 1000 := by unfold HeapCtx.white0; decide
  have w2 : ex_ctx.white0 1024 := by unfold HeapCtx.white0; decide
  have w3 : ¬ ex_ctx.white0 1048 := by unfold HeapCtx.white0; decide
  have w4 : ex_ctx.white0 1064 := by unfold HeapCtx.white0; decide
  refine ⟨?_, ?_, ?_, ?_, ?_, ?_, ?_, ?_, ?_, ?_, ?_, ?_, ?_, ?_, ?_⟩
  · simp only [chain, tiles, ex_ctx]; decide
  · decide
  · decide
  · decide
  · decide
  · unfold HeapCtx.size0; decide
  · intro h hh h' hh' i j hi hj e
    rcases hH h hh with k | k | k | k <;> rcases hH h' hh' with k' | k' | k' | k' <;>
      subst k k' <;> simp only [s1, s2, s3, s4] at hi hj <;> omega
  · unfold HeapCtx.size0; decide
  · intro p hp a ha
    have hp' : p = (1000, [1000, 1024, 1048, 1064]) := by simpa [ex_ctx] using hp
    subst hp'
    have ha' : a = 984 ∨ a = 992 := ha
    refine ⟨?_, ?_, ?_⟩
    · rcases ha' with k | k <;> subst k <;> decide
    · rintro ⟨h, hh, i, hi, e⟩
      rcases hH h hh with k | k | k | k <;> subst k <;> omega
    · rcases ha' with k | k <;> subst k <;> decide
  · unfold HeapCtx.tag0 HeapCtx.size0; decide
  · intro h hh hw ht i hi
    have hv : ∀ x, x = 1032 ∨ x = 1072 ∨ x = 1008 ∨ x % 2 = 1 → ex_ctx.VPtr x := by
      intro x hx hb hin
      rcases hx with k | k | k | k
      · subst k; exact ⟨1024, by decide, w2, by decide⟩
      · subst k; exact ⟨1064, by decide, w4, by decide⟩
      · subst k; exact ⟨1000, by decide, w1, by decide⟩
      · simp [Is_block] at hb; omega
    apply hv
    rcases hH h hh with k | k | k | k <;> subst k
    · simp only [s1] at hi
      interval_cases i <;> decide
    · exact absurd ht (by decide)
    · exact absurd hw w3
    · simp only [s4] at hi
      interval_cases i <;> decide
  · intro h hh; exact absurd hh (List.not_mem_nil _)
  · exact ⟨Or.inl (by decide), fun h hh => absurd hh (List.not_mem_nil _)⟩
  · intro s w x hx
    have : x = 1008 := by simpa [ex_ctx, ex_env] using hx
    subst this
    intro _ _
    exact ⟨1000, by decide, w1, by decide⟩
  · intro s x hx
    have : x ∈ ([] : List Nat) := hx
    exact absurd this (List.not_mem_nil _)

/-- C2: a cycle is started by start_cycle on a well-formed heap in which every
block is white or free, and driven by calls of mark_slice, with any iteration
bounds and budgets, made while the phase is Phase_mark.  In the state where the
phase has become Phase_sweep no black scannable block has a field that points
into the heap to a white block, whether that block is reachable from the roots
or not. -/
theorem mark_ends_without_black_to_white (c : HeapCtx) (wf : c.WF) (s0 : State)
    (hmem : s0.mem = c.m0) (hhs : s0.caml_heap_start = c.heap_start)
    (hgv : s0.gray_vals = []) (hsz : 0 < s0.gray_vals_size)
    (hcv : s0.current_value = 0) (hci : s0.current_index = 0)
    (l : List (Nat × Int))
    (hsw : (drive c.env l (start_cycle s0)).caml_gc_phase = Phase_sweep) :
    no_black_to_white c.env c.H (drive c.env l (start_cycle s0)).mem := by
  rcases HeapCtx.MInv.mi_drive wf l
    (Or.inl (HeapCtx.MInv.mi_start wf hmem hhs hgv hsz hcv hci)) with hm | hd
  · have := hm.phase
    rw [hsw] at this
    exact absurd this (by decide)
  · exact hd.2.2

theorem mark_ends_without_black_to_white_witness :
    ex_ctx.WF
    ∧ (drive ex_env [(4, 3), (4, 3), (40, 100)] (start_cycle ex_white)).caml_gc_phase
        = Phase_sweep
    ∧ Color_hd ((drive ex_env [(4, 3), (4, 3), (40, 100)] (start_cycle ex_white)).mem 1000)
        = Caml_black
    ∧ no_black_to_white ex_env ex_ctx.H
        (drive ex_env [(4, 3), (4, 3), (40, 100)] (start_cycle ex_white)).mem :=
  ⟨ex_ctx_wf, by decide, by decide,
    mark_ends_without_black_to_white ex_ctx ex_ctx_wf ex_white rfl rfl rfl (by decide) rfl rfl
      [(4, 3), (4, 3), (40, 100)] (by decide)⟩

/-! ## The walks of the allocation profiler over a well-formed heap -/

theorem tiles_le {m : Mem} {hp limit : Nat} {hps : List Nat} (ht : tiles m hp hps limit) :
    hp ≤ limit := by
  induction hps generalizing hp with
  | nil => exact le_of_eq ht
  | cons h hs ih =>
    have := ih ht.2.2
    omega

theorem tiles_lt {m : Mem} {hp limit h : Nat} {hs : List Nat}
    (ht : tiles m hp (h :: hs) limit) : hp < limit := by
  have := tiles_le ht.2.2
  unfold Bhsize_hd Whsize_hd Whsize_wosize at this
  omega

/-- The inner loop of the dump, given enough iterations, applies the switch
to the blocks in heap order. -/
theorem dump_blocks_tiles {m : Mem} {hps : List Nat} {hp limit fuel : Nat}
    (ht : tiles m hp hps limit) (hf : hps.length ≤ fuel) (c : DumpCounters) :
    dump_blocks m fuel hp limit c = hps.foldl (fun c h => dump_block (Hd_hp m h) c) c := by
  induction hps generalizing hp fuel c with
  | nil =>
    have e : hp = limit := ht
    cases fuel with
    | zero => rfl
    | succ n => simp [dump_blocks, e]
  | cons h hs ih =>
    have hlt := tiles_lt ht
    obtain ⟨e1, -, e3⟩ := ht
    subst e1
    cases fuel with
    | zero => simp at hf
    | succ n =>
      simp only [dump_blocks, if_pos hlt, List.foldl_cons]
      exact ih e3 (by simpa using hf) _

/-- The loops of the dump, given enough iterations, apply the switch to every
block of the heap. -/
theorem dump_chunks_chain {m : Mem} {chunks : List (Nat × List Nat)} {a fuel fb : Nat}
    (hc : chain m a chunks) (hf : chunks.length ≤ fuel)
    (hb : ∀ p ∈ chunks, p.2.length ≤ fb) (c : DumpCounters) :
    dump_chunks m fb fuel a c
      = (all_headers chunks).foldl (fun c h => dump_block (Hd_hp m h) c) c := by
  induction chunks generalizing a fuel c with
  | nil =>
    have e : a = 0 := hc
    cases fuel with
    | zero => rfl
    | succ n => simp [dump_chunks, e, all_headers]
  | cons p rest ih =>
    obtain ⟨e1, e2, e3, e4⟩ := hc
    cases fuel with
    | zero => simp at hf
    | succ n =>
      simp only [dump_chunks, if_pos e2]
      rw [dump_blocks_tiles e3 (hb p (List.mem_cons_self _ _)),
        ih e4 (by simpa using hf) (fun q hq => hb q (List.mem_cons_of_mem _ hq))]
      simp [all_headers, List.foldl_append]

theorem dump_block_counted (hd : Nat) (c : DumpCounters) :
    dump_counted (dump_block hd c) % 2 ^ 64 = (dump_counted c + Whsize_hd hd) % 2 ^ 64 := by
  simp only [dump_block]
  split_ifs <;> simp only [dump_counted, add64] <;> omega

theorem foldl_dump_block_counted (m : Mem) (hs : List Nat) (c : DumpCounters) :
    dump_counted (hs.foldl (fun c h => dump_block (Hd_hp m h) c) c) % 2 ^ 64
      = (dump_counted c + total_words m hs) % 2 ^ 64 := by
  induction hs generalizing c with
  | nil => simp [total_words]
  | cons h hs ih =>
    rw [List.foldl_cons, ih]
    have := dump_block_counted (Hd_hp m h) c
    simp only [total_words, List.map_cons, List.sum_cons] at this ⊢
    omega

/-- The seven word counters of the dump add up, modulo 2^64, to the words of
all blocks of a well-formed heap. -/
theorem dump_counts_all_words (s : State) (chunks : List (Nat × List Nat)) (fuel : Nat)
    (sample_strings : Int) (hl : HeapLayout s.mem s.caml_heap_start chunks)
    (hf : chunks.length ≤ fuel) (hb : ∀ p ∈ chunks, p.2.length ≤ fuel) :
    dump_counted (caml_dump_allocators_of_major_heap_blocks fuel s sample_strings) % 2 ^ 64
      = total_words s.mem (all_headers chunks) % 2 ^ 64 := by
  unfold caml_dump_allocators_of_major_heap_blocks
  rw [dump_chunks_chain hl.1 hf hb, foldl_dump_block_counted]
  simp [dump_counted, dump_init]

theorem ex_prof_layout : HeapLayout ex_prof.mem ex_prof.caml_heap_start [(1000, [1000, 1024])] := by
  refine ⟨?_, by decide⟩
  simp only [chain, tiles]
  decide

/-- C11: on the example heap, which is tiled exactly by two blocks of three
words, the first carrying the allocation-site information
BUILTIN_RETURN_ADDRESS_FAILURE, the number that the dump prints as the word
size of all blocks, blue + accounted_for + unaccounted_for, is 3 and not 6:
the words of the first block are counted in builtin_return_address_failures
only. -/
theorem dump_all_blocks_misses_sentinel_blocks :
    HeapLayout ex_prof.mem ex_prof.caml_heap_start [(1000, [1000, 1024])]
    ∧ total_words ex_prof.mem (all_headers [(1000, [1000, 1024])]) = 6
    ∧ Decode_profinfo_hd (Hd_hp ex_prof.mem 1000) = BUILTIN_RETURN_ADDRESS_FAILURE
    ∧ dump_all_blocks (caml_dump_allocators_of_major_heap_blocks 5 ex_prof 0) = 3
    ∧ (caml_dump_allocators_of_major_heap_blocks 5 ex_prof 0).builtin_return_address_failures
        = 3
    ∧ dump_counted (caml_dump_allocators_of_major_heap_blocks 5 ex_prof 0) = 6 := by
  refine ⟨ex_prof_layout, ?_, ?_, ?_, ?_, ?_⟩ <;> decide

/-! ## caml_where_was_this_allocated -/

/-- C12, as stated, fails: the header of the block at 1008 of the example
heap carries the sentinel BUILTIN_RETURN_ADDRESS_FAILURE, and
caml_where_was_this_allocated returns Some of it, not None. -/
theorem where_allocated_sentinel_counterexample :
    Is_block 1008 = true
    ∧ ex_env.Is_in_heap 1008 = true
    ∧ Decode_profinfo_hd (Hd_val ex_prof_mem 1008) = BUILTIN_RETURN_ADDRESS_FAILURE
    ∧ caml_where_was_this_allocated ex_prof_mem 1008 = some BUILTIN_RETURN_ADDRESS_FAILURE
    ∧ caml_where_was_this_allocated ex_prof_mem 1008 ≠ none := by
  refine ⟨?_, ?_, ?_, ?_, ?_⟩ <;> decide

/-- C12, amended: caml_where_was_this_allocated returns None exactly when v is
not a block or the allocation-site information decoded from its header is 0;
otherwise it returns Some of the decoded information, whatever it is: 0xABCD
gives Some 0xABCD, and a fixed sentinel gives Some of the sentinel. -/
theorem where_allocated_cases (m : Mem) (v : Nat) :
    (caml_where_was_this_allocated m v = none
      ↔ (Is_block v = false ∨ Decode_profinfo_hd (Hd_val m v) = 0))
    ∧ (caml_where_was_this_allocated m v ≠ none →
        caml_where_was_this_allocated m v = some (Decode_profinfo_hd (Hd_val m v)))
    ∧ (Is_block v = true → Decode_profinfo_hd (Hd_val m v) = 0xABCD →
        caml_where_was_this_allocated m v = some 0xABCD) := by
  simp only [caml_where_was_this_allocated]
  refine ⟨?_, ?_, ?_⟩
  · by_cases hb : Is_block v = true
    · by_cases hz : Decode_profinfo_hd (Hd_val m v) = 0 <;> simp [hb, hz]
    · simp [hb]
  · by_cases hb : Is_block v = true
    · by_cases hz : Decode_profinfo_hd (Hd_val m v) = 0 <;> simp [hb, hz]
    · simp [hb]
  · intro hb hz
    simp [hb, hz]

theorem where_allocated_cases_witness :
    caml_where_was_this_allocated ex_prof_mem 1032 = some 0xABCD :=
  (where_allocated_cases ex_prof_mem 1032).2.2 (by decide) (by decide)

/-! ## caml_forget_where_values_were_allocated -/

theorem Wosize_hd_clear_hd (hd : Nat) : Wosize_hd (clear_hd hd) = Wosize_hd hd := by
  unfold clear_hd Make_header_with_profinfo Make_header Wosize_hd Color_hd Tag_hd
    PROFINFO_SHIFT PROFINFO_WIDTH
  omega

theorem Tag_hd_clear_hd (hd : Nat) : Tag_hd (clear_hd hd) = Tag_hd hd := by
  unfold clear_hd Make_header_with_profinfo Make_header Wosize_hd Color_hd Tag_hd
    PROFINFO_SHIFT PROFINFO_WIDTH
  omega

theorem Color_hd_clear_hd (hd : Nat) : Color_hd (clear_hd hd) = Color_hd hd := by
  unfold clear_hd Make_header_with_profinfo Make_header Wosize_hd Color_hd Tag_hd
    PROFINFO_SHIFT PROFINFO_WIDTH
  omega

theorem clear_hd_eq_mod (hd : Nat) : clear_hd hd = hd % 2 ^ PROFINFO_SHIFT := by
  unfold clear_hd Make_header_with_profinfo Make_header Wosize_hd Color_hd Tag_hd
    PROFINFO_SHIFT PROFINFO_WIDTH
  omega

theorem Decode_profinfo_hd_clear_hd (hd : Nat) : Decode_profinfo_hd (clear_hd hd) = 0 := by
  rw [clear_hd_eq_mod]
  unfold Decode_profinfo_hd PROFINFO_SHIFT PROFINFO_WIDTH
  omega

theorem clear_hd_idem (hd : Nat) : clear_hd (clear_hd hd) = clear_hd hd := by
  rw [clear_hd_eq_mod, clear_hd_eq_mod]
  unfold PROFINFO_SHIFT PROFINFO_WIDTH
  omega

theorem tiles_congr {m m1 : Mem} (hw : ∀ a, Wosize_hd (m1 a) = Wosize_hd (m a))
    {hp limit : Nat} {hps : List Nat} (ht : tiles m hp hps limit) : tiles m1 hp hps limit := by
  induction hps generalizing hp with
  | nil => exact ht
  | cons h hs ih =>
    obtain ⟨e1, e2, e3⟩ := ht
    refine ⟨e1, e2, ?_⟩
    have : Bhsize_hd (Hd_hp m1 hp) = Bhsize_hd (Hd_hp m hp) := by
      simp only [Bhsize_hd, Whsize_hd, Hd_hp, hw]
    rw [this]
    exact ih e3

theorem chain_congr {m m1 : Mem} (hw : ∀ a, Wosize_hd (m1 a) = Wosize_hd (m a))
    {a : Nat} {chunks : List (Nat × List Nat)}
    (hh : ∀ p ∈ chunks, m1 (p.1 - 16) = m (p.1 - 16) ∧ m1 (p.1 - 8) = m (p.1 - 8))
    (hc : chain m a chunks) : chain m1 a chunks := by
  induction chunks generalizing a with
  | nil => exact hc
  | cons p rest ih =>
    obtain ⟨e1, e2, e3, e4⟩ := hc
    obtain ⟨k1, k2⟩ := hh p (List.mem_cons_self _ _)
    have c1 : Chunk_size m1 a = Chunk_size m a := by
      simp only [Chunk_size]; rw [e1]; exact k1
    have c2 : Chunk_next m1 a = Chunk_next m a := by
      simp only [Chunk_next]; rw [e1]; exact k2
    refine ⟨e1, e2, ?_, ?_⟩
    · rw [c1]; exact tiles_congr hw e3
    · rw [c2]; exact ih (fun q hq => hh q (List.mem_cons_of_mem _ hq)) e4

theorem forgotten_nil (m : Mem) : forgotten m [] = m := by
  funext a; simp [forgotten]

theorem forgotten_append (m : Mem) (l1 l2 : List Nat) :
    forgotten (forgotten m l1) l2 = forgotten m (l1 ++ l2) := by
  funext a
  by_cases h1 : a ∈ l1 <;> by_cases h2 : a ∈ l2 <;>
    simp [forgotten, h1, h2, clear_hd_idem]

theorem forgotten_cons (m : Mem) (h : Nat) (hs : List Nat) :
    forgotten (m.set h (clear_hd (m h))) hs = forgotten m (h :: hs) := by
  funext a
  by_cases h1 : a = h
  · subst h1
    by_cases h2 : a ∈ hs <;> simp [forgotten, h2, Mem.set, clear_hd_idem]
  · by_cases h2 : a ∈ hs <;> simp [forgotten, h1, h2, Mem.set]

theorem Wosize_hd_forgotten (m : Mem) (hs : List Nat) (a : Nat) :
    Wosize_hd (forgotten m hs a) = Wosize_hd (m a) := by
  unfold forgotten
  split_ifs
  · exact Wosize_hd_clear_hd _
  · rfl

theorem forgotten_of_not_mem {m : Mem} {hs : List Nat} {a : Nat} (h : a ∉ hs) :
    forgotten m hs a = m a := by
  simp [forgotten, h]

theorem forgotten_of_mem {m : Mem} {hs : List Nat} {a : Nat} (h : a ∈ hs) :
    forgotten m hs a = clear_hd (m a) := by
  simp [forgotten, h]

/-- The inner loop of the rewrite, given enough iterations, clears the headers
of the blocks between hp and limit and nothing else. -/
theorem forget_blocks_tiles {hps : List Nat} {m : Mem} {hp limit fuel : Nat}
    (ht : tiles m hp hps limit) (hf : hps.length ≤ fuel) :
    forget_blocks fuel m hp limit = forgotten m hps := by
  induction hps generalizing m hp fuel with
  | nil =>
    have e : hp = limit := ht
    rw [forgotten_nil]
    cases fuel with
    | zero => rfl
    | succ n => simp [forget_blocks, e]
  | cons h hs ih =>
    have hlt := tiles_lt ht
    obtain ⟨e1, -, e3⟩ := ht
    subst e1
    cases fuel with
    | zero => simp at hf
    | succ n =>
      simp only [forget_blocks, if_pos hlt, Hd_hp]
      have hw : ∀ a, Wosize_hd ((m.set h (clear_hd (m h))) a) = Wosize_hd (m a) := by
        intro a
        by_cases e : a = h
        · subst e; simp [Mem.set, Wosize_hd_clear_hd]
        · simp [Mem.set, e]
      have := ih (tiles_congr hw e3) (by simpa using hf)
      rw [← forgotten_cons]
      exact this

/-- The loops of the rewrite, given enough iterations, clear the headers of
all blocks of a well-formed heap and nothing else. -/
theorem forget_chunks_chain {chunks : List (Nat × List Nat)} {m : Mem} {a fuel fb : Nat}
    (hc : chain m a chunks)
    (hs : ∀ p ∈ chunks, ∀ q ∈ chunks, p.1 - 16 ∉ q.2 ∧ p.1 - 8 ∉ q.2)
    (hf : chunks.length ≤ fuel) (hb : ∀ p ∈ chunks, p.2.length ≤ fb) :
    forget_chunks fb fuel m a = forgotten m (all_headers chunks) := by
  induction chunks generalizing m a fuel with
  | nil =>
    have e : a = 0 := hc
    cases fuel with
    | zero => simp [forget_chunks, all_headers, forgotten_nil]
    | succ n => simp [forget_chunks, e, all_headers, forgotten_nil]
  | cons p rest ih =>
    obtain ⟨e1, e2, e3, e4⟩ := hc
    have hp := List.mem_cons_self p rest
    cases fuel with
    | zero => simp at hf
    | succ n =>
      simp only [forget_chunks, if_pos e2]
      rw [forget_blocks_tiles e3 (hb p hp)]
      have hnext : Chunk_next (forgotten m p.2) a = Chunk_next m a := by
        simp only [Chunk_next]
        rw [e1]
        exact forgotten_of_not_mem (hs p hp p hp).2
      rw [hnext]
      have hc1 : chain (forgotten m p.2) (Chunk_next m a) rest :=
        chain_congr (Wosize_hd_forgotten m p.2)
          (fun q hq => ⟨forgotten_of_not_mem (hs q (List.mem_cons_of_mem _ hq) p hp).1,
            forgotten_of_not_mem (hs q (List.mem_cons_of_mem _ hq) p hp).2⟩) e4
      rw [ih hc1 (fun q hq r hr => hs q (List.mem_cons_of_mem _ hq) r (List.mem_cons_of_mem _ hr))
        (by simpa using hf) (fun q hq => hb q (List.mem_cons_of_mem _ hq)),
        forgotten_append]
      simp [all_headers]

theorem mem_all_headers {chunks : List (Nat × List Nat)} {h : Nat} :
    h ∈ all_headers chunks ↔ ∃ p ∈ chunks, h ∈ p.2 := by
  simp [all_headers, List.mem_flatMap]

/-- The rewrite keeps a well-formed heap well formed, with the same blocks. -/
theorem HeapLayout_forgotten {m : Mem} {a : Nat} {chunks : List (Nat × List Nat)}
    (hl : HeapLayout m a chunks) : HeapLayout (forgotten m (all_headers chunks)) a chunks := by
  refine ⟨chain_congr (Wosize_hd_forgotten m _) (fun p hp => ⟨?_, ?_⟩) hl.1, hl.2⟩
  · refine forgotten_of_not_mem (fun hm => ?_)
    obtain ⟨q, hq, hq'⟩ := mem_all_headers.1 hm
    exact (hl.2 p hp q hq).1 hq'
  · refine forgotten_of_not_mem (fun hm => ?_)
    obtain ⟨q, hq, hq'⟩ := mem_all_headers.1 hm
    exact (hl.2 p hp q hq).2 hq'

theorem forget_mem_eq (full_major : State → State) (fuel : Nat) (s : State)
    (chunks : List (Nat × List Nat))
    (hl : HeapLayout (full_major s).mem (full_major s).caml_heap_start chunks)
    (hf : chunks.length ≤ fuel) (hb : ∀ p ∈ chunks, p.2.length ≤ fuel) :
    (caml_forget_where_values_were_allocated full_major fuel s).mem
      = forgotten (full_major s).mem (all_headers chunks) :=
  forget_chunks_chain hl.1 hl.2 hf hb

/-- C13: on a heap that is well formed after the full major collection,
caml_forget_where_values_were_allocated, its loops given enough iterations,
leaves every block of every chunk with allocation-site information 0, so that
caml_where_was_this_allocated returns None for each of them; and the rewrite
of the headers run again on the resulting heap leaves the memory as it is. -/
theorem forget_clears_and_is_idempotent (full_major : State → State) (fuel : Nat) (s : State)
    (chunks : List (Nat × List Nat))
    (hl : HeapLayout (full_major s).mem (full_major s).caml_heap_start chunks)
    (hf : chunks.length ≤ fuel) (hb : ∀ p ∈ chunks, p.2.length ≤ fuel) :
    (∀ h ∈ all_headers chunks,
      Decode_profinfo_hd
          (Hd_hp (caml_forget_where_values_were_allocated full_major fuel s).mem h) = 0
      ∧ caml_where_was_this_allocated
          (caml_forget_where_values_were_allocated full_major fuel s).mem (Val_hp h) = none)
    ∧ forget_chunks fuel fuel (caml_forget_where_values_were_allocated full_major fuel s).mem
          (caml_forget_where_values_were_allocated full_major fuel s).caml_heap_start
        = (caml_forget_where_values_were_allocated full_major fuel s).mem := by
  have hm := forget_mem_eq full_major fuel s chunks hl hf hb
  have hst : (caml_forget_where_values_were_allocated full_major fuel s).caml_heap_start
      = (full_major s).caml_heap_start := rfl
  have hz : ∀ h ∈ all_headers chunks, Decode_profinfo_hd
      (Hd_hp (caml_forget_where_values_were_allocated full_major fuel s).mem h) = 0 := by
    intro h hh
    rw [hm, Hd_hp, forgotten_of_mem hh]
    exact Decode_profinfo_hd_clear_hd _
  refine ⟨fun h hh => ⟨hz h hh, ?_⟩, ?_⟩
  · have := hz h hh
    simp only [Hd_hp] at this
    simp only [caml_where_was_this_allocated, Val_hp, Hd_val, Nat.add_sub_cancel, this]
    split_ifs <;> rfl
  · rw [hst, hm]
    have hl2 := HeapLayout_forgotten hl
    rw [forget_chunks_chain hl2.1 hl2.2 hf hb, forgotten_append]
    funext a
    by_cases h1 : a ∈ all_headers chunks <;> simp [forgotten, h1]

theorem forget_clears_and_is_idempotent_witness :
    (∀ h ∈ all_headers [(1000, [1000, 1024])],
      Decode_profinfo_hd (Hd_hp (caml_forget_where_values_were_allocated id 5 ex_prof).mem h) = 0
      ∧ caml_where_was_this_allocated
          (caml_forget_where_values_were_allocated id 5 ex_prof).mem (Val_hp h) = none)
    ∧ forget_chunks 5 5 (caml_forget_where_values_were_allocated id 5 ex_prof).mem
          (caml_forget_where_values_were_allocated id 5 ex_prof).caml_heap_start
        = (caml_forget_where_values_were_allocated id 5 ex_prof).mem :=
  forget_clears_and_is_idempotent id 5 ex_prof [(1000, [1000, 1024])] ex_prof_layout
    (by decide) (by decide)

/-- C15: on a heap that is well formed after the full major collection, the
rewrite of caml_forget_where_values_were_allocated, its loops given enough
iterations, leaves the size, the tag and the colour held in every word
unchanged, leaves every word that is not the header of a block unchanged, and
turns the header of every block into the same header with the allocation-site
bits cleared; the heap is well formed afterwards with the same chunks and the
same blocks, so that a walk meets the same block boundaries. -/
theorem forget_changes_profinfo_only (full_major : State → State) (fuel : Nat) (s : State)
    (chunks : List (Nat × List Nat))
    (hl : HeapLayout (full_major s).mem (full_major s).caml_heap_start chunks)
    (hf : chunks.length ≤ fuel) (hb : ∀ p ∈ chunks, p.2.length ≤ fuel) :
    (∀ a, Wosize_hd ((caml_forget_where_values_were_allocated full_major fuel s).mem a)
            = Wosize_hd ((full_major s).mem a)
        ∧ Tag_hd ((caml_forget_where_values_were_allocated full_major fuel s).mem a)
            = Tag_hd ((full_major s).mem a)
        ∧ Color_hd ((caml_forget_where_values_were_allocated full_major fuel s).mem a)
            = Color_hd ((full_major s).mem a))
    ∧ (∀ a, a ∉ all_headers chunks →
        (caml_forget_where_values_were_allocated full_major fuel s).mem a
          = (full_major s).mem a)
    ∧ (∀ h ∈ all_headers chunks,
        (caml_forget_where_values_were_allocated full_major fuel s).mem h
          = (full_major s).mem h % 2 ^ PROFINFO_SHIFT)
    ∧ HeapLayout (caml_forget_where_values_were_allocated full_major fuel s).mem
        (caml_forget_where_values_were_allocated full_major fuel s).caml_heap_start chunks := by
  have hm := forget_mem_eq full_major fuel s chunks hl hf hb
  have hst : (caml_forget_where_values_were_allocated full_major fuel s).caml_heap_start
      = (full_major s).caml_heap_start := rfl
  rw [hst, hm]
  refine ⟨fun a => ?_, fun a ha => forgotten_of_not_mem ha, fun h hh => ?_,
    HeapLayout_forgotten hl⟩
  · by_cases h1 : a ∈ all_headers chunks
    · rw [forgotten_of_mem h1]
      exact ⟨Wosize_hd_clear_hd _, Tag_hd_clear_hd _, Color_hd_clear_hd _⟩
    · rw [forgotten_of_not_mem h1]
      exact ⟨rfl, rfl, rfl⟩
  · rw [forgotten_of_mem hh, clear_hd_eq_mod]

theorem forget_changes_profinfo_only_witness :
    (caml_forget_where_values_were_allocated id 5 ex_prof).mem 1000 = 2048
    ∧ ex_prof.mem 1000 = 2048 + 16 * 2 ^ 38
    ∧ HeapLayout (caml_forget_where_values_were_allocated id 5 ex_prof).mem
        (caml_forget_where_values_were_allocated id 5 ex_prof).caml_heap_start
        [(1000, [1000, 1024])] :=
  ⟨by decide, by decide,
    (forget_changes_profinfo_only id 5 ex_prof [(1000, [1000, 1024])] ex_prof_layout
      (by decide) (by decide)).2.2.2⟩

/-! ## realloc_gray_vals on a full gray stack -/

/-- C19, as stated, fails: the stack of the example is full and its capacity 2
is below caml_stat_heap_wsz / 32 = 32, but realloc finds no room: the capacity
stays 2, no entry is kept and heap_is_pure becomes false. -/
theorem realloc_gray_vals_noroom_counterexample :
    ex_full.gray_vals.length = ex_full.gray_vals_size
    ∧ ex_full.gray_vals_size < ex_full.caml_stat_heap_wsz / 32
    ∧ ex_full.heap_is_pure = true
    ∧ (realloc_gray_vals ex_env_noroom ex_full).gray_vals_size = 2
    ∧ (realloc_gray_vals ex_env_noroom ex_full).gray_vals = []
    ∧ (realloc_gray_vals ex_env_noroom ex_full).heap_is_pure = false := by
  refine ⟨?_, ?_, ?_, ?_, ?_, ?_⟩ <;> decide

/-- C19, amended: on a full gray stack, realloc_gray_vals doubles the capacity
when it is below caml_stat_heap_wsz / 32 and realloc succeeds, keeping every
entry and heap_is_pure; when realloc fails it keeps the capacity, drops every
entry and sets heap_is_pure to false; at or above the threshold it keeps the
capacity, keeps the entries gray_vals[0] to gray_vals[size / 2 - 1], drops the
others and sets heap_is_pure to false.  The reverse of the list gray_vals is
the array in index order. -/
theorem realloc_gray_vals_cases (env : Env) (s : State)
    (hfull : s.gray_vals.length = s.gray_vals_size) :
    (s.gray_vals_size < s.caml_stat_heap_wsz / 32 →
      env.realloc_ok s (2 * s.gray_vals_size) = true →
      (realloc_gray_vals env s).gray_vals_size = 2 * s.gray_vals_size
      ∧ (realloc_gray_vals env s).gray_vals = s.gray_vals
      ∧ (realloc_gray_vals env s).heap_is_pure = s.heap_is_pure)
    ∧ (s.gray_vals_size < s.caml_stat_heap_wsz / 32 →
      env.realloc_ok s (2 * s.gray_vals_size) = false →
      (realloc_gray_vals env s).gray_vals_size = s.gray_vals_size
      ∧ (realloc_gray_vals env s).gray_vals = []
      ∧ (realloc_gray_vals env s).heap_is_pure = false)
    ∧ (¬ s.gray_vals_size < s.caml_stat_heap_wsz / 32 →
      (realloc_gray_vals env s).gray_vals_size = s.gray_vals_size
      ∧ (realloc_gray_vals env s).gray_vals.reverse
          = s.gray_vals.reverse.take (s.gray_vals_size / 2)
      ∧ (realloc_gray_vals env s).gray_vals.length = s.gray_vals_size / 2
      ∧ (realloc_gray_vals env s).heap_is_pure = false) := by
  refine ⟨fun h1 h2 => ?_, fun h1 h2 => ?_, fun h1 => ?_⟩
  · simp only [realloc_gray_vals, if_pos h1, h2, if_true, hfull, Nat.sub_self, List.drop_zero]
    exact ⟨trivial, trivial, trivial⟩
  · simp [realloc_gray_vals, if_pos h1, h2]
  · simp only [realloc_gray_vals, if_neg h1]
    refine ⟨trivial, ?_, ?_, trivial⟩
    · rw [List.reverse_drop, hfull]
      congr 1
      omega
    · rw [List.length_drop]
      omega

theorem realloc_gray_vals_cases_witness :
    (realloc_gray_vals ex_env ex_full).gray_vals_size = 4
    ∧ (realloc_gray_vals ex_env ex_full).gray_vals = [1032, 1008]
    ∧ (realloc_gray_vals ex_env ex_full).heap_is_pure = true :=
  (realloc_gray_vals_cases ex_env ex_full (by decide)).1 (by decide) (by decide)

/-! ## The colours that caml_darken writes -/

/-- What caml_darken does to the word at any address a: it leaves it as it
is, or the word is the header of a white block, which becomes gray when the
block has scannable fields and black when it has none; nothing but the colour
changes. -/
theorem caml_darken_word (env : Env) (s : State) (v a : Nat) :
    (caml_darken env s v).mem a = s.mem a
    ∨ (Color_hd (s.mem a) = Caml_white
        ∧ ((Tag_hd (s.mem a) < No_scan_tag ∧ (caml_darken env s v).mem a = Grayhd_hd (s.mem a))
          ∨ (No_scan_tag ≤ Tag_hd (s.mem a)
              ∧ (caml_darken env s v).mem a = Blackhd_hd (s.mem a)))) := by
  have hpush : ∀ (t : State) (x : Nat), (gray_push env t x).mem = t.mem := by
    intro t x
    simp only [gray_push, realloc_gray_vals]
    split_ifs <;> rfl
  simp only [caml_darken]
  by_cases h1 : (Is_block v && env.Is_in_heap v) = true
  swap
  · rw [if_neg h1]; exact Or.inl rfl
  rw [if_pos h1]
  generalize (if Tag_hd (Hd_val s.mem v) = Infix_tag then v - Infix_offset_val s.mem v
    else v) = v1
  by_cases h2 : Is_white_hd (Hd_val s.mem v1) = true
  swap
  · rw [if_neg h2]; exact Or.inl rfl
  rw [if_pos h2]
  have hw : Color_hd (s.mem (v1 - 8)) = Caml_white := by
    simpa [Is_white_hd, Hd_val] using h2
  by_cases h3 : Tag_hd (Hd_val s.mem v1) < No_scan_tag
  · rw [if_pos h3, hpush]
    simp only [set_Hd_val, Mem.set, Hd_val] at h3 ⊢
    split_ifs with e
    · subst e; exact Or.inr ⟨hw, Or.inl ⟨h3, rfl⟩⟩
    · exact Or.inl rfl
  · rw [if_neg h3]
    simp only [set_Hd_val, Mem.set, Hd_val] at h3 ⊢
    split_ifs with e
    · subst e; exact Or.inr ⟨hw, Or.inr ⟨Nat.le_of_not_lt h3, rfl⟩⟩
    · exact Or.inl rfl

/-- C20, as stated, fails: the string at 1032 of the example heap is white and
has no scannable fields; caml_darken makes it black, not gray. -/
theorem caml_darken_white_to_black_counterexample :
    Color_hd (ex_mark.mem 1024) = Caml_white
    ∧ Color_hd ((caml_darken ex_env ex_mark 1032).mem 1024) = Caml_black := by
  decide

/-- C20, amended: caml_darken never regresses a colour.  For every value v,
state and address a, the word at a is unchanged, or it is the header of a
white block and has gone from white to gray (a block with scannable fields) or
from white to black (a block without); in both cases only the colour bits have
changed.  A word whose colour bits are not white is unchanged. -/
theorem caml_darken_colour_changes (env : Env) (s : State) (v a : Nat) :
    ((caml_darken env s v).mem a = s.mem a
      ∨ (Color_hd (s.mem a) = Caml_white ∧ Tag_hd (s.mem a) < No_scan_tag
          ∧ Color_hd ((caml_darken env s v).mem a) = Caml_gray)
      ∨ (Color_hd (s.mem a) = Caml_white ∧ No_scan_tag ≤ Tag_hd (s.mem a)
          ∧ Color_hd ((caml_darken env s v).mem a) = Caml_black))
    ∧ (Color_hd (s.mem a) ≠ Caml_white → (caml_darken env s v).mem a = s.mem a)
    ∧ Whitehd_hd ((caml_darken env s v).mem a) = Whitehd_hd (s.mem a) := by
  rcases caml_darken_word env s v a with h | ⟨hw, ⟨ht, h⟩ | ⟨ht, h⟩⟩
  · exact ⟨Or.inl h, fun _ => h, by rw [h]⟩
  · refine ⟨Or.inr (Or.inl ⟨hw, ht, ?_⟩), fun hn => absurd hw hn, ?_⟩
    · rw [h]; exact Color_hd_Grayhd_hd _
    · rw [h]; exact Whitehd_hd_Grayhd_hd _
  · refine ⟨Or.inr (Or.inr ⟨hw, ht, ?_⟩), fun hn => absurd hw hn, ?_⟩
    · rw [h]; exact Color_hd_Blackhd_hd _
    · rw [h]; exact Whitehd_hd_Blackhd_hd _

/-! ## caml_record_lifetime_sample -/

theorem lifetime_ready_acc (env : ProfEnv) (st st1 : LifetimeState)
    (hinv : st.lifetime_buckets_minor = none → st.lifetime_buckets_major = none)
    (h : lifetime_ready env st = some st1) (b : Nat) :
    lifetime_acc st1.lifetime_buckets_minor b = lifetime_acc st.lifetime_buckets_minor b
    ∧ lifetime_acc st1.lifetime_buckets_major b = lifetime_acc st.lifetime_buckets_major b := by
  unfold lifetime_ready at h
  cases hm : st.lifetime_buckets_minor with
  | some f =>
    rw [hm] at h
    simp only [Option.isNone_some, Bool.false_eq_true, if_false, Option.some.injEq] at h
    subst h
    rw [hm]
    exact ⟨rfl, rfl⟩
  | none =>
    rw [hm] at h
    simp only [Option.isNone_none, if_true, init_lifetime_buckets] at h
    split_ifs at h
    simp only [Option.some.injEq] at h
    subst h
    rw [hinv hm]
    exact ⟨rfl, rfl⟩

/-- C16: caml_record_lifetime_sample returns the state it was given when the
allocation time decoded from the header is 0 and when now is earlier than the
allocation time.  Otherwise the buckets are set up if they were not, and when
log10_lifetime lies outside the configured range, below the minimum or not
below the maximum, the function returns the state so set up, every accumulator
of which, minor and major, holds what it held on entry.  The two arrays are
taken to have been allocated together. -/
theorem record_lifetime_sample_dropped (env : ProfEnv) (st : LifetimeState) (hd : Nat)
    (in_major_heap : Int) (now : Nat)
    (hinv : st.lifetime_buckets_minor = none → st.lifetime_buckets_major = none) :
    (Decode_profinfo_hd hd = 0 → caml_record_lifetime_sample env st hd in_major_heap now = some st)
    ∧ (now < Decode_profinfo_hd hd →
        caml_record_lifetime_sample env st hd in_major_heap now = some st)
    ∧ (∀ st1, 0 < Decode_profinfo_hd hd → Decode_profinfo_hd hd ≤ now →
        lifetime_ready env st = some st1 →
        (log10_lifetime env (Decode_profinfo_hd hd) now < st1.lifetime_log10_bytes_min
          ∨ st1.lifetime_log10_bytes_max ≤ log10_lifetime env (Decode_profinfo_hd hd) now) →
        caml_record_lifetime_sample env st hd in_major_heap now = some st1
        ∧ ∀ b, lifetime_acc st1.lifetime_buckets_minor b
                = lifetime_acc st.lifetime_buckets_minor b
            ∧ lifetime_acc st1.lifetime_buckets_major b
                = lifetime_acc st.lifetime_buckets_major b) := by
  refine ⟨fun h => ?_, fun h => ?_, fun st1 h1 h2 h3 h4 => ⟨?_, lifetime_ready_acc env st st1 hinv h3⟩⟩
  · simp [caml_record_lifetime_sample, h]
  · simp only [caml_record_lifetime_sample]
    by_cases a1 : Decode_profinfo_hd hd > 0
    · rw [if_pos a1, if_neg (by omega)]
    · rw [if_neg a1]
  · simp only [caml_record_lifetime_sample, if_pos h1, ge_iff_le, if_pos h2, h3]
    have : ¬ (st1.lifetime_log10_bytes_min ≤ log10_lifetime env (Decode_profinfo_hd hd) now
        ∧ log10_lifetime env (Decode_profinfo_hd hd) now < st1.lifetime_log10_bytes_max) := by
      rintro ⟨k1, k2⟩
      rcases h4 with h4 | h4
      · exact absurd k1 (not_le.2 h4)
      · exact absurd k2 (not_lt.2 h4)
    rw [if_neg this]

/-- An accepted sample: the block is counted in the bucket of line 585 of the
array chosen by in_major_heap, in the size class of lines 590 to 593. -/
theorem record_lifetime_sample_accepted (env : ProfEnv) (st st1 : LifetimeState) (hd : Nat)
    (in_major_heap : Int) (now : Nat) (f g : Nat → lifetime_bucket)
    (h1 : 0 < Decode_profinfo_hd hd) (h2 : Decode_profinfo_hd hd ≤ now)
    (h3 : lifetime_ready env st = some st1)
    (hf : st1.lifetime_buckets_minor = some f) (hg : st1.lifetime_buckets_major = some g)
    (h4 : st1.lifetime_log10_bytes_min ≤ log10_lifetime env (Decode_profinfo_hd hd) now)
    (h5 : log10_lifetime env (Decode_profinfo_hd hd) now < st1.lifetime_log10_bytes_max)
    (h6 : lifetime_bucket_index st1 (log10_lifetime env (Decode_profinfo_hd hd) now)
            < st1.num_lifetime_buckets) :
    caml_record_lifetime_sample env st hd in_major_heap now
      = some (if in_major_heap ≠ 0 then
          { st1 with lifetime_buckets_major := some (lifetime_count g
              (lifetime_bucket_index st1 (log10_lifetime env (Decode_profinfo_hd hd) now))
              (log2_object_size env hd) hd) }
        else
          { st1 with lifetime_buckets_minor := some (lifetime_count f
              (lifetime_bucket_index st1 (log10_lifetime env (Decode_profinfo_hd hd) now))
              (log2_object_size env hd) hd) }) := by
  simp only [caml_record_lifetime_sample, if_pos h1, ge_iff_le, if_pos h2, h3,
    if_pos (And.intro h4 h5), if_pos h6, hf, hg]
  split_ifs <;> rfl

theorem lifetime_ready_start (env : ProfEnv) (hmin : env.CAML_LIFETIME_MIN_BYTES = none)
    (hmax : env.CAML_LIFETIME_MAX_BYTES = none) (hnum : env.CAML_LIFETIME_NUM_BUCKETS = none) :
    lifetime_ready env lifetime_start = some lifetime_default := by
  simp only [lifetime_ready, lifetime_start, init_lifetime_buckets, hmin, hmax, hnum,
    Option.isNone_none, if_true, lifetime_default]
  norm_num

/-! ## Bounds on the natural logarithm used by the examples -/

theorem log_eight_bounds : (2.0794 : ℝ) < Real.log 8 ∧ Real.log 8 < 2.0795 := by
  have h : Real.log 8 = 3 * Real.log 2 := by
    rw [show (8 : ℝ) = 2 ^ 3 by norm_num, Real.log_pow]
    norm_num
  have h1 := Real.log_two_gt_d9
  have h2 := Real.log_two_lt_d9
  rw [h]
  constructor <;> linarith

theorem log_ten_bounds : (2.30249 : ℝ) < Real.log 10 ∧ Real.log 10 < 2.30268 := by
  have h1 := Real.log_two_gt_d9
  have h2 := Real.log_two_lt_d9
  have e1 : Real.log 1024 = 10 * Real.log 2 := by
    rw [show (1024 : ℝ) = 2 ^ 10 by norm_num, Real.log_pow]
    norm_num
  have e2 : Real.log 1024 = 3 * Real.log 10 + Real.log (128 / 125) := by
    rw [show (1024 : ℝ) = 10 ^ 3 * (128 / 125) by norm_num,
      Real.log_mul (by norm_num) (by norm_num), Real.log_pow]
    norm_num
  have u : Real.log (128 / 125) ≤ 128 / 125 - 1 := Real.log_le_sub_one_of_pos (by norm_num)
  have l : 1 - (128 / 125 : ℝ)⁻¹ ≤ Real.log (128 / 125) :=
    Real.one_sub_inv_le_log_of_pos (by norm_num)
  norm_num at u l
  constructor <;> linarith

theorem log_10001_bounds :
    4 * Real.log 10 ≤ Real.log 10001 ∧ Real.log 10001 ≤ 4 * Real.log 10 + 1 / 10000 := by
  have e : Real.log 10001 = 4 * Real.log 10 + Real.log (10001 / 10000) := by
    rw [show (10001 : ℝ) = 10 ^ 4 * (10001 / 10000) by norm_num,
      Real.log_mul (by norm_num) (by norm_num), Real.log_pow]
    norm_num
  have u : Real.log (10001 / 10000) ≤ 10001 / 10000 - 1 :=
    Real.log_le_sub_one_of_pos (by norm_num)
  have l : 0 ≤ Real.log (10001 / 10000) := Real.log_nonneg (by norm_num)
  norm_num at u
  constructor <;> linarith

theorem ex_log_near :
    |((ex_prof_env.log 8 : ℚ) : ℝ) - Real.log 8| ≤ 1 / 1000
    ∧ |((ex_prof_env.log 10 : ℚ) : ℝ) - Real.log 10| ≤ 1 / 2000
    ∧ |((ex_prof_env.log 10001 : ℚ) : ℝ) - Real.log 10001| ≤ 1 / 2000 := by
  have e8 : ex_prof_env.log 8 = 20794 / 10000 := by norm_num [ex_prof_env, ex_log]
  have e10 : ex_prof_env.log 10 = 23026 / 10000 := by norm_num [ex_prof_env, ex_log]
  have e10001 : ex_prof_env.log 10001 = 92104 / 10000 := by norm_num [ex_prof_env, ex_log]
  obtain ⟨a1, a2⟩ := log_eight_bounds
  obtain ⟨b1, b2⟩ := log_ten_bounds
  obtain ⟨c1, c2⟩ := log_10001_bounds
  rw [e8, e10, e10001]
  push_cast
  refine ⟨abs_le.2 ⟨?_, ?_⟩, abs_le.2 ⟨?_, ?_⟩, abs_le.2 ⟨?_, ?_⟩⟩ <;> norm_num <;> linarith

/-- The value log10_lifetime of a block allocated at time 10 and sampled at
time 10010, when log is accurate to 1 / 2000 at 10 and at 10001. -/
theorem log10_lifetime_10001 (env : ProfEnv)
    (h10 : |((env.log 10 : ℚ) : ℝ) - Real.log 10| ≤ 1 / 2000)
    (h10001 : |((env.log 10001 : ℚ) : ℝ) - Real.log 10001| ≤ 1 / 2000) :
    (3998 / 1000 : ℚ) ≤ log10_lifetime env 10 10010
    ∧ log10_lifetime env 10 10010 < 4004 / 1000 := by
  have e : ((add64 (10010 - 10) 1 : Nat) : ℚ) = 10001 := by
    have : add64 (10010 - 10) 1 = 10001 := by decide
    rw [this]; norm_num
  unfold log10_lifetime
  rw [e]
  obtain ⟨b1, b2⟩ := log_ten_bounds
  obtain ⟨c1, c2⟩ := log_10001_bounds
  obtain ⟨p1, p2⟩ := abs_le.1 h10
  obtain ⟨q1, q2⟩ := abs_le.1 h10001
  have hb : (0 : ℚ) < env.log 10 := by
    have : (0 : ℝ) < ((env.log 10 : ℚ) : ℝ) := by linarith
    exact_mod_cast this
  have k1 : (3998 : ℚ) * env.log 10 ≤ 1000 * env.log 10001 := by
    have : (3998 : ℝ) * ((env.log 10 : ℚ) : ℝ) ≤ 1000 * ((env.log 10001 : ℚ) : ℝ) := by linarith
    exact_mod_cast this
  have k2 : (1000 : ℚ) * env.log 10001 < 4004 * env.log 10 := by
    have : (1000 : ℝ) * ((env.log 10001 : ℚ) : ℝ) < 4004 * ((env.log 10 : ℚ) : ℝ) := by linarith
    exact_mod_cast this
  exact ⟨(le_div_iff₀ hb).2 (by linarith), (div_lt_iff₀ hb).2 (by linarith)⟩

theorem lifetime_bucket_index_333 (st : LifetimeState) (l : ℚ)
    (hmin : st.lifetime_log10_bytes_min = 2) (hw : st.lifetime_bucket_width = 6 / 1000)
    (h1 : (3998 / 1000 : ℚ) ≤ l) (h2 : l < 4004 / 1000) :
    lifetime_bucket_index st l = 333 := by
  unfold lifetime_bucket_index double_to_uintnat double_to_intnat
  rw [hmin, hw]
  have hq : (0 : ℚ) ≤ (l - 2) / (6 / 1000) := by
    apply div_nonneg <;> linarith
  rw [if_pos hq]
  have hf : ⌊(l - 2) / (6 / 1000)⌋ = 333 := by
    rw [Int.floor_eq_iff]
    constructor
    · rw [le_div_iff₀ (by norm_num)]; push_cast; linarith
    · rw [div_lt_iff₀ (by norm_num)]; push_cast; linarith
  rw [hf]
  decide

/-- The bucket index of line 585 is the floor of the quotient. -/
theorem lifetime_bucket_index_floor (st : LifetimeState) (l : ℚ)
    (h1 : 0 ≤ (l - st.lifetime_log10_bytes_min) / st.lifetime_bucket_width)
    (h2 : (l - st.lifetime_log10_bytes_min) / st.lifetime_bucket_width < 2 ^ 64) :
    (lifetime_bucket_index st l : Int)
      = ⌊(l - st.lifetime_log10_bytes_min) / st.lifetime_bucket_width⌋ := by
  unfold lifetime_bucket_index double_to_uintnat double_to_intnat
  rw [if_pos h1]
  have hn : 0 ≤ ⌊(l - st.lifetime_log10_bytes_min) / st.lifetime_bucket_width⌋ :=
    Int.floor_nonneg.2 h1
  have hlt : ⌊(l - st.lifetime_log10_bytes_min) / st.lifetime_bucket_width⌋ < 2 ^ 64 := by
    rw [Int.floor_lt]
    exact_mod_cast h2
  generalize ⌊(l - st.lifetime_log10_bytes_min) / st.lifetime_bucket_width⌋ = z at hn hlt
  omega

/-! ## The samples of the examples -/

theorem record_lifetime_sample_dropped_witness :
    caml_record_lifetime_sample ex_prof_env lifetime_start 2048 0 5 = some lifetime_start
    ∧ caml_record_lifetime_sample ex_prof_env lifetime_start ex_sample_hd 0 5
        = some lifetime_start
    ∧ caml_record_lifetime_sample ex_prof_env lifetime_start ex_sample_hd 0 17
        = some lifetime_default :=
  ⟨(record_lifetime_sample_dropped ex_prof_env lifetime_start 2048 0 5 (fun _ => rfl)).1
      (by decide),
    (record_lifetime_sample_dropped ex_prof_env lifetime_start ex_sample_hd 0 5
      (fun _ => rfl)).2.1 (by decide),
    ((record_lifetime_sample_dropped ex_prof_env lifetime_start ex_sample_hd 0 17
      (fun _ => rfl)).2.2 lifetime_default (by decide) (by decide)
      (lifetime_ready_start ex_prof_env rfl rfl rfl)
      (Or.inl (by
        have e : Decode_profinfo_hd ex_sample_hd = 10 := by decide
        have e2 : ((add64 (17 - 10) 1 : Nat) : ℚ) = 8 := by
          have : add64 (17 - 10) 1 = 8 := by decide
          rw [this]; norm_num
        rw [e]
        unfold log10_lifetime
        rw [e2]
        norm_num [ex_prof_env, ex_log, lifetime_default]))).1⟩

theorem lifetime_count_total_blocks (b : Nat) (k : Int) (hd i : Nat) :
    (lifetime_count (fun _ => lifetime_bucket_zero) b k hd i).total_blocks
      = if i = b then 1 else 0 := by
  unfold lifetime_count
  split_ifs
  · simp [lifetime_bucket_zero, add64]
  · rfl

/-- What caml_record_lifetime_sample does with a block allocated at time 10
and sampled at time 10010 at the start of the program, no environment variable
being set, when log is accurate to 1 / 2000 at 10 and at 10001. -/
theorem record_lifetime_sample_10001 (env : ProfEnv) (hd : Nat) (in_major_heap : Int)
    (hmin : env.CAML_LIFETIME_MIN_BYTES = none) (hmax : env.CAML_LIFETIME_MAX_BYTES = none)
    (hnum : env.CAML_LIFETIME_NUM_BUCKETS = none)
    (h10 : |((env.log 10 : ℚ) : ℝ) - Real.log 10| ≤ 1 / 2000)
    (h10001 : |((env.log 10001 : ℚ) : ℝ) - Real.log 10001| ≤ 1 / 2000)
    (ha : Decode_profinfo_hd hd = 10) :
    lifetime_bucket_index lifetime_default (log10_lifetime env 10 10010) = 333
    ∧ caml_record_lifetime_sample env lifetime_start hd in_major_heap 10010
      = some (if in_major_heap ≠ 0 then
          { lifetime_default with lifetime_buckets_major := some (lifetime_count
              (fun _ => lifetime_bucket_zero) 333 (log2_object_size env hd) hd) }
        else
          { lifetime_default with lifetime_buckets_minor := some (lifetime_count
              (fun _ => lifetime_bucket_zero) 333 (log2_object_size env hd) hd) }) := by
  obtain ⟨l1, l2⟩ := log10_lifetime_10001 env h10 h10001
  have hr := lifetime_ready_start env hmin hmax hnum
  have c1 : lifetime_default.lifetime_log10_bytes_min = 2 := rfl
  have c2 : lifetime_default.lifetime_log10_bytes_max = 8 := rfl
  have c3 : lifetime_default.num_lifetime_buckets = 1000 := rfl
  have hidx := lifetime_bucket_index_333 lifetime_default _ rfl rfl l1 l2
  refine ⟨hidx, ?_⟩
  have := record_lifetime_sample_accepted env lifetime_start lifetime_default hd in_major_heap
    10010 (fun _ => lifetime_bucket_zero) (fun _ => lifetime_bucket_zero)
    (by rw [ha]; decide) (by rw [ha]; decide) hr rfl rfl
    (by rw [ha, c1]; linarith) (by rw [ha, c2]; linarith)
    (by rw [ha, hidx, c3]; decide)
  rw [this, ha, hidx]

/-- C17: on the example, a block of 8 words allocated at time 10 and sampled
in the minor heap at time 10010 with a table of log that is accurate to
1 / 1000 at 8, the floor of the base 2 logarithm of the size is 3 but the
block is filed under the size class 2: the blocks counter and the words
counter of class 2 of lifetime bucket 333 are 1 and 8, those of class 3 are
0. -/
theorem lifetime_sample_of_eight_words_in_class_two :
    Wosize_hd ex_sample_hd = 8
    ∧ Decode_profinfo_hd ex_sample_hd = 10
    ∧ |((ex_prof_env.log 8 : ℚ) : ℝ) - Real.log 8| ≤ 1 / 1000
    ∧ Nat.log 2 8 = 3
    ∧ log2_object_size ex_prof_env ex_sample_hd = 2
    ∧ ∃ st, caml_record_lifetime_sample ex_prof_env lifetime_start ex_sample_hd 0 10010
          = some st
        ∧ (lifetime_acc st.lifetime_buckets_minor 333).num_blocks_by_log2_object_size 2 = 1
        ∧ (lifetime_acc st.lifetime_buckets_minor 333).num_words_by_log2_object_size 2 = 8
        ∧ (lifetime_acc st.lifetime_buckets_minor 333).num_blocks_by_log2_object_size 3 = 0
        ∧ (lifetime_acc st.lifetime_buckets_minor 333).num_words_by_log2_object_size 3
            = 0 := by
  have hw : Wosize_hd ex_sample_hd = 8 := by decide
  have ha : Decode_profinfo_hd ex_sample_hd = 10 := by decide
  have hk : log2_object_size ex_prof_env ex_sample_hd = 2 := by
    unfold log2_object_size
    rw [hw]
    have e8 : ex_prof_env.log ((8 : Nat) : ℚ) = 20794 / 10000 := by
      norm_num [ex_prof_env, ex_log]
    have hf : ⌊(20794 / 10000 : ℚ)⌋ = 2 := by
      rw [Int.floor_eq_iff]; norm_num
    simp only [e8, hf]
    decide
  obtain ⟨-, h⟩ := record_lifetime_sample_10001 ex_prof_env ex_sample_hd 0
    rfl rfl rfl ex_log_near.2.1 ex_log_near.2.2 ha
  have hlog : Nat.log 2 8 = 3 := by
    rw [Nat.log_eq_iff (Or.inl (by decide))]
    decide
  refine ⟨hw, ha, ex_log_near.1, hlog, hk, _, h, ?_⟩
  simp only [ne_eq, not_true_eq_false, if_false, lifetime_acc, lifetime_count, if_true,
    lifetime_bucket_zero, hk, hw]
  refine ⟨?_, ?_, ?_, ?_⟩ <;> decide

/-- C18: with the configuration of the start of the program, minimum 2,
maximum 8 and 1000 buckets, no environment variable being set, and a function
log that is accurate to 1 / 2000 at 10 and at 10001, a sample of a block
allocated at time 10 taken at time 10010 is accepted: the width of a bucket is
6 / 1000, the index of line 585 is 333, the array chosen by in_major_heap
counts one block in bucket 333 and none in any other bucket, and the other
array counts none.  In general the index of line 585 is the floor of
(log10_lifetime - minimum) / width when this quotient is not negative and
below 2^64. -/
theorem lifetime_sample_bucket (env : ProfEnv) (hd : Nat) (in_major_heap : Int)
    (hmin : env.CAML_LIFETIME_MIN_BYTES = none) (hmax : env.CAML_LIFETIME_MAX_BYTES = none)
    (hnum : env.CAML_LIFETIME_NUM_BUCKETS = none)
    (h10 : |((env.log 10 : ℚ) : ℝ) - Real.log 10| ≤ 1 / 2000)
    (h10001 : |((env.log 10001 : ℚ) : ℝ) - Real.log 10001| ≤ 1 / 2000)
    (ha : Decode_profinfo_hd hd = 10) :
    (∀ (st : LifetimeState) (l : ℚ),
        0 ≤ (l - st.lifetime_log10_bytes_min) / st.lifetime_bucket_width →
        (l - st.lifetime_log10_bytes_min) / st.lifetime_bucket_width < 2 ^ 64 →
        (lifetime_bucket_index st l : Int)
          = ⌊(l - st.lifetime_log10_bytes_min) / st.lifetime_bucket_width⌋)
    ∧ ∃ st1 st2 : LifetimeState,
        lifetime_ready env lifetime_start = some st1
        ∧ st1.lifetime_bucket_width = 6 / 1000
        ∧ lifetime_bucket_index st1 (log10_lifetime env 10 10010) = 333
        ∧ ⌊(log10_lifetime env 10 10010 - 2) / (6 / 1000)⌋ = 333
        ∧ caml_record_lifetime_sample env lifetime_start hd in_major_heap 10010 = some st2
        ∧ (∀ b, (lifetime_acc (if in_major_heap ≠ 0 then st2.lifetime_buckets_major
                    else st2.lifetime_buckets_minor) b).total_blocks
                  = if b = 333 then 1 else 0)
        ∧ (∀ b, (lifetime_acc (if in_major_heap ≠ 0 then st2.lifetime_buckets_minor
                    else st2.lifetime_buckets_major) b).total_blocks = 0) := by
  refine ⟨fun st l h1 h2 => lifetime_bucket_index_floor st l h1 h2, ?_⟩
  obtain ⟨l1, l2⟩ := log10_lifetime_10001 env h10 h10001
  obtain ⟨hidx, h⟩ :=
    record_lifetime_sample_10001 env hd in_major_heap hmin hmax hnum h10 h10001 ha
  have hr := lifetime_ready_start env hmin hmax hnum
  have hfl : ⌊(log10_lifetime env 10 10010 - 2) / (6 / 1000)⌋ = 333 := by
    rw [Int.floor_eq_iff]
    constructor
    · rw [le_div_iff₀ (by norm_num)]; push_cast; linarith
    · rw [div_lt_iff₀ (by norm_num)]; push_cast; linarith
  refine ⟨_, _, hr, rfl, hidx, hfl, h, ?_, ?_⟩
  · intro b
    by_cases hm : in_major_heap ≠ 0
    · simp only [if_pos hm, lifetime_acc]
      exact lifetime_count_total_blocks _ _ _ _
    · simp only [if_neg hm, lifetime_acc]
      exact lifetime_count_total_blocks _ _ _ _
  · intro b
    by_cases hm : in_major_heap ≠ 0
    · simp only [if_pos hm, lifetime_acc]
      rfl
    · simp only [if_neg hm, lifetime_acc]
      rfl

theorem lifetime_sample_bucket_witness :
    ∃ st1 st2 : LifetimeState,
      lifetime_ready ex_prof_env lifetime_start = some st1
      ∧ st1.lifetime_bucket_width = 6 / 1000
      ∧ lifetime_bucket_index st1 (log10_lifetime ex_prof_env 10 10010) = 333
      ∧ ⌊(log10_lifetime ex_prof_env 10 10010 - 2) / (6 / 1000)⌋ = 333
      ∧ caml_record_lifetime_sample ex_prof_env lifetime_start ex_sample_hd 1 10010 = some st2
      ∧ (∀ b, (lifetime_acc (if (1 : Int) ≠ 0 then st2.lifetime_buckets_major
                  else st2.lifetime_buckets_minor) b).total_blocks
                = if b = 333 then 1 else 0)
      ∧ (∀ b, (lifetime_acc (if (1 : Int) ≠ 0 then st2.lifetime_buckets_minor
                  else st2.lifetime_buckets_major) b).total_blocks = 0) :=
  (lifetime_sample_bucket ex_prof_env ex_sample_hd 1 rfl rfl rfl ex_log_near.2.1
    ex_log_near.2.2 (by decide)).2

/-! ## The headers of the surviving blocks through a cycle -/

theorem mark_final_mem (env : Env) (st : MarkState) : (mark_final env st).s.mem = st.s.mem := by
  simp only [mark_final]
  split_ifs <;> rfl

theorem Decode_profinfo_hd_Whitehd_hd (hd : Nat) :
    Decode_profinfo_hd (Whitehd_hd hd) = Decode_profinfo_hd hd := by
  unfold Decode_profinfo_hd Whitehd_hd Color_hd PROFINFO_SHIFT PROFINFO_WIDTH
  omega

theorem Decode_profinfo_hd_of_Whitehd_hd {a b : Nat} (h : Whitehd_hd a = Whitehd_hd b) :
    Decode_profinfo_hd a = Decode_profinfo_hd b := by
  rw [← Decode_profinfo_hd_Whitehd_hd a, ← Decode_profinfo_hd_Whitehd_hd b, h]

namespace HeapCtx

variable {c : HeapCtx}

/-- One iteration of the loop of mark_slice keeps the invariant or ends the
mark phase with the memory stable. -/
theorem MInv.mi_step_stable (wf : c.WF) {st : MarkState} (hm : c.MInv st.s st.v st.start) :
    c.GoodStable (mark_step c.env st) := by
  obtain ⟨hp, hpe⟩ := hm.mi_pop
  simp only [mark_step]
  generalize mark_pop st = st1 at hp hpe ⊢
  by_cases hv : st1.v ≠ 0
  · rw [if_pos hv]; exact Or.inl (hp.mi_mark_value wf hv)
  rw [if_neg hv]
  have hv0 : st1.v = 0 := not_not.1 hv
  have hstack := hpe hv0
  by_cases hmk : st1.s.markhp ≠ 0
  · rw [if_pos hmk]; exact Or.inl (hp.mi_heap_scan wf hv0 hstack hmk)
  rw [if_neg hmk]
  have hmk0 : st1.s.markhp = 0 := not_not.1 hmk
  by_cases hpure : st1.s.heap_is_pure = true
  · have hnp : ¬ ((!st1.s.heap_is_pure) = true) := by simp [hpure]
    rw [if_neg hnp]
    simp only [mark_subphase]
    split_ifs with h1 h2 h3 h4 h5
    · exact Or.inl (hp.mi_roots wf)
    · exact Or.inl hp.mi_main
    · exact Or.inl (hp.mi_weak1 wf h3 hv0)
    · exact Or.inl (hp.mi_weak2 wf h4)
    · obtain ⟨k1, k2⟩ := hp.mi_final wf hv0 hstack hmk0 hpure
      obtain ⟨todo, hi, -⟩ := hp.heap
      exact Or.inr ⟨k1, k2, by rw [mark_final_mem]; exact hi.stable⟩
    · exact Or.inl hp
  · have hnp : (!st1.s.heap_is_pure) = true := by simp [hpure]
    rw [if_pos hnp]
    exact Or.inl (hp.mi_restart wf)

theorem GoodStable.gs_loop (wf : c.WF) (fuel : Nat) {st : MarkState} (hg : c.GoodStable st) :
    c.GoodStable (mark_loop c.env fuel st) := by
  induction fuel generalizing st with
  | zero => exact hg
  | succ fuel ih =>
    simp only [mark_loop]
    split_ifs with hw
    · rcases hg with hm | ⟨hw', -⟩
      · exact ih (hm.mi_step_stable wf)
      · omega
    · exact hg

theorem MInv.mi_slice_stable (wf : c.WF) (fuel : Nat) (work : Int) {s : State}
    (hm : c.MInv s s.current_value s.current_index) :
    c.MInv (mark_slice c.env fuel s work) (mark_slice c.env fuel s work).current_value
        (mark_slice c.env fuel s work).current_index
      ∨ c.DoneStable (mark_slice c.env fuel s work) := by
  have hg : c.GoodStable (mark_enter s work) := Or.inl hm
  have := hg.gs_loop wf fuel
  simp only [mark_slice]
  generalize mark_loop c.env fuel (mark_enter s work) = st at this
  rcases this with hm' | ⟨-, hd⟩
  · left
    obtain ⟨todo, hi, sp⟩ := hm'.heap
    exact hm'.mi_carry (HeapFrame.frame_refl _) rfl rfl rfl rfl rfl rfl rfl rfl rfl hm'.wp
      hm'.noscan hi sp
  · exact Or.inr hd

theorem MInv.mi_drive_stable (wf : c.WF) (l : List (Nat × Int)) {s : State}
    (h : c.MInv s s.current_value s.current_index ∨ c.DoneStable s) :
    c.MInv (drive c.env l s) (drive c.env l s).current_value (drive c.env l s).current_index
      ∨ c.DoneStable (drive c.env l s) := by
  induction l generalizing s with
  | nil => exact h
  | cons p rest ih =>
    simp only [drive]
    split_ifs with hp
    · rcases h with hm | hd
      · exact ih (hm.mi_slice_stable wf p.1 p.2)
      · have := hd.1.1
        rw [hp] at this
        exact absurd this (by decide)
    · exact h

/-- The memory after any number of calls of mark_slice is that of the start of
the cycle up to colours and rewritten fields. -/
theorem Stable.st_drive (wf : c.WF) {s0 : State} (hmem : s0.mem = c.m0)
    (hhs : s0.caml_heap_start = c.heap_start) (hgv : s0.gray_vals = [])
    (hsz : 0 < s0.gray_vals_size) (hcv : s0.current_value = 0)
    (hci : s0.current_index = 0) (l : List (Nat × Int)) :
    c.Stable (drive c.env l (start_cycle s0)).mem := by
  rcases MInv.mi_drive_stable wf l
    (Or.inl (MInv.mi_start wf hmem hhs hgv hsz hcv hci)) with hm | hd
  · obtain ⟨todo, hi, -⟩ := hm.heap
    exact hi.stable
  · exact hd.2

theorem Kept.of_stable {s : State} (hs : c.Stable s.mem) : c.Kept s :=
  fun h hh hw => Or.inl ⟨(hs.1 h hh).1, (hs.1 h hh).2.1 hw⟩

theorem Kept.kept_congr {s t : State} (hk : c.Kept s) (e1 : t.mem = s.mem)
    (e2 : t.events = s.events) : c.Kept t := by
  intro h hh hw
  rw [e1, e2]
  exact hk h hh hw

/-- The case Caml_white of sweep_slice keeps the headers of the blocks that
are not given to caml_fl_merge_block. -/
theorem Kept.kept_sweep_white (hc : c.Collab) {s : State} (hk : c.Kept s) (hp hd : Nat) :
    c.Kept (sweep_white c.env s hp hd) := by
  -- the state after the finalizer, if any
  have h1 : ∀ s1 : State, (∀ h ∈ c.H, s1.mem h = s.mem h) →
      (∀ e, e ∈ s.events → e ∈ s1.events) →
      (∀ h, Event.fl_merge_block (h + 8) ∈ s1.events → Event.fl_merge_block (h + 8) ∈ s.events) →
      c.Kept { s1 with
        mem := (c.env.fl_merge_block s1 (Val_hp hp)).mem
        caml_fl_merge := (c.env.fl_merge_block s1 (Val_hp hp)).caml_fl_merge
        caml_fl_cur_wsz := (c.env.fl_merge_block s1 (Val_hp hp)).caml_fl_cur_wsz
        caml_gc_sweep_hp := (c.env.fl_merge_block s1 (Val_hp hp)).next
        events := Event.fl_merge_block (Val_hp hp) :: s1.events } := by
    intro s1 hm he he' h hh hw
    by_cases e : h + 8 = Val_hp hp
    · right; rw [e]; exact List.mem_cons_self _ _
    · rcases hk h hh hw with ⟨k1, k2⟩ | k
      · by_cases hl : Event.fl_merge_block (h + 8) ∈ s1.events
        · right; exact List.mem_cons_of_mem _ hl
        · left
          have := hc.merge_frame s1 (Val_hp hp) h hh e (by rw [hm h hh]; exact k2) hl
          show Whitehd_hd ((c.env.fl_merge_block s1 (Val_hp hp)).mem h) = _
            ∧ Color_hd ((c.env.fl_merge_block s1 (Val_hp hp)).mem h) ≠ _
          rw [this, hm h hh]
          exact ⟨k1, k2⟩
      · right; exact List.mem_cons_of_mem _ (he _ k)
  simp only [sweep_white]
  split_ifs with a1 a2
  · exact h1 _ (fun h hh => hc.final_frame _ _ _ h hh)
      (fun e he => List.mem_cons_of_mem _ he)
      (fun h hm => by
        rcases List.mem_cons.1 hm with e | e
        · exact absurd e (by simp)
        · exact e)
  · exact h1 s (fun _ _ => rfl) (fun _ he => he) (fun _ he => he)
  · exact h1 s (fun _ _ => rfl) (fun _ he => he) (fun _ he => he)

/-- One iteration of the loop of sweep_slice keeps the headers of the blocks
that are not given to caml_fl_merge_block. -/
theorem Kept.kept_sweep_step (hc : c.Collab) {st : SweepState} (hk : c.Kept st.s) :
    c.Kept (sweep_step c.env st).s := by
  simp only [sweep_step]
  split_ifs with a1 a2 a3 a4
  · have hk1 : c.Kept { st.s with
        caml_gc_sweep_hp :=
          (st.s.caml_gc_sweep_hp + Bhsize_hd (Hd_hp st.s.mem st.s.caml_gc_sweep_hp)) } :=
      hk.kept_congr rfl rfl
    exact Kept.kept_sweep_white hc hk1 _ _
  · exact hk.kept_congr rfl rfl
  · intro h hh hw
    rcases hk h hh hw with ⟨k1, k2⟩ | k
    · left
      show Whitehd_hd (st.s.mem.set _ _ h) = _ ∧ Color_hd (st.s.mem.set _ _ h) ≠ _
      by_cases e : h = st.s.caml_gc_sweep_hp
      · subst e
        simp only [Mem.set, if_true, Hd_hp]
        refine ⟨?_, ?_⟩
        · rw [← k1]
          unfold Whitehd_hd Color_hd; omega
        · rw [Color_hd_Whitehd_hd]; decide
      · simp only [Mem.set, if_neg e]
        exact ⟨k1, k2⟩
    · right; exact k
  · exact hk.kept_congr rfl rfl
  · exact hk.kept_congr rfl rfl

theorem Kept.kept_sweep_loop (hc : c.Collab) (fuel : Nat) {st : SweepState} (hk : c.Kept st.s) :
    c.Kept (sweep_loop c.env fuel st).s := by
  induction fuel generalizing st with
  | zero => exact hk
  | succ fuel ih =>
    simp only [sweep_loop]
    split_ifs
    · exact ih (hk.kept_sweep_step hc)
    · exact hk

theorem Kept.kept_sweeps (hc : c.Collab) (l : List (Nat × Int)) {s : State} (hk : c.Kept s) :
    c.Kept (sweeps c.env l s) := by
  induction l generalizing s with
  | nil => exact hk
  | cons p rest ih =>
    simp only [sweeps]
    split_ifs
    · have hk1 : c.Kept ({ s := s, work := p.2 } : SweepState).s := hk
      exact ih (Kept.kept_sweep_loop hc p.1 hk1)
    · exact hk

end HeapCtx

theorem ex_ctx_collab : ex_ctx.Collab := by
  refine ⟨fun s bp h hh hne _ _ => ?_, fun _ _ _ _ _ => rfl⟩
  have hH : h = 1000 ∨ h = 1024 ∨ h = 1048 ∨ h = 1064 := by
    have : ∀ x ∈ ex_ctx.H, x = 1000 ∨ x = 1024 ∨ x = 1048 ∨ x = 1064 := by decide
    exact this h hh
  show set_Hd_val s.mem bp _ h = s.mem h
  simp only [set_Hd_val, Mem.set]
  rw [if_neg]
  omega

/-- C14: caml_darken changes nothing but the colour of a word it rewrites.
And in a cycle started by start_cycle on a well-formed heap and driven by any
number of calls of mark_slice followed by any number of calls of sweep_slice,
the end of the cycle included, where caml_fl_merge_block and the finalizers
rewrite the headers of freed blocks only, every block that was not free at the
start and has not been given to caml_fl_merge_block has the size, the tag and
the allocation-site information that it had at the start. -/
theorem collection_keeps_size_tag_profinfo (c : HeapCtx) (wf : c.WF) (hc : c.Collab)
    (s0 : State) (hmem : s0.mem = c.m0) (hhs : s0.caml_heap_start = c.heap_start)
    (hgv : s0.gray_vals = []) (hsz : 0 < s0.gray_vals_size)
    (hcv : s0.current_value = 0) (hci : s0.current_index = 0)
    (l1 l2 : List (Nat × Int)) :
    (∀ (env : Env) (s : State) (v a : Nat),
      Wosize_hd ((caml_darken env s v).mem a) = Wosize_hd (s.mem a)
      ∧ Tag_hd ((caml_darken env s v).mem a) = Tag_hd (s.mem a)
      ∧ Decode_profinfo_hd ((caml_darken env s v).mem a) = Decode_profinfo_hd (s.mem a))
    ∧ ∀ h ∈ c.H, Color_hd (Hd_hp s0.mem h) = Caml_white →
      Event.fl_merge_block (Val_hp h)
        ∉ (sweeps c.env l2 (drive c.env l1 (start_cycle s0))).events →
      Wosize_hd (Hd_hp (sweeps c.env l2 (drive c.env l1 (start_cycle s0))).mem h)
        = Wosize_hd (Hd_hp s0.mem h)
      ∧ Tag_hd (Hd_hp (sweeps c.env l2 (drive c.env l1 (start_cycle s0))).mem h)
        = Tag_hd (Hd_hp s0.mem h)
      ∧ Decode_profinfo_hd (Hd_hp (sweeps c.env l2 (drive c.env l1 (start_cycle s0))).mem h)
        = Decode_profinfo_hd (Hd_hp s0.mem h) := by
  have key : ∀ x y : Nat, Whitehd_hd x = Whitehd_hd y →
      Wosize_hd x = Wosize_hd y ∧ Tag_hd x = Tag_hd y
        ∧ Decode_profinfo_hd x = Decode_profinfo_hd y :=
    fun x y e => ⟨Wosize_hd_of_Whitehd_hd e, Tag_hd_of_Whitehd_hd e,
      Decode_profinfo_hd_of_Whitehd_hd e⟩
  refine ⟨fun env s v a => key _ _ ?_, fun h hh hw hnf => ?_⟩
  · rcases caml_darken_word env s v a with e | ⟨-, ⟨-, e⟩ | ⟨-, e⟩⟩
    · rw [e]
    · rw [e]; exact Whitehd_hd_Grayhd_hd _
    · rw [e]; exact Whitehd_hd_Blackhd_hd _
  · have hst := HeapCtx.Stable.st_drive wf hmem hhs hgv hsz hcv hci l1
    have hk := HeapCtx.Kept.kept_sweeps hc l2 (HeapCtx.Kept.of_stable hst)
    have hw0 : c.white0 h := by
      unfold HeapCtx.white0
      rw [← hmem]; exact hw
    rcases hk h hh hw0 with ⟨k1, -⟩ | k
    · simp only [Hd_hp]
      rw [hmem]
      exact key _ _ k1
    · exact absurd k hnf

theorem collection_keeps_size_tag_profinfo_witness :
    (sweeps ex_env [(40, 100)] (drive ex_env [(4, 3), (4, 3), (40, 100)]
        (start_cycle ex_white))).caml_gc_phase = Phase_idle
    ∧ Wosize_hd (Hd_hp (sweeps ex_env [(40, 100)] (drive ex_env [(4, 3), (4, 3), (40, 100)]
        (start_cycle ex_white))).mem 1000) = Wosize_hd (Hd_hp ex_white.mem 1000)
    ∧ Tag_hd (Hd_hp (sweeps ex_env [(40, 100)] (drive ex_env [(4, 3), (4, 3), (40, 100)]
        (start_cycle ex_white))).mem 1000) = Tag_hd (Hd_hp ex_white.mem 1000)
    ∧ Decode_profinfo_hd (Hd_hp (sweeps ex_env [(40, 100)]
        (drive ex_env [(4, 3), (4, 3), (40, 100)] (start_cycle ex_white))).mem 1000)
        = Decode_profinfo_hd (Hd_hp ex_white.mem 1000) :=
  ⟨by decide,
    (collection_keeps_size_tag_profinfo ex_ctx ex_ctx_wf ex_ctx_collab ex_white rfl rfl rfl
      (by decide) rfl rfl [(4, 3), (4, 3), (40, 100)] [(40, 100)]).2 1000 (by decide)
      (by decide) (by decide)⟩

/-- A word shifted left by two, with `b < 4` or-ed in, is `4 * q + b`. -/
theorem shl2_or (x b : Nat) (hb : b < 4) :
    (x <<< 2) % 2 ^ 64 ||| b = 4 * ((x % 2 ^ 62)) + b := by
  have e : (x <<< 2) % 2 ^ 64 = 2 ^ 2 * (x % 2 ^ 62) := by
    rw [Nat.shiftLeft_eq]; omega
  rw [e, ← Nat.mul_add_lt_is_or (by simpa using hb)]

theorem Encode_alloc_point_pc_eq (pc : Nat) :
    Encode_alloc_point_pc pc = 4 * (pc % 2 ^ 64 % 2 ^ 62) + 1 :=
  shl2_or _ 1 (by decide)

theorem Encode_call_point_pc_eq (pc : Nat) :
    Encode_call_point_pc pc = 4 * (pc % 2 ^ 64 % 2 ^ 62) + 3 :=
  shl2_or _ 3 (by decide)

theorem and_three (x : Nat) : x &&& 3 = x % 4 :=
  Nat.and_pow_two_sub_one_eq_mod x 2

/-- C21, evaluated on the code: `Encode_node_pc` only sets the bottom bit
and does not shift, so for the function address `0x401000` it yields
`0x401001` where the documented layout (shift left by 1, then set the
bottom bit) is `0x802001`; and decoding the encoding of the odd address
`0x401001` gives `0x401000`, not the address itself. -/
theorem encode_node_pc_does_not_shift :
    Encode_node_pc 4198400 = 4198401
      ∧ documented_node_pc 4198400 = 8396801
      ∧ Encode_node_pc 4198400 ≠ documented_node_pc 4198400
      ∧ Decode_node_pc (Encode_node_pc 4198400) = 4198400
      ∧ Decode_node_pc (Encode_node_pc 4198401) = 4198400
      ∧ Decode_node_pc (Encode_node_pc 4198401) ≠ 4198401 := by
  decide

/-- C22: for every program counter, a field holding
`Encode_alloc_point_pc pc` is classified `ALLOCATION` and a field holding
`Encode_call_point_pc pc` is classified `CALL`; the former word has bit 0
set and bit 1 clear, the latter has bits 0 and 1 set. -/
theorem call_or_allocation_point_distinguishes (m : Mem) (node offset pc : Nat) :
    (Field m node offset = Encode_alloc_point_pc pc →
        Call_or_allocation_point m node offset = c_node_type.ALLOCATION)
      ∧ (Field m node offset = Encode_call_point_pc pc →
        Call_or_allocation_point m node offset = c_node_type.CALL)
      ∧ (Encode_alloc_point_pc pc).testBit 0 = true
      ∧ (Encode_alloc_point_pc pc).testBit 1 = false
      ∧ (Encode_call_point_pc pc).testBit 0 = true
      ∧ (Encode_call_point_pc pc).testBit 1 = true := by
  have ea := Encode_alloc_point_pc_eq pc
  have ec := Encode_call_point_pc_eq pc
  refine ⟨?_, ?_, ?_, ?_, ?_, ?_⟩
  · intro h
    unfold Call_or_allocation_point
    rw [h, and_three, ea, if_pos (by omega)]
  · intro h
    unfold Call_or_allocation_point
    rw [h, and_three, ec, if_neg (by omega)]
  · rw [ea, Nat.testBit_to_div_mod]; simp; omega
  · rw [ea, Nat.testBit_to_div_mod]; simp; omega
  · rw [ec, Nat.testBit_to_div_mod]; simp; omega
  · rw [ec, Nat.testBit_to_div_mod]; simp; omega

/-- C22 at the concrete node `ex_node_mem`. -/
theorem call_or_allocation_point_distinguishes_witness :
    Call_or_allocation_point ex_node_mem 1000 2 = c_node_type.ALLOCATION
      ∧ Call_or_allocation_point ex_node_mem 1000 4 = c_node_type.CALL :=
  ⟨(call_or_allocation_point_distinguishes ex_node_mem 1000 2 4198400).1 (by decide),
   (call_or_allocation_point_distinguishes ex_node_mem 1000 4 4198464).2.1 (by decide)⟩

/-- C25.  In the state after the clock has advanced the ring index, an Auto
request (howmuch = -1) computes spend = min (credit, ring[index]), lowers the
work credit by spend, takes ring[index] - spend as the proportion of the
slice, sets ring[index] to 0 and leaves the other buckets alone.  A Compute
request (howmuch = 0) takes the value of the next bucket (index + 1, wrapped
to 0 at the window) and a Manual request n the value
n * 3 * (100 + percent_free) / (2 * heap_wsz * percent_free); both leave the
ring as it is and raise the work credit by the proportion.
caml_major_collection_slice runs these steps after the distribution of the
ordered work. -/
theorem slice_request_proportion_and_credit (s : State) (n : Int) :
    (slice_filt_p s (-1)
        = s.caml_major_ring s.caml_major_ring_index
          - min s.caml_major_work_credit (s.caml_major_ring s.caml_major_ring_index)
      ∧ (slice_credit s (-1)).caml_major_work_credit
        = s.caml_major_work_credit
          - min s.caml_major_work_credit (s.caml_major_ring s.caml_major_ring_index)
      ∧ (slice_credit s (-1)).caml_major_ring s.caml_major_ring_index = 0
      ∧ ∀ j, j ≠ s.caml_major_ring_index →
          (slice_credit s (-1)).caml_major_ring j = s.caml_major_ring j)
    ∧ (slice_filt_p s 0
        = s.caml_major_ring
            (if s.caml_major_ring_index + 1 ≥ s.caml_major_window then 0
             else s.caml_major_ring_index + 1)
      ∧ (slice_credit s 0).caml_major_ring = s.caml_major_ring
      ∧ (slice_credit s 0).caml_major_work_credit
        = s.caml_major_work_credit + slice_filt_p s 0)
    ∧ (n ≠ -1 → n ≠ 0 →
        slice_filt_p s n
          = (n : ℚ) * 3 * (100 + (s.caml_percent_free : ℚ))
            / (2 * (s.caml_stat_heap_wsz : ℚ) * (s.caml_percent_free : ℚ))
        ∧ (slice_credit s n).caml_major_ring = s.caml_major_ring
        ∧ (slice_credit s n).caml_major_work_credit
          = s.caml_major_work_credit + slice_filt_p s n)
    ∧ ∀ (env : Env) (fuel : Nat) (s0 : State),
        caml_major_collection_slice env fuel s0 n
          = slice_finish
              (slice_work env fuel (slice_credit (slice_distribute s0) n)
                (slice_filt_p (slice_distribute s0) n)).1
              (slice_filt_p (slice_distribute s0) n)
              (slice_work env fuel (slice_credit (slice_distribute s0) n)
                (slice_filt_p (slice_distribute s0) n)).2 := by
  refine ⟨⟨?_, ?_, ?_, ?_⟩, ⟨?_, ?_, ?_⟩, ?_, ?_⟩
  · simp [slice_filt_p]
  · simp [slice_credit]
  · simp [slice_credit, ring_set]
  · intro j hj
    simp [slice_credit, ring_set, hj]
  · simp [slice_filt_p]
  · simp [slice_credit]
  · simp [slice_credit]
  · intro h1 h0
    refine ⟨?_, ?_, ?_⟩
    · simp only [slice_filt_p, if_neg h1, if_neg h0]
      push_cast
      rw [div_div, div_div]
      congr 1
      ring
    · simp [slice_credit, h1]
    · simp [slice_credit, h1]
  · intro env fuel s0
    rfl

/-- Witness of C25 on the example heap: a Manual request of 512 words, with a
heap of 1024 words and percent_free = 100, has the proportion 3/2. -/
theorem slice_request_proportion_and_credit_witness :
    slice_filt_p ex_compute 512 = 3 / 2
    ∧ (slice_credit ex_compute 512).caml_major_work_credit = 3 / 2 := by
  obtain ⟨h1, -, h3⟩ :=
    (slice_request_proportion_and_credit ex_compute 512).2.2.1 (by decide) (by decide)
  have e1 : ex_compute.caml_percent_free = 100 := rfl
  have e2 : ex_compute.caml_stat_heap_wsz = 1024 := rfl
  have e3 : ex_compute.caml_major_work_credit = 0 := rfl
  rw [h3, h1, e1, e2, e3]
  norm_num

theorem slice_finish_all_done (s : State) (f : ℚ) (hc : 0 ≤ s.caml_major_work_credit) :
    (slice_finish s f f).caml_major_ring = s.caml_major_ring
    ∧ (slice_finish s f f).caml_major_work_credit = s.caml_major_work_credit := by
  simp only [slice_finish, sub_self]
  rw [min_eq_left hc]
  simp

theorem mark_loop_stop (env : Env) (fuel : Nat) (st : MarkState) (h : ¬ st.work > 0) :
    mark_loop env fuel st = st := by
  cases fuel with
  | zero => rfl
  | succ n => simp only [mark_loop, if_neg h]

/-- With nothing gray and no scan pending, a slice in Subphase_final runs the
final case once and returns. -/
theorem mark_slice_in_final (env : Env) (fuel : Nat) (s : State) (w : Int)
    (hv : s.current_value = 0) (hg : s.gray_vals = []) (hm : s.markhp = 0)
    (hp : s.heap_is_pure = true) (hs : s.caml_gc_subphase = Subphase_final)
    (hw : 0 < w) :
    mark_slice env (fuel + 1) s w = mark_leave (mark_final env (mark_enter s w)) := by
  have e1 : mark_pop (mark_enter s w) = mark_enter s w := by
    simp [mark_pop, mark_enter, hg]
  have e2 : mark_step env (mark_enter s w) = mark_final env (mark_enter s w) := by
    simp only [mark_step, e1]
    rw [if_neg (by simp [mark_enter, hv]), if_neg (by simp [mark_enter, hm]),
      if_neg (by simp [mark_enter, hp])]
    simp [mark_subphase, mark_enter, hs, Subphase_final, Subphase_roots, Subphase_main,
      Subphase_weak1, Subphase_weak2]
  have e3 : ¬ (mark_final env (mark_enter s w)).work > 0 := by
    simp [mark_final]
  unfold mark_slice
  rw [mark_loop, if_pos (by simpa [mark_enter] using hw), e2, mark_loop_stop _ _ _ e3]

/-- C26, counterexample.  On the example heap at the end of marking, with
half a cycle in the only bucket and no credit, an Auto slice takes the bucket
as its proportion, which makes a budget of 640 words for mark_slice; the mark
phase finishes at once (the phase is Phase_sweep on return), and nothing is
returned: the bucket is 0 and the credit is 0 after the call. -/
theorem slice_unspent_work_counterexample :
    ex_final.caml_gc_phase = Phase_mark
    ∧ ex_final.caml_major_ring 0 = 1 / 2
    ∧ ex_final.caml_major_work_credit = 0
    ∧ computed_work (slice_credit (slice_distribute ex_final) (-1))
        (slice_filt_p (slice_distribute ex_final) (-1)) = 640
    ∧ (mark_slice ex_env 10 (slice_credit (slice_distribute ex_final) (-1)) 640).mem
        = ex_final.mem
    ∧ (caml_major_collection_slice ex_env 10 ex_final (-1)).caml_gc_phase = Phase_sweep
    ∧ (caml_major_collection_slice ex_env 10 ex_final (-1)).caml_major_ring 0 = 0
    ∧ (caml_major_collection_slice ex_env 10 ex_final (-1)).caml_major_work_credit = 0 := by
  have e1 : ex_final.caml_gc_clock = 0 := rfl
  have e2 : ex_final.caml_major_window = 1 := rfl
  have e3 : ex_final.caml_major_ring = fun _ => 1 / 2 := rfl
  have e4 : ex_final.caml_major_ring_index = 0 := rfl
  have e5 : ex_final.caml_major_work_credit = 0 := rfl
  have e6 : ex_final.caml_gc_phase = Phase_mark := rfl
  have hp : slice_raw_p ex_final = 0 := by
    norm_num [slice_raw_p, ex_final, ex_idle]
  have hf : slice_filt_p (slice_distribute ex_final) (-1) = 1 / 2 := by
    norm_num [slice_filt_p, slice_distribute, hp, ring_add, e1, e2, e3, e4, e5]
  have hdone : slice_done ex_final (-1) = 1 / 2 := by
    simp only [slice_done, hf, e6]
    norm_num [Phase_mark, Phase_idle]
  have hw : computed_work (slice_credit (slice_distribute ex_final) (-1))
      (slice_filt_p (slice_distribute ex_final) (-1)) = 640 := by
    rw [hf]
    have p1 : (slice_credit (slice_distribute ex_final) (-1)).caml_gc_phase = Phase_mark := by
      rw [slice_credit_phase, slice_distribute_phase]; rfl
    have p2 : (slice_credit (slice_distribute ex_final) (-1)).caml_stat_heap_wsz = 1024 := by
      simp only [slice_credit, slice_distribute]; split_ifs <;> rfl
    have p3 : (slice_credit (slice_distribute ex_final) (-1)).caml_percent_free = 100 := by
      simp only [slice_credit, slice_distribute]; split_ifs <;> rfl
    have p4 : (slice_credit (slice_distribute ex_final) (-1)).caml_incremental_roots_count
        = 0 := by
      simp only [slice_credit, slice_distribute]; split_ifs <;> rfl
    simp only [computed_work, p1, p2, p3, p4, if_true, double_to_intnat]
    norm_num
  obtain ⟨a1, -, -, a4, -⟩ := slice_pacing_result ex_env 10 ex_final (-1)
  refine ⟨rfl, by rw [e3], rfl, hw, ?_, ?_, ?_, ?_⟩
  · rw [mark_slice_in_final ex_env 9 _ 640 (by rfl) (by rfl) (by rfl) (by rfl) (by rfl)
      (by decide)]
    simp only [mark_leave, mark_final_mem]
    rfl
  · have hne : Phase_mark ≠ Phase_idle := by decide
    have p1 : (slice_credit (slice_distribute ex_final) (-1)).caml_gc_phase = Phase_mark := by
      rw [slice_credit_phase, slice_distribute_phase]; rfl
    simp only [caml_major_collection_slice, slice_finish_phase, slice_work, p1, hne,
      if_false, if_true, hw]
    rw [if_neg (by rw [hf]; norm_num)]
    rw [mark_slice_in_final ex_env 9 _ 640 (by rfl) (by rfl) (by rfl) (by rfl) (by rfl)
      (by decide)]
    have q : (mark_leave (mark_final ex_env
        (mark_enter (slice_credit (slice_distribute ex_final) (-1)) 640))).caml_gc_phase
        = Phase_sweep := by
      simp only [mark_leave, mark_final]
      split_ifs <;> rfl
    rw [if_neg (by rw [q]; decide), q]
  · rw [a1, hf, hdone]
    norm_num [slice_finish, slice_credit, slice_distribute, slice_filt_p, hp,
      ring_add, ring_set, e1, e2, e3, e4, e5]
  · rw [a4, hf, hdone]
    norm_num [slice_finish, slice_credit, slice_distribute, slice_filt_p, hp,
      ring_add, ring_set, e1, e2, e3, e4, e5]

/-- C26, amended.  When caml_major_collection_slice runs mark_slice or
sweep_slice (the phase is not Phase_idle on entry and the proportion filt_p of
the slice is not negative), the value of p at the label finished is filt_p,
whether or not the phase finished before the word budget was used up: with a
work credit that is not negative nothing is returned, the ring and the credit
are as the request left them.  Only when no collection work is run (the phase
is Phase_idle on entry, or filt_p is negative) is the whole of filt_p given
back: min (filt_p, credit) is taken off the work credit and the rest, if any,
is added in equal shares to the caml_major_window buckets. -/
theorem slice_returns_work_only_when_none_is_run (env : Env) (fuel : Nat) (s : State)
    (howmuch : Int) :
    (s.caml_gc_phase ≠ Phase_idle → 0 ≤ slice_filt_p (slice_distribute s) howmuch →
      0 ≤ (slice_credit (slice_distribute s) howmuch).caml_major_work_credit →
      (caml_major_collection_slice env fuel s howmuch).caml_major_ring
          = (slice_credit (slice_distribute s) howmuch).caml_major_ring
        ∧ (caml_major_collection_slice env fuel s howmuch).caml_major_work_credit
          = (slice_credit (slice_distribute s) howmuch).caml_major_work_credit)
    ∧ (s.caml_gc_phase = Phase_idle ∨ slice_filt_p (slice_distribute s) howmuch < 0 →
      (caml_major_collection_slice env fuel s howmuch).caml_major_work_credit
          = (slice_credit (slice_distribute s) howmuch).caml_major_work_credit
            - min (slice_filt_p (slice_distribute s) howmuch)
                (slice_credit (slice_distribute s) howmuch).caml_major_work_credit
        ∧ (caml_major_collection_slice env fuel s howmuch).caml_major_ring
          = if slice_filt_p (slice_distribute s) howmuch
                > min (slice_filt_p (slice_distribute s) howmuch)
                    (slice_credit (slice_distribute s) howmuch).caml_major_work_credit then
              ring_add (slice_credit (slice_distribute s) howmuch).caml_major_ring
                (slice_credit (slice_distribute s) howmuch).caml_major_window
                ((slice_filt_p (slice_distribute s) howmuch
                    - min (slice_filt_p (slice_distribute s) howmuch)
                        (slice_credit (slice_distribute s) howmuch).caml_major_work_credit)
                  / ((slice_credit (slice_distribute s) howmuch).caml_major_window : ℚ))
            else (slice_credit (slice_distribute s) howmuch).caml_major_ring) := by
  obtain ⟨a1, -, -, a4, -⟩ := slice_pacing_result env fuel s howmuch
  constructor
  · intro hp hf hc
    have hd : slice_done s howmuch = slice_filt_p (slice_distribute s) howmuch := by
      simp only [slice_done, if_neg hp, if_neg (not_lt.mpr hf)]
    rw [a1, a4, hd]
    exact slice_finish_all_done _ _ hc
  · intro h
    have hd : slice_done s howmuch = 0 := by
      simp only [slice_done]
      rcases h with h | h
      · rw [if_pos h]
      · split_ifs <;> rfl
    rw [a1, a4, hd]
    simp only [slice_finish, sub_zero]
    exact ⟨trivial, trivial⟩

/-- Witness of C26 (amended) on the example heap.  At the end of marking the
Auto slice returns nothing: the credit stays 0 and the bucket stays empty.
With the collector idle the Auto slice only starts the cycle, and the half
cycle taken from the bucket is put back into it. -/
theorem slice_returns_work_only_when_none_is_run_witness :
    ((caml_major_collection_slice ex_env 10 ex_final (-1)).caml_major_ring
        = (slice_credit (slice_distribute ex_final) (-1)).caml_major_ring
      ∧ (caml_major_collection_slice ex_env 10 ex_final (-1)).caml_major_work_credit
        = (slice_credit (slice_distribute ex_final) (-1)).caml_major_work_credit)
    ∧ (caml_major_collection_slice ex_env 10 ex_idle_half (-1)).caml_major_work_credit = 0
    ∧ (caml_major_collection_slice ex_env 10 ex_idle_half (-1)).caml_major_ring 0
        = 1 / 2 := by
  have e1 : ex_final.caml_gc_clock = 0 := rfl
  have e2 : ex_final.caml_major_window = 1 := rfl
  have e3 : ex_final.caml_major_ring = fun _ => 1 / 2 := rfl
  have e4 : ex_final.caml_major_ring_index = 0 := rfl
  have e5 : ex_final.caml_major_work_credit = 0 := rfl
  have hp : slice_raw_p ex_final = 0 := by
    norm_num [slice_raw_p, ex_final, ex_idle]
  have hf : slice_filt_p (slice_distribute ex_final) (-1) = 1 / 2 := by
    norm_num [slice_filt_p, slice_distribute, hp, ring_add, e1, e2, e3, e4, e5]
  have hc : (slice_credit (slice_distribute ex_final) (-1)).caml_major_work_credit = 0 := by
    norm_num [slice_credit, slice_distribute, hp, ring_add, e1, e2, e3, e4, e5]
  have i1 : ex_idle_half.caml_gc_clock = 0 := rfl
  have i2 : ex_idle_half.caml_major_window = 1 := rfl
  have i3 : ex_idle_half.caml_major_ring = fun _ => 1 / 2 := rfl
  have i4 : ex_idle_half.caml_major_ring_index = 0 := rfl
  have i5 : ex_idle_half.caml_major_work_credit = 0 := rfl
  have ip : slice_raw_p ex_idle_half = 0 := by
    norm_num [slice_raw_p, ex_idle_half, ex_idle]
  have jf : slice_filt_p (slice_distribute ex_idle_half) (-1) = 1 / 2 := by
    norm_num [slice_filt_p, slice_distribute, ip, ring_add, i1, i2, i3, i4, i5]
  have jc : (slice_credit (slice_distribute ex_idle_half) (-1)).caml_major_work_credit
      = 0 := by
    norm_num [slice_credit, slice_distribute, ip, ring_add, i1, i2, i3, i4, i5]
  have jw : (slice_credit (slice_distribute ex_idle_half) (-1)).caml_major_window = 1 := by
    rw [slice_credit_window, slice_distribute_window]; rfl
  have jr : (slice_credit (slice_distribute ex_idle_half) (-1)).caml_major_ring 0 = 0 := by
    norm_num [slice_credit, slice_distribute, ip, ring_add, ring_set, i1, i2, i3, i4, i5]
  obtain ⟨k1, k2⟩ :=
    (slice_returns_work_only_when_none_is_run ex_env 10 ex_idle_half (-1)).2 (Or.inl rfl)
  refine ⟨(slice_returns_work_only_when_none_is_run ex_env 10 ex_final (-1)).1
    (by decide) (by rw [hf]; norm_num) (by rw [hc]), ?_, ?_⟩
  · rw [k1, jf, jc]; norm_num
  · rw [k2, jf, jc, jw]
    norm_num [ring_add, jr]

/-- C27.  When the gray stack is below the threshold and realloc fails,
realloc_gray_vals returns normally: the capacity is kept, heap_is_pure is set
to false, every entry is removed from the stack, and neither the memory nor
the phase changes, so that each removed block that was gray is still gray in
the heap.  In any later state of the loop of mark_slice with nothing to scan
(v = 0, empty stack) and no scan under way (markhp = NULL), an impure heap
makes the next iteration start the heap-order scan at caml_heap_start. -/
theorem realloc_gray_vals_failure_degrades (env : Env) (s : State)
    (hsmall : s.gray_vals_size < s.caml_stat_heap_wsz / 32)
    (hfail : env.realloc_ok s (2 * s.gray_vals_size) = false) :
    (realloc_gray_vals env s).gray_vals_size = s.gray_vals_size
    ∧ (realloc_gray_vals env s).heap_is_pure = false
    ∧ (realloc_gray_vals env s).gray_vals = []
    ∧ (realloc_gray_vals env s).mem = s.mem
    ∧ (realloc_gray_vals env s).caml_gc_phase = s.caml_gc_phase
    ∧ (realloc_gray_vals env s).caml_gc_subphase = s.caml_gc_subphase
    ∧ (realloc_gray_vals env s).events = s.events
    ∧ (∀ v ∈ s.gray_vals, Is_gray_hd (Hd_val s.mem v) = true →
        Is_gray_hd (Hd_val (realloc_gray_vals env s).mem v) = true)
    ∧ (∀ st : MarkState, st.s.heap_is_pure = false → st.v = 0 → st.s.gray_vals = [] →
        st.s.markhp = 0 →
        (mark_step env st).s.markhp = st.s.caml_heap_start
        ∧ (mark_step env st).s.chunk = st.s.caml_heap_start
        ∧ (mark_step env st).s.limit
            = st.s.caml_heap_start + Chunk_size st.s.mem st.s.caml_heap_start
        ∧ (mark_step env st).s.heap_is_pure = true
        ∧ (mark_step env st).s.mem = st.s.mem) := by
  have e : realloc_gray_vals env s = { s with gray_vals := [], heap_is_pure := false } := by
    simp only [realloc_gray_vals, if_pos hsmall, hfail]
    rfl
  rw [e]
  refine ⟨rfl, rfl, rfl, rfl, rfl, rfl, rfl, fun v _ h => h, ?_⟩
  intro st hp hv hg hm
  have e1 : mark_pop st = st := by
    simp [mark_pop, hg]
  simp only [mark_step, e1]
  rw [if_neg (by simp [hv]), if_neg (by simp [hm]), if_pos (by simp [hp])]
  exact ⟨rfl, rfl, rfl, rfl, rfl⟩

/-- Witness of C27 on the example heap: the stack holding the gray records D
and A is full, realloc fails; the stack is emptied, the capacity stays 2, the
heap becomes impure and both records are still gray. -/
theorem realloc_gray_vals_failure_degrades_witness :
    (realloc_gray_vals ex_env_noroom ex_gray_full).gray_vals_size = 2
    ∧ (realloc_gray_vals ex_env_noroom ex_gray_full).heap_is_pure = false
    ∧ (realloc_gray_vals ex_env_noroom ex_gray_full).gray_vals = []
    ∧ Is_gray_hd (Hd_val (realloc_gray_vals ex_env_noroom ex_gray_full).mem 1072) = true
    ∧ Is_gray_hd (Hd_val (realloc_gray_vals ex_env_noroom ex_gray_full).mem 1008) = true := by
  obtain ⟨h1, h2, h3, -, -, -, -, h8, -⟩ :=
    realloc_gray_vals_failure_degrades ex_env_noroom ex_gray_full (by decide) (by decide)
  exact ⟨h1, h2, h3, h8 1072 (by decide) (by decide), h8 1008 (by decide) (by decide)⟩

theorem realloc_gray_vals_mem (env : Env) (s : State) :
    (realloc_gray_vals env s).mem = s.mem := by
  simp only [realloc_gray_vals]
  split_ifs <;> rfl

theorem gray_push_mem (env : Env) (s : State) (v : Nat) : (gray_push env s v).mem = s.mem := by
  simp only [gray_push, realloc_gray_vals]
  split_ifs <;> rfl

/-- The memory after mark_child: unchanged, or the header of the child is
made gray. -/
theorem mark_child_mem (env : Env) (s : State) (child chd : Nat) :
    (mark_child env s child chd).mem
      = if Is_white_hd chd then set_Hd_val s.mem child (Grayhd_hd chd) else s.mem := by
  simp only [mark_child]
  split_ifs
  · rw [gray_push_mem]
  · rfl

/-- C29, counterexample.  The field 0 of the record at 1008 points to a
forwarding block in the heap whose target 5000 is a block with tag 0, not a
forwarding, lazy or float block, that lies outside the value area: mark_slice
does not rewrite the field. -/
theorem mark_field_forward_counterexample :
    Field ex_fwd.mem 1008 0 = 1032
    ∧ Is_block 1032 = true ∧ ex_env.Is_in_heap 1032 = true
    ∧ Tag_hd (Hd_val ex_fwd.mem 1032) = Forward_tag
    ∧ Forward_val ex_fwd.mem 1032 = 5000
    ∧ Is_block 5000 = true
    ∧ ex_env.Is_in_value_area 5000 = false
    ∧ Tag_val ex_fwd.mem 5000 ≠ Forward_tag
    ∧ Tag_val ex_fwd.mem 5000 ≠ Lazy_tag
    ∧ Tag_val ex_fwd.mem 5000 ≠ Double_tag
    ∧ Field (mark_field ex_env 1008 0 ex_fwd).mem 1008 0 = 1032 := by
  refine ⟨?_, ?_, ?_, ?_, ?_, ?_, ?_, ?_, ?_, ?_, ?_⟩ <;> decide

/-- C29, amended.  When the field i of v holds a pointer into the heap to a
block with Forward_tag whose field is f (the header of that block not being
the field itself), mark_slice leaves the field as it is if f is a block
pointer that is outside the value area or whose block has tag Forward_tag,
Lazy_tag or Double_tag, and rewrites the field to f in every other case, an
f that is not a pointer included.  Apart from the field, only the header of
the forwarding block changes, which becomes gray if it was white. -/
theorem mark_field_forward_rewrite (env : Env) (v i : Nat) (s : State)
    (hb : Is_block (Field s.mem v i) = true)
    (hh : env.Is_in_heap (Field s.mem v i) = true)
    (ht : Tag_hd (Hd_val s.mem (Field s.mem v i)) = Forward_tag)
    (hsep : Field s.mem v i - 8 ≠ v + 8 * i) :
    Field (mark_field env v i s).mem v i
        = (if Is_block (Forward_val s.mem (Field s.mem v i)) = true
              ∧ (env.Is_in_value_area (Forward_val s.mem (Field s.mem v i)) = false
                ∨ Tag_val s.mem (Forward_val s.mem (Field s.mem v i)) = Forward_tag
                ∨ Tag_val s.mem (Forward_val s.mem (Field s.mem v i)) = Lazy_tag
                ∨ Tag_val s.mem (Forward_val s.mem (Field s.mem v i)) = Double_tag)
           then Field s.mem v i
           else Forward_val s.mem (Field s.mem v i))
    ∧ ∀ a, a ≠ v + 8 * i → a ≠ Field s.mem v i - 8 →
        (mark_field env v i s).mem a = s.mem a := by
  have hc : (Is_block (Field s.mem v i) && env.Is_in_heap (Field s.mem v i)) = true := by
    rw [hb, hh]; rfl
  have hn : no_short_circuit env s.mem (Forward_val s.mem (Field s.mem v i)) = true ↔
      (Is_block (Forward_val s.mem (Field s.mem v i)) = true
        ∧ (env.Is_in_value_area (Forward_val s.mem (Field s.mem v i)) = false
          ∨ Tag_val s.mem (Forward_val s.mem (Field s.mem v i)) = Forward_tag
          ∨ Tag_val s.mem (Forward_val s.mem (Field s.mem v i)) = Lazy_tag
          ∨ Tag_val s.mem (Forward_val s.mem (Field s.mem v i)) = Double_tag)) := by
    simp [no_short_circuit, or_assoc]
  simp only [mark_field, hc, ht, if_true]
  by_cases hk : no_short_circuit env s.mem (Forward_val s.mem (Field s.mem v i)) = true
  · rw [if_pos hk, if_pos (hn.1 hk), mark_child_mem]
    constructor
    · split_ifs
      · simp only [Field, set_Hd_val, Mem.set]
        rw [if_neg (fun e => hsep e.symm)]
      · rfl
    · intro a _ ha
      split_ifs
      · simp only [Field, set_Hd_val, Mem.set] at ha ⊢
        rw [if_neg ha]
      · rfl
  · rw [if_neg hk, if_neg (fun e => hk (hn.2 e))]
    have key : ∀ s2 : State,
        s2.mem = set_Field s.mem v i (Forward_val s.mem (Field s.mem v i)) →
        Field (mark_child env s2 (Field s.mem v i) (Hd_val s.mem (Field s.mem v i))).mem v i
            = Forward_val s.mem (Field s.mem v i)
          ∧ ∀ a, a ≠ v + 8 * i → a ≠ Field s.mem v i - 8 →
            (mark_child env s2 (Field s.mem v i) (Hd_val s.mem (Field s.mem v i))).mem a
              = s.mem a := by
      intro s2 e
      rw [mark_child_mem, e]
      constructor
      · split_ifs
        · simp only [Field, set_Hd_val, set_Field, Mem.set] at hsep ⊢
          simp [Ne.symm hsep]
        · simp [Field, set_Field, Mem.set]
      · intro a ha1 ha
        split_ifs
        · simp only [Field, set_Hd_val, set_Field, Mem.set] at ha ⊢
          simp [ha, ha1]
        · simp [Field, set_Field, Mem.set, ha1]
    refine key _ ?_
    split_ifs <;> rfl

/-- Witness of C29 (amended): on the example heap the field that leads to a
block outside the value area stays 1032, and the field that leads to the
record at 1048 in the heap is rewritten to 1048. -/
theorem mark_field_forward_rewrite_witness :
    Field (mark_field ex_env 1008 0 ex_fwd).mem 1008 0 = 1032
    ∧ Field (mark_field ex_env 1008 0 ex_fwd_in).mem 1008 0 = 1048 :=
  ⟨(mark_field_forward_rewrite ex_env 1008 0 ex_fwd (by decide) (by decide) (by decide)
      (by decide)).1.trans (by decide),
   (mark_field_forward_rewrite ex_env 1008 0 ex_fwd_in (by decide) (by decide) (by decide)
      (by decide)).1.trans (by decide)⟩

/-- The for loop of mark_slice visits the fields i, i + 1, ..., i + n - 1 in
this order. -/
theorem mark_fields_foldl (env : Env) (v n i : Nat) (s : State) :
    mark_fields env v n i s = (List.range' i n).foldl (fun t j => mark_field env v j t) s := by
  induction n generalizing i s with
  | zero => rfl
  | succ n ih => simp only [mark_fields, List.range'_succ, List.foldl_cons, ih]

theorem mark_pop_of_ne (st : MarkState) (hv : st.v ≠ 0) : mark_pop st = st := by
  simp only [mark_pop, if_neg hv]

theorem mark_step_of_ne (env : Env) (st : MarkState) (hv : st.v ≠ 0) :
    mark_step env st = mark_value env st := by
  simp only [mark_step, mark_pop_of_ne st hv, if_pos hv]

/-- The budget runs out inside the block: lines 248 to 252. -/
theorem mark_value_inside (env : Env) (st : MarkState)
    (ht : Tag_hd (Hd_val st.s.mem st.v) < No_scan_tag)
    (he : st.start + st.work.toNat < Wosize_hd (Hd_val st.s.mem st.v)) :
    mark_value env st
      = { st with
          s := mark_fields env st.v (st.work.toNat) st.start st.s
          work := 0
          start := st.start + st.work.toNat
          slice_fields := st.slice_fields + st.work.toNat } := by
  have h1 : ¬ Wosize_hd (Hd_val st.s.mem st.v) < st.start := by omega
  have h2 : ¬ Wosize_hd (Hd_val st.s.mem st.v) < st.start + st.work.toNat := by omega
  simp only [mark_value, if_pos ht, if_neg h1, if_neg h2, if_pos he, Nat.add_sub_cancel_left]

/-- The budget reaches the end of the block: lines 253 to 259. -/
theorem mark_value_to_end (env : Env) (st : MarkState)
    (ht : Tag_hd (Hd_val st.s.mem st.v) < No_scan_tag)
    (hs : st.start ≤ Wosize_hd (Hd_val st.s.mem st.v))
    (he : Wosize_hd (Hd_val st.s.mem st.v) ≤ st.start + st.work.toNat) :
    mark_value env st
      = { s := { mark_fields env st.v (Wosize_hd (Hd_val st.s.mem st.v) - st.start) st.start
                   st.s with
                 mem := set_Hd_val
                   (mark_fields env st.v (Wosize_hd (Hd_val st.s.mem st.v) - st.start)
                     st.start st.s).mem
                   st.v (Blackhd_hd (Hd_val st.s.mem st.v)) }
          work := st.work - Whsize_wosize (Wosize_hd (Hd_val st.s.mem st.v) - st.start)
          start := 0
          v := 0
          slice_fields :=
            st.slice_fields + (Wosize_hd (Hd_val st.s.mem st.v) - st.start) } := by
  have h1 : ¬ Wosize_hd (Hd_val st.s.mem st.v) < st.start := by omega
  have h3 : (if Wosize_hd (Hd_val st.s.mem st.v) < st.start + st.work.toNat
      then Wosize_hd (Hd_val st.s.mem st.v) else st.start + st.work.toNat)
      = Wosize_hd (Hd_val st.s.mem st.v) := by
    split_ifs <;> omega
  simp only [mark_value, if_pos ht, if_neg h1, h3, lt_irrefl, if_false]

namespace HeapCtx

variable {c : HeapCtx}

/-- The statements after the loop of mark_slice keep the invariant. -/
theorem MInv.mi_leave {st : MarkState} (hm : c.MInv st.s st.v st.start) :
    c.MInv (mark_leave st) (mark_leave st).current_value (mark_leave st).current_index := by
  obtain ⟨todo, hi, sp⟩ := hm.heap
  exact hm.mi_carry (HeapFrame.frame_refl _) rfl rfl rfl rfl rfl rfl rfl rfl rfl hm.wp
    hm.noscan hi sp

/-- The block being scanned is gray, and its header has the tag and the size
of the start of the cycle. -/
theorem MInv.mi_cur {s : State} {v start : Nat} (hm : c.MInv s v start) (hv : v ≠ 0) :
    Color_hd (Hd_val s.mem v) = Caml_gray
    ∧ Tag_hd (Hd_val s.mem v) = Tag_hd (Hd_val c.m0 v)
    ∧ Wosize_hd (Hd_val s.mem v) = Wosize_hd (Hd_val c.m0 v)
    ∧ start ≤ Wosize_hd (Hd_val s.mem v) := by
  obtain ⟨todo, hi, -⟩ := hm.heap
  obtain ⟨h, hh, -, e, hg, hle⟩ := hi.cur_blk hv
  subst e
  rw [Hd_val_add, Hd_val_add]
  have e1 : Tag_hd (s.mem h) = c.tag0 h := hi.stable.st_tag hh
  have e2 : Wosize_hd (s.mem h) = c.size0 h := hi.stable.st_size hh
  exact ⟨hg, e1, e2, by rw [e2]; exact hle⟩

end HeapCtx

/-- C28.  The loop of mark_slice is at a gray scannable block v of size n,
with the invariant of marking on a well-formed heap, and the budget ends
inside the block: start + work < n.  Then the iteration scans the fields
start to end - 1, where end = start + work, the loop stops, the block is
still gray, and mark_slice saves current_value = v and current_index = end.
The first iteration of the next call of mark_slice with a positive budget w
takes up the same block and runs the field loop from index end on (the for
loop visits the indices from its starting index upwards only): if end + w < n
the block stays gray and the index end + w is saved; otherwise the fields
end to n - 1 are scanned and only then is the block made black. -/
theorem mark_slice_resumes_inside_block (c : HeapCtx) (wf : c.WF) (fuel : Nat)
    (st : MarkState) (hm : c.MInv st.s st.v st.start) (hv : st.v ≠ 0)
    (ht : Tag_hd (Hd_val st.s.mem st.v) < No_scan_tag) (hw : 0 < st.work)
    (he : st.start + st.work.toNat < Wosize_hd (Hd_val st.s.mem st.v)) :
    (∀ (env : Env) (v n i : Nat) (s : State),
        mark_fields env v n i s
          = (List.range' i n).foldl (fun t j => mark_field env v j t) s)
    ∧ ∀ s1 : State, s1 = mark_leave (mark_loop c.env (fuel + 1) st) →
      s1 = mark_leave
          { st with s := mark_fields c.env st.v st.work.toNat st.start st.s
                    work := 0
                    start := st.start + st.work.toNat
                    slice_fields := st.slice_fields + st.work.toNat }
      ∧ s1.current_value = st.v
      ∧ s1.current_index = st.start + st.work.toNat
      ∧ Color_hd (Hd_val s1.mem st.v) = Caml_gray
      ∧ Wosize_hd (Hd_val s1.mem st.v) = Wosize_hd (Hd_val st.s.mem st.v)
      ∧ ∀ (fuel2 : Nat) (w : Int), 0 < w →
        ∀ st2 : MarkState, st2 = mark_step c.env (mark_enter s1 w) →
          mark_slice c.env (fuel2 + 1) s1 w = mark_leave (mark_loop c.env fuel2 st2)
          ∧ (s1.current_index + w.toNat < Wosize_hd (Hd_val st.s.mem st.v) →
              st2.s = mark_fields c.env st.v w.toNat s1.current_index s1
              ∧ st2.v = st.v ∧ st2.start = s1.current_index + w.toNat ∧ st2.work = 0
              ∧ Color_hd (Hd_val st2.s.mem st.v) = Caml_gray)
          ∧ (Wosize_hd (Hd_val st.s.mem st.v) ≤ s1.current_index + w.toNat →
              st2.s.mem
                = set_Hd_val
                    (mark_fields c.env st.v
                      (Wosize_hd (Hd_val st.s.mem st.v) - s1.current_index)
                      s1.current_index s1).mem
                    st.v (Blackhd_hd (Hd_val s1.mem st.v))
              ∧ st2.v = 0 ∧ st2.start = 0
              ∧ Color_hd (Hd_val st2.s.mem st.v) = Caml_black) := by
  refine ⟨mark_fields_foldl, ?_⟩
  intro s1 hs1
  have hval := mark_value_inside c.env st ht he
  have hloop : mark_loop c.env (fuel + 1) st = mark_value c.env st := by
    simp only [mark_loop, if_pos hw, mark_step_of_ne _ _ hv]
    apply mark_loop_stop
    rw [hval]
    simp
  have hm1 := (hm.mi_mark_value wf hv).mi_leave
  rw [hloop] at hs1
  rw [hval] at hs1 hm1
  have ev : s1.current_value = st.v := by rw [hs1]; rfl
  have ei : s1.current_index = st.start + st.work.toNat := by rw [hs1]; rfl
  rw [← hs1] at hm1
  rw [ev] at hm1
  obtain ⟨c1, c2, c3, c4⟩ := hm1.mi_cur hv
  obtain ⟨-, d2, d3, -⟩ := hm.mi_cur hv
  have esz : Wosize_hd (Hd_val s1.mem st.v) = Wosize_hd (Hd_val st.s.mem st.v) := by
    rw [c3, d3]
  have etg : Tag_hd (Hd_val s1.mem st.v) < No_scan_tag := by
    rw [c2, ← d2]; exact ht
  refine ⟨hs1, ev, ei, c1, esz, ?_⟩
  intro fuel2 w hw2 st2 hst2
  have f1 : (mark_enter s1 w).v = st.v := ev
  have f2 : (mark_enter s1 w).s = s1 := rfl
  have f3 : (mark_enter s1 w).start = s1.current_index := rfl
  have f4 : (mark_enter s1 w).work = w := rfl
  have hv2 : (mark_enter s1 w).v ≠ 0 := by rw [f1]; exact hv
  rw [mark_step_of_ne _ _ hv2] at hst2
  have hsl : mark_slice c.env (fuel2 + 1) s1 w = mark_leave (mark_loop c.env fuel2 st2) := by
    simp only [mark_slice, mark_loop]
    rw [if_pos (by rw [f4]; exact hw2), mark_step_of_ne _ _ hv2, hst2]
  have hm2 : c.MInv (mark_enter s1 w).s (mark_enter s1 w).v (mark_enter s1 w).start := by
    rw [f1]; exact hm1
  have hm3 := hm2.mi_mark_value wf hv2
  refine ⟨hsl, ?_, ?_⟩
  · intro hlt
    have hin := mark_value_inside c.env (mark_enter s1 w)
      (by rw [f1, f2]; exact etg) (by rw [f1, f2, f3, f4, esz]; exact hlt)
    rw [← hst2, f1, f2, f3, f4] at hin
    rw [← hst2] at hm3
    have g1 : st2.v = st.v := by rw [hin]
    have g2 : st2.s = mark_fields c.env st.v w.toNat s1.current_index s1 := by rw [hin]
    rw [g1] at hm3
    exact ⟨g2, g1, by rw [hin], by rw [hin], (hm3.mi_cur hv).1⟩
  · intro hge
    have hfull := mark_value_to_end c.env (mark_enter s1 w)
      (by rw [f1, f2]; exact etg) (by rw [f1, f2, f3]; exact c4)
      (by rw [f1, f2, f3, f4, esz]; exact hge)
    rw [← hst2, f1, f2, f3, f4, esz] at hfull
    have g3 : st2.s.mem
        = set_Hd_val
            (mark_fields c.env st.v (Wosize_hd (Hd_val st.s.mem st.v) - s1.current_index)
              s1.current_index s1).mem
            st.v (Blackhd_hd (Hd_val s1.mem st.v)) := by rw [hfull]
    refine ⟨g3, by rw [hfull], by rw [hfull], ?_⟩
    rw [g3]
    simp only [Hd_val, set_Hd_val, Mem.set, if_true]
    exact Color_hd_Blackhd_hd _

/-- Witness of C28 on the example heap: after the first slice the record D at
1072, of size 3, is on top of the gray stack; a slice with a budget of 2
scans its fields 0 and 1, leaves it gray and saves (1072, 2); the next slice
scans field 2 and makes it black. -/
theorem mark_slice_resumes_inside_block_witness :
    (mark_leave (mark_loop ex_env 5
        (mark_pop (mark_enter (drive ex_env [(4, 3)] (start_cycle ex_white)) 2)))).current_value
      = 1072
    ∧ (mark_leave (mark_loop ex_env 5
        (mark_pop (mark_enter (drive ex_env [(4, 3)] (start_cycle ex_white)) 2)))).current_index
      = 2
    ∧ Color_hd (Hd_val (mark_leave (mark_loop ex_env 5
        (mark_pop (mark_enter (drive ex_env [(4, 3)] (start_cycle ex_white)) 2)))).mem 1072)
      = Caml_gray
    ∧ Color_hd (Hd_val (mark_step ex_env (mark_enter (mark_leave (mark_loop ex_env 5
        (mark_pop (mark_enter (drive ex_env [(4, 3)] (start_cycle ex_white)) 2)))) 7)).s.mem
          1072)
      = Caml_black := by
  have hm0 : ex_ctx.MInv (drive ex_env [(4, 3)] (start_cycle ex_white))
      (drive ex_env [(4, 3)] (start_cycle ex_white)).current_value
      (drive ex_env [(4, 3)] (start_cycle ex_white)).current_index :=
    (HeapCtx.MInv.mi_drive ex_ctx_wf [(4, 3)]
      (Or.inl (HeapCtx.MInv.mi_start ex_ctx_wf rfl rfl rfl (by decide) rfl rfl))).resolve_right
      (fun hd => absurd hd.1 (by decide))
  have hm : ex_ctx.MInv
      (mark_pop (mark_enter (drive ex_env [(4, 3)] (start_cycle ex_white)) 2)).s
      (mark_pop (mark_enter (drive ex_env [(4, 3)] (start_cycle ex_white)) 2)).v
      (mark_pop (mark_enter (drive ex_env [(4, 3)] (start_cycle ex_white)) 2)).start :=
    (@HeapCtx.MInv.mi_pop ex_ctx (mark_enter (drive ex_env [(4, 3)] (start_cycle ex_white)) 2)
      hm0).1
  obtain ⟨-, h⟩ := mark_slice_resumes_inside_block ex_ctx ex_ctx_wf 4
    (mark_pop (mark_enter (drive ex_env [(4, 3)] (start_cycle ex_white)) 2)) hm
    (by decide) (by decide) (by decide) (by decide)
  obtain ⟨-, a1, a2, a3, -, a5⟩ := h _ rfl
  obtain ⟨-, -, b⟩ := a5 0 7 (by decide) _ rfl
  exact ⟨a1.trans (by decide), a2.trans (by decide), a3, (b (by decide)).2.2.2⟩

theorem Mem.set_set (m : Mem) (a x y : Nat) : (m.set a x).set a y = m.set a y := by
  funext b
  simp only [Mem.set]
  split_ifs <;> rfl

theorem weak_clear_mem (env : Env) (cur i r : Nat) (s : State) :
    (weak_clear env cur i r s).mem
      = if (Is_white_hd (Hd_val s.mem r) && !env.Is_young r) = true
        then s.mem.set (cur + 8 * i) env.caml_weak_none else s.mem := by
  simp only [weak_clear]
  split_ifs <;> rfl

theorem weak_referent_not {env : Env} {m : Mem} {x : Nat}
    (h : weak_short_circuits env m x = false) : weak_referent env m x = x := by
  simp [weak_referent, h]

theorem weak_referent_yes {env : Env} {m : Mem} {x : Nat}
    (h : weak_short_circuits env m x = true) : weak_referent env m x = Forward_val m x := by
  simp [weak_referent, h]

theorem weak_again_succ (env : Env) (cur i fuel x : Nat) (s : State) :
    weak_again env cur i (fuel + 1) x s
      = if (x != env.caml_weak_none && Is_block x && env.Is_in_heap_or_young x) = true then
          if Tag_val s.mem x = Forward_tag then
            if Is_block (Forward_val s.mem x) = true then
              if (!env.Is_in_value_area (Forward_val s.mem x)
                  || Tag_val s.mem (Forward_val s.mem x) == Forward_tag
                  || Tag_val s.mem (Forward_val s.mem x) == Lazy_tag
                  || Tag_val s.mem (Forward_val s.mem x) == Double_tag) = true then
                weak_clear env cur i x s
              else
                weak_again env cur i fuel (Forward_val s.mem x)
                  (if (Is_block (Forward_val s.mem x) && env.Is_young (Forward_val s.mem x))
                      = true then
                    { s with mem := set_Field s.mem cur i (Forward_val s.mem x)
                             weak_ref_table := (cur + 8 * i) :: s.weak_ref_table }
                  else { s with mem := set_Field s.mem cur i (Forward_val s.mem x) })
            else weak_clear env cur i x s
          else weak_clear env cur i x s
        else s := rfl

/-- The second pass through the label weak_again, for a referent that is not
a forwarding block. -/
theorem weak_again_second (env : Env) (cur i r : Nat) (t : State)
    (ht : Tag_val t.mem r ≠ Forward_tag) :
    (weak_again env cur i 1 r t).mem
      = if (r != env.caml_weak_none && Is_block r && env.Is_in_heap_or_young r) = true
        then (weak_clear env cur i r t).mem else t.mem := by
  rw [show (1 : Nat) = 0 + 1 from rfl, weak_again_succ]
  split_ifs <;> rfl

/-- The code from the label weak_again on stores in the field what the
specification weak1_field gives, and writes nothing else. -/
theorem weak_again_mem (env : Env) (cur i x : Nat) (s : State)
    (hx : s.mem (cur + 8 * i) = x)
    (hsep : weak_short_circuits env s.mem x = true → cur + 8 * i ≠ Forward_val s.mem x - 8) :
    (weak_again env cur i weak_fuel x s).mem
      = s.mem.set (cur + 8 * i) (weak1_field env s.mem x) := by
  have hself : s.mem = s.mem.set (cur + 8 * i) x := by rw [← hx, Mem.set_self]
  -- the case where the field is not short-circuited
  have hno : weak_short_circuits env s.mem x = false →
      (x != env.caml_weak_none && Is_block x && env.Is_in_heap_or_young x) = true →
      (weak_clear env cur i x s).mem = s.mem.set (cur + 8 * i) (weak1_field env s.mem x) := by
    intro h1 h2
    rw [weak_clear_mem]
    have e : weak1_field env s.mem x
        = if (Is_white_hd (Hd_val s.mem x) && !env.Is_young x) = true
          then env.caml_weak_none else x := by
      simp only [weak1_field, weak_referent_not h1, weak_dead, h2, Bool.true_and]
    rw [e]
    split_ifs
    · rfl
    · exact hself
  rw [show weak_fuel = 1 + 1 from rfl, weak_again_succ]
  by_cases c1 : (x != env.caml_weak_none && Is_block x && env.Is_in_heap_or_young x) = true
  swap
  · rw [if_neg c1]
    have c1' : (x != env.caml_weak_none && Is_block x && env.Is_in_heap_or_young x) = false := by
      simpa using c1
    have h1 : weak_short_circuits env s.mem x = false := by
      simp only [weak_short_circuits, c1', Bool.false_and]
    have e : weak1_field env s.mem x = x := by
      simp only [weak1_field, weak_referent_not h1, weak_dead, c1', Bool.false_and]
      rfl
    rw [e]
    exact hself
  rw [if_pos c1]
  by_cases c2 : Tag_val s.mem x = Forward_tag
  swap
  · rw [if_neg c2]
    apply hno _ c1
    simp [weak_short_circuits, c2]
  rw [if_pos c2]
  by_cases c3 : Is_block (Forward_val s.mem x) = true
  swap
  · rw [if_neg c3]
    apply hno _ c1
    simp [weak_short_circuits, c3]
  rw [if_pos c3]
  by_cases c4 : (!env.Is_in_value_area (Forward_val s.mem x)
      || Tag_val s.mem (Forward_val s.mem x) == Forward_tag
      || Tag_val s.mem (Forward_val s.mem x) == Lazy_tag
      || Tag_val s.mem (Forward_val s.mem x) == Double_tag) = true
  · rw [if_pos c4]
    apply hno _ c1
    simp only [Bool.or_eq_true, Bool.not_eq_true', beq_iff_eq] at c4
    simp only [weak_short_circuits]
    rcases c4 with ((c4 | c4) | c4) | c4 <;> simp [c4]
  rw [if_neg c4]
  simp only [Bool.or_eq_true, Bool.not_eq_true', beq_iff_eq, not_or, Bool.not_eq_false] at c4
  obtain ⟨⟨⟨d1, d2⟩, d3⟩, d4⟩ := c4
  have hsc : weak_short_circuits env s.mem x = true := by
    simp [weak_short_circuits, c1, c2, c3, d1, d2, d3, d4]
  have hne := hsep hsc
  have hmem : ∀ t : State,
      t.mem = set_Field s.mem cur i (Forward_val s.mem x) →
      (weak_again env cur i 1 (Forward_val s.mem x) t).mem
        = s.mem.set (cur + 8 * i) (weak1_field env s.mem x) := by
    intro t ht
    have hhd : Hd_val t.mem (Forward_val s.mem x) = Hd_val s.mem (Forward_val s.mem x) := by
      rw [ht]
      simp only [Hd_val, set_Field, Mem.set]
      rw [if_neg (fun e => hne e.symm)]
    have htag : Tag_val t.mem (Forward_val s.mem x) = Tag_val s.mem (Forward_val s.mem x) := by
      simp only [Tag_val, hhd]
    rw [weak_again_second _ _ _ _ _ (by rw [htag]; exact d2), weak_clear_mem, hhd, ht]
    have e : weak1_field env s.mem x
        = if ((Forward_val s.mem x != env.caml_weak_none && Is_block (Forward_val s.mem x)
                && env.Is_in_heap_or_young (Forward_val s.mem x))
              && (Is_white_hd (Hd_val s.mem (Forward_val s.mem x))
                && !env.Is_young (Forward_val s.mem x))) = true
          then env.caml_weak_none else Forward_val s.mem x := by
      simp only [weak1_field, weak_referent_yes hsc, weak_dead]
    rw [e]
    simp only [set_Field]
    by_cases k1 : (Forward_val s.mem x != env.caml_weak_none && Is_block (Forward_val s.mem x)
        && env.Is_in_heap_or_young (Forward_val s.mem x)) = true
    · rw [if_pos k1]
      simp only [k1, Bool.true_and]
      split_ifs
      · rw [Mem.set_set]
      · rfl
    · rw [if_neg k1]
      have k1' : (Forward_val s.mem x != env.caml_weak_none && Is_block (Forward_val s.mem x)
          && env.Is_in_heap_or_young (Forward_val s.mem x)) = false := by simpa using k1
      simp only [k1', Bool.false_and]
      rfl
  apply hmem
  split_ifs <;> rfl

/-- The value weak1_field depends on the memory through the header of x only
and, when x is a forwarding block, through its field and the header of the
block that the field points to. -/
theorem weak1_field_congr (env : Env) (m m' : Mem) (x : Nat)
    (h : (x != env.caml_weak_none && Is_block x && env.Is_in_heap_or_young x) = true →
      m' (x - 8) = m (x - 8)
      ∧ (Tag_val m x = Forward_tag →
          m' x = m x ∧ m' (Forward_val m x - 8) = m (Forward_val m x - 8))) :
    weak1_field env m' x = weak1_field env m x := by
  by_cases c1 : (x != env.caml_weak_none && Is_block x && env.Is_in_heap_or_young x) = true
  swap
  · have c1' : (x != env.caml_weak_none && Is_block x && env.Is_in_heap_or_young x) = false := by
      simpa using c1
    have a1 : ∀ k : Mem, weak_short_circuits env k x = false := by
      intro k; simp only [weak_short_circuits, c1', Bool.false_and]
    have a2 : ∀ k : Mem, weak1_field env k x = x := by
      intro k
      simp only [weak1_field, weak_referent_not (a1 k), weak_dead, c1', Bool.false_and]
      rfl
    rw [a2, a2]
  obtain ⟨h1, h2⟩ := h c1
  have e1 : Hd_val m' x = Hd_val m x := h1
  have e2 : Tag_val m' x = Tag_val m x := by simp only [Tag_val, e1]
  by_cases c2 : Tag_val m x = Forward_tag
  swap
  · have a1 : ∀ k : Mem, Tag_val k x = Tag_val m x → weak_short_circuits env k x = false := by
      intro k hk
      simp [weak_short_circuits, hk, c2]
    simp only [weak1_field, weak_referent_not (a1 m rfl), weak_referent_not (a1 m' e2),
      weak_dead, e1]
  obtain ⟨h3, h4⟩ := h2 c2
  have e3 : Forward_val m' x = Forward_val m x := by
    simp only [Forward_val, Field, Nat.mul_zero, Nat.add_zero]
    exact h3
  have e4 : Hd_val m' (Forward_val m x) = Hd_val m (Forward_val m x) := h4
  have e5 : Tag_val m' (Forward_val m x) = Tag_val m (Forward_val m x) := by
    simp only [Tag_val, e4]
  have e6 : weak_short_circuits env m' x = weak_short_circuits env m x := by
    simp only [weak_short_circuits, e2, e3, e5]
  have e7 : weak_referent env m' x = weak_referent env m x := by
    simp only [weak_referent, e6, e3]
  have e8 : Hd_val m' (weak_referent env m x) = Hd_val m (weak_referent env m x) := by
    simp only [weak_referent]
    split_ifs
    · exact e4
    · exact e1
  simp only [weak1_field, e7, weak_dead, e8]

/-- The for loop of Subphase_weak1 over the fields i to i + n - 1 of cur: the
fields get the values of the specification, computed in the memory m0 in
which the loop started, and nothing else is written. -/
theorem weak_fields_mem (env : Env) (cur sz : Nat) (m0 : Mem)
    (hsep : weak_apart env m0 cur sz) :
    ∀ (n i : Nat) (s : State), 1 ≤ i → i + n ≤ sz →
      (∀ a, (∀ j, 1 ≤ j → j < i → a ≠ cur + 8 * j) → s.mem a = m0 a) →
      (∀ a, (∀ j, 1 ≤ j → j < i + n → a ≠ cur + 8 * j) →
          (weak_fields env cur n i s).mem a = m0 a)
      ∧ (∀ j, i ≤ j → j < i + n →
          (weak_fields env cur n i s).mem (cur + 8 * j)
            = weak1_field env m0 (m0 (cur + 8 * j)))
      ∧ (∀ j, 1 ≤ j → j < i →
          (weak_fields env cur n i s).mem (cur + 8 * j) = s.mem (cur + 8 * j)) := by
  intro n
  induction n with
  | zero =>
    intro i s _ _ hs
    refine ⟨fun a ha => hs a ha, fun j h1 h2 => by omega, fun j _ _ => rfl⟩
  | succ n ih =>
    intro i s hi hle hs
    have hci : s.mem (cur + 8 * i) = m0 (cur + 8 * i) :=
      hs _ (fun j _ hj => by omega)
    have hx : Field s.mem cur i = m0 (cur + 8 * i) := hci
    -- the words read for the field i are those of m0
    have hrd : (m0 (cur + 8 * i) != env.caml_weak_none && Is_block (m0 (cur + 8 * i))
          && env.Is_in_heap_or_young (m0 (cur + 8 * i))) = true →
        s.mem (m0 (cur + 8 * i) - 8) = m0 (m0 (cur + 8 * i) - 8)
        ∧ (Tag_val m0 (m0 (cur + 8 * i)) = Forward_tag →
            s.mem (m0 (cur + 8 * i)) = m0 (m0 (cur + 8 * i))
            ∧ s.mem (Forward_val m0 (m0 (cur + 8 * i)) - 8)
                = m0 (Forward_val m0 (m0 (cur + 8 * i)) - 8)) := by
      intro c1
      refine ⟨hs _ (fun j h1 h2 => ?_), fun c2 => ⟨hs _ (fun j h1 h2 => ?_),
        hs _ (fun j h1 h2 => ?_)⟩⟩
      · exact ((hsep i j hi (by omega) h1 (by omega) c1).1).symm
      · exact (((hsep i j hi (by omega) h1 (by omega) c1).2 c2).1).symm
      · exact (((hsep i j hi (by omega) h1 (by omega) c1).2 c2).2).symm
    have hcg : weak1_field env s.mem (m0 (cur + 8 * i))
        = weak1_field env m0 (m0 (cur + 8 * i)) :=
      weak1_field_congr env m0 s.mem _ hrd
    have hsc : weak_short_circuits env s.mem (m0 (cur + 8 * i)) = true →
        cur + 8 * i ≠ Forward_val s.mem (m0 (cur + 8 * i)) - 8 := by
      intro h
      have c1 : (m0 (cur + 8 * i) != env.caml_weak_none && Is_block (m0 (cur + 8 * i))
          && env.Is_in_heap_or_young (m0 (cur + 8 * i))) = true := by
        simp only [weak_short_circuits, Bool.and_eq_true] at h
        simp only [Bool.and_eq_true]
        exact h.1.1.1.1.1.1
      have c2s : Tag_val s.mem (m0 (cur + 8 * i)) = Forward_tag := by
        simp only [weak_short_circuits, Bool.and_eq_true, beq_iff_eq] at h
        exact h.1.1.1.1.1.2
      obtain ⟨r1, r2⟩ := hrd c1
      have c2 : Tag_val m0 (m0 (cur + 8 * i)) = Forward_tag := by
        have : Tag_val s.mem (m0 (cur + 8 * i)) = Tag_val m0 (m0 (cur + 8 * i)) := by
          simp only [Tag_val, Hd_val, r1]
        rw [← this]; exact c2s
      have ef : Forward_val s.mem (m0 (cur + 8 * i)) = Forward_val m0 (m0 (cur + 8 * i)) := by
        simp only [Forward_val, Field, Nat.mul_zero, Nat.add_zero]
        exact (r2 c2).1
      rw [ef]
      exact ((hsep i i hi (by omega) hi (by omega) c1).2 c2).2
    have hstep := weak_again_mem env cur i (m0 (cur + 8 * i)) s hci hsc
    rw [hcg] at hstep
    simp only [weak_fields, hx]
    obtain ⟨k1, k2, k3⟩ := ih (i + 1)
      (weak_again env cur i weak_fuel (m0 (cur + 8 * i)) s) (by omega) (by omega)
      (fun a ha => by
        rw [hstep, Mem.set_other _ _ (ha i hi (by omega))]
        exact hs a (fun j h1 h2 => ha j h1 (by omega)))
    refine ⟨fun a ha => k1 a (fun j h1 h2 => ha j h1 (by omega)), fun j h1 h2 => ?_,
      fun j h1 h2 => ?_⟩
    · by_cases e : j = i
      · subst e
        rw [k3 j hi (by omega), hstep, Mem.set_same]
      · exact k2 j (by omega) (by omega)
    · rw [k3 j h1 (by omega), hstep, Mem.set_other _ _ (by omega)]

/-- C30.  A step of Subphase_weak1 that visits the weak array cur = *weak_prev
of size sz, the words read for its fields lying outside these fields
(weak_apart).  After the step, for each i with 1 <= i < sz, where r is the
short-circuited referent of the original field value: if r is a pointer into
the heap or the minor heap to a white block that is not young, the field holds
caml_weak_none; otherwise it holds r, which is the original value or its
forwarding target.  Field 0, the link, and every word outside the fields 1 to
sz - 1 are unchanged, and weak_prev points to field 0 of cur.  This is the
case that the switch of mark_slice runs in Subphase_weak1. -/
theorem weak1_step_clears_dead_fields (env : Env) (st : MarkState)
    (hcur : st.s.mem st.s.weak_prev ≠ 0)
    (hsep : weak_apart env st.s.mem (st.s.mem st.s.weak_prev)
      (Wosize_hd (Hd_val st.s.mem (st.s.mem st.s.weak_prev)))) :
    (∀ i, 1 ≤ i → i < Wosize_hd (Hd_val st.s.mem (st.s.mem st.s.weak_prev)) →
      Field (mark_weak1 env st).s.mem (st.s.mem st.s.weak_prev) i
          = weak1_field env st.s.mem (Field st.s.mem (st.s.mem st.s.weak_prev) i)
      ∧ (Is_block (weak_referent env st.s.mem (Field st.s.mem (st.s.mem st.s.weak_prev) i))
            = true →
          env.Is_in_heap_or_young
            (weak_referent env st.s.mem (Field st.s.mem (st.s.mem st.s.weak_prev) i)) = true →
          Is_white_hd (Hd_val st.s.mem
            (weak_referent env st.s.mem (Field st.s.mem (st.s.mem st.s.weak_prev) i))) = true →
          env.Is_young
            (weak_referent env st.s.mem (Field st.s.mem (st.s.mem st.s.weak_prev) i)) = false →
          Field (mark_weak1 env st).s.mem (st.s.mem st.s.weak_prev) i = env.caml_weak_none)
      ∧ (¬ (Is_block (weak_referent env st.s.mem (Field st.s.mem (st.s.mem st.s.weak_prev) i))
              = true
            ∧ env.Is_in_heap_or_young
                (weak_referent env st.s.mem (Field st.s.mem (st.s.mem st.s.weak_prev) i)) = true
            ∧ Is_white_hd (Hd_val st.s.mem
                (weak_referent env st.s.mem (Field st.s.mem (st.s.mem st.s.weak_prev) i)))
                = true
            ∧ env.Is_young
                (weak_referent env st.s.mem (Field st.s.mem (st.s.mem st.s.weak_prev) i))
                = false) →
          Field (mark_weak1 env st).s.mem (st.s.mem st.s.weak_prev) i
              = weak_referent env st.s.mem (Field st.s.mem (st.s.mem st.s.weak_prev) i)
            ∧ (weak_referent env st.s.mem (Field st.s.mem (st.s.mem st.s.weak_prev) i)
                  = Field st.s.mem (st.s.mem st.s.weak_prev) i
                ∨ weak_referent env st.s.mem (Field st.s.mem (st.s.mem st.s.weak_prev) i)
                  = Forward_val st.s.mem (Field st.s.mem (st.s.mem st.s.weak_prev) i))))
    ∧ Field (mark_weak1 env st).s.mem (st.s.mem st.s.weak_prev) 0
        = Field st.s.mem (st.s.mem st.s.weak_prev) 0
    ∧ (∀ a, (∀ j, 1 ≤ j → j < Wosize_hd (Hd_val st.s.mem (st.s.mem st.s.weak_prev)) →
          a ≠ st.s.mem st.s.weak_prev + 8 * j) →
        (mark_weak1 env st).s.mem a = st.s.mem a)
    ∧ (mark_weak1 env st).s.weak_prev = st.s.mem st.s.weak_prev
    ∧ (mark_weak1 env st).s.caml_gc_subphase = st.s.caml_gc_subphase
    ∧ (st.s.caml_gc_subphase = Subphase_weak1 → mark_subphase env st = mark_weak1 env st) := by
  have hcase : st.s.caml_gc_subphase = Subphase_weak1 →
      mark_subphase env st = mark_weak1 env st := by
    intro h
    simp [mark_subphase, h, Subphase_weak1, Subphase_roots, Subphase_main]
  generalize hc : st.s.mem st.s.weak_prev = cur at hcur hsep ⊢
  generalize hz : Wosize_hd (Hd_val st.s.mem cur) = sz at hsep ⊢
  have hmem : (mark_weak1 env st).s.mem = (weak_fields env cur (sz - 1) 1 st.s).mem := by
    simp only [mark_weak1, hc, if_pos hcur, hz]
  have hwp : (mark_weak1 env st).s.weak_prev = cur := by
    simp only [mark_weak1, hc, if_pos hcur]
  have hsub : (mark_weak1 env st).s.caml_gc_subphase = st.s.caml_gc_subphase := by
    simp only [mark_weak1, hc, if_pos hcur]
    exact (weak_fields_frame env cur _ 1 st.s).frame_subphase
  rw [hmem]
  by_cases hsz : sz = 0
  · subst hsz
    refine ⟨fun i h1 h2 => by omega, rfl, fun a _ => rfl, hwp, hsub, hcase⟩
  obtain ⟨k1, k2, -⟩ := weak_fields_mem env cur sz st.s.mem hsep (sz - 1) 1 st.s (le_refl 1)
    (by omega) (fun a _ => rfl)
  have e1 : 1 + (sz - 1) = sz := by omega
  rw [e1] at k1 k2
  refine ⟨fun i h1 h2 => ?_, ?_, k1, hwp, hsub, hcase⟩
  · have hf : Field (weak_fields env cur (sz - 1) 1 st.s).mem cur i
        = weak1_field env st.s.mem (Field st.s.mem cur i) := k2 i h1 h2
    refine ⟨hf, ?_, ?_⟩
    · intro b1 b2 b3 b4
      rw [hf]
      by_cases hn : weak_referent env st.s.mem (Field st.s.mem cur i) = env.caml_weak_none
      · simp only [weak1_field, hn]
        split_ifs <;> rfl
      · have : weak_dead env st.s.mem (weak_referent env st.s.mem (Field st.s.mem cur i))
            = true := by
          simp [weak_dead, b1, b2, b3, b4, hn]
        simp only [weak1_field, this, if_true]
    · intro hnot
      have : weak_dead env st.s.mem (weak_referent env st.s.mem (Field st.s.mem cur i))
          = false := by
        by_contra hd
        have hd' : weak_dead env st.s.mem (weak_referent env st.s.mem (Field st.s.mem cur i))
            = true := by simpa using hd
        simp only [weak_dead, Bool.and_eq_true, Bool.not_eq_true'] at hd'
        exact hnot ⟨hd'.1.1.2, hd'.1.2, hd'.2.1, hd'.2.2⟩
      refine ⟨by rw [hf]; simp [weak1_field, this], ?_⟩
      simp only [weak_referent]
      split_ifs
      · exact Or.inr rfl
      · exact Or.inl rfl
  · exact k1 (cur + 8 * 0) (fun j h1 _ => by omega)

/-- Witness of C30 on the example heap with the weak array W: the field that
points to the white record X is cleared, the field that points to the black
record Y is kept, the field that points to the forwarding block is
short-circuited to Y, and the link is unchanged. -/
theorem weak1_step_clears_dead_fields_witness :
    Field (mark_weak1 ex_env (mark_enter ex_weak 10)).s.mem 1008 1 = ex_env.caml_weak_none
    ∧ Field (mark_weak1 ex_env (mark_enter ex_weak 10)).s.mem 1008 2 = 1064
    ∧ Field (mark_weak1 ex_env (mark_enter ex_weak 10)).s.mem 1008 3 = 1064
    ∧ Field (mark_weak1 ex_env (mark_enter ex_weak 10)).s.mem 1008 0 = 0 := by
  have hsep : weak_apart ex_env (mark_enter ex_weak 10).s.mem
      ((mark_enter ex_weak 10).s.mem (mark_enter ex_weak 10).s.weak_prev)
      (Wosize_hd (Hd_val (mark_enter ex_weak 10).s.mem
        ((mark_enter ex_weak 10).s.mem (mark_enter ex_weak 10).s.weak_prev))) := by
    intro i j hi1 hi hj1 hj
    have hi' : i < 4 := hi
    have hj' : j < 4 := hj
    interval_cases i <;> interval_cases j <;> decide
  obtain ⟨h1, h0, -⟩ :=
    weak1_step_clears_dead_fields ex_env (mark_enter ex_weak 10) (by decide) hsep
  exact ⟨(h1 1 (by decide) (by decide)).1.trans (by decide),
    (h1 2 (by decide) (by decide)).1.trans (by decide),
    (h1 3 (by decide) (by decide)).1.trans (by decide), h0.trans (by decide)⟩

namespace HeapCtx

variable {c : HeapCtx}

theorem Wr.wr_refl (c : HeapCtx) (m : Mem) : c.Wr m m := fun _ => Or.inl rfl

theorem Wr.wr_trans {m1 m2 m3 : Mem} (h1 : c.Wr m1 m2) (h2 : c.Wr m2 m3) : c.Wr m1 m3 := by
  intro a
  rcases h2 a with e2 | ⟨k1, k2, k3⟩ | k | k
  · rcases h1 a with e1 | ⟨j1, j2, j3⟩ | j | j
    · exact Or.inl (e2.trans e1)
    · exact Or.inr (Or.inl ⟨j1, j2, by rw [e2]; exact j3⟩)
    · exact Or.inr (Or.inr (Or.inl j))
    · exact Or.inr (Or.inr (Or.inr j))
  · rcases h1 a with e1 | ⟨j1, j2, j3⟩ | j | j
    · exact Or.inr (Or.inl ⟨k1, by rw [← e1]; exact k2, k3⟩)
    · exact Or.inr (Or.inl ⟨j1, j2, k3⟩)
    · exact Or.inr (Or.inr (Or.inl j))
    · exact Or.inr (Or.inr (Or.inr j))
  · exact Or.inr (Or.inr (Or.inl k))
  · exact Or.inr (Or.inr (Or.inr k))

theorem Wr.wr_congr {m1 m2 m3 : Mem} (h1 : c.Wr m1 m2) (e : m3 = m2) : c.Wr m1 m3 := by
  rw [e]; exact h1

/-- A header is given a gray or black colour. -/
theorem Wr.wr_set_hdr (m : Mem) {h nh : Nat} (hh : h ∈ c.H) (h1 : Color_hd (m h) ≠ Caml_black)
    (h2 : Color_hd nh = Caml_gray ∨ Color_hd nh = Caml_black) : c.Wr m (m.set h nh) := by
  intro a
  by_cases e : a = h
  · subst e
    exact Or.inr (Or.inl ⟨hh, h1, by rw [Mem.set_same]; exact h2⟩)
  · exact Or.inl (Mem.set_other _ _ e)

/-- A field of a scannable block is written. -/
theorem Wr.wr_set_fld (m : Mem) {h i x : Nat} (hh : h ∈ c.H) (ht : c.tag0 h < No_scan_tag)
    (hi : i < c.size0 h) : c.Wr m (m.set (h + 8 + 8 * i) x) := by
  intro a
  by_cases e : a = h + 8 + 8 * i
  · exact Or.inr (Or.inr (Or.inl ⟨h, hh, ht, i, hi, e⟩))
  · exact Or.inl (Mem.set_other _ _ e)

/-- A field of a weak array, other than the link, is written. -/
theorem Wr.wr_set_weak (m : Mem) {h i x : Nat} (hh : h ∈ c.Wl) (h1 : 1 ≤ i)
    (hi : i < c.size0 h) : c.Wr m (m.set (h + 8 + 8 * i) x) := by
  intro a
  by_cases e : a = h + 8 + 8 * i
  · exact Or.inr (Or.inr (Or.inr ⟨h, hh, i, h1, hi, e⟩))
  · exact Or.inl (Mem.set_other _ _ e)

/-- On a well-formed heap the writes of marking only darken the blocks. -/
theorem Wr.wr_darker (wf : c.WF) {m1 m2 : Mem} (h : c.Wr m1 m2) : c.Darker m1 m2 := by
  intro a ha
  rcases h a with e | ⟨-, k2, k3⟩ | ⟨h', hh', -, i, hi, e⟩ | ⟨h', hh', i, -, hi, e⟩
  · rw [e]; exact ⟨id, Or.inl⟩
  · exact ⟨fun hb => absurd hb k2, fun _ => k3⟩
  · exact absurd e (wf.hdr_fld a ha h' hh' i hi)
  · exact absurd e (wf.hdr_fld a ha h' (wf.weak_sub h' hh').1 i hi)

/-- On a well-formed heap the writes of marking leave the variable
caml_weak_list_head and the links of the weak arrays alone. -/
theorem Wr.wr_links (wf : c.WF) {m1 m2 : Mem} (h : c.Wr m1 m2) :
    m2 c.env.caml_weak_list_head = m1 c.env.caml_weak_list_head
    ∧ ∀ w ∈ c.Wl, m2 (w + 8) = m1 (w + 8) := by
  constructor
  · rcases h c.env.caml_weak_list_head with e | ⟨k1, -, -⟩ | ⟨h', hh', -, i, hi, e⟩
        | ⟨h', hh', i, -, hi, e⟩
    · exact e
    · exact absurd rfl (wf.head_sep _ k1).1
    · exact absurd e ((wf.head_sep h' hh').2 i hi)
    · exact absurd e ((wf.head_sep h' (wf.weak_sub h' hh').1).2 i hi)
  · intro w hw
    obtain ⟨wh, wt, ws⟩ := wf.weak_sub w hw
    rcases h (w + 8) with e | ⟨k1, -, -⟩ | ⟨h', hh', ht, i, hi, e⟩ | ⟨h', hh', i, h1, hi, e⟩
    · exact e
    · exact absurd (by omega) (wf.hdr_fld (w + 8) k1 w wh 0 (by omega))
    · have := (fld_cell_inj (i := 0) (j := i) wf wh hh' (by omega) hi (by omega)).1
      subst this
      omega
    · have := (fld_cell_inj (i := 0) (j := i) wf wh (wf.weak_sub h' hh').1 (by omega) hi
        (by omega)).2
      omega

theorem Darker.dk_refl (c : HeapCtx) (m : Mem) : c.Darker m m :=
  fun _ _ => ⟨id, Or.inl⟩

theorem Darker.dk_trans {m1 m2 m3 : Mem} (h1 : c.Darker m1 m2) (h2 : c.Darker m2 m3) :
    c.Darker m1 m3 := by
  intro h hh
  obtain ⟨a1, a2⟩ := h1 h hh
  obtain ⟨b1, b2⟩ := h2 h hh
  refine ⟨fun k => b1 (a1 k), fun k => ?_⟩
  rcases a2 k with k' | k'
  · exact b2 k'
  · exact Or.inr (b1 k')

end HeapCtx

namespace HeapCtx

variable {c : HeapCtx}

/-- The memory after mark_child on a block of the heap. -/
theorem Wr.wr_mark_child (env : Env) (s : State) {ht : Nat} (hh : ht ∈ c.H) :
    c.Wr s.mem (mark_child env s (ht + 8) (s.mem ht)).mem := by
  rw [mark_child_mem]
  split_ifs with hw
  · rw [set_Hd_val_add]
    refine Wr.wr_set_hdr _ hh ?_ (Or.inl (Color_hd_Grayhd_hd _))
    have : Color_hd (s.mem ht) = Caml_white := by simpa [Is_white_hd] using hw
    rw [this]; decide
  · exact Wr.wr_refl c _

/-- The memory after caml_darken. -/
theorem HInv.wr_caml_darken {P : Nat → Prop} {s : State} {v idx x : Nat}
    {todo : List Nat} (hi : c.HInv P s v idx todo) (hx : c.VPtr x) :
    c.Wr s.mem (caml_darken c.env s x).mem := by
  simp only [MajorGC.caml_darken]
  by_cases hb : (Is_block x && c.env.Is_in_heap x) = true
  · rw [if_pos hb]
    simp only [Bool.and_eq_true] at hb
    have hv := hx hb.1 hb.2
    have hr : (if Tag_hd (Hd_val s.mem x) = Infix_tag then x - Infix_offset_val s.mem x else x)
        = c.target0 x := hi.stable.st_resolve hv
    rw [hr]
    obtain ⟨ht, hh, hw0, he⟩ := hv
    rw [he, Hd_val_add]
    split_ifs with hw hs
    · rw [gray_push_mem]
      simp only [set_Hd_val_add]
      refine Wr.wr_set_hdr _ hh ?_ (Or.inl (Color_hd_Grayhd_hd _))
      have : Color_hd (s.mem ht) = Caml_white := by simpa [Is_white_hd] using hw
      rw [this]; decide
    · simp only [set_Hd_val_add]
      refine Wr.wr_set_hdr _ hh ?_ (Or.inr (Color_hd_Blackhd_hd _))
      have : Color_hd (s.mem ht) = Caml_white := by simpa [Is_white_hd] using hw
      rw [this]; decide
    · exact Wr.wr_refl c _
  · rw [if_neg hb]; exact Wr.wr_refl c _

theorem HInv.wr_foldl_darken (wf : c.WF) {P : Nat → Prop} {v idx : Nat} {todo : List Nat}
    (l : List Nat) (hl : ∀ x ∈ l, c.VPtr x) {s : State} (hi : c.HInv P s v idx todo) :
    c.Wr s.mem (l.foldl (MajorGC.caml_darken c.env) s).mem := by
  induction l generalizing s with
  | nil => exact Wr.wr_refl c _
  | cons x rest ih =>
    simp only [List.foldl_cons]
    have hx := hl x (List.mem_cons_self _ _)
    exact (hi.wr_caml_darken hx).wr_trans
      (ih (fun y hy => hl y (List.mem_cons_of_mem _ hy)) (hi.hi_caml_darken wf hx))

/-- The memory after the scan of the field i of the block being scanned. -/
theorem HInv.wr_mark_field (wf : c.WF) {s : State} {hv i : Nat} {todo : List Nat}
    (hi : c.HInv no_pending s (hv + 8) i todo) (htag : c.tag0 hv < No_scan_tag)
    (hlt : i < c.size0 hv) :
    c.Wr s.mem (mark_field c.env (hv + 8) i s).mem := by
  obtain ⟨hvH, hv0, hvg, -⟩ := hi.cur_eq
  have hpv := hi.pv hv hvH hv0 htag i hlt
  simp only [mark_field, Field_add]
  generalize hchild : s.mem (hv + 8 + 8 * i) = child at hpv ⊢
  by_cases hb : (Is_block child && c.env.Is_in_heap child) = true
  swap
  · rw [if_neg hb]; exact Wr.wr_refl c _
  rw [if_pos hb]
  simp only [Bool.and_eq_true] at hb
  have hval := hpv hb.1 hb.2
  have hres := hi.stable.st_resolve hval
  obtain ⟨ht, hh, hw0, he⟩ := hval
  by_cases hF : Tag_hd (Hd_val s.mem child) = Forward_tag
  · rw [if_pos hF]
    have hc : child = ht + 8 := by
      rw [← he, ← hres]
      have : Tag_hd (Hd_val s.mem child) ≠ Infix_tag := by rw [hF]; decide
      simp [resolve, Tag_val, this]
    subst hc
    rw [Hd_val_add]
    by_cases hns : no_short_circuit c.env s.mem (Forward_val s.mem (ht + 8)) = true
    · rw [if_pos hns]; exact Wr.wr_mark_child c.env s hh
    · rw [if_neg hns]
      have key : ∀ s2 : State, s2.mem = s.mem.set (hv + 8 + 8 * i) (Forward_val s.mem (ht + 8)) →
          c.Wr s.mem (mark_child c.env s2 (ht + 8) (s.mem ht)).mem := by
        intro s2 e2
        have hmt : s.mem ht = s2.mem ht := by
          rw [e2, Mem.set_other _ _ (wf.hdr_fld ht hh hv hvH i hlt)]
        rw [hmt]
        refine Wr.wr_trans ?_ (Wr.wr_mark_child c.env s2 hh)
        rw [e2]
        exact Wr.wr_set_fld _ hvH htag hlt
      refine key _ ?_
      split_ifs <;> exact set_Field_eq _ _ _ _
  · rw [if_neg hF]
    by_cases hI : Tag_hd (Hd_val s.mem child) = Infix_tag
    · rw [if_pos hI]
      have hc : child - Infix_offset_val s.mem child = ht + 8 := by
        rw [← he, ← hres]
        simp [resolve, Tag_val, hI]
      rw [hc, Hd_val_add]
      exact Wr.wr_mark_child c.env s hh
    · rw [if_neg hI]
      have hc : child = ht + 8 := by
        rw [← he, ← hres]
        simp [resolve, Tag_val, hI]
      subst hc
      rw [Hd_val_add]
      exact Wr.wr_mark_child c.env s hh

/-- The memory after the for loop of mark_slice. -/
theorem HInv.wr_mark_fields (wf : c.WF) {hv : Nat} {todo : List Nat}
    (htag : c.tag0 hv < No_scan_tag) (n : Nat) {i : Nat} {s : State}
    (hi : c.HInv no_pending s (hv + 8) i todo) (hlt : i + n ≤ c.size0 hv) :
    c.Wr s.mem (mark_fields c.env (hv + 8) n i s).mem := by
  induction n generalizing i s with
  | zero => exact Wr.wr_refl c _
  | succ n ih =>
    simp only [mark_fields]
    exact (hi.wr_mark_field wf htag (by omega)).wr_trans
      (ih (hi.hi_mark_field wf htag (by omega)) (by omega))

end HeapCtx

theorem weak_again_cells (env : Env) (cur i fuel : Nat) :
    ∀ (x : Nat) (s : State) (a : Nat), a ≠ cur + 8 * i →
      (weak_again env cur i fuel x s).mem a = s.mem a := by
  induction fuel with
  | zero => intro x s a _; rfl
  | succ fuel ih =>
    intro x s a ha
    rw [weak_again_succ]
    have hcl : ∀ r, (weak_clear env cur i r s).mem a = s.mem a := by
      intro r
      rw [weak_clear_mem]
      split_ifs
      · exact Mem.set_other _ _ ha
      · rfl
    split_ifs
    · exact hcl _
    · rw [ih]
      simp only [set_Field]
      exact Mem.set_other _ _ ha
      exact ha
    · rw [ih]
      simp only [set_Field]
      exact Mem.set_other _ _ ha
      exact ha
    · exact hcl _
    · exact hcl _
    · rfl

theorem weak_fields_cells (env : Env) (cur : Nat) :
    ∀ (n i : Nat) (s : State) (a : Nat), (∀ j, i ≤ j → j < i + n → a ≠ cur + 8 * j) →
      (weak_fields env cur n i s).mem a = s.mem a := by
  intro n
  induction n with
  | zero => intro i s a _; rfl
  | succ n ih =>
    intro i s a ha
    simp only [weak_fields]
    rw [ih (i + 1) _ a (fun j h1 h2 => ha j (by omega) (by omega))]
    exact weak_again_cells env cur i _ _ s a (ha i (le_refl i) (by omega))

namespace HeapCtx

variable {c : HeapCtx}

/-- The memory after the scan or the blackening of the block v. -/
theorem MInv.wr_mark_value (wf : c.WF) {st : MarkState} (hm : c.MInv st.s st.v st.start)
    (hv : st.v ≠ 0) :
    c.Wr st.s.mem (mark_value c.env st).s.mem := by
  obtain ⟨s, work, v, start, sf⟩ := st
  simp only at hm hv
  obtain ⟨todo, hi, sp⟩ := hm.heap
  obtain ⟨h, hh, hw0, e, hg, hle⟩ := hi.cur_blk hv
  subst e
  have etag : Tag_hd (s.mem h) = c.tag0 h := hi.stable.st_tag hh
  have esize : Wosize_hd (s.mem h) = c.size0 h := hi.stable.st_size hh
  have hgb : Color_hd (s.mem h) ≠ Caml_black := by rw [hg]; decide
  simp only [mark_value, Hd_val_add, etag, esize]
  by_cases htag : c.tag0 h < No_scan_tag
  · rw [if_pos htag]
    have hst : (if c.size0 h < start then c.size0 h else start) = start :=
      if_neg (by omega)
    simp only [hst]
    generalize hend : (if c.size0 h < start + work.toNat then c.size0 h
      else start + work.toNat) = end1
    have hb1 : start ≤ end1 ∧ end1 ≤ c.size0 h := by
      rw [← hend]; split_ifs <;> omega
    have hscan := hi.hi_mark_fields wf htag (end1 - start) (by omega)
    have hwr := hi.wr_mark_fields wf htag (end1 - start) (by omega)
    by_cases hlt : end1 < c.size0 h
    · rw [if_pos hlt]; exact hwr
    · rw [if_neg hlt]
      refine hwr.wr_trans ?_
      simp only [set_Hd_val_add]
      refine Wr.wr_set_hdr _ hh ?_ (Or.inr (Color_hd_Blackhd_hd _))
      rw [hscan.cur_eq.2.2.1]; decide
  · rw [if_neg htag]
    simp only [set_Hd_val_add]
    exact Wr.wr_set_hdr _ hh hgb (Or.inr (Color_hd_Blackhd_hd _))

/-- The memory after the case Subphase_roots. -/
theorem MInv.wr_roots (wf : c.WF) {st : MarkState} (hm : c.MInv st.s st.v st.start) :
    c.Wr st.s.mem (mark_roots c.env st).s.mem := by
  obtain ⟨s, work, v, start, sf⟩ := st
  simp only at hm
  obtain ⟨todo, hi, sp⟩ := hm.heap
  have hi1 : c.HInv no_pending { s with events := Event.darken_all_roots_slice work :: s.events }
      v start todo := hi.hi_congr rfl rfl rfl rfl
  have hwr := hi1.wr_foldl_darken wf _ (wf.roots_ok s work)
  simp only [mark_roots]
  split_ifs <;> exact hwr

/-- The memory after the case Subphase_weak1. -/
theorem MInv.wr_weak1 (wf : c.WF) {st : MarkState} (hm : c.MInv st.s st.v st.start)
    (hsub : st.s.caml_gc_subphase = Subphase_weak1) :
    c.Wr st.s.mem (mark_weak1 c.env st).s.mem := by
  obtain ⟨s, work, v, start, sf⟩ := st
  simp only at hm hsub
  obtain ⟨todo, hi, sp⟩ := hm.heap
  have hcases := (hm.wp (Or.inl hsub)).wp_cases hi.links
  simp only [mark_weak1]
  by_cases hc : s.mem s.weak_prev ≠ 0
  · rw [if_pos hc]
    rcases hcases with e | ⟨h, hw, e⟩
    · exact absurd e hc
    obtain ⟨hh, -, hsz⟩ := wf.weak_sub h hw
    rw [e, Hd_val_add, hi.stable.st_size hh]
    intro a
    by_cases ha : ∃ j, 1 ≤ j ∧ j < c.size0 h ∧ a = h + 8 + 8 * j
    · obtain ⟨j, j1, j2, j3⟩ := ha
      exact Or.inr (Or.inr (Or.inr ⟨h, hw, j, j1, j2, j3⟩))
    · left
      exact weak_fields_cells c.env (h + 8) _ 1 s a
        (fun j h1 h2 e' => ha ⟨j, h1, by omega, e'⟩)
  · rw [if_neg hc]
    have hi1 : c.HInv no_pending { s with events := Event.final_update :: s.events }
        v start todo := hi.hi_congr rfl rfl rfl rfl
    have hwr := hi1.wr_foldl_darken wf _ (wf.final_ok s)
    generalize (c.env.final_update s).foldl (caml_darken c.env)
      { s with events := Event.final_update :: s.events } = s2 at hwr ⊢
    cases hs : s2.gray_vals with
    | nil => exact hwr
    | cons x rest => exact hwr

/-- The memory after an iteration of the loop of mark_slice: the writes of
marking, or one weak array is taken out of the list. -/
theorem MInv.wr_step (wf : c.WF) {st : MarkState} (hm : c.MInv st.s st.v st.start) :
    c.Wr st.s.mem (mark_step c.env st).s.mem
    ∨ ((mark_pop st).v = 0 ∧ (mark_pop st).s.caml_gc_subphase = Subphase_weak2
        ∧ (mark_step c.env st).s.mem
            = st.s.mem.set st.s.weak_prev (st.s.mem (st.s.mem st.s.weak_prev))) := by
  obtain ⟨hp, hpe⟩ := hm.mi_pop
  have hpm : (mark_pop st).s.mem = st.s.mem := by
    simp only [mark_pop]
    split_ifs
    · split <;> rfl
    · rfl
  have hpw : (mark_pop st).s.weak_prev = st.s.weak_prev := by
    simp only [mark_pop]
    split_ifs
    · split <;> rfl
    · rfl
  simp only [mark_step]
  rw [← hpm, ← hpw]
  generalize mark_pop st = st1 at hp hpe ⊢
  by_cases hv : st1.v ≠ 0
  · rw [if_pos hv]; exact Or.inl (hp.wr_mark_value wf hv)
  rw [if_neg hv]
  have hv0 : st1.v = 0 := not_not.1 hv
  by_cases hmk : st1.s.markhp ≠ 0
  · rw [if_pos hmk]
    left
    have : (mark_heap_scan st1).s.mem = st1.s.mem := by
      simp only [mark_heap_scan]
      split_ifs <;> rfl
    rw [this]; exact Wr.wr_refl c _
  rw [if_neg hmk]
  by_cases hpure : st1.s.heap_is_pure = true
  · have hnp : ¬ ((!st1.s.heap_is_pure) = true) := by simp [hpure]
    rw [if_neg hnp]
    simp only [mark_subphase]
    split_ifs with h1 h2 h3 h4 h5
    · exact Or.inl (hp.wr_roots wf)
    · exact Or.inl (Wr.wr_refl c _)
    · exact Or.inl (hp.wr_weak1 wf h3)
    · simp only [mark_weak2]
      split_ifs with a1 a2
      · right
        refine ⟨hv0, h4, ?_⟩
        simp only [Field, Nat.mul_zero, Nat.add_zero]
      · exact Or.inl (Wr.wr_refl c _)
      · exact Or.inl (Wr.wr_refl c _)
    · left
      rw [mark_final_mem]; exact Wr.wr_refl c _
    · exact Or.inl (Wr.wr_refl c _)
  · have hnp : (!st1.s.heap_is_pure) = true := by simp [hpure]
    rw [if_pos hnp]
    exact Or.inl (Wr.wr_refl c _)

/-- An iteration of the loop of mark_slice only darkens the blocks. -/
theorem MInv.dk_step (wf : c.WF) {st : MarkState} (hm : c.MInv st.s st.v st.start) :
    c.Darker st.s.mem (mark_step c.env st).s.mem := by
  rcases hm.wr_step wf with h | ⟨h0, h1, h2⟩
  · exact h.wr_darker wf
  · obtain ⟨hp, -⟩ := hm.mi_pop
    have hwp : c.WP st.s.weak_prev := by
      have := hp.wp (Or.inr h1)
      have e : (mark_pop st).s.weak_prev = st.s.weak_prev := by
        simp only [mark_pop]
        split_ifs
        · split <;> rfl
        · rfl
      rw [e] at this; exact this
    intro h hh
    have hne : h ≠ st.s.weak_prev := by
      rcases hwp with e | ⟨w, hw, e⟩
      · rw [e]; exact fun e' => (wf.head_sep h hh).1 e'.symm
      · rw [e]
        obtain ⟨wh, -, ws⟩ := wf.weak_sub w hw
        have := wf.hdr_fld h hh w wh 0 (by omega)
        omega
    rw [h2, Mem.set_other _ _ hne]
    exact ⟨id, Or.inl⟩

end HeapCtx

theorem drive_of_not_mark (env : Env) (l : List (Nat × Int)) (s : State)
    (h : s.caml_gc_phase ≠ Phase_mark) : drive env l s = s := by
  cases l with
  | nil => rfl
  | cons p rest => simp only [drive, if_neg h]

theorem drive_append (env : Env) (l1 l2 : List (Nat × Int)) (s : State) :
    drive env (l1 ++ l2) s = drive env l2 (drive env l1 s) := by
  induction l1 generalizing s with
  | nil => rfl
  | cons p rest ih =>
    simp only [List.cons_append, drive]
    split_ifs with h
    · exact ih _
    · exact (drive_of_not_mark env l2 s h).symm

namespace HeapCtx

variable {c : HeapCtx}

/-- One iteration of the loop of mark_slice keeps the invariant or ends the
mark phase with nothing left to scan. -/
theorem MInv.mi_step_clean (wf : c.WF) {st : MarkState} (hm : c.MInv st.s st.v st.start) :
    c.GoodClean (mark_step c.env st) := by
  obtain ⟨hp, hpe⟩ := hm.mi_pop
  simp only [mark_step]
  generalize mark_pop st = st1 at hp hpe ⊢
  by_cases hv : st1.v ≠ 0
  · rw [if_pos hv]; exact Or.inl (hp.mi_mark_value wf hv)
  rw [if_neg hv]
  have hv0 : st1.v = 0 := not_not.1 hv
  have hstack := hpe hv0
  by_cases hmk : st1.s.markhp ≠ 0
  · rw [if_pos hmk]; exact Or.inl (hp.mi_heap_scan wf hv0 hstack hmk)
  rw [if_neg hmk]
  have hmk0 : st1.s.markhp = 0 := not_not.1 hmk
  by_cases hpure : st1.s.heap_is_pure = true
  · have hnp : ¬ ((!st1.s.heap_is_pure) = true) := by simp [hpure]
    rw [if_neg hnp]
    simp only [mark_subphase]
    split_ifs with h1 h2 h3 h4 h5
    · exact Or.inl (hp.mi_roots wf)
    · exact Or.inl hp.mi_main
    · exact Or.inl (hp.mi_weak1 wf h3 hv0)
    · exact Or.inl (hp.mi_weak2 wf h4)
    · obtain ⟨k1, k2⟩ := hp.mi_final wf hv0 hstack hmk0 hpure
      refine Or.inr ⟨k1, k2, ?_, ?_, ?_⟩
      · simp only [mark_final]; split_ifs <;> exact hstack
      · simp only [mark_final]; exact hv0
      · simp only [mark_final]; split_ifs <;> exact hpure
    · exact Or.inl hp
  · have hnp : (!st1.s.heap_is_pure) = true := by simp [hpure]
    rw [if_pos hnp]
    exact Or.inl (hp.mi_restart wf)

theorem GoodClean.gc_loop (wf : c.WF) (m1 : Mem) (fuel : Nat) {st : MarkState}
    (hg : c.GoodClean st) (hd : c.Darker m1 st.s.mem) :
    c.GoodClean (mark_loop c.env fuel st) ∧ c.Darker m1 (mark_loop c.env fuel st).s.mem := by
  induction fuel generalizing st with
  | zero => exact ⟨hg, hd⟩
  | succ fuel ih =>
    simp only [mark_loop]
    split_ifs with hw
    · rcases hg with hm | ⟨hw', -⟩
      · exact ih (hm.mi_step_clean wf) (hd.dk_trans (hm.dk_step wf))
      · omega
    · exact ⟨hg, hd⟩

theorem MInv.mi_slice_clean (wf : c.WF) (fuel : Nat) (work : Int) {s : State}
    (hm : c.MInv s s.current_value s.current_index) :
    (c.MInv (mark_slice c.env fuel s work) (mark_slice c.env fuel s work).current_value
        (mark_slice c.env fuel s work).current_index
      ∨ c.DoneClean (mark_slice c.env fuel s work)
          (mark_slice c.env fuel s work).current_value)
    ∧ c.Darker s.mem (mark_slice c.env fuel s work).mem := by
  have hg : c.GoodClean (mark_enter s work) := Or.inl hm
  have := hg.gc_loop wf s.mem fuel (Darker.dk_refl c _)
  simp only [mark_slice]
  generalize mark_loop c.env fuel (mark_enter s work) = st at this
  obtain ⟨this, hd⟩ := this
  refine ⟨?_, hd⟩
  rcases this with hm' | ⟨-, hd'⟩
  · exact Or.inl hm'.mi_leave
  · exact Or.inr hd'

theorem MInv.mi_drive_clean (wf : c.WF) (l : List (Nat × Int)) {s : State}
    (h : c.MInv s s.current_value s.current_index ∨ c.DoneClean s s.current_value) :
    (c.MInv (drive c.env l s) (drive c.env l s).current_value (drive c.env l s).current_index
      ∨ c.DoneClean (drive c.env l s) (drive c.env l s).current_value)
    ∧ c.Darker s.mem (drive c.env l s).mem := by
  induction l generalizing s with
  | nil => exact ⟨h, Darker.dk_refl c _⟩
  | cons p rest ih =>
    simp only [drive]
    split_ifs with hp
    · rcases h with hm | hd
      · obtain ⟨k1, k2⟩ := hm.mi_slice_clean wf p.1 p.2
        obtain ⟨j1, j2⟩ := ih k1
        exact ⟨j1, k2.dk_trans j2⟩
      · have := hd.1.1
        rw [hp] at this
        exact absurd this (by decide)
    · exact ⟨h, Darker.dk_refl c _⟩

end HeapCtx

theorem ex_ctx_noroom_wf : ex_ctx_noroom.WF := by
  have hH : ∀ h ∈ ex_ctx_noroom.H, h = 1000 ∨ h = 1024 ∨ h = 1048 ∨ h = 1064 := by decide
  have s1 : ex_ctx_noroom.size0 1000 = 2 := by decide
  have s2 : ex_ctx_noroom.size0 1024 = 2 := by decide
  have s3 : ex_ctx_noroom.size0 1048 = 1 := by decide
  have s4 : ex_ctx_noroom.size0 1064 = 3 := by decide
  have w1 : ex_ctx_noroom.white0 1000 := by unfold HeapCtx.white0; decide
  have w2 : ex_ctx_noroom.white0 1024 := by unfold HeapCtx.white0; decide
  have w3 : ¬ ex_ctx_noroom.white0 1048 := by unfold HeapCtx.white0; decide
  have w4 : ex_ctx_noroom.white0 1064 := by unfold HeapCtx.white0; decide
  refine ⟨?_, ?_, ?_, ?_, ?_, ?_, ?_, ?_, ?_, ?_, ?_, ?_, ?_, ?_, ?_⟩
  · simp only [chain, tiles, ex_ctx_noroom, ex_ctx]; decide
  · decide
  · decide
  · decide
  · decide
  · unfold HeapCtx.size0; decide
  · intro h hh h' hh' i j hi hj e
    rcases hH h hh with k | k | k | k <;> rcases hH h' hh' with k' | k' | k' | k' <;>
      subst k k' <;> simp only [s1, s2, s3, s4] at hi hj <;> omega
  · unfold HeapCtx.size0; decide
  · intro p hp a ha
    have hp' : p = (1000, [1000, 1024, 1048, 1064]) := by
      simpa [ex_ctx_noroom, ex_ctx] using hp
    subst hp'
    have ha' : a = 984 ∨ a = 992 := ha
    refine ⟨?_, ?_, ?_⟩
    · rcases ha' with k | k <;> subst k <;> decide
    · rintro ⟨h, hh, i, hi, e⟩
      rcases hH h hh with k | k | k | k <;> subst k <;> omega
    · rcases ha' with k | k <;> subst k <;> decide
  · unfold HeapCtx.tag0 HeapCtx.size0; decide
  · intro h hh hw ht i hi
    have hv : ∀ x, x = 1032 ∨ x = 1072 ∨ x = 1008 ∨ x % 2 = 1 → ex_ctx_noroom.VPtr x := by
      intro x hx hb hin
      rcases hx with k | k | k | k
      · subst k; exact ⟨1024, by decide, w2, by decide⟩
      · subst k; exact ⟨1064, by decide, w4, by decide⟩
      · subst k; exact ⟨1000, by decide, w1, by decide⟩
      · simp [Is_block] at hb; omega
    apply hv
    rcases hH h hh with k | k | k | k <;> subst k
    · simp only [s1] at hi
      interval_cases i <;> decide
    · exact absurd ht (by decide)
    · exact absurd hw w3
    · simp only [s4] at hi
      interval_cases i <;> decide
  · intro h hh; exact absurd hh (List.not_mem_nil _)
  · exact ⟨Or.inl (by decide), fun h hh => absurd hh (List.not_mem_nil _)⟩
  · intro s w x hx
    have : x = 1008 := by simpa [ex_ctx_noroom, ex_ctx, ex_env_noroom, ex_env] using hx
    subst this
    intro _ _
    exact ⟨1000, by decide, w1, by decide⟩
  · intro s x hx
    have : x ∈ ([] : List Nat) := hx
    exact absurd this (List.not_mem_nil _)

/-- C24.  A cycle is started by start_cycle on a well-formed heap and driven by
calls of mark_slice, with any iteration bounds and budgets.  In the state where
mark_slice has set the phase to Phase_sweep the gray stack is empty,
current_value is 0, heap_is_pure is true and no block of the heap is gray;
and every block that was gray or black after any earlier call, whether it was
on the gray stack or had been dropped from it by realloc_gray_vals, is
black. -/
theorem mark_ends_with_nothing_gray (c : HeapCtx) (wf : c.WF) (s0 : State)
    (hmem : s0.mem = c.m0) (hhs : s0.caml_heap_start = c.heap_start)
    (hgv : s0.gray_vals = []) (hsz : 0 < s0.gray_vals_size)
    (hcv : s0.current_value = 0) (hci : s0.current_index = 0)
    (l1 l2 : List (Nat × Int))
    (hsw : (drive c.env (l1 ++ l2) (start_cycle s0)).caml_gc_phase = Phase_sweep) :
    (drive c.env (l1 ++ l2) (start_cycle s0)).gray_vals = []
    ∧ (drive c.env (l1 ++ l2) (start_cycle s0)).current_value = 0
    ∧ (drive c.env (l1 ++ l2) (start_cycle s0)).heap_is_pure = true
    ∧ no_gray c.H (drive c.env (l1 ++ l2) (start_cycle s0)).mem
    ∧ ∀ h ∈ c.H,
        (Color_hd ((drive c.env l1 (start_cycle s0)).mem h) = Caml_gray
          ∨ Color_hd ((drive c.env l1 (start_cycle s0)).mem h) = Caml_black) →
        Color_hd ((drive c.env (l1 ++ l2) (start_cycle s0)).mem h) = Caml_black := by
  obtain ⟨k1, -⟩ := HeapCtx.MInv.mi_drive_clean wf l1
    (Or.inl (HeapCtx.MInv.mi_start wf hmem hhs hgv hsz hcv hci))
  obtain ⟨k2, k3⟩ := HeapCtx.MInv.mi_drive_clean wf l2 k1
  rw [drive_append] at hsw ⊢
  rcases k2 with hm | ⟨hd, g1, g2, g3⟩
  · have := hm.phase
    rw [hsw] at this
    exact absurd this (by decide)
  · refine ⟨g1, g2, g3, hd.2.1, ?_⟩
    intro h hh hc
    obtain ⟨d1, d2⟩ := k3 h hh
    rcases hc with hc | hc
    · rcases d2 hc with e | e
      · exact absurd e (hd.2.1 h hh)
      · exact e
    · exact d1 hc

/-- Witness of C24 on the example heap with a gray stack of one entry and a
realloc that fails.  The first call darkens the root A, whose push overflows
the stack: A is gray, the stack is empty and the heap is impure.  The second
call ends the mark phase: the stack is empty, nothing is gray, and A, found
again by the heap-order scan, is black. -/
theorem mark_ends_with_nothing_gray_witness :
    ex_ctx_noroom.WF
    ∧ (drive ex_env_noroom [(1, 5)] (start_cycle ex_white_one)).gray_vals = []
    ∧ (drive ex_env_noroom [(1, 5)] (start_cycle ex_white_one)).heap_is_pure = false
    ∧ Color_hd ((drive ex_env_noroom [(1, 5)] (start_cycle ex_white_one)).mem 1000)
        = Caml_gray
    ∧ (drive ex_env_noroom ([(1, 5)] ++ [(100, 1000)])
        (start_cycle ex_white_one)).caml_gc_phase = Phase_sweep
    ∧ (drive ex_env_noroom ([(1, 5)] ++ [(100, 1000)]) (start_cycle ex_white_one)).gray_vals
        = []
    ∧ no_gray ex_ctx_noroom.H
        (drive ex_env_noroom ([(1, 5)] ++ [(100, 1000)]) (start_cycle ex_white_one)).mem
    ∧ Color_hd ((drive ex_env_noroom ([(1, 5)] ++ [(100, 1000)])
        (start_cycle ex_white_one)).mem 1000) = Caml_black := by
  have h := mark_ends_with_nothing_gray ex_ctx_noroom ex_ctx_noroom_wf ex_white_one rfl rfl
    rfl (by decide) rfl rfl [(1, 5)] [(100, 1000)] (by decide)
  exact ⟨ex_ctx_noroom_wf, by decide, by decide, by decide, by decide, h.1, h.2.2.2.1,
    h.2.2.2.2 1000 (by decide) (Or.inl (by decide))⟩

theorem sum_map_add_le {l : List Nat} {f g : Nat → Nat} (hle : ∀ h ∈ l, f h ≤ g h)
    {x d : Nat} (hx : x ∈ l) (hd : f x + d ≤ g x) :
    (l.map f).sum + d ≤ (l.map g).sum := by
  induction l with
  | nil => exact absurd hx (List.not_mem_nil _)
  | cons a t ih =>
    simp only [List.map_cons, List.sum_cons]
    have hrest : (t.map f).sum ≤ (t.map g).sum :=
      List.sum_le_sum (fun i hi => hle i (List.mem_cons_of_mem _ hi))
    rcases List.mem_cons.1 hx with e | e
    · subst e
      omega
    · have := ih (fun h hh => hle h (List.mem_cons_of_mem _ hh)) e
      have := hle a (List.mem_cons_self _ _)
      omega

theorem le_sum_map_of_mem {l : List Nat} {f : Nat → Nat} {x : Nat} (hx : x ∈ l) :
    f x ≤ (l.map f).sum := by
  induction l with
  | nil => exact absurd hx (List.not_mem_nil _)
  | cons a t ih =>
    simp only [List.map_cons, List.sum_cons]
    rcases List.mem_cons.1 hx with e | e
    · subst e; omega
    · have := ih e
      omega

theorem wpath_congr {m m' : Mem} {a : Nat} {l : List Nat} (ha : m' a = m a)
    (hl : ∀ h ∈ l, m' (h + 8) = m (h + 8)) (hp : wpath m a l) : wpath m' a l := by
  induction l generalizing a with
  | nil => exact ha.trans hp
  | cons h t ih =>
    obtain ⟨e1, e2⟩ := hp
    exact ⟨ha.trans e1, ih (hl h (List.mem_cons_self _ _))
      (fun x hx => hl x (List.mem_cons_of_mem _ hx)) e2⟩

theorem roots_calls_cons_slice (w : Int) (l : List Event) :
    roots_calls (Event.darken_all_roots_slice w :: l) = roots_calls l + 1 := rfl

namespace HeapCtx

variable {c : HeapCtx}

theorem unscanned_le (c : HeapCtx) {m m' : Mem} (hd : c.Darker m m') :
    c.unscanned m' ≤ c.unscanned m := by
  unfold unscanned
  refine List.sum_le_sum (fun h hh => ?_)
  by_cases hb : Color_hd (m h) = Caml_black
  · simp only [(hd h hh).1 hb, hb, if_true, le_refl]
  · simp only [hb, if_false]
    split_ifs <;> omega

theorem unscanned_blacken (c : HeapCtx) {m m' : Mem} (hd : c.Darker m m') {hv : Nat}
    (hh : hv ∈ c.H) (h1 : Color_hd (m hv) ≠ Caml_black) (h2 : Color_hd (m' hv) = Caml_black) :
    c.unscanned m' + (c.size0 hv + 1) ≤ c.unscanned m := by
  unfold unscanned
  refine sum_map_add_le (fun h hh' => ?_) hh ?_
  · by_cases hb : Color_hd (m h) = Caml_black
    · simp only [(hd h hh').1 hb, hb, if_true, le_refl]
    · simp only [hb, if_false]
      split_ifs <;> omega
  · simp only [h1, h2, if_true, if_false]
    omega

theorem unscanned_ge (c : HeapCtx) {m : Mem} {hv : Nat} (hh : hv ∈ c.H)
    (h1 : Color_hd (m hv) ≠ Caml_black) : c.size0 hv + 1 ≤ c.unscanned m := by
  unfold unscanned
  have := le_sum_map_of_mem
    (f := fun h => if Color_hd (m h) = Caml_black then 0 else c.size0 h + 1) hh
  simp only [h1, if_false] at this
  exact this

theorem unscanned_congr (c : HeapCtx) {m m' : Mem} (he : ∀ h ∈ c.H, m' h = m h) :
    c.unscanned m' = c.unscanned m := by
  unfold unscanned
  have : c.H.map (fun h => if Color_hd (m' h) = Caml_black then 0 else c.size0 h + 1)
      = c.H.map (fun h => if Color_hd (m h) = Caml_black then 0 else c.size0 h + 1) :=
    List.map_congr_left (fun h hh => by simp only [he h hh])
  rw [this]

/-- A written word that is neither a header nor a field of the heap leaves
the blocks as dark as they were. -/
theorem Darker.dk_of_eq (c : HeapCtx) {m m' : Mem} (he : ∀ h ∈ c.H, m' h = m h) :
    c.Darker m m' := by
  intro h hh
  rw [he h hh]
  exact ⟨id, Or.inl⟩

end HeapCtx

namespace HeapCtx

variable {c : HeapCtx}

theorem ScanLeft.sl_congr {s s' : State} {k : Nat} (h : c.ScanLeft s k)
    (e1 : s'.markhp = s.markhp) (e2 : s'.chunk = s.chunk) (e3 : s'.limit = s.limit) :
    c.ScanLeft s' k := by
  unfold ScanLeft at h ⊢
  rw [e1, e2, e3]
  exact h

/-- The weak arrays still to visit are the same after writes of marking that
change neither the subphase nor weak_prev. -/
theorem WeakLeft.wl_wr (wf : c.WF) {L : List Nat} (hL : ∀ h ∈ L, h ∈ c.Wl) {s s' : State}
    {w : Nat} (h : c.WeakLeft L s w) (hwr : c.Wr s.mem s'.mem)
    (e1 : s'.caml_gc_subphase = s.caml_gc_subphase) (e2 : s'.weak_prev = s.weak_prev)
    (hwp : s.caml_gc_subphase = Subphase_weak1 ∨ s.caml_gc_subphase = Subphase_weak2 →
      c.WP s.weak_prev) :
    c.WeakLeft L s' w := by
  obtain ⟨k1, k2⟩ := hwr.wr_links wf
  have hhead : ∀ l : List Nat, (∀ h ∈ l, h ∈ c.Wl) →
      wpath s.mem c.env.caml_weak_list_head l → wpath s'.mem c.env.caml_weak_list_head l :=
    fun l hl hp => wpath_congr k1 (fun h hh => k2 h (hl h hh)) hp
  have hprev : c.WP s.weak_prev → ∀ l : List Nat, (∀ h ∈ l, h ∈ c.Wl) →
      wpath s.mem s.weak_prev l → wpath s'.mem s.weak_prev l := by
    intro hw l hl hp
    refine wpath_congr ?_ (fun h hh => k2 h (hl h hh)) hp
    rcases hw with e | ⟨x, hx, e⟩
    · rw [e]; exact k1
    · rw [e]; exact k2 x hx
  unfold WeakLeft at h ⊢
  rw [e1, e2]
  split_ifs at h ⊢ with a1 a2 a3
  · exact ⟨hhead L hL h.1, h.2⟩
  · obtain ⟨b1, l, b2, b3, b4⟩ := h
    exact ⟨hhead L hL b1, l, hprev (hwp (Or.inl a2)) l b3 b2, b3, b4⟩
  · obtain ⟨l, b1, b2, b3, b4, b5⟩ := h
    exact ⟨l, hprev (hwp (Or.inr a3)) l b3 b1, b2, b3, b4, b5⟩
  · exact h

/-- A new value of the measure after an iteration that lowers its major
part. -/
theorem Pot.pot_major (c : HeapCtx) (N : Nat) (L : List Nat) {s' : State} {v' start' k' w' : Nat}
    (hm : c.MInv s' v' start') (hv : 1 ≤ sub_rank s'.caml_gc_subphase)
    (hk : c.ScanLeft s' k') (hkb : k' ≤ c.scan_room) (hw : c.WeakLeft L s' w')
    {A n : Nat} (hn : (2 * c.scan_room + 2) * A ≤ n)
    (hA : (c.unscanned s'.mem - start') + w' + roots_left N s'
        + sub_rank s'.caml_gc_subphase + 1 ≤ A) :
    ∃ n', n' < n ∧ c.Pot N L s' v' start' n' := by
  refine ⟨_, ?_, hm, hv, k', w', hk, hkb, hw, rfl⟩
  have h1 := Nat.mul_le_mul_left (2 * c.scan_room + 2) hA
  rw [Nat.mul_add, Nat.mul_one] at h1
  generalize (2 * c.scan_room + 2) * ((c.unscanned s'.mem - start') + w' + roots_left N s'
    + sub_rank s'.caml_gc_subphase) = X at h1 ⊢
  generalize (2 * c.scan_room + 2) * A = Y at h1 hn
  split_ifs <;> omega

/-- A new value of the measure after an iteration that keeps its major part
and lowers the part of the heap-order scan. -/
theorem Pot.pot_minor (c : HeapCtx) (N : Nat) (L : List Nat) {s' : State} {v' start' k' w' : Nat}
    (hm : c.MInv s' v' start') (hv : 1 ≤ sub_rank s'.caml_gc_subphase)
    (hk : c.ScanLeft s' k') (hkb : k' ≤ c.scan_room) (hw : c.WeakLeft L s' w')
    {A B n : Nat} (hn : n = (2 * c.scan_room + 2) * A + B)
    (hA : (c.unscanned s'.mem - start') + w' + roots_left N s'
        + sub_rank s'.caml_gc_subphase = A)
    (hB : (if s'.heap_is_pure = true then 0 else c.scan_room + 1) + k' < B) :
    ∃ n', n' < n ∧ c.Pot N L s' v' start' n' := by
  refine ⟨_, ?_, hm, hv, k', w', hk, hkb, hw, rfl⟩
  rw [hA, hn]
  omega

end HeapCtx

namespace HeapCtx

variable {c : HeapCtx}

/-- The scan or the blackening of the block v lowers the unscanned words of
the heap, counted from the next field of the block being scanned. -/
theorem MInv.unscanned_mark_value (wf : c.WF) {st : MarkState}
    (hm : c.MInv st.s st.v st.start) (hv : st.v ≠ 0) (hw : 0 < st.work) :
    c.unscanned (mark_value c.env st).s.mem - (mark_value c.env st).start + 1
      ≤ c.unscanned st.s.mem - st.start := by
  obtain ⟨s, work, v, start, sf⟩ := st
  simp only at hm hv hw
  obtain ⟨todo, hi, sp⟩ := hm.heap
  obtain ⟨h, hh, hw0, e, hg, hle⟩ := hi.cur_blk hv
  subst e
  have hns := hm.noscan h rfl
  have etag : Tag_hd (s.mem h) = c.tag0 h := hi.stable.st_tag hh
  have esize : Wosize_hd (s.mem h) = c.size0 h := hi.stable.st_size hh
  have hgb : Color_hd (s.mem h) ≠ Caml_black := by rw [hg]; decide
  simp only [mark_value, Hd_val_add, etag, esize]
  by_cases htag : c.tag0 h < No_scan_tag
  · rw [if_pos htag]
    have hst : (if c.size0 h < start then c.size0 h else start) = start :=
      if_neg (by omega)
    simp only [hst]
    generalize hend : (if c.size0 h < start + work.toNat then c.size0 h
      else start + work.toNat) = end1
    have hb1 : start ≤ end1 ∧ end1 ≤ c.size0 h := by
      rw [← hend]; split_ifs <;> omega
    have hscan := hi.hi_mark_fields wf htag (end1 - start) (by omega)
    have hwr := hi.wr_mark_fields wf htag (end1 - start) (by omega)
    have hle1 := unscanned_le c (hwr.wr_darker wf)
    have hg1 : Color_hd ((mark_fields c.env (h + 8) (end1 - start) start s).mem h)
        = Caml_gray := hscan.cur_eq.2.2.1
    have hgb1 : Color_hd ((mark_fields c.env (h + 8) (end1 - start) start s).mem h)
        ≠ Caml_black := by rw [hg1]; decide
    by_cases hlt : end1 < c.size0 h
    · rw [if_pos hlt]
      simp only
      have hge := unscanned_ge c hh hgb1
      have he1 : start < end1 := by
        rw [← hend]; split_ifs <;> omega
      omega
    · rw [if_neg hlt]
      simp only [set_Hd_val_add]
      have hd2 : c.Darker (mark_fields c.env (h + 8) (end1 - start) start s).mem
          ((mark_fields c.env (h + 8) (end1 - start) start s).mem.set h
            (Blackhd_hd (s.mem h))) :=
        (Wr.wr_set_hdr _ hh hgb1 (Or.inr (Color_hd_Blackhd_hd _))).wr_darker wf
      have hbl := unscanned_blacken c hd2 hh hgb1
        (by rw [Mem.set_same]; exact Color_hd_Blackhd_hd _)
      omega
  · rw [if_neg htag]
    have hs0 := hns htag
    subst hs0
    simp only [set_Hd_val_add]
    have hd2 : c.Darker s.mem (s.mem.set h (Blackhd_hd (s.mem h))) :=
      (Wr.wr_set_hdr _ hh hgb (Or.inr (Color_hd_Blackhd_hd _))).wr_darker wf
    have hbl := unscanned_blacken c hd2 hh hgb
      (by rw [Mem.set_same]; exact Color_hd_Blackhd_hd _)
    omega

/-- A step of the heap-order scan lowers the iterations that the scan has
still to make. -/
theorem ScanLeft.sl_scan (wf : c.WF) {st : MarkState} {k : Nat}
    (hs : c.Stable st.s.mem) (h : c.ScanLeft st.s k) (hmk : st.s.markhp ≠ 0) :
    ∃ k', k' < k ∧ c.ScanLeft (mark_heap_scan st).s k' := by
  obtain ⟨s, work, v, start, sf⟩ := st
  simp only at hs h hmk
  rcases h with ⟨e, -⟩ | ⟨-, hps, rest, hsub, hrest, hchunk, hlimit, htiles, hchain, hk⟩
  · exact absurd e hmk
  obtain ⟨p0, hp0, ep0⟩ := List.mem_map.1 hchunk
  obtain ⟨cn, cs⟩ := hs.st_chunk wf hp0
  rw [ep0] at cn cs
  simp only [mark_heap_scan]
  by_cases hlim : s.markhp = s.limit
  · rw [if_pos hlim]
    have hnil := tiles_nil_of_eq htiles hlim
    subst hnil
    rw [cn]
    by_cases hz : Chunk_next c.m0 s.chunk = 0
    · rw [if_pos hz]
      exact ⟨0, by omega, Or.inl ⟨rfl, rfl⟩⟩
    · rw [if_neg hz]
      obtain ⟨p, rest', e1, e2, e3, e4⟩ := chain_cons_of_ne hchain hz
      subst e1
      have hp : p ∈ c.chunks := hrest p (List.mem_cons_self _ _)
      obtain ⟨-, cs'⟩ := hs.st_chunk wf hp
      rw [← e2] at cs'
      refine ⟨p.2.length + (rest'.map (fun p => p.2.length + 1)).sum + 1, ?_,
        Or.inr ⟨hz, p.2, rest', fun h hh => wf.chunks_sub p hp h hh,
          fun q hq => hrest q (List.mem_cons_of_mem _ hq), ?_, ?_, ?_, e4, rfl⟩⟩
      · rw [hk]
        simp only [List.map_cons, List.sum_cons, List.length_nil]
        omega
      · exact List.mem_map.2 ⟨p, hp, e2.symm⟩
      · show _ + Chunk_size s.mem _ = _ + Chunk_size c.m0 _
        rw [cs']
      · show tiles c.m0 _ p.2 (_ + Chunk_size s.mem _)
        rw [cs']; exact e3
  · rw [if_neg hlim]
    obtain ⟨hs', e1, e2⟩ := tiles_cons_of_ne htiles hlim
    subst e1
    have hh : s.markhp ∈ c.H := hsub _ (List.mem_cons_self _ _)
    have hb := hs.st_bhsize hh
    rw [hb]
    have hpos : s.markhp + Bhsize_hd (Hd_hp c.m0 s.markhp) ≠ 0 := by
      unfold Bhsize_hd Whsize_hd Whsize_wosize; omega
    refine ⟨hs'.length + (rest.map (fun p => p.2.length + 1)).sum + 1, ?_,
      Or.inr ⟨hpos, hs', rest, fun h hh' => hsub h (List.mem_cons_of_mem _ hh'), hrest,
        hchunk, hlimit, e2, hchain, rfl⟩⟩
    rw [hk]
    simp only [List.length_cons]
    omega

/-- The start of the heap-order scan: the scan has at most scan_room
iterations to make. -/
theorem ScanLeft.sl_restart (wf : c.WF) {s : State} (hs : c.Stable s.mem)
    (hstart : s.caml_heap_start = c.heap_start) :
    ∃ k', k' ≤ c.scan_room
      ∧ c.ScanLeft { s with heap_is_pure := true
                            chunk := s.caml_heap_start
                            markhp := s.caml_heap_start
                            limit := s.caml_heap_start + Chunk_size s.mem s.caml_heap_start }
          k' := by
  have hch := wf.chain
  rw [← hstart] at hch
  by_cases hz : s.caml_heap_start = 0
  · exact ⟨0, Nat.zero_le _, Or.inl ⟨hz, rfl⟩⟩
  · obtain ⟨p, rest, e1, e2, e3, e4⟩ := chain_cons_of_ne hch hz
    have hp : p ∈ c.chunks := by rw [e1]; exact List.mem_cons_self _ _
    obtain ⟨-, cs⟩ := hs.st_chunk wf hp
    rw [← e2] at cs
    refine ⟨p.2.length + (rest.map (fun p => p.2.length + 1)).sum + 1, ?_,
      Or.inr ⟨hz, p.2, rest, fun h hh => wf.chunks_sub p hp h hh, ?_, ?_, ?_, ?_, e4, rfl⟩⟩
    · unfold scan_room
      rw [e1]
      simp only [List.map_cons, List.sum_cons]
      omega
    · intro q hq; rw [e1]; exact List.mem_cons_of_mem _ hq
    · exact List.mem_map.2 ⟨p, hp, e2.symm⟩
    · show _ + Chunk_size s.mem _ = _ + Chunk_size c.m0 _
      rw [cs]
    · show tiles c.m0 _ p.2 (_ + Chunk_size s.mem _)
      rw [cs]; exact e3

end HeapCtx

theorem wpath_nil_of_zero {m : Mem} {a : Nat} {l : List Nat} (hp : wpath m a l)
    (hz : m a = 0) : l = [] := by
  cases l with
  | nil => rfl
  | cons h t =>
    have := hp.1
    omega

theorem wpath_cons_of_ne {m : Mem} {a : Nat} {l : List Nat} (hp : wpath m a l)
    (hz : m a ≠ 0) : ∃ h t, l = h :: t ∧ m a = h + 8 ∧ wpath m (h + 8) t := by
  cases l with
  | nil => exact absurd hp hz
  | cons h t => exact ⟨h, t, rfl, hp.1, hp.2⟩

/-- A weak array is taken out of the list: the word at a gets the link of the
array, and the rest of the list is as before. -/
theorem wpath_unlink {m : Mem} {a h : Nat} {t : List Nat} (hp : wpath m (h + 8) t)
    (hne : ∀ x ∈ t, a ≠ x + 8) : wpath (m.set a (m (h + 8))) a t := by
  cases t with
  | nil =>
    show (m.set a (m (h + 8))) a = 0
    rw [Mem.set_same]; exact hp
  | cons x t' =>
    obtain ⟨e1, e2⟩ := hp
    refine ⟨by rw [Mem.set_same]; exact e1, ?_⟩
    refine wpath_congr (Mem.set_other _ _ (fun e => hne x (List.mem_cons_self _ _) e.symm))
      (fun y hy => Mem.set_other _ _
        (fun e => hne y (List.mem_cons_of_mem _ hy) e.symm)) e2

theorem sub_rank_cases (x : Nat) (h : 1 ≤ sub_rank x) :
    x = Subphase_roots ∨ x = Subphase_main ∨ x = Subphase_weak1 ∨ x = Subphase_weak2
      ∨ x = Subphase_final := by
  unfold sub_rank at h
  split_ifs at h with a1 a2 a3 a4 a5
  · exact Or.inl a1
  · exact Or.inr (Or.inl a2)
  · exact Or.inr (Or.inr (Or.inl a3))
  · exact Or.inr (Or.inr (Or.inr (Or.inl a4)))
  · exact Or.inr (Or.inr (Or.inr (Or.inr a5)))
  · omega

namespace HeapCtx

variable {c : HeapCtx}

/-- The case Subphase_roots lowers the calls of caml_darken_all_roots_slice
still to come or moves on to Subphase_main. -/
theorem RootsEnd.re_step {N : Nat} (hre : c.RootsEnd N) (st : MarkState) (hw : 0 < st.work)
    (hsub : st.s.caml_gc_subphase = Subphase_roots) :
    ((mark_roots c.env st).s.caml_gc_subphase = Subphase_roots
      ∨ (mark_roots c.env st).s.caml_gc_subphase = Subphase_main)
    ∧ roots_left N (mark_roots c.env st).s + sub_rank (mark_roots c.env st).s.caml_gc_subphase + 1
        ≤ roots_left N st.s + sub_rank st.s.caml_gc_subphase
    ∧ (mark_roots c.env st).s.weak_prev = st.s.weak_prev
    ∧ (mark_roots c.env st).s.markhp = st.s.markhp
    ∧ (mark_roots c.env st).s.chunk = st.s.chunk
    ∧ (mark_roots c.env st).s.limit = st.s.limit
    ∧ (mark_roots c.env st).v = st.v
    ∧ (mark_roots c.env st).start = st.start := by
  have hf := foldl_caml_darken_frame c.env (c.env.roots_slice st.s st.work).1
    { st.s with events := Event.darken_all_roots_slice st.work :: st.s.events }
  generalize hs2 : (c.env.roots_slice st.s st.work).1.foldl (caml_darken c.env)
    { st.s with events := Event.darken_all_roots_slice st.work :: st.s.events } = s2 at hf
  have e1 : s2.caml_gc_subphase = st.s.caml_gc_subphase := by rw [hf]
  have e2 : s2.events = Event.darken_all_roots_slice st.work :: st.s.events := by rw [hf]
  have e3 : s2.weak_prev = st.s.weak_prev := by rw [hf]
  have e4 : s2.markhp = st.s.markhp := by rw [hf]
  have e5 : s2.chunk = st.s.chunk := by rw [hf]
  have e6 : s2.limit = st.s.limit := by rw [hf]
  have r0 : sub_rank st.s.caml_gc_subphase = 5 := by rw [hsub]; rfl
  simp only [mark_roots, hs2]
  by_cases hlt : ((c.env.roots_slice st.s st.work).2 : Int) < st.work
  · rw [if_pos hlt]
    refine ⟨Or.inr rfl, ?_, e3, e4, e5, e6, trivial, trivial⟩
    have r1 : roots_left N { s2 with caml_gc_subphase := Subphase_main } = 0 := by
      simp [roots_left, Subphase_main, Subphase_roots]
    have r2 : sub_rank ({ s2 with caml_gc_subphase := Subphase_main } : State).caml_gc_subphase
        = 4 := rfl
    rw [r0, r1, r2]
    omega
  · rw [if_neg hlt]
    refine ⟨Or.inl (e1.trans hsub), ?_, e3, e4, e5, e6, trivial, trivial⟩
    have hcalls : roots_calls st.s.events < N := by
      by_contra hge
      exact hlt (hre st.s st.work hw (by omega))
    have r1 : roots_left N s2 = N - (roots_calls st.s.events + 1) := by
      simp only [roots_left, e1, hsub, if_true, e2, roots_calls_cons_slice]
    have r3 : roots_left N st.s = N - roots_calls st.s.events := by
      simp only [roots_left, hsub, if_true]
    rw [e1, r0, r1, r3]
    omega

end HeapCtx

namespace HeapCtx

variable {c : HeapCtx}

theorem wpath_wr_head (wf : c.WF) {m m' : Mem} (hwr : c.Wr m m') {l : List Nat}
    (hl : ∀ h ∈ l, h ∈ c.Wl) (hp : wpath m c.env.caml_weak_list_head l) :
    wpath m' c.env.caml_weak_list_head l :=
  wpath_congr (hwr.wr_links wf).1 (fun h hh => (hwr.wr_links wf).2 h (hl h hh)) hp

theorem wpath_wr_link (wf : c.WF) {m m' : Mem} (hwr : c.Wr m m') {x : Nat} (hx : x ∈ c.Wl)
    {l : List Nat} (hl : ∀ h ∈ l, h ∈ c.Wl) (hp : wpath m (x + 8) l) :
    wpath m' (x + 8) l :=
  wpath_congr ((hwr.wr_links wf).2 x hx) (fun h hh => (hwr.wr_links wf).2 h (hl h hh)) hp

theorem roots_left_congr (N : Nat) {s s' : State}
    (e1 : s'.caml_gc_subphase = s.caml_gc_subphase) (e2 : s'.events = s.events) :
    roots_left N s' = roots_left N s := by
  unfold roots_left
  rw [e1, e2]

theorem roots_left_of_ne (N : Nat) {s : State} (h : s.caml_gc_subphase ≠ Subphase_roots) :
    roots_left N s = 0 := by
  unfold roots_left
  rw [if_neg h]

theorem WeakLeft.wl_congr {L : List Nat} {s s' : State} {w : Nat} (h : c.WeakLeft L s w)
    (e0 : s'.mem = s.mem) (e1 : s'.caml_gc_subphase = s.caml_gc_subphase)
    (e2 : s'.weak_prev = s.weak_prev) : c.WeakLeft L s' w := by
  unfold WeakLeft at h ⊢
  rw [e0, e1, e2]
  exact h

/-- The measure does not depend on the gray stack, on the block being scanned
or on the pacing variables. -/
theorem Pot.pot_congr {N : Nat} {L : List Nat} {s s' : State} {v v' start n : Nat}
    (hp : c.Pot N L s v start n) (hm : c.MInv s' v' start)
    (e0 : s'.mem = s.mem) (e1 : s'.caml_gc_subphase = s.caml_gc_subphase)
    (e2 : s'.weak_prev = s.weak_prev) (e3 : s'.events = s.events)
    (e4 : s'.markhp = s.markhp) (e5 : s'.chunk = s.chunk) (e6 : s'.limit = s.limit)
    (e7 : s'.heap_is_pure = s.heap_is_pure) : c.Pot N L s' v' start n := by
  obtain ⟨k, w, h1, h2, h3, h4⟩ := hp.pot
  refine ⟨hm, by rw [e1]; exact hp.valid, k, w, h1.sl_congr e4 e5 e6, h2,
    h3.wl_congr e0 e1 e2, ?_⟩
  rw [e0, e1, e7, roots_left_congr N e1 e3]
  exact h4

theorem mark_pop_fields (st : MarkState) :
    (mark_pop st).s.mem = st.s.mem
    ∧ (mark_pop st).s.caml_gc_subphase = st.s.caml_gc_subphase
    ∧ (mark_pop st).s.weak_prev = st.s.weak_prev
    ∧ (mark_pop st).s.events = st.s.events
    ∧ (mark_pop st).s.markhp = st.s.markhp
    ∧ (mark_pop st).s.chunk = st.s.chunk
    ∧ (mark_pop st).s.limit = st.s.limit
    ∧ (mark_pop st).s.heap_is_pure = st.s.heap_is_pure
    ∧ (mark_pop st).start = st.start
    ∧ (mark_pop st).work = st.work := by
  simp only [mark_pop]
  split_ifs
  · split <;> exact ⟨rfl, rfl, rfl, rfl, rfl, rfl, rfl, rfl, rfl, rfl⟩
  · exact ⟨rfl, rfl, rfl, rfl, rfl, rfl, rfl, rfl, rfl, rfl⟩

theorem Pot.pot_pop {N : Nat} {L : List Nat} {st : MarkState} {n : Nat}
    (hp : c.Pot N L st.s st.v st.start n) :
    c.Pot N L (mark_pop st).s (mark_pop st).v (mark_pop st).start n := by
  obtain ⟨e0, e1, e2, e3, e4, e5, e6, e7, e8, -⟩ := mark_pop_fields st
  have hm := hp.minv.mi_pop.1
  rw [e8] at hm ⊢
  exact hp.pot_congr hm e0 e1 e2 e3 e4 e5 e6 e7

/-- Scanning the block v lowers the measure. -/
theorem Pot.pot_mark_value (wf : c.WF) {N : Nat} {L : List Nat} (hL : ∀ h ∈ L, h ∈ c.Wl)
    {st : MarkState} {n : Nat} (hp : c.Pot N L st.s st.v st.start n) (hv : st.v ≠ 0)
    (hw : 0 < st.work) :
    ∃ n', n' < n ∧ c.Pot N L (mark_value c.env st).s (mark_value c.env st).v
      (mark_value c.env st).start n' := by
  obtain ⟨k, w, h1, h2, h3, h4⟩ := hp.pot
  have hf := mark_value_frame c.env st
  generalize hst' : mark_value c.env st = st' at hf
  have e1 : st'.s.caml_gc_subphase = st.s.caml_gc_subphase := hf.frame_subphase
  have e2 : st'.s.weak_prev = st.s.weak_prev := by rw [hf]
  have e3 : st'.s.events = st.s.events := by rw [hf]
  have e4 : st'.s.markhp = st.s.markhp := by rw [hf]
  have e5 : st'.s.chunk = st.s.chunk := by rw [hf]
  have e6 : st'.s.limit = st.s.limit := by rw [hf]
  have hm' := hp.minv.mi_mark_value wf hv
  have hwr := hp.minv.wr_mark_value wf hv
  have hun := hp.minv.unscanned_mark_value wf hv hw
  rw [hst'] at hm' hwr hun
  refine Pot.pot_major c N L hm' (by rw [e1]; exact hp.valid) (h1.sl_congr e4 e5 e6) h2
    (h3.wl_wr wf hL hwr e1 e2 hp.minv.wp) (A := (c.unscanned st.s.mem - st.start) + w
      + roots_left N st.s + sub_rank st.s.caml_gc_subphase) ?_ ?_
  · rw [h4]; exact Nat.le_add_right _ _
  · rw [e1, roots_left_congr N e1 e3]
    omega

/-- A step of the heap-order scan lowers the measure. -/
theorem Pot.pot_heap_scan (wf : c.WF) {N : Nat} {L : List Nat}
    {st : MarkState} {n : Nat} (hp : c.Pot N L st.s st.v st.start n) (hv : st.v = 0)
    (hstack : st.s.gray_vals = []) (hmk : st.s.markhp ≠ 0) :
    ∃ n', n' < n ∧ c.Pot N L (mark_heap_scan st).s (mark_heap_scan st).v
      (mark_heap_scan st).start n' := by
  obtain ⟨k, w, h1, h2, h3, h4⟩ := hp.pot
  obtain ⟨todo, hi, -⟩ := hp.minv.heap
  obtain ⟨k', hk', hs'⟩ := h1.sl_scan wf hi.stable hmk
  have hm' := hp.minv.mi_heap_scan wf hv hstack hmk
  have hfld : (mark_heap_scan st).s.mem = st.s.mem
      ∧ (mark_heap_scan st).s.caml_gc_subphase = st.s.caml_gc_subphase
      ∧ (mark_heap_scan st).s.weak_prev = st.s.weak_prev
      ∧ (mark_heap_scan st).s.events = st.s.events
      ∧ (mark_heap_scan st).s.heap_is_pure = st.s.heap_is_pure
      ∧ (mark_heap_scan st).start = st.start := by
    simp only [mark_heap_scan]
    split_ifs <;> exact ⟨rfl, rfl, rfl, rfl, rfl, rfl⟩
  generalize mark_heap_scan st = st' at hs' hm' hfld
  obtain ⟨e0, e1, e2, e3, e7, e8⟩ := hfld
  refine Pot.pot_minor c N L hm' (by rw [e1]; exact hp.valid) hs' (by omega)
    (h3.wl_congr e0 e1 e2) h4 ?_ ?_
  · rw [e0, e1, e8, roots_left_congr N e1 e3]
  · rw [e7]; omega

/-- Starting the heap-order scan over lowers the measure. -/
theorem Pot.pot_restart (wf : c.WF) {N : Nat} {L : List Nat}
    {s : State} {v start n : Nat} (hp : c.Pot N L s v start n)
    (hpure : ¬ s.heap_is_pure = true) :
    ∃ n', n' < n ∧ c.Pot N L
      { s with heap_is_pure := true
               chunk := s.caml_heap_start
               markhp := s.caml_heap_start
               limit := s.caml_heap_start + Chunk_size s.mem s.caml_heap_start } v start n' := by
  obtain ⟨k, w, h1, h2, h3, h4⟩ := hp.pot
  obtain ⟨todo, hi, -⟩ := hp.minv.heap
  obtain ⟨k', hk', hs'⟩ := ScanLeft.sl_restart wf hi.stable hp.minv.hstart
  have hm' := hp.minv.mi_restart wf
  rw [if_neg hpure] at h4
  refine Pot.pot_minor c N L hm' hp.valid hs' hk' (h3.wl_congr rfl rfl rfl) h4 rfl ?_
  simp only [if_true]
  omega

end HeapCtx

namespace HeapCtx

variable {c : HeapCtx}

theorem ScanLeft.sl_zero {s : State} {k : Nat} (h : c.ScanLeft s k) (hmk : s.markhp = 0) :
    k = 0 := by
  rcases h with ⟨-, e⟩ | ⟨e, -⟩
  · exact e
  · exact absurd hmk e

theorem WeakLeft.wl_early {L : List Nat} {s : State} {w : Nat}
    (hsub : s.caml_gc_subphase = Subphase_roots ∨ s.caml_gc_subphase = Subphase_main) :
    c.WeakLeft L s w ↔ (wpath s.mem c.env.caml_weak_list_head L ∧ w = 2 * L.length) := by
  unfold WeakLeft
  rw [if_pos hsub]

theorem WeakLeft.wl_weak1 {L : List Nat} {s : State} {w : Nat}
    (hsub : s.caml_gc_subphase = Subphase_weak1) :
    c.WeakLeft L s w ↔ (wpath s.mem c.env.caml_weak_list_head L
      ∧ ∃ l, wpath s.mem s.weak_prev l ∧ (∀ h ∈ l, h ∈ c.Wl) ∧ w = l.length + L.length) := by
  unfold WeakLeft
  rw [if_neg (by rw [hsub]; decide), if_pos hsub]

theorem WeakLeft.wl_weak2 {L : List Nat} {s : State} {w : Nat}
    (hsub : s.caml_gc_subphase = Subphase_weak2) :
    c.WeakLeft L s w ↔ (∃ l, wpath s.mem s.weak_prev l ∧ l.Nodup ∧ (∀ h ∈ l, h ∈ c.Wl)
      ∧ (∀ h ∈ l, s.weak_prev ≠ h + 8) ∧ w = l.length) := by
  unfold WeakLeft
  rw [if_neg (by rw [hsub]; decide), if_neg (by rw [hsub]; decide), if_pos hsub]

theorem WeakLeft.wl_final {L : List Nat} {s : State} {w : Nat}
    (hsub : s.caml_gc_subphase = Subphase_final) :
    c.WeakLeft L s w ↔ w = 0 := by
  unfold WeakLeft
  rw [if_neg (by rw [hsub]; decide), if_neg (by rw [hsub]; decide),
    if_neg (by rw [hsub]; decide)]

/-- The case Subphase_roots lowers the measure when caml_darken_all_roots_slice
ends after N calls. -/
theorem Pot.pot_roots (wf : c.WF) {N : Nat} {L : List Nat} (hre : c.RootsEnd N)
    (hL : ∀ h ∈ L, h ∈ c.Wl) {st : MarkState} {n : Nat}
    (hp : c.Pot N L st.s st.v st.start n) (hw : 0 < st.work)
    (hsub : st.s.caml_gc_subphase = Subphase_roots) :
    ∃ n', n' < n ∧ c.Pot N L (mark_roots c.env st).s (mark_roots c.env st).v
      (mark_roots c.env st).start n' := by
  obtain ⟨k, w, h1, h2, h3, h4⟩ := hp.pot
  obtain ⟨r1, r2, e2, e4, e5, e6, e8, e9⟩ := hre.re_step st hw hsub
  have hm' := hp.minv.mi_roots wf
  have hwr := hp.minv.wr_roots wf
  generalize mark_roots c.env st = st' at r1 r2 e2 e4 e5 e6 e8 e9 hm' hwr
  have hun := unscanned_le c (hwr.wr_darker wf)
  have hwl : c.WeakLeft L st'.s w := by
    unfold WeakLeft at h3 ⊢
    rw [if_pos (Or.inl hsub)] at h3
    rw [if_pos r1]
    exact ⟨wpath_wr_head wf hwr hL h3.1, h3.2⟩
  have hv' : 1 ≤ sub_rank st'.s.caml_gc_subphase := by
    rcases r1 with e | e <;> rw [e] <;> decide
  refine Pot.pot_major c N L hm' hv' (h1.sl_congr e4 e5 e6) h2 hwl
    (A := (c.unscanned st.s.mem - st.start) + w
      + roots_left N st.s + sub_rank st.s.caml_gc_subphase) ?_ ?_
  · rw [h4]; exact Nat.le_add_right _ _
  · rw [e9]; omega

/-- The case Subphase_main lowers the measure. -/
theorem Pot.pot_main {N : Nat} {L : List Nat} (hL : ∀ h ∈ L, h ∈ c.Wl)
    {s : State} {v start n : Nat}
    (hp : c.Pot N L s v start n) (hsub : s.caml_gc_subphase = Subphase_main) :
    ∃ n', n' < n ∧ c.Pot N L
      { s with caml_gc_subphase := Subphase_weak1
               weak_prev := c.env.caml_weak_list_head } v start n' := by
  obtain ⟨k, w, h1, h2, h3, h4⟩ := hp.pot
  have hm' := hp.minv.mi_main
  obtain ⟨h3a, h3b⟩ := (WeakLeft.wl_early (Or.inr hsub)).1 h3
  have hwl : c.WeakLeft L { s with caml_gc_subphase := Subphase_weak1
                                   weak_prev := c.env.caml_weak_list_head }
      (L.length + L.length) :=
    (WeakLeft.wl_weak1 rfl).2 ⟨h3a, L, h3a, hL, rfl⟩
  refine Pot.pot_major c N L hm' (show 1 ≤ 3 by decide) (h1.sl_congr rfl rfl rfl) h2 hwl
    (A := (c.unscanned s.mem - start) + w
      + roots_left N s + sub_rank s.caml_gc_subphase) ?_ ?_
  · rw [h4]; exact Nat.le_add_right _ _
  · have r1 : roots_left N { s with caml_gc_subphase := Subphase_weak1
                                    weak_prev := c.env.caml_weak_list_head } = 0 :=
      roots_left_of_ne N (show Subphase_weak1 ≠ Subphase_roots by decide)
    have r2 : sub_rank s.caml_gc_subphase = 4 := by rw [hsub]; rfl
    rw [r1, r2, h3b]
    show c.unscanned s.mem - start + (L.length + L.length) + 0 + 3 + 1 ≤ _
    omega

end HeapCtx

theorem mark_weak1_fields (env : Env) (st : MarkState) :
    (mark_weak1 env st).s.markhp = st.s.markhp
    ∧ (mark_weak1 env st).s.chunk = st.s.chunk
    ∧ (mark_weak1 env st).s.limit = st.s.limit
    ∧ (mark_weak1 env st).start = st.start
    ∧ ((st.s.mem st.s.weak_prev ≠ 0
        ∧ (mark_weak1 env st).s.caml_gc_subphase = st.s.caml_gc_subphase
        ∧ (mark_weak1 env st).s.weak_prev = st.s.mem st.s.weak_prev)
      ∨ (st.s.mem st.s.weak_prev = 0
        ∧ (mark_weak1 env st).s.caml_gc_subphase = Subphase_weak2
        ∧ (mark_weak1 env st).s.weak_prev = env.caml_weak_list_head)) := by
  simp only [mark_weak1]
  by_cases hc : st.s.mem st.s.weak_prev ≠ 0
  · rw [if_pos hc]
    have hf := weak_fields_frame env (st.s.mem st.s.weak_prev)
      (Wosize_hd (Hd_val st.s.mem (st.s.mem st.s.weak_prev)) - 1) 1 st.s
    generalize weak_fields env (st.s.mem st.s.weak_prev)
      (Wosize_hd (Hd_val st.s.mem (st.s.mem st.s.weak_prev)) - 1) 1 st.s = s1 at hf
    have e1 : s1.caml_gc_subphase = st.s.caml_gc_subphase := hf.frame_subphase
    have e4 : s1.markhp = st.s.markhp := by rw [hf]
    have e5 : s1.chunk = st.s.chunk := by rw [hf]
    have e6 : s1.limit = st.s.limit := by rw [hf]
    exact ⟨e4, e5, e6, rfl, Or.inl ⟨hc, e1, rfl⟩⟩
  · rw [if_neg hc]
    have hf := foldl_caml_darken_frame env (env.final_update st.s)
      { st.s with events := Event.final_update :: st.s.events }
    generalize (env.final_update st.s).foldl (caml_darken env)
      { st.s with events := Event.final_update :: st.s.events } = s2 at hf
    have e4 : s2.markhp = st.s.markhp := by rw [hf]
    have e5 : s2.chunk = st.s.chunk := by rw [hf]
    have e6 : s2.limit = st.s.limit := by rw [hf]
    cases hs : s2.gray_vals with
    | nil => exact ⟨e4, e5, e6, rfl, Or.inr ⟨not_not.1 hc, rfl, rfl⟩⟩
    | cons x rest => exact ⟨e4, e5, e6, rfl, Or.inr ⟨not_not.1 hc, rfl, rfl⟩⟩

namespace HeapCtx

variable {c : HeapCtx}

theorem WF.head_ne_link (wf : c.WF) {h : Nat} (hh : h ∈ c.Wl) :
    c.env.caml_weak_list_head ≠ h + 8 := by
  obtain ⟨wh, -, ws⟩ := wf.weak_sub h hh
  have := (wf.head_sep h wh).2 0 (by omega)
  omega

theorem WP.wp_not_hdr (wf : c.WF) {a : Nat} (hwp : c.WP a) : ∀ h ∈ c.H, h ≠ a := by
  intro h hh
  rcases hwp with e | ⟨w, hw, e⟩
  · rw [e]; exact fun e' => (wf.head_sep h hh).1 e'.symm
  · rw [e]
    obtain ⟨wh, -, ws⟩ := wf.weak_sub w hw
    have := wf.hdr_fld h hh w wh 0 (by omega)
    omega

/-- The case Subphase_weak1 lowers the measure. -/
theorem Pot.pot_weak1 (wf : c.WF) {N : Nat} {L : List Nat} (hWL : c.WeakList L)
    {st : MarkState} {n : Nat}
    (hp : c.Pot N L st.s st.v st.start n)
    (hsub : st.s.caml_gc_subphase = Subphase_weak1) (hv : st.v = 0) :
    ∃ n', n' < n ∧ c.Pot N L (mark_weak1 c.env st).s (mark_weak1 c.env st).v
      (mark_weak1 c.env st).start n' := by
  obtain ⟨k, w, h1, h2, h3, h4⟩ := hp.pot
  obtain ⟨-, hnd, hL⟩ := hWL
  obtain ⟨hhead, l, hl, hlW, hw⟩ := (WeakLeft.wl_weak1 hsub).1 h3
  obtain ⟨e4, e5, e6, e9, hcases⟩ := mark_weak1_fields c.env st
  have hm' := hp.minv.mi_weak1 wf hsub hv
  have hwr := hp.minv.wr_weak1 wf hsub
  generalize mark_weak1 c.env st = st' at e4 e5 e6 e9 hcases hm' hwr
  have hun := unscanned_le c (hwr.wr_darker wf)
  have r0 : roots_left N st.s = 0 := roots_left_of_ne N (by rw [hsub]; decide)
  have k0 : sub_rank st.s.caml_gc_subphase = 3 := by rw [hsub]; rfl
  rcases hcases with ⟨hc, e1, e2⟩ | ⟨hc, e1, e2⟩
  · obtain ⟨h, t, el, ec, ht⟩ := wpath_cons_of_ne hl hc
    subst el
    have hh : h ∈ c.Wl := hlW h (List.mem_cons_self _ _)
    have e1' : st'.s.caml_gc_subphase = Subphase_weak1 := e1.trans hsub
    have hwl : c.WeakLeft L st'.s (t.length + L.length) := by
      refine (WeakLeft.wl_weak1 e1').2 ⟨wpath_wr_head wf hwr hL hhead, t, ?_,
        fun x hx => hlW x (List.mem_cons_of_mem _ hx), rfl⟩
      rw [e2, ec]
      exact wpath_wr_link wf hwr hh (fun x hx => hlW x (List.mem_cons_of_mem _ hx)) ht
    have r1 : roots_left N st'.s = 0 := roots_left_of_ne N (by rw [e1']; decide)
    have k1 : sub_rank st'.s.caml_gc_subphase = 3 := by rw [e1']; rfl
    refine Pot.pot_major c N L hm' (by rw [k1]; decide) (h1.sl_congr e4 e5 e6) h2 hwl
      (A := (c.unscanned st.s.mem - st.start) + w
        + roots_left N st.s + sub_rank st.s.caml_gc_subphase) ?_ ?_
    · rw [h4]; exact Nat.le_add_right _ _
    · rw [e9, r0, r1, k0, k1, hw, List.length_cons]
      omega
  · have el := wpath_nil_of_zero hl hc
    subst el
    have hwl : c.WeakLeft L st'.s L.length := by
      refine (WeakLeft.wl_weak2 e1).2 ⟨L, ?_, hnd, hL, ?_, rfl⟩
      · rw [e2]; exact wpath_wr_head wf hwr hL hhead
      · intro h hh; rw [e2]; exact wf.head_ne_link (hL h hh)
    have r1 : roots_left N st'.s = 0 := roots_left_of_ne N (by rw [e1]; decide)
    have k1 : sub_rank st'.s.caml_gc_subphase = 2 := by rw [e1]; rfl
    refine Pot.pot_major c N L hm' (by rw [k1]; decide) (h1.sl_congr e4 e5 e6) h2 hwl
      (A := (c.unscanned st.s.mem - st.start) + w
        + roots_left N st.s + sub_rank st.s.caml_gc_subphase) ?_ ?_
    · rw [h4]; exact Nat.le_add_right _ _
    · rw [e9, r0, r1, k0, k1, hw, List.length_nil]
      omega

/-- The case Subphase_weak2 lowers the measure. -/
theorem Pot.pot_weak2 (wf : c.WF) {N : Nat} {L : List Nat}
    {st : MarkState} {n : Nat}
    (hp : c.Pot N L st.s st.v st.start n)
    (hsub : st.s.caml_gc_subphase = Subphase_weak2) :
    ∃ n', n' < n ∧ c.Pot N L (mark_weak2 st).s (mark_weak2 st).v (mark_weak2 st).start n' := by
  obtain ⟨k, w, h1, h2, h3, h4⟩ := hp.pot
  obtain ⟨l, hl, hnd, hlW, hne, hw⟩ := (WeakLeft.wl_weak2 hsub).1 h3
  have hm' := hp.minv.mi_weak2 wf hsub
  have hwp := hp.minv.wp (Or.inr hsub)
  have r0 : roots_left N st.s = 0 := roots_left_of_ne N (by rw [hsub]; decide)
  have k0 : sub_rank st.s.caml_gc_subphase = 2 := by rw [hsub]; rfl
  have hn : (2 * c.scan_room + 2) * ((c.unscanned st.s.mem - st.start) + w
      + roots_left N st.s + sub_rank st.s.caml_gc_subphase) ≤ n := by
    rw [h4]; exact Nat.le_add_right _ _
  simp only [mark_weak2] at hm' ⊢
  by_cases hc : st.s.mem st.s.weak_prev ≠ 0
  · obtain ⟨h, t, el, ec, ht⟩ := wpath_cons_of_ne hl hc
    subst el
    have hnd' := List.nodup_cons.1 hnd
    rw [if_pos hc] at hm' ⊢
    by_cases hwh : Color_hd (Hd_val st.s.mem (st.s.mem st.s.weak_prev)) = Caml_white
    · rw [if_pos hwh] at hm' ⊢
      have ef : Field st.s.mem (st.s.mem st.s.weak_prev) 0 = st.s.mem (h + 8) := by
        simp only [Field, Nat.mul_zero, Nat.add_zero, ec]
      rw [ef] at hm' ⊢
      have hwl : c.WeakLeft L
          { st.s with mem := st.s.mem.set st.s.weak_prev (st.s.mem (h + 8)) } t.length :=
        (WeakLeft.wl_weak2
          (s := { st.s with mem := st.s.mem.set st.s.weak_prev (st.s.mem (h + 8)) }) hsub).2 ⟨t,
          wpath_unlink ht (fun x hx => hne x (List.mem_cons_of_mem _ hx)), hnd'.2,
          fun x hx => hlW x (List.mem_cons_of_mem _ hx),
          fun x hx => hne x (List.mem_cons_of_mem _ hx), rfl⟩
      have hun : c.unscanned (st.s.mem.set st.s.weak_prev (st.s.mem (h + 8)))
          = c.unscanned st.s.mem :=
        unscanned_congr c (fun x hx => Mem.set_other _ _ (hwp.wp_not_hdr wf x hx))
      refine Pot.pot_major c N L hm' (by rw [k0]; decide) (h1.sl_congr rfl rfl rfl) h2 hwl
        hn ?_
      have r1 : roots_left N
          { st.s with mem := st.s.mem.set st.s.weak_prev (st.s.mem (h + 8)) } = 0 :=
        roots_left_of_ne N (by rw [hsub]; decide)
      rw [r1, r0, hw, List.length_cons]
      show c.unscanned (st.s.mem.set st.s.weak_prev (st.s.mem (h + 8))) - st.start + t.length
        + 0 + sub_rank st.s.caml_gc_subphase + 1 ≤ _
      rw [hun]
      omega
    · rw [if_neg hwh] at hm' ⊢
      have hwl : c.WeakLeft L { st.s with weak_prev := st.s.mem st.s.weak_prev } t.length := by
        refine (WeakLeft.wl_weak2
          (s := { st.s with weak_prev := st.s.mem st.s.weak_prev }) hsub).2 ⟨t, ?_, hnd'.2,
          fun x hx => hlW x (List.mem_cons_of_mem _ hx), ?_, rfl⟩
        · show wpath st.s.mem (st.s.mem st.s.weak_prev) t
          rw [ec]; exact ht
        · intro x hx
          show st.s.mem st.s.weak_prev ≠ x + 8
          rw [ec]
          intro e
          have : h = x := by omega
          exact hnd'.1 (this ▸ hx)
      refine Pot.pot_major c N L hm' (by rw [k0]; decide) (h1.sl_congr rfl rfl rfl) h2 hwl
        hn ?_
      have r1 : roots_left N { st.s with weak_prev := st.s.mem st.s.weak_prev } = 0 :=
        roots_left_of_ne N (by rw [hsub]; decide)
      rw [r1, r0, hw, List.length_cons]
      show c.unscanned st.s.mem - st.start + t.length
        + 0 + sub_rank st.s.caml_gc_subphase + 1 ≤ _
      omega
  · rw [if_neg hc] at hm' ⊢
    have el := wpath_nil_of_zero hl (not_not.1 hc)
    subst el
    have hwl : c.WeakLeft L { st.s with caml_gc_subphase := Subphase_final } 0 :=
      (WeakLeft.wl_final rfl).2 rfl
    refine Pot.pot_major c N L hm' (show 1 ≤ 1 by decide) (h1.sl_congr rfl rfl rfl) h2 hwl
      hn ?_
    have r1 : roots_left N { st.s with caml_gc_subphase := Subphase_final } = 0 :=
      roots_left_of_ne N (show Subphase_final ≠ Subphase_roots by decide)
    rw [r1, r0, k0, hw]
    show c.unscanned st.s.mem - st.start + 0 + 0 + 1 + 1 ≤ _
    simp only [List.length_nil]
    omega

end HeapCtx

namespace HeapCtx

variable {c : HeapCtx}

/-- One iteration of the loop of mark_slice with work left ends the mark
phase or lowers the measure. -/
theorem Pot.pot_step (wf : c.WF) {N : Nat} {L : List Nat} (hre : c.RootsEnd N)
    (hWL : c.WeakList L) {st : MarkState} {n : Nat}
    (hp0 : c.Pot N L st.s st.v st.start n) (hw0 : 0 < st.work) :
    ((mark_step c.env st).work ≤ 0 ∧ (mark_step c.env st).s.caml_gc_phase = Phase_sweep)
    ∨ ∃ n', n' < n ∧ c.Pot N L (mark_step c.env st).s (mark_step c.env st).v
        (mark_step c.env st).start n' := by
  have hp := hp0.pot_pop
  have hpe := hp0.minv.mi_pop.2
  have hw : 0 < (mark_pop st).work := by
    rw [(mark_pop_fields st).2.2.2.2.2.2.2.2.2]; exact hw0
  simp only [mark_step]
  generalize mark_pop st = st1 at hp hpe hw ⊢
  by_cases hv : st1.v ≠ 0
  · rw [if_pos hv]; exact Or.inr (hp.pot_mark_value wf hWL.2.2 hv hw)
  rw [if_neg hv]
  have hv0 : st1.v = 0 := not_not.1 hv
  have hstack := hpe hv0
  by_cases hmk : st1.s.markhp ≠ 0
  · rw [if_pos hmk]; exact Or.inr (hp.pot_heap_scan wf hv0 hstack hmk)
  rw [if_neg hmk]
  have hmk0 : st1.s.markhp = 0 := not_not.1 hmk
  by_cases hpure : st1.s.heap_is_pure = true
  · have hnp : ¬ ((!st1.s.heap_is_pure) = true) := by simp [hpure]
    rw [if_neg hnp]
    simp only [mark_subphase]
    split_ifs with h1 h2 h3 h4 h5
    · exact Or.inr (hp.pot_roots wf hre hWL.2.2 hw h1)
    · exact Or.inr (hp.pot_main hWL.2.2 h2)
    · exact Or.inr (hp.pot_weak1 wf hWL h3 hv0)
    · exact Or.inr (hp.pot_weak2 wf h4)
    · obtain ⟨k1, k2⟩ := hp.minv.mi_final wf hv0 hstack hmk0 hpure
      exact Or.inl ⟨k1, k2.1⟩
    · exfalso
      have := hp.valid
      unfold sub_rank at this
      rw [if_neg h1, if_neg h2, if_neg h3, if_neg h4, if_neg h5] at this
      omega
  · have hnp : (!st1.s.heap_is_pure) = true := by simp [hpure]
    rw [if_pos hnp]
    exact Or.inr (hp.pot_restart wf hpure)

/-- The measure is never zero. -/
theorem Pot.pot_pos {N : Nat} {L : List Nat} {s : State} {v start n : Nat}
    (hp : c.Pot N L s v start n) : 2 ≤ n := by
  obtain ⟨k, w, -, -, -, h4⟩ := hp.pot
  have hv := hp.valid
  have : (2 * c.scan_room + 2) * 1 ≤ (2 * c.scan_room + 2)
      * ((c.unscanned s.mem - start) + w + roots_left N s + sub_rank s.caml_gc_subphase) :=
    Nat.mul_le_mul_left _ (by omega)
  rw [h4]
  omega

/-- The loop of mark_slice: the measure does not grow, and falls when an
iteration is run; with as many iterations allowed as the measure, the loop
ends by its own test. -/
theorem Pot.pot_loop (wf : c.WF) {N : Nat} {L : List Nat} (hre : c.RootsEnd N)
    (hWL : c.WeakList L) (fuel : Nat) {st : MarkState} {n : Nat}
    (hp : c.Pot N L st.s st.v st.start n) :
    ((mark_loop c.env fuel st).s.caml_gc_phase = Phase_sweep
      ∨ ∃ n', n' ≤ n ∧ (0 < st.work → 1 ≤ fuel → n' < n)
          ∧ c.Pot N L (mark_loop c.env fuel st).s (mark_loop c.env fuel st).v
              (mark_loop c.env fuel st).start n')
    ∧ (n ≤ fuel → (mark_loop c.env fuel st).work ≤ 0) := by
  induction fuel generalizing st n with
  | zero =>
    refine ⟨Or.inr ⟨n, le_refl _, fun _ h => absurd h (by decide), hp⟩, fun h => ?_⟩
    have := hp.pot_pos
    omega
  | succ fuel ih =>
    simp only [mark_loop]
    by_cases hw : st.work > 0
    · rw [if_pos hw]
      rcases hp.pot_step wf hre hWL hw with ⟨k1, k2⟩ | ⟨n', hn', hp'⟩
      · have hstop : mark_loop c.env fuel (mark_step c.env st) = mark_step c.env st := by
          cases fuel with
          | zero => rfl
          | succ f =>
            simp only [mark_loop]
            rw [if_neg (by omega)]
        rw [hstop]
        exact ⟨Or.inl k2, fun _ => k1⟩
      · obtain ⟨a, b⟩ := ih hp'
        refine ⟨?_, fun h => b (by omega)⟩
        rcases a with a | ⟨n'', h1, -, h3⟩
        · exact Or.inl a
        · exact Or.inr ⟨n'', by omega, fun _ _ => by omega, h3⟩
    · rw [if_neg hw]
      exact ⟨Or.inr ⟨n, le_refl _, fun h => absurd h hw, hp⟩, fun _ => by omega⟩

/-- A call of mark_slice with a positive budget ends the mark phase or lowers
the measure; with as many iterations allowed as the measure, its loop ends by
its own test. -/
theorem Pot.pot_slice (wf : c.WF) {N : Nat} {L : List Nat} (hre : c.RootsEnd N)
    (hWL : c.WeakList L) (fuel : Nat) (work : Int) {s : State} {n : Nat}
    (hp : c.Pot N L s s.current_value s.current_index n) :
    ((mark_slice c.env fuel s work).caml_gc_phase = Phase_sweep
      ∨ ∃ n', n' ≤ n ∧ (0 < work → 1 ≤ fuel → n' < n)
          ∧ c.Pot N L (mark_slice c.env fuel s work)
              (mark_slice c.env fuel s work).current_value
              (mark_slice c.env fuel s work).current_index n')
    ∧ (n ≤ fuel → (mark_loop c.env fuel (mark_enter s work)).work ≤ 0) := by
  have hp1 : c.Pot N L (mark_enter s work).s (mark_enter s work).v
      (mark_enter s work).start n := hp
  obtain ⟨a, b⟩ := hp1.pot_loop wf hre hWL fuel
  refine ⟨?_, b⟩
  simp only [mark_slice]
  generalize mark_loop c.env fuel (mark_enter s work) = st at a
  rcases a with a | ⟨n', h1, h2, h3⟩
  · exact Or.inl a
  · exact Or.inr ⟨n', h1, h2, h3.pot_congr h3.minv.mi_leave rfl rfl rfl rfl rfl rfl rfl rfl⟩

end HeapCtx

namespace HeapCtx

variable {c : HeapCtx}

/-- The measure when start_cycle has run on a well-formed heap is at most
mark_bound. -/
theorem Pot.pot_start (wf : c.WF) (N : Nat) {L : List Nat} (hWL : c.WeakList L) {s0 : State}
    (hmem : s0.mem = c.m0) (hhs : s0.caml_heap_start = c.heap_start)
    (hgv : s0.gray_vals = []) (hsz : 0 < s0.gray_vals_size) (hcv : s0.current_value = 0)
    (hci : s0.current_index = 0) :
    ∃ n, n ≤ c.mark_bound N L ∧ c.Pot N L (start_cycle s0) (start_cycle s0).current_value
      (start_cycle s0).current_index n := by
  have hm := MInv.mi_start wf hmem hhs hgv hsz hcv hci
  have hwl : c.WeakLeft L (start_cycle s0) (2 * L.length) :=
    (WeakLeft.wl_early (s := start_cycle s0) (Or.inl rfl)).2
      ⟨by show wpath s0.mem _ L; rw [hmem]; exact hWL.1, rfl⟩
  refine ⟨_, ?_, hm, show 1 ≤ 5 by decide, 0, 2 * L.length, Or.inl ⟨rfl, rfl⟩, Nat.zero_le _,
    hwl, rfl⟩
  have e1 : (start_cycle s0).mem = c.m0 := hmem
  have e2 : (start_cycle s0).current_index = 0 := hci
  have e3 : sub_rank (start_cycle s0).caml_gc_subphase = 5 := rfl
  have e4 : roots_left N (start_cycle s0) ≤ N := by
    unfold roots_left
    split_ifs
    · exact Nat.sub_le _ _
    · exact Nat.zero_le _
  rw [e1, e2, e3]
  unfold mark_bound
  have hA : c.unscanned c.m0 - 0 + 2 * L.length + roots_left N (start_cycle s0) + 5
      ≤ c.unscanned c.m0 + 2 * L.length + N + 5 := by omega
  have := Nat.mul_le_mul_left (2 * c.scan_room + 2) hA
  split_ifs <;> omega

/-- Calls of mark_slice with positive budgets, at least as many as the
measure, end the mark phase. -/
theorem Pot.pot_drive (wf : c.WF) {N : Nat} {L : List Nat} (hre : c.RootsEnd N)
    (hWL : c.WeakList L) (l : List (Nat × Int)) {s : State} {n : Nat}
    (hp : c.Pot N L s s.current_value s.current_index n)
    (hl : ∀ p ∈ l, 1 ≤ p.1 ∧ 0 < p.2) (hn : n ≤ l.length) :
    (drive c.env l s).caml_gc_phase = Phase_sweep := by
  induction l generalizing s n with
  | nil =>
    have := hp.pot_pos
    simp only [List.length_nil] at hn
    omega
  | cons p rest ih =>
    simp only [drive]
    rw [if_pos hp.minv.phase]
    obtain ⟨hp1, hp2⟩ := hl p (List.mem_cons_self _ _)
    rcases (hp.pot_slice wf hre hWL p.1 p.2).1 with a | ⟨n', -, h2, h3⟩
    · rw [drive_of_not_mark _ _ _ (by rw [a]; decide)]
      exact a
    · have := h2 hp2 hp1
      simp only [List.length_cons] at hn
      exact ih h3 (fun q hq => hl q (List.mem_cons_of_mem _ hq)) (by omega)

end HeapCtx

theorem tiles_ge_mem {m : Mem} {hp limit : Nat} {hps : List Nat} (ht : tiles m hp hps limit) :
    ∀ x ∈ hps, hp ≤ x := by
  induction hps generalizing hp with
  | nil => exact fun x hx => absurd hx (List.not_mem_nil _)
  | cons h hs ih =>
    intro x hx
    rcases List.mem_cons.1 hx with e | e
    · rw [e, ht.1]
    · have := ih ht.2.2 x e
      omega

theorem Bhsize_hd_pos (hd : Nat) : 0 < Bhsize_hd hd := by
  unfold Bhsize_hd Whsize_hd Whsize_wosize
  omega

theorem tiles_head {m : Mem} {hp limit : Nat} {hps : List Nat} (ht : tiles m hp hps limit) :
    hp = hps.headD limit := by
  cases hps with
  | nil => exact ht
  | cons h hs => exact ht.1.symm

/-- The tiling of a chunk depends only on the headers of its blocks. -/
theorem tiles_congr_on {m m1 : Mem} {hp limit : Nat} {hps : List Nat}
    (he : ∀ h ∈ hps, m1 h = m h) (ht : tiles m hp hps limit) : tiles m1 hp hps limit := by
  induction hps generalizing hp with
  | nil => exact ht
  | cons h hs ih =>
    obtain ⟨e1, e2, e3⟩ := ht
    refine ⟨e1, e2, ?_⟩
    have : Hd_hp m1 hp = Hd_hp m hp := by
      unfold Hd_hp
      rw [← e1]
      exact he h (List.mem_cons_self _ _)
    rw [this]
    exact ih (fun x hx => he x (List.mem_cons_of_mem _ hx)) e3

/-- The layout of a list of chunks depends only on the heads of the chunks and
on the headers of their blocks. -/
theorem chain_congr_on {m m1 : Mem} {a : Nat} {chunks : List (Nat × List Nat)}
    (he : ∀ q ∈ chunks, ∀ x ∈ chunk_cells q, m1 x = m x)
    (hc : chain m a chunks) : chain m1 a chunks := by
  induction chunks generalizing a with
  | nil => exact hc
  | cons p rest ih =>
    obtain ⟨e1, e2, e3, e4⟩ := hc
    have hp := he p (List.mem_cons_self _ _)
    have k1 : m1 (p.1 - 16) = m (p.1 - 16) := hp _ (by simp [chunk_cells])
    have k2 : m1 (p.1 - 8) = m (p.1 - 8) := hp _ (by simp [chunk_cells])
    have c1 : Chunk_size m1 a = Chunk_size m a := by
      simp only [Chunk_size]; rw [e1]; exact k1
    have c2 : Chunk_next m1 a = Chunk_next m a := by
      simp only [Chunk_next]; rw [e1]; exact k2
    refine ⟨e1, e2, ?_, ?_⟩
    · rw [c1]
      exact tiles_congr_on (fun h hh => hp h (by simp [chunk_cells, hh])) e3
    · rw [c2]
      exact ih (fun q hq => he q (List.mem_cons_of_mem _ hq)) e4

theorem rest_sep_sub {chunk : Nat} {hps hps' : List Nat} {rest : List (Nat × List Nat)}
    (h : rest_sep ((chunk, hps) :: rest)) (hsub : ∀ x ∈ hps', x ∈ hps) :
    rest_sep ((chunk, hps') :: rest) :=
  ⟨fun x hx => h.1 x (hsub x hx), h.2⟩

/-- The layout after the first block when the word at a, which is neither a
header of a later block nor in the head of a chunk, has been written. -/
theorem SwLay.lay_tail_write {m m1 : Mem} {chunk hp limit : Nat} {hs : List Nat}
    {rest : List (Nat × List Nat)} (h : SwLay m chunk hp limit (hp :: hs) rest)
    (he : ∀ a, a ≠ hp → m1 a = m a) :
    SwLay m1 chunk (hp + Bhsize_hd (Hd_hp m hp)) limit hs rest := by
  obtain ⟨h1, h2, h3, h4⟩ := h
  obtain ⟨-, -, t3⟩ := h2
  have hlt : ∀ x ∈ hs, x ≠ hp := by
    intro x hx
    have := tiles_ge_mem t3 x hx
    have := Bhsize_hd_pos (Hd_hp m hp)
    omega
  obtain ⟨s1, s2, s3⟩ := h4.1 hp (List.mem_cons_self _ _)
  have c1 : Chunk_size m1 chunk = Chunk_size m chunk := he _ (Ne.symm s1)
  have c2 : Chunk_next m1 chunk = Chunk_next m chunk := he _ (Ne.symm s2)
  refine ⟨by rw [c1]; exact h1, tiles_congr_on (fun x hx => he x (hlt x hx)) t3, ?_,
    rest_sep_sub h4 (fun x hx => List.mem_cons_of_mem _ hx)⟩
  rw [c2]
  refine chain_congr_on (fun q hq x hx => he x ?_) h3
  intro e
  exact s3 q hq (e ▸ hx)

theorem SwLay.lay_tail {m : Mem} {chunk hp limit : Nat} {hs : List Nat}
    {rest : List (Nat × List Nat)} (h : SwLay m chunk hp limit (hp :: hs) rest) :
    SwLay m chunk (hp + Bhsize_hd (Hd_hp m hp)) limit hs rest :=
  h.lay_tail_write (fun _ _ => rfl)

/-- The layout of the next chunk when the sweep has reached the end of the
current one. -/
theorem SwLay.lay_next {m : Mem} {chunk hp limit : Nat} {hps : List Nat}
    {p : Nat × List Nat} {rest : List (Nat × List Nat)}
    (h : SwLay m chunk hp limit hps (p :: rest)) :
    Chunk_next m chunk = p.1 ∧ p.1 ≠ 0
    ∧ SwLay m (Chunk_next m chunk) (Chunk_next m chunk)
        (Chunk_next m chunk + Chunk_size m (Chunk_next m chunk)) p.2 rest := by
  obtain ⟨h1, h2, h3, h4⟩ := h
  obtain ⟨e1, e2, e3, e4⟩ := h3
  refine ⟨e1, by rw [← e1]; exact e2, rfl, e3, e4, ?_⟩
  rw [e1]
  exact h4.2

/-- The header of the first block of a layout is the same in two memories with
the same layout. -/
theorem SwLay.lay_first {m m1 : Mem} {chunk hp limit : Nat} {hs : List Nat}
    {rest : List (Nat × List Nat)} (h : SwLay m chunk hp limit (hp :: hs) rest)
    (h' : SwLay m1 chunk hp limit (hp :: hs) rest) :
    hp + Bhsize_hd (Hd_hp m1 hp) = hp + Bhsize_hd (Hd_hp m hp) := by
  rw [tiles_head h.blocks.2.2, tiles_head h'.blocks.2.2]

/-- The address after the first block of a layout, and every later block and
the end of the chunk, are higher than the first block. -/
theorem SwLay.lay_drop_lt {m m1 : Mem} {chunk hp limit a : Nat} {hs : List Nat}
    {rest : List (Nat × List Nat)} (h : SwLay m chunk hp limit (hp :: hs) rest) (k : Nat)
    (h' : SwLay m1 chunk a limit (hs.drop k) rest) : hp < a := by
  have hlim : hp < limit := tiles_lt h.blocks
  have hge := tiles_ge_mem h.blocks.2.2
  have hpos := Bhsize_hd_pos (Hd_hp m hp)
  rw [tiles_head h'.blocks]
  cases hd : hs.drop k with
  | nil => exact hlim
  | cons x t =>
    have hx : x ∈ hs := List.mem_of_mem_drop (by rw [hd]; exact List.mem_cons_self _ _)
    have := hge x hx
    show hp < x
    omega

theorem sweep_left_drop (hs : List Nat) (k : Nat) (rest : List (Nat × List Nat)) (h : Nat) :
    sweep_left (hs.drop k) rest < sweep_left (h :: hs) rest := by
  unfold sweep_left
  have := List.length_drop k hs
  simp only [List.length_cons]
  omega

/-- The result of handing the block at hp to caml_fl_merge_block. -/
theorem SwInv.sw_merge {env : Env} (hc : SweepCollab env) {s s1 : State} {hp : Nat}
    {hs : List Nat} {rest : List (Nat × List Nat)} (ev : List Event)
    (hph : s1.caml_gc_phase = Phase_sweep) (e1 : s1.chunk = s.chunk) (e2 : s1.limit = s.limit)
    (e3 : s1.caml_gc_sweep_hp = hp + Bhsize_hd (Hd_hp s.mem hp)) (e4 : s.caml_gc_sweep_hp = hp)
    (h0 : SwLay s.mem s.chunk hp s.limit (hp :: hs) rest)
    (h : SwLay s1.mem s.chunk hp s.limit (hp :: hs) rest) :
    ∃ hps' rest',
      SwInv { s1 with mem := (env.fl_merge_block s1 (Val_hp hp)).mem
                      caml_fl_merge := (env.fl_merge_block s1 (Val_hp hp)).caml_fl_merge
                      caml_fl_cur_wsz := (env.fl_merge_block s1 (Val_hp hp)).caml_fl_cur_wsz
                      caml_gc_sweep_hp := (env.fl_merge_block s1 (Val_hp hp)).next
                      events := ev } hps' rest'
      ∧ SwAdv s rest
          { s1 with mem := (env.fl_merge_block s1 (Val_hp hp)).mem
                    caml_fl_merge := (env.fl_merge_block s1 (Val_hp hp)).caml_fl_merge
                    caml_fl_cur_wsz := (env.fl_merge_block s1 (Val_hp hp)).caml_fl_cur_wsz
                    caml_gc_sweep_hp := (env.fl_merge_block s1 (Val_hp hp)).next
                    events := ev } rest'
      ∧ sweep_left hps' rest' < sweep_left (hp :: hs) rest := by
  have h' : SwLay s1.mem s1.chunk hp s1.limit (hp :: hs) rest := by rw [e1, e2]; exact h
  obtain ⟨k, hk⟩ := hc.merge_next s1 hp hs rest h' (by rw [e3]; exact (h0.lay_first h).symm)
  rw [e1, e2] at hk
  refine ⟨hs.drop k, rest, ⟨hph, ?_⟩, Or.inl ⟨e1, rfl, ?_⟩, sweep_left_drop hs k rest hp⟩
  · show SwLay _ s1.chunk _ s1.limit _ _
    rw [e1, e2]; exact hk
  · show s.caml_gc_sweep_hp < (env.fl_merge_block s1 (Val_hp hp)).next
    rw [e4]
    exact h.lay_drop_lt k hk

/-- One iteration of the loop of sweep_slice ends the sweep phase or moves the
sweep position forward in heap order. -/
theorem SwInv.sw_step {env : Env} (hc : SweepCollab env) {st : SweepState} {hps : List Nat}
    {rest : List (Nat × List Nat)} (h : SwInv st.s hps rest) :
    ((sweep_step env st).work = 0 ∧ (sweep_step env st).s.caml_gc_phase = Phase_idle)
    ∨ ∃ hps' rest', SwInv (sweep_step env st).s hps' rest'
        ∧ SwAdv st.s rest (sweep_step env st).s rest'
        ∧ sweep_left hps' rest' < sweep_left hps rest := by
  obtain ⟨s, work⟩ := st
  obtain ⟨hph, hl⟩ := h
  simp only at hph hl
  simp only [sweep_step]
  by_cases hlt : s.caml_gc_sweep_hp < s.limit
  · rw [if_pos hlt]
    right
    obtain ⟨hs, e, -⟩ := HeapCtx.tiles_cons_of_ne hl.blocks (by omega)
    subst e
    have hpos := Bhsize_hd_pos (Hd_hp s.mem s.caml_gc_sweep_hp)
    by_cases hw : Color_hd (Hd_hp s.mem s.caml_gc_sweep_hp) = Caml_white
    · rw [if_pos hw]
      simp only [sweep_white]
      split_ifs with a1 a2
      · exact SwInv.sw_merge hc _ hph rfl rfl rfl rfl hl
          (hc.final_keep _ _ _ _ _ _ _ _ hl)
      · exact SwInv.sw_merge hc _ hph rfl rfl rfl rfl hl hl
      · exact SwInv.sw_merge hc _ hph rfl rfl rfl rfl hl hl
    · rw [if_neg hw]
      by_cases hb : Color_hd (Hd_hp s.mem s.caml_gc_sweep_hp) = Caml_blue
      · rw [if_pos hb]
        refine ⟨hs, rest, ⟨hph, hl.lay_tail⟩, Or.inl ⟨rfl, rfl, ?_⟩, ?_⟩
        · show s.caml_gc_sweep_hp < s.caml_gc_sweep_hp + _
          omega
        · unfold sweep_left; simp only [List.length_cons]; omega
      · rw [if_neg hb]
        refine ⟨hs, rest, ⟨hph, hl.lay_tail_write (fun a ha => Mem.set_other _ _ ha)⟩,
          Or.inl ⟨rfl, rfl, ?_⟩, ?_⟩
        · show s.caml_gc_sweep_hp < s.caml_gc_sweep_hp + _
          omega
        · unfold sweep_left; simp only [List.length_cons]; omega
  · rw [if_neg hlt]
    by_cases hz : Chunk_next s.mem s.chunk = 0
    · rw [if_pos hz]
      exact Or.inl ⟨rfl, rfl⟩
    · rw [if_neg hz]
      right
      cases rest with
      | nil => exact absurd hl.chunks hz
      | cons p rest' =>
        obtain ⟨k1, k2, k3⟩ := hl.lay_next
        refine ⟨p.2, rest', ⟨hph, k3⟩, Or.inr ⟨[], p, rfl, k1⟩, ?_⟩
        unfold sweep_left
        simp only [List.map_cons, List.sum_cons]
        omega

theorem SwAdv.adv_trans {s t u : State} {r1 r2 r3 : List (Nat × List Nat)}
    (h1 : SwAdv s r1 t r2) (h2 : SwAdv t r2 u r3) : SwAdv s r1 u r3 := by
  rcases h1 with ⟨a1, a2, a3⟩ | ⟨pre, p, a1, a2⟩
  · rcases h2 with ⟨b1, b2, b3⟩ | ⟨pre', p', b1, b2⟩
    · exact Or.inl ⟨b1.trans a1, b2.trans a2, lt_trans a3 b3⟩
    · exact Or.inr ⟨pre', p', by rw [← a2]; exact b1, b2⟩
  · rcases h2 with ⟨b1, b2, b3⟩ | ⟨pre', p', b1, b2⟩
    · exact Or.inr ⟨pre, p, by rw [b2]; exact a1, b1.trans a2⟩
    · refine Or.inr ⟨pre ++ p :: pre', p', ?_, b2⟩
      rw [a1, b1, List.append_assoc, List.cons_append]

theorem sweep_loop_stop (env : Env) (fuel : Nat) (st : SweepState) (h : st.work ≤ 0) :
    sweep_loop env fuel st = st := by
  cases fuel with
  | zero => rfl
  | succ f =>
    simp only [sweep_loop]
    rw [if_neg (by omega)]

theorem sweep_left_pos (hps : List Nat) (rest : List (Nat × List Nat)) :
    1 ≤ sweep_left hps rest := by
  unfold sweep_left
  omega

/-- The loop of sweep_slice: the sweep position does not go back, and goes
forward when an iteration is run; with as many iterations allowed as there
are blocks and chunks left, the loop ends by its own test. -/
theorem SwInv.sw_loop {env : Env} (hc : SweepCollab env) (fuel : Nat) {st : SweepState}
    {hps : List Nat} {rest : List (Nat × List Nat)} (h : SwInv st.s hps rest) :
    ((sweep_loop env fuel st).s.caml_gc_phase = Phase_idle
      ∨ ∃ hps' rest', SwInv (sweep_loop env fuel st).s hps' rest'
          ∧ sweep_left hps' rest' ≤ sweep_left hps rest
          ∧ (0 < st.work → 1 ≤ fuel →
              SwAdv st.s rest (sweep_loop env fuel st).s rest'
              ∧ sweep_left hps' rest' < sweep_left hps rest))
    ∧ (sweep_left hps rest ≤ fuel → (sweep_loop env fuel st).work ≤ 0) := by
  induction fuel generalizing st hps rest with
  | zero =>
    refine ⟨Or.inr ⟨hps, rest, h, le_refl _, fun _ h0 => absurd h0 (by decide)⟩, fun h0 => ?_⟩
    have := sweep_left_pos hps rest
    omega
  | succ fuel ih =>
    simp only [sweep_loop]
    by_cases hw : st.work > 0
    · rw [if_pos hw]
      rcases h.sw_step hc with ⟨k1, k2⟩ | ⟨hps', rest', k1, k2, k3⟩
      · rw [sweep_loop_stop env fuel _ (le_of_eq k1)]
        exact ⟨Or.inl k2, fun _ => le_of_eq k1⟩
      · obtain ⟨a, b⟩ := ih k1
        refine ⟨?_, fun h0 => b (by omega)⟩
        by_cases hgo : 0 < (sweep_step env st).work ∧ 1 ≤ fuel
        · rcases a with a | ⟨hps'', rest'', c1, c2, c3⟩
          · exact Or.inl a
          · obtain ⟨d1, d2⟩ := c3 hgo.1 hgo.2
            exact Or.inr ⟨hps'', rest'', c1, by omega,
              fun _ _ => ⟨k2.adv_trans d1, by omega⟩⟩
        · have hstop : sweep_loop env fuel (sweep_step env st) = sweep_step env st := by
            by_cases h1 : 0 < (sweep_step env st).work
            · have : fuel = 0 := by
                by_contra hne
                exact hgo ⟨h1, by omega⟩
              subst this
              rfl
            · exact sweep_loop_stop env fuel _ (by omega)
          rw [hstop]
          exact Or.inr ⟨hps', rest', k1, by omega, fun _ _ => ⟨k2, k3⟩⟩
    · rw [if_neg hw]
      exact ⟨Or.inr ⟨hps, rest, h, le_refl _, fun h0 => absurd h0 hw⟩, fun _ => by omega⟩

/-- Calls of sweep_slice with positive budgets, at least as many as there are
blocks and chunks left, end the sweep phase. -/
theorem SwInv.sw_sweeps {env : Env} (hc : SweepCollab env) (l : List (Nat × Int)) {s : State}
    {hps : List Nat} {rest : List (Nat × List Nat)} (h : SwInv s hps rest)
    (hl : ∀ p ∈ l, 1 ≤ p.1 ∧ 0 < p.2) (hn : sweep_left hps rest ≤ l.length) :
    (sweeps env l s).caml_gc_phase = Phase_idle := by
  induction l generalizing s hps rest with
  | nil =>
    have := sweep_left_pos hps rest
    simp only [List.length_nil] at hn
    omega
  | cons p l' ih =>
    simp only [sweeps]
    rw [if_pos h.1]
    obtain ⟨hp1, hp2⟩ := hl p (List.mem_cons_self _ _)
    have h' : SwInv ({ s := s, work := p.2 } : SweepState).s hps rest := h
    rcases (h'.sw_loop hc p.1).1 with a | ⟨hps', rest', c1, -, c3⟩
    · have e : sweep_slice env p.1 s p.2 = (sweep_loop env p.1 { s := s, work := p.2 }).s := rfl
      rw [e]
      generalize (sweep_loop env p.1 { s := s, work := p.2 }).s = t at a
      cases l' with
      | nil => exact a
      | cons q l'' =>
        simp only [sweeps]
        rw [if_neg (by rw [a]; decide)]
        exact a
    · obtain ⟨-, d2⟩ := c3 hp2 hp1
      simp only [List.length_cons] at hn
      exact ih c1 (fun q hq => hl q (List.mem_cons_of_mem _ hq)) (by omega)

/-- A well-formed heap is well-formed for another caml_darken_all_roots_slice
whose roots are values or blocks of the heap. -/
theorem HeapCtx.WF.wf_roots {c : HeapCtx} (wf : c.WF) (r : State → Int → List Nat × Nat)
    (hr : ∀ s w, ∀ x ∈ (r s w).1, c.VPtr x) :
    HeapCtx.WF { c with env := { c.env with roots_slice := r } } :=
  ⟨wf.chain, wf.chunks_sub, wf.all_blocks, wf.colors, wf.even, wf.hdr_fld, wf.fld_inj,
    wf.head_sep, wf.chunk_sep, wf.fwd_size, wf.pv, wf.weak_sub, wf.weak_links, hr, wf.final_ok⟩

theorem ex_ctx_two_wf : ex_ctx_two.WF := by
  refine HeapCtx.WF.wf_roots ex_ctx_wf _ ?_
  intro s w x hx
  have hx' : x ∈ (if roots_calls s.events = 0 then ([1008], w.toNat) else ([], 0)).1 := hx
  split_ifs at hx'
  · have : x = 1008 := by simpa using hx'
    subst this
    intro _ _
    exact ⟨1000, by decide, by unfold HeapCtx.white0; decide, by decide⟩
  · exact absurd hx' (List.not_mem_nil _)

theorem ex_env_two_roots_end : ex_ctx_two.RootsEnd 1 := by
  intro s w hw hn
  have e : ex_ctx_two.env.roots_slice s w
      = if roots_calls s.events = 0 then ([1008], w.toNat) else ([], 0) := rfl
  rw [e, if_neg (by omega)]
  exact hw

theorem ex_ctx_two_weak_list : ex_ctx_two.WeakList [] :=
  ⟨by simp only [wpath]; decide, List.nodup_nil, fun h hh => absurd hh (List.not_mem_nil _)⟩

/-- The free-list merge of the example heap, which only paints the block,
does what sweep_slice relies on. -/
theorem ex_env_two_sweep_collab : SweepCollab ex_ctx_two.env := by
  constructor
  · intro s hp hs rest h e
    refine ⟨0, ?_⟩
    show SwLay (set_Hd_val s.mem (Val_hp hp) _) s.chunk s.caml_gc_sweep_hp s.limit
      (hs.drop 0) rest
    rw [e, List.drop_zero]
    refine h.lay_tail_write (fun a ha => ?_)
    simp only [set_Hd_val, Val_hp, Nat.add_sub_cancel]
    exact Mem.set_other _ _ ha
  · intro fn v m chunk hp limit hps rest h
    exact h

theorem ex_sweep_inv : SwInv (ex_sweep 1000) [1000, 1024, 1048, 1064] [] := by
  refine ⟨rfl, by decide, ?_, ?_, ?_⟩
  · simp only [tiles]; decide
  · simp only [chain]; decide
  · simp only [rest_sep, chunk_cells]; decide

/-- C23, counterexample.  Two calls of mark_slice with a positive budget in
the mark phase that change neither the phase nor the subphase and scan
nothing.  In Subphase_roots, with roots that are integers, the call with
budget 3 is spent in caml_darken_all_roots_slice, which reports the whole
budget as done: the loop ends by its own test and the memory is unchanged.  In
Subphase_weak1 the call with budget 1 visits the weak array at 1008, of 5
words: the loop ends by its own test, weak_prev has moved to the array and the
header of every block is unchanged. -/
theorem mark_slice_without_scan_counterexample :
    (start_cycle ex_white).caml_gc_phase = Phase_mark
    ∧ (start_cycle ex_white).caml_gc_subphase = Subphase_roots
    ∧ (mark_loop ex_env_stall 10 (mark_enter (start_cycle ex_white) 3)).work = 0
    ∧ (mark_slice ex_env_stall 10 (start_cycle ex_white) 3).caml_gc_phase = Phase_mark
    ∧ (mark_slice ex_env_stall 10 (start_cycle ex_white) 3).caml_gc_subphase = Subphase_roots
    ∧ (mark_slice ex_env_stall 10 (start_cycle ex_white) 3).mem = (start_cycle ex_white).mem
    ∧ ex_weak.caml_gc_phase = Phase_mark
    ∧ ex_weak.caml_gc_subphase = Subphase_weak1
    ∧ (mark_loop ex_env 10 (mark_enter ex_weak 1)).work = -4
    ∧ (mark_slice ex_env 10 ex_weak 1).caml_gc_phase = Phase_mark
    ∧ (mark_slice ex_env 10 ex_weak 1).caml_gc_subphase = Subphase_weak1
    ∧ (mark_slice ex_env 10 ex_weak 1).weak_prev = 1008
    ∧ ∀ h ∈ [1000, 1040, 1056, 1072], (mark_slice ex_env 10 ex_weak 1).mem h = ex_weak.mem h :=
  ⟨by decide, by decide, by decide, by decide, by decide, rfl, by decide, by decide,
    by decide, by decide, by decide, by decide, by decide⟩

/-- C23, amended.  On a well-formed heap c, with a free list and finalizers
that leave the heap ahead of the sweep as it is (SweepCollab), a
caml_darken_all_roots_slice that reports the end of the roots once it has been
called N times (RootsEnd), and the weak list L:

* a call of sweep_slice with a positive budget in the sweep phase, in a state
  whose remaining heap is laid out as SwInv says, ends its loop by the loop
  test and either ends the phase or moves the sweep position (chunk,
  caml_gc_sweep_hp) strictly forward in heap order, with fewer blocks and
  chunks left;
* a call of mark_slice with a positive budget in the mark phase ends its loop
  by the loop test and either ends the phase or strictly lowers the measure of
  Pot, which counts the subphases, the calls of caml_darken_all_roots_slice
  and the weak arrays still to come, the unscanned words of the heap and the
  steps of the heap-order scan;
* hence, after start_cycle, at most mark_bound calls of mark_slice with
  positive budgets reach Phase_sweep, and at most sweep_left calls of
  sweep_slice with positive budgets reach Phase_idle. -/
theorem slices_reach_the_phase_change (c : HeapCtx) (wf : c.WF) (hc : SweepCollab c.env)
    (N : Nat) (L : List Nat) (hre : c.RootsEnd N) (hWL : c.WeakList L) :
    (∀ (s : State) (hps : List Nat) (rest : List (Nat × List Nat)) (fuel : Nat) (w : Int),
        SwInv s hps rest → 0 < w → sweep_left hps rest ≤ fuel →
        (sweep_loop c.env fuel { s := s, work := w }).work ≤ 0
        ∧ ((sweep_slice c.env fuel s w).caml_gc_phase = Phase_idle
          ∨ ∃ hps' rest', SwInv (sweep_slice c.env fuel s w) hps' rest'
              ∧ SwAdv s rest (sweep_slice c.env fuel s w) rest'
              ∧ sweep_left hps' rest' < sweep_left hps rest))
    ∧ (∀ (s : State) (n fuel : Nat) (w : Int),
        c.Pot N L s s.current_value s.current_index n → 0 < w → n ≤ fuel →
        (mark_loop c.env fuel (mark_enter s w)).work ≤ 0
        ∧ ((mark_slice c.env fuel s w).caml_gc_phase = Phase_sweep
          ∨ ∃ n', n' < n ∧ c.Pot N L (mark_slice c.env fuel s w)
              (mark_slice c.env fuel s w).current_value
              (mark_slice c.env fuel s w).current_index n'))
    ∧ (∀ s0 : State, s0.mem = c.m0 → s0.caml_heap_start = c.heap_start →
        s0.gray_vals = [] → 0 < s0.gray_vals_size → s0.current_value = 0 →
        s0.current_index = 0 →
        (∃ n, n ≤ c.mark_bound N L ∧ c.Pot N L (start_cycle s0)
            (start_cycle s0).current_value (start_cycle s0).current_index n)
        ∧ ∀ l : List (Nat × Int), (∀ p ∈ l, 1 ≤ p.1 ∧ 0 < p.2) →
            c.mark_bound N L ≤ l.length →
            (drive c.env l (start_cycle s0)).caml_gc_phase = Phase_sweep)
    ∧ (∀ (s : State) (hps : List Nat) (rest : List (Nat × List Nat)) (l : List (Nat × Int)),
        SwInv s hps rest → (∀ p ∈ l, 1 ≤ p.1 ∧ 0 < p.2) → sweep_left hps rest ≤ l.length →
        (sweeps c.env l s).caml_gc_phase = Phase_idle) := by
  refine ⟨?_, ?_, ?_, ?_⟩
  · intro s hps rest fuel w h hw hf
    have h' : SwInv ({ s := s, work := w } : SweepState).s hps rest := h
    obtain ⟨a, b⟩ := h'.sw_loop hc fuel
    refine ⟨b hf, ?_⟩
    rcases a with a | ⟨hps', rest', c1, -, c3⟩
    · exact Or.inl a
    · have h1 := sweep_left_pos hps rest
      obtain ⟨d1, d2⟩ := c3 hw (by omega)
      exact Or.inr ⟨hps', rest', c1, d1, d2⟩
  · intro s n fuel w hp hw hf
    obtain ⟨a, b⟩ := hp.pot_slice wf hre hWL fuel w
    refine ⟨b hf, ?_⟩
    rcases a with a | ⟨n', -, h2, h3⟩
    · exact Or.inl a
    · have h1 := hp.pot_pos
      exact Or.inr ⟨n', h2 hw (by omega), h3⟩
  · intro s0 hmem hhs hgv hsz hcv hci
    obtain ⟨n, hn, hp⟩ := HeapCtx.Pot.pot_start wf N hWL hmem hhs hgv hsz hcv hci
    exact ⟨⟨n, hn, hp⟩, fun l hl hlen => hp.pot_drive wf hre hWL l hl (by omega)⟩
  · intro s hps rest l h hl hlen
    exact h.sw_sweeps hc l hl hlen

/-- Witness of C23 on the example heap, whose caml_darken_all_roots_slice
needs two calls and whose measure at the start of the cycle is at most 222.
Calls of mark_slice with budget 1, 222 of them, end the mark phase; so do, by
evaluation, three calls with the budgets 1, 1 and 100, the first two of which
leave the phase at Phase_mark.  From the start of the heap, five calls of
sweep_slice with budget 1 end the sweep phase, and the first of them moves
caml_gc_sweep_hp from 1000 to 1024. -/
theorem slices_reach_the_phase_change_witness :
    ex_ctx_two.WF ∧ SweepCollab ex_ctx_two.env ∧ ex_ctx_two.RootsEnd 1
    ∧ ex_ctx_two.WeakList []
    ∧ ex_ctx_two.mark_bound 1 [] = 222
    ∧ (drive ex_env_two (List.replicate 222 (1, 1)) (start_cycle ex_white)).caml_gc_phase
        = Phase_sweep
    ∧ (drive ex_env_two [(222, 1), (222, 1)] (start_cycle ex_white)).caml_gc_phase = Phase_mark
    ∧ (drive ex_env_two [(222, 1), (222, 1), (222, 100)]
        (start_cycle ex_white)).caml_gc_phase = Phase_sweep
    ∧ SwInv (ex_sweep 1000) [1000, 1024, 1048, 1064] []
    ∧ (sweeps ex_env_two (List.replicate 5 (1, 1)) (ex_sweep 1000)).caml_gc_phase = Phase_idle
    ∧ (sweep_slice ex_env_two 5 (ex_sweep 1000) 1).caml_gc_sweep_hp = 1024 := by
  have h := slices_reach_the_phase_change ex_ctx_two ex_ctx_two_wf ex_env_two_sweep_collab 1 []
    ex_env_two_roots_end ex_ctx_two_weak_list
  refine ⟨ex_ctx_two_wf, ex_env_two_sweep_collab, ex_env_two_roots_end, ex_ctx_two_weak_list,
    by decide, ?_, by decide, by decide, ex_sweep_inv, ?_, by decide⟩
  · refine (h.2.2.1 ex_white rfl rfl rfl (by decide) rfl rfl).2 (List.replicate 222 (1, 1))
      (fun p hp => ?_) ?_
    · rw [List.eq_of_mem_replicate hp]; decide
    · rw [List.length_replicate]; decide
  · refine h.2.2.2 (ex_sweep 1000) [1000, 1024, 1048, 1064] [] (List.replicate 5 (1, 1))
      ex_sweep_inv (fun p hp => ?_) ?_
    · rw [List.eq_of_mem_replicate hp]; decide
    · rw [List.length_replicate]; decide

theorem asr2_shl2_or (pc b : Nat) (hpc : pc < 2 ^ 61) (hb : b < 4) :
    asr2 (((pc % 2 ^ 64) <<< 2) % 2 ^ 64 ||| b) = pc
    ∧ (((pc % 2 ^ 64) <<< 2) % 2 ^ 64 ||| b) >>> 2 = pc
    ∧ ((pc % 2 ^ 64) <<< 2) % 2 ^ 64 ||| b < 2 ^ 63 := by
  have e := shl2_or (pc % 2 ^ 64) b hb
  have e1 : pc % 2 ^ 64 % 2 ^ 62 = pc := by omega
  rw [e1] at e
  have h1 : (4 * pc + b) >>> 2 = pc := by
    rw [Nat.shiftRight_eq_div_pow]; omega
  have h2 : 4 * pc + b < 2 ^ 63 := by omega
  rw [e]
  refine ⟨?_, h1, h2⟩
  unfold asr2
  rw [if_pos h2, h1]

/-- C40.  For every program counter pc below 2^61, so that pc shifted left
by 2 fits in a 64-bit word without reaching the sign bit, decoding undoes
encoding: Decode_alloc_point_pc (Encode_alloc_point_pc (pc)) and
Decode_call_point_pc (Encode_call_point_pc (pc)) are pc, and Decode_c_node_pc
applied to Encode_c_node_pc_for_call (pc) or to
Encode_c_node_pc_for_alloc_point (pc) is pc, whether the encoded word is
shifted as the unsigned field of a c_node or as a signed value. -/
theorem shifted_pc_encodings_round_trip (pc : Nat) (hpc : pc < 2 ^ 61) :
    Decode_alloc_point_pc (Encode_alloc_point_pc pc) = pc
    ∧ Decode_call_point_pc (Encode_call_point_pc pc) = pc
    ∧ Decode_c_node_pc (Encode_c_node_pc_for_call pc) = pc
    ∧ Decode_c_node_pc (Encode_c_node_pc_for_alloc_point pc) = pc
    ∧ asr2 (Encode_c_node_pc_for_call pc) = pc
    ∧ asr2 (Encode_c_node_pc_for_alloc_point pc) = pc :=
  ⟨(asr2_shl2_or pc 1 hpc (by decide)).1, (asr2_shl2_or pc 3 hpc (by decide)).1,
    (asr2_shl2_or pc 3 hpc (by decide)).2.1, (asr2_shl2_or pc 1 hpc (by decide)).2.1,
    (asr2_shl2_or pc 3 hpc (by decide)).1, (asr2_shl2_or pc 1 hpc (by decide)).1⟩

/-- Witness of C40 at the program counter 0x401000: the encodings are
0x1004001 and 0x1004003 and both decode to 0x401000. -/
theorem shifted_pc_encodings_round_trip_witness :
    (4198400 : Nat) < 2 ^ 61
    ∧ Encode_alloc_point_pc 4198400 = 16793601
    ∧ Encode_call_point_pc 4198400 = 16793603
    ∧ Decode_alloc_point_pc (Encode_alloc_point_pc 4198400) = 4198400
    ∧ Decode_call_point_pc (Encode_call_point_pc 4198400) = 4198400
    ∧ Decode_c_node_pc (Encode_c_node_pc_for_call 4198400) = 4198400
    ∧ Decode_c_node_pc (Encode_c_node_pc_for_alloc_point 4198400) = 4198400 := by
  have h := shifted_pc_encodings_round_trip 4198400 (by decide)
  exact ⟨by decide, by decide, by decide, h.1, h.2.1, h.2.2.1, h.2.2.2.1⟩

theorem double_to_intnat_intCast (n : Int) : double_to_intnat (n : ℚ) = n := by
  unfold double_to_intnat
  split_ifs
  · exact Int.floor_intCast n
  · exact Int.ceil_intCast n

/-- The budget of a sweeping slice is the one of the comment. -/
theorem computed_work_sweep (s : State) (p : ℚ) (h : s.caml_gc_phase ≠ Phase_mark) :
    computed_work s p = documented_sweep_work s p := by
  unfold computed_work documented_sweep_work
  rw [if_neg h]

/-- C34, evaluated on the code.  In the mark phase with a heap of 1000 words,
caml_percent_free = 100, 100 words of roots and the proportion P = 1/5, the
code computes the budget 270 = P * (1000 * 250 / 200 + 100), where the formula
MS = P * (caml_stat_heap_wsz * 250 / (100 + caml_percent_free) + 2.5 *
caml_incremental_roots_count) of the comment gives 300: the roots are counted
once, not 2.5 times.  The budget of a sweeping slice is
P * caml_stat_heap_wsz * 5 / 3 truncated, as documented. -/
theorem mark_budget_counts_roots_once :
    ex_budget.caml_gc_phase = Phase_mark
    ∧ computed_work ex_budget (1 / 5) = 270
    ∧ documented_mark_work ex_budget (1 / 5) = 300
    ∧ computed_work ex_budget (1 / 5) ≠ documented_mark_work ex_budget (1 / 5)
    ∧ computed_work (ex_sweep 1000) (1 / 5) = documented_sweep_work (ex_sweep 1000) (1 / 5)
    ∧ computed_work (ex_sweep 1000) (1 / 5) = 341 := by
  have e1 : ex_budget.caml_gc_phase = Phase_mark := rfl
  have e2 : ex_budget.caml_stat_heap_wsz = 1000 := rfl
  have e3 : ex_budget.caml_percent_free = 100 := rfl
  have e4 : ex_budget.caml_incremental_roots_count = 100 := rfl
  have c1 : computed_work ex_budget (1 / 5) = 270 := by
    unfold computed_work
    rw [if_pos e1, e2, e3, e4]
    have : ((1 / 5 : ℚ) * (((1000 * 250 / (100 + 100) + 100) % 2 ^ 64 : Nat) : ℚ))
        = ((270 : Int) : ℚ) := by norm_num
    rw [this, double_to_intnat_intCast]
  have c2 : documented_mark_work ex_budget (1 / 5) = 300 := by
    unfold documented_mark_work
    rw [e2, e3, e4]
    have : ((1 / 5 : ℚ) * (((1000 : Nat) : ℚ) * 250 / ((100 + 100 : Nat) : ℚ)
        + 5 / 2 * ((100 : Nat) : ℚ))) = ((300 : Int) : ℚ) := by norm_num
    rw [this, double_to_intnat_intCast]
  have f1 : (ex_sweep 1000).caml_gc_phase ≠ Phase_mark := by decide
  have f2 : (ex_sweep 1000).caml_stat_heap_wsz = 1024 := rfl
  have c3 := computed_work_sweep (ex_sweep 1000) (1 / 5) f1
  have c4 : documented_sweep_work (ex_sweep 1000) (1 / 5) = 341 := by
    unfold documented_sweep_work double_to_intnat
    rw [f2]
    have : ((1 / 5 : ℚ) * ((1024 : Nat) : ℚ) * 5 / 3) = 1024 / 3 := by norm_num
    rw [this, if_pos (by norm_num)]
    rw [Int.floor_eq_iff]
    constructor <;> norm_num
  refine ⟨e1, c1, c2, ?_, c3, c3.trans c4⟩
  rw [c1, c2]
  decide

/-- The switch of the dump adds the words of the block to exactly one of the
seven counters. -/
theorem dump_block_one_counter (hd : Nat) (c : DumpCounters) :
    ∃ i, i < 7 ∧ dump_seven (dump_block hd c)
      = (dump_seven c).set i (add64 ((dump_seven c).getD i 0) (Whsize_hd hd)) := by
  simp only [dump_block]
  split_ifs
  · exact ⟨0, by decide, rfl⟩
  · exact ⟨3, by decide, rfl⟩
  · exact ⟨4, by decide, rfl⟩
  · exact ⟨5, by decide, rfl⟩
  · exact ⟨6, by decide, rfl⟩
  · exact ⟨1, by decide, rfl⟩
  · exact ⟨2, by decide, rfl⟩
  · exact ⟨2, by decide, rfl⟩

theorem dump_block_counted_exact (hd : Nat) (c : DumpCounters)
    (h : dump_counted c + Whsize_hd hd < 2 ^ 64) :
    dump_counted (dump_block hd c) = dump_counted c + Whsize_hd hd := by
  simp only [dump_block]
  split_ifs <;> simp only [dump_counted, add64] at h ⊢ <;> omega

theorem foldl_dump_block_exact (m : Mem) (hs : List Nat) (c : DumpCounters)
    (h : dump_counted c + total_words m hs < 2 ^ 64) :
    dump_counted (hs.foldl (fun c h => dump_block (Hd_hp m h) c) c)
      = dump_counted c + total_words m hs := by
  induction hs generalizing c with
  | nil => simp [total_words]
  | cons x hs ih =>
    simp only [total_words, List.map_cons, List.sum_cons] at h
    have h1 := dump_block_counted_exact (Hd_hp m x) c (by omega)
    rw [List.foldl_cons, ih _ (by rw [h1]; simp only [total_words]; omega), h1]
    simp only [total_words, List.map_cons, List.sum_cons]
    omega

theorem dump_seven_sum (c : DumpCounters) : (dump_seven c).sum = dump_counted c := by
  simp only [dump_seven, dump_counted, List.sum_cons, List.sum_nil]
  omega

/-- C36.  The switch of caml_dump_allocators_of_major_heap_blocks adds the
words of each block, header included, to exactly one of the seven counters
blue, accounted_for, unaccounted_for, builtin_return_address_failures,
constant_closures, structured_constants and compilation_units.  On a
well-formed heap whose blocks have fewer than 2^64 words in all, and with the
loops run to their end, the seven counters add up to the number of words,
headers included, of all blocks of all chunks. -/
theorem dump_counters_partition_the_heap (s : State) (chunks : List (Nat × List Nat))
    (fuel : Nat) (sample_strings : Int)
    (hl : HeapLayout s.mem s.caml_heap_start chunks)
    (hf : chunks.length ≤ fuel) (hb : ∀ p ∈ chunks, p.2.length ≤ fuel)
    (hw : total_words s.mem (all_headers chunks) < 2 ^ 64) :
    (∀ (hd : Nat) (c : DumpCounters), ∃ i, i < 7 ∧ dump_seven (dump_block hd c)
        = (dump_seven c).set i (add64 ((dump_seven c).getD i 0) (Whsize_hd hd)))
    ∧ (dump_seven (caml_dump_allocators_of_major_heap_blocks fuel s sample_strings)).sum
        = total_words s.mem (all_headers chunks) := by
  refine ⟨dump_block_one_counter, ?_⟩
  rw [dump_seven_sum]
  unfold caml_dump_allocators_of_major_heap_blocks
  have h0 : dump_counted (dump_init sample_strings) = 0 := rfl
  rw [dump_chunks_chain hl.1 hf hb, foldl_dump_block_exact _ _ _ (by rw [h0]; omega), h0]
  omega

/-- Witness of C36 on the example heap of two blocks of three words, the
first of which carries BUILTIN_RETURN_ADDRESS_FAILURE: the counters are 0, 3,
0, 3, 0, 0, 0 and add up to 6. -/
theorem dump_counters_partition_the_heap_witness :
    HeapLayout ex_prof.mem ex_prof.caml_heap_start [(1000, [1000, 1024])]
    ∧ total_words ex_prof.mem (all_headers [(1000, [1000, 1024])]) = 6
    ∧ dump_seven (caml_dump_allocators_of_major_heap_blocks 5 ex_prof 0)
        = [0, 3, 0, 3, 0, 0, 0]
    ∧ (dump_seven (caml_dump_allocators_of_major_heap_blocks 5 ex_prof 0)).sum
        = total_words ex_prof.mem (all_headers [(1000, [1000, 1024])]) :=
  ⟨ex_prof_layout, by decide, by decide,
    (dump_counters_partition_the_heap ex_prof [(1000, [1000, 1024])] 5 0 ex_prof_layout
      (by decide) (by decide) (by decide)).2⟩

/-- The size class is at most MAX_LOG2_OBJECT_SIZE. -/
theorem log2_object_size_le (env : ProfEnv) (hd : Nat) :
    log2_object_size env hd ≤ MAX_LOG2_OBJECT_SIZE := by
  unfold log2_object_size
  simp only
  split_ifs with h
  · exact le_refl _
  · exact not_lt.1 h

/-- The size class of a block of no words is negative when the logarithm of 0
is. -/
theorem log2_object_size_neg (env : ProfEnv) (hd : Nat) (h0 : env.log 0 < 0)
    (hz : Wosize_hd hd = 0) : log2_object_size env hd < 0 := by
  unfold log2_object_size
  simp only
  rw [hz]
  have hf : ⌊env.log ((0 : Nat) : ℚ)⌋ < 0 := by
    rw [Int.floor_lt]
    simpa using h0
  have hm : (0 : Int) ≤ MAX_LOG2_OBJECT_SIZE := by decide
  rw [if_neg (by omega)]
  exact hf

/-- The size class of a block of at least one word is not negative when the
logarithm is not negative from 1 on. -/
theorem log2_object_size_nonneg (env : ProfEnv) (hd : Nat)
    (hlog : ∀ x : ℚ, 1 ≤ x → 0 ≤ env.log x) (hz : 1 ≤ Wosize_hd hd) :
    0 ≤ log2_object_size env hd := by
  unfold log2_object_size
  simp only
  have hf : 0 ≤ ⌊env.log ((Wosize_hd hd : Nat) : ℚ)⌋ :=
    Int.floor_nonneg.2 (hlog _ (by exact_mod_cast hz))
  split_ifs
  · decide
  · exact hf

theorem ex_log_neg_near :
    |((ex_prof_env_neg.log 10 : ℚ) : ℝ) - Real.log 10| ≤ 1 / 2000
    ∧ |((ex_prof_env_neg.log 10001 : ℚ) : ℝ) - Real.log 10001| ≤ 1 / 2000 := by
  have e10 : ex_prof_env_neg.log 10 = ex_prof_env.log 10 := by
    norm_num [ex_prof_env_neg, ex_prof_env, ex_log_neg]
  have e10001 : ex_prof_env_neg.log 10001 = ex_prof_env.log 10001 := by
    norm_num [ex_prof_env_neg, ex_prof_env, ex_log_neg]
  rw [e10, e10001]
  exact ex_log_near.2

/-- C38, evaluated on the code.  The header ex_empty_hd of a block of no words
carries the allocation time 10; sampled in the major heap at time 10010 it is
accepted in lifetime bucket 333, which is below num_lifetime_buckets = 1000.
The size class computed at line 590 is the floor of the logarithm of 0, here
-1000: it is below 0, the lowest index of the arrays, and only the upper
bound MAX_LOG2_OBJECT_SIZE is enforced.  The sample is counted at that index:
the accumulator of class -1000 is 1 and those of classes 0 to 9 are 0. -/
theorem lifetime_size_class_below_zero :
    Wosize_hd ex_empty_hd = 0
    ∧ Decode_profinfo_hd ex_empty_hd = 10
    ∧ ex_prof_env_neg.log 0 < 0
    ∧ log2_object_size ex_prof_env_neg ex_empty_hd = -1000
    ∧ log2_object_size ex_prof_env_neg ex_empty_hd < 0
    ∧ log2_object_size ex_prof_env_neg ex_empty_hd ≤ MAX_LOG2_OBJECT_SIZE
    ∧ lifetime_bucket_index lifetime_default (log10_lifetime ex_prof_env_neg 10 10010) = 333
    ∧ ∃ st, caml_record_lifetime_sample ex_prof_env_neg lifetime_start ex_empty_hd 1 10010
          = some st
        ∧ st.num_lifetime_buckets = 1000
        ∧ (lifetime_acc st.lifetime_buckets_major 333).num_blocks_by_log2_object_size
            (-1000) = 1
        ∧ (lifetime_acc st.lifetime_buckets_major 333).total_blocks = 1
        ∧ sum_classes
            (lifetime_acc st.lifetime_buckets_major 333).num_blocks_by_log2_object_size
            = 0 := by
  have hw : Wosize_hd ex_empty_hd = 0 := by decide
  have ha : Decode_profinfo_hd ex_empty_hd = 10 := by decide
  have h0 : ex_prof_env_neg.log 0 = -1000 := by
    norm_num [ex_prof_env_neg, ex_log_neg]
  have hk : log2_object_size ex_prof_env_neg ex_empty_hd = -1000 := by
    unfold log2_object_size
    rw [hw]
    have e0 : ex_prof_env_neg.log ((0 : Nat) : ℚ) = ((-1000 : Int) : ℚ) := by
      rw [Nat.cast_zero, h0]; norm_num
    simp only [e0, Int.floor_intCast]
    decide
  obtain ⟨hidx, h⟩ := record_lifetime_sample_10001 ex_prof_env_neg ex_empty_hd 1
    rfl rfl rfl ex_log_neg_near.1 ex_log_neg_near.2 ha
  refine ⟨hw, ha, by rw [h0]; norm_num, hk, by rw [hk]; decide, by rw [hk]; decide, hidx,
    _, h, ?_⟩
  simp only [ne_eq, one_ne_zero, not_false_eq_true, if_true, lifetime_acc, lifetime_count,
    lifetime_bucket_zero, hk, hw, sum_classes]
  refine ⟨rfl, ?_, ?_, ?_⟩ <;> decide

theorem sum_classes_eq (f : Int → Nat) :
    sum_classes f = f 0 + f 1 + f 2 + f 3 + f 4 + f 5 + f 6 + f 7 + f 8 + f 9 := by
  simp [sum_classes, List.range, List.range.loop]
  omega

/-- Adding d, as uint64_t, to the accumulator of one size class of the C
array adds d to the sum over the classes. -/
theorem sum_classes_update (f : Int → Nat) (k : Int) (d : Nat) (h0 : 0 ≤ k)
    (h9 : k ≤ MAX_LOG2_OBJECT_SIZE) :
    sum_classes (fun j => if j = k then add64 (f j) d else f j) % 2 ^ 64
      = (sum_classes f + d) % 2 ^ 64 := by
  have h9' : k ≤ 9 := h9
  rw [sum_classes_eq, sum_classes_eq]
  interval_cases k <;> simp [add64] <;> omega

theorem acc_le_refl (d x : Nat) : acc_le d x x := Or.inl (le_refl x)

theorem acc_le_add64 (d e x : Nat) (h : e ≤ d) : acc_le d x (add64 x e) := by
  unfold acc_le add64
  omega

theorem bucket_le_refl (d : Nat) (x : lifetime_bucket) : bucket_le d x x :=
  ⟨acc_le_refl _ _, acc_le_refl _ _, fun _ => ⟨acc_le_refl _ _, acc_le_refl _ _⟩⟩

/-- The bucket that lines 597 to 601 update keeps its totals equal to the
sums over the size classes, and none of its accumulators decreases. -/
theorem lifetime_count_ok (f : Nat → lifetime_bucket) (b : Nat) (k : Int) (hd : Nat)
    (h0 : 0 ≤ k) (h9 : k ≤ MAX_LOG2_OBJECT_SIZE) (i : Nat) (hok : bucket_sums_ok (f i)) :
    bucket_sums_ok (lifetime_count f b k hd i)
    ∧ bucket_le (Wosize_hd hd + 1) (f i) (lifetime_count f b k hd i) := by
  unfold lifetime_count
  by_cases hi : i = b
  · subst hi
    rw [if_pos rfl]
    obtain ⟨k1, k2⟩ := hok
    refine ⟨⟨?_, ?_⟩, acc_le_add64 _ _ _ (by omega), acc_le_add64 _ _ _ (by omega),
      fun j => ?_⟩
    · show add64 (f i).total_blocks 1 % 2 ^ 64 = _
      rw [sum_classes_update _ k 1 h0 h9]
      unfold add64
      omega
    · show add64 (f i).total_words (Wosize_hd hd) % 2 ^ 64 = _
      rw [sum_classes_update _ k (Wosize_hd hd) h0 h9]
      unfold add64
      omega
    · by_cases hj : j = k
      · simp only [hj, if_true]
        exact ⟨acc_le_add64 _ _ _ (by omega), acc_le_add64 _ _ _ (by omega)⟩
      · simp only [hj, if_false]
        exact ⟨acc_le_refl _ _, acc_le_refl _ _⟩
  · rw [if_neg hi]
    exact ⟨hok, bucket_le_refl _ _⟩

theorem lifetime_start_ok : hist_ok lifetime_start.lifetime_buckets_minor
    ∧ hist_ok lifetime_start.lifetime_buckets_major := by
  constructor <;> intro b <;> exact ⟨rfl, rfl⟩

/-- What caml_record_lifetime_sample returns: the state it was given, the
state with the buckets set up, or that state with the sample counted in the
histogram chosen by in_major_heap. -/
theorem record_lifetime_sample_cases (env : ProfEnv) (st st' : LifetimeState) (hd : Nat)
    (in_major_heap : Int) (now : Nat)
    (h : caml_record_lifetime_sample env st hd in_major_heap now = some st') :
    st' = st ∨ lifetime_ready env st = some st'
    ∨ ∃ st1 f b, lifetime_ready env st = some st1
        ∧ ((in_major_heap ≠ 0 ∧ st1.lifetime_buckets_major = some f
            ∧ st' = { st1 with
                lifetime_buckets_major := some (lifetime_count f b (log2_object_size env hd) hd) })
          ∨ (in_major_heap = 0 ∧ st1.lifetime_buckets_minor = some f
            ∧ st' = { st1 with
                lifetime_buckets_minor := some (lifetime_count f b (log2_object_size env hd) hd) })) := by
  simp only [caml_record_lifetime_sample] at h
  by_cases a1 : Decode_profinfo_hd hd > 0
  swap
  · rw [if_neg a1] at h
    exact Or.inl (Option.some.inj h).symm
  rw [if_pos a1] at h
  by_cases a2 : now ≥ Decode_profinfo_hd hd
  swap
  · rw [if_neg a2] at h
    exact Or.inl (Option.some.inj h).symm
  rw [if_pos a2] at h
  cases hr : lifetime_ready env st with
  | none => rw [hr] at h; exact absurd h (by simp)
  | some st1 =>
    rw [hr] at h
    simp only at h
    by_cases a3 : log10_lifetime env (Decode_profinfo_hd hd) now ≥ st1.lifetime_log10_bytes_min
        ∧ log10_lifetime env (Decode_profinfo_hd hd) now < st1.lifetime_log10_bytes_max
    swap
    · rw [if_neg a3] at h
      exact Or.inr (Or.inl (by rw [h]))
    rw [if_pos a3] at h
    by_cases a4 : lifetime_bucket_index st1 (log10_lifetime env (Decode_profinfo_hd hd) now)
        < st1.num_lifetime_buckets
    swap
    · rw [if_neg a4] at h
      exact Or.inr (Or.inl (by rw [h]))
    rw [if_pos a4] at h
    by_cases a5 : in_major_heap ≠ 0
    · rw [if_pos a5] at h
      cases hg : st1.lifetime_buckets_major with
      | none => rw [hg] at h; exact absurd h (by simp)
      | some g =>
        rw [hg] at h
        exact Or.inr (Or.inr ⟨st1, g, _, rfl, Or.inl ⟨a5, hg, (Option.some.inj h).symm⟩⟩)
    · rw [if_neg a5] at h
      cases hf : st1.lifetime_buckets_minor with
      | none => rw [hf] at h; exact absurd h (by simp)
      | some f =>
        rw [hf] at h
        exact Or.inr (Or.inr ⟨st1, f, _, rfl,
          Or.inr ⟨not_not.1 a5, hf, (Option.some.inj h).symm⟩⟩)

theorem hist_ok_congr {a a' : Option (Nat → lifetime_bucket)}
    (h : ∀ b, lifetime_acc a' b = lifetime_acc a b) (hok : hist_ok a) : hist_ok a' := by
  intro b
  rw [h b]
  exact hok b

theorem ex_log_nonneg : ∀ x : ℚ, 1 ≤ x → 0 ≤ ex_prof_env.log x := by
  intro x _
  show 0 ≤ ex_log x
  unfold ex_log
  split_ifs <;> norm_num

/-- The totals of the lifetime buckets for blocks of at least one word.  For
every bucket of the minor and of the major histogram total_blocks is the sum
of num_blocks_by_log2_object_size over the size classes 0 to
MAX_LOG2_OBJECT_SIZE and total_words is the sum of
num_words_by_log2_object_size, as uint64_t.  This holds when the program
starts, and a call of caml_record_lifetime_sample for a block of at least one
word, with a logarithm that is not negative from 1 on, keeps it; no
accumulator decreases unless the addition passes 2^64, and the histogram
that in_major_heap does not select holds what it held.  The two arrays are
taken to have been allocated together. -/
theorem lifetime_totals_are_sums (env : ProfEnv) (st st' : LifetimeState) (hd : Nat)
    (in_major_heap : Int) (now : Nat)
    (hinv : st.lifetime_buckets_minor = none → st.lifetime_buckets_major = none)
    (hlog : ∀ x : ℚ, 1 ≤ x → 0 ≤ env.log x) (hz : 1 ≤ Wosize_hd hd)
    (hok : hist_ok st.lifetime_buckets_minor ∧ hist_ok st.lifetime_buckets_major)
    (h : caml_record_lifetime_sample env st hd in_major_heap now = some st') :
    (hist_ok lifetime_start.lifetime_buckets_minor
      ∧ hist_ok lifetime_start.lifetime_buckets_major)
    ∧ (hist_ok st'.lifetime_buckets_minor ∧ hist_ok st'.lifetime_buckets_major)
    ∧ (∀ b, bucket_le (Wosize_hd hd + 1) (lifetime_acc st.lifetime_buckets_minor b)
              (lifetime_acc st'.lifetime_buckets_minor b)
          ∧ bucket_le (Wosize_hd hd + 1) (lifetime_acc st.lifetime_buckets_major b)
              (lifetime_acc st'.lifetime_buckets_major b))
    ∧ (in_major_heap ≠ 0 → ∀ b, lifetime_acc st'.lifetime_buckets_minor b
          = lifetime_acc st.lifetime_buckets_minor b)
    ∧ (in_major_heap = 0 → ∀ b, lifetime_acc st'.lifetime_buckets_major b
          = lifetime_acc st.lifetime_buckets_major b) := by
  refine ⟨lifetime_start_ok, ?_⟩
  have h0 := log2_object_size_nonneg env hd hlog hz
  have h9 := log2_object_size_le env hd
  rcases record_lifetime_sample_cases env st st' hd in_major_heap now h with
    e | e | ⟨st1, f, b, hr, hcase⟩
  · subst e
    exact ⟨hok, fun b => ⟨bucket_le_refl _ _, bucket_le_refl _ _⟩, fun _ _ => rfl,
      fun _ _ => rfl⟩
  · have ha := lifetime_ready_acc env st st' hinv e
    refine ⟨⟨hist_ok_congr (fun b => (ha b).1) hok.1, hist_ok_congr (fun b => (ha b).2) hok.2⟩,
      fun b => ?_, fun _ b => (ha b).1, fun _ b => (ha b).2⟩
    rw [(ha b).1, (ha b).2]
    exact ⟨bucket_le_refl _ _, bucket_le_refl _ _⟩
  · have ha := lifetime_ready_acc env st st1 hinv hr
    rcases hcase with ⟨hm, hg, e⟩ | ⟨hm, hf, e⟩
    · subst e
      have eg : ∀ i, f i = lifetime_acc st.lifetime_buckets_major i := by
        intro i
        rw [← (ha i).2, hg]
        rfl
      have key : ∀ i, bucket_sums_ok (lifetime_count f b (log2_object_size env hd) hd i)
          ∧ bucket_le (Wosize_hd hd + 1) (f i)
              (lifetime_count f b (log2_object_size env hd) hd i) :=
        fun i => lifetime_count_ok f b _ hd h0 h9 i (by rw [eg]; exact hok.2 i)
      refine ⟨⟨hist_ok_congr (fun i => (ha i).1) hok.1, fun i => (key i).1⟩,
        fun i => ⟨?_, ?_⟩, fun _ i => (ha i).1, fun hc => absurd hc hm⟩
      · show bucket_le _ _ (lifetime_acc st1.lifetime_buckets_minor i)
        rw [(ha i).1]
        exact bucket_le_refl _ _
      · rw [← eg]
        exact (key i).2
    · subst e
      have ef : ∀ i, f i = lifetime_acc st.lifetime_buckets_minor i := by
        intro i
        rw [← (ha i).1, hf]
        rfl
      have key : ∀ i, bucket_sums_ok (lifetime_count f b (log2_object_size env hd) hd i)
          ∧ bucket_le (Wosize_hd hd + 1) (f i)
              (lifetime_count f b (log2_object_size env hd) hd i) :=
        fun i => lifetime_count_ok f b _ hd h0 h9 i (by rw [ef]; exact hok.1 i)
      refine ⟨⟨fun i => (key i).1, hist_ok_congr (fun i => (ha i).2) hok.2⟩,
        fun i => ⟨?_, ?_⟩, fun hc => absurd hm hc, fun _ i => (ha i).2⟩
      · rw [← ef]
        exact (key i).2
      · show bucket_le _ _ (lifetime_acc st1.lifetime_buckets_major i)
        rw [(ha i).2]
        exact bucket_le_refl _ _

/-- The totals on the example: the block of 8 words allocated at time 10 is
sampled in the minor heap at time 10010 at the start of the program.  The totals of
bucket 333 of the minor histogram are 1 block and 8 words, in agreement with
the size classes, and the major histogram holds nothing. -/
theorem lifetime_totals_are_sums_witness :
    1 ≤ Wosize_hd ex_sample_hd
    ∧ ∃ st, caml_record_lifetime_sample ex_prof_env lifetime_start ex_sample_hd 0 10010
          = some st
        ∧ hist_ok st.lifetime_buckets_minor
        ∧ hist_ok st.lifetime_buckets_major
        ∧ (lifetime_acc st.lifetime_buckets_minor 333).total_blocks = 1
        ∧ (lifetime_acc st.lifetime_buckets_minor 333).total_words = 8
        ∧ ∀ b, lifetime_acc st.lifetime_buckets_major b
            = lifetime_acc lifetime_start.lifetime_buckets_major b := by
  have ha : Decode_profinfo_hd ex_sample_hd = 10 := by decide
  have hw : Wosize_hd ex_sample_hd = 8 := by decide
  obtain ⟨-, h⟩ := record_lifetime_sample_10001 ex_prof_env ex_sample_hd 0
    rfl rfl rfl ex_log_near.2.1 ex_log_near.2.2 ha
  have k := lifetime_totals_are_sums ex_prof_env lifetime_start _ ex_sample_hd 0 10010
    (fun _ => rfl) ex_log_nonneg (by decide) lifetime_start_ok h
  refine ⟨by decide, _, h, k.2.1.1, k.2.1.2, ?_, ?_, k.2.2.2.2 rfl⟩
  · simp only [ne_eq, not_true_eq_false, if_false, lifetime_acc, lifetime_count, if_true,
      lifetime_bucket_zero]
    decide
  · simp only [ne_eq, not_true_eq_false, if_false, lifetime_acc, lifetime_count, if_true,
      lifetime_bucket_zero, hw]
    decide

theorem slice_window_index (env : Env) (fuel : Nat) (s : State) (howmuch : Int) :
    (caml_major_collection_slice env fuel s howmuch).caml_major_window = s.caml_major_window
    ∧ (caml_major_collection_slice env fuel s howmuch).caml_major_ring_index
        = (slice_distribute s).caml_major_ring_index := by
  obtain ⟨-, a2, a3, -⟩ := slice_pacing_result env fuel s howmuch
  rw [a2, a3]
  constructor
  · show (slice_credit (slice_distribute s) howmuch).caml_major_window = _
    rw [slice_credit_window, slice_distribute_window]
  · show (slice_credit (slice_distribute s) howmuch).caml_major_ring_index = _
    simp only [slice_credit]
    split_ifs <;> rfl

theorem slice_distribute_index_cases (s : State) :
    (slice_distribute s).caml_major_ring_index = s.caml_major_ring_index
    ∨ (slice_distribute s).caml_major_ring_index = 0
    ∨ ((slice_distribute s).caml_major_ring_index = s.caml_major_ring_index + 1
        ∧ s.caml_major_ring_index + 1 < s.caml_major_window) := by
  simp only [slice_distribute]
  split_ifs with h1 h2
  · exact Or.inr (Or.inl rfl)
  · exact Or.inr (Or.inr ⟨rfl, by simpa using h2⟩)
  · exact Or.inl rfl

theorem set_major_window_window (s : State) (w : Nat) :
    (caml_set_major_window s w).caml_major_window = w
    ∧ (caml_set_major_window s w).caml_major_ring_index = s.caml_major_ring_index := by
  simp only [caml_set_major_window]
  split_ifs with h
  · exact ⟨h.symm, rfl⟩
  · exact ⟨rfl, rfl⟩

/-- One operation keeps the window between 1 and Max_major_window and the
index below Max_major_window. -/
theorem run_op_bounds (env : Env) (s : State) (op : PacingOp) (hop : op_ok op)
    (h : 1 ≤ s.caml_major_window ∧ s.caml_major_window ≤ Max_major_window
      ∧ s.caml_major_ring_index < Max_major_window) :
    1 ≤ (run_op env s op).caml_major_window
    ∧ (run_op env s op).caml_major_window ≤ Max_major_window
    ∧ (run_op env s op).caml_major_ring_index < Max_major_window := by
  obtain ⟨h1, h2, h3⟩ := h
  cases op with
  | slice fuel howmuch =>
    obtain ⟨e1, e2⟩ := slice_window_index env fuel s howmuch
    have er : run_op env s (PacingOp.slice fuel howmuch)
        = caml_major_collection_slice env fuel s howmuch := rfl
    rw [er, e1, e2]
    refine ⟨h1, h2, ?_⟩
    rcases slice_distribute_index_cases s with e | e | ⟨e, e'⟩
    · rw [e]; exact h3
    · rw [e]; decide
    · rw [e]; omega
  | set_window w =>
    obtain ⟨e1, e2⟩ := set_major_window_window s w
    have er : run_op env s (PacingOp.set_window w) = caml_set_major_window s w := rfl
    rw [er, e1, e2]
    exact ⟨hop.1, hop.2, h3⟩
  | clock_add d => exact ⟨h1, h2, h3⟩

theorem run_ops_bounds (env : Env) (ops : List PacingOp) (s : State)
    (hops : ∀ op ∈ ops, op_ok op)
    (h : 1 ≤ s.caml_major_window ∧ s.caml_major_window ≤ Max_major_window
      ∧ s.caml_major_ring_index < Max_major_window) :
    1 ≤ (run_ops env ops s).caml_major_window
    ∧ (run_ops env ops s).caml_major_window ≤ Max_major_window
    ∧ (run_ops env ops s).caml_major_ring_index < Max_major_window := by
  induction ops generalizing s with
  | nil => exact h
  | cons op rest ih =>
    exact ih (run_op env s op) (fun o ho => hops o (List.mem_cons_of_mem _ ho))
      (run_op_bounds env s op (hops op (List.mem_cons_self _ _)) h)

theorem slice_clock (env : Env) (fuel : Nat) (s : State) (howmuch : Int) :
    (caml_major_collection_slice env fuel s howmuch).caml_gc_clock
      = (slice_distribute s).caml_gc_clock := by
  obtain ⟨-, -, -, -, a5, -⟩ := slice_pacing_result env fuel s howmuch
  rw [a5]
  show (slice_credit (slice_distribute s) howmuch).caml_gc_clock = _
  simp only [slice_credit]
  split_ifs <;> rfl

/-- A slice at a clock tick that does not wrap: the index moves to the next
bucket. -/
theorem slice_tick (env : Env) (fuel : Nat) (s : State) (howmuch : Int)
    (hc : 1 ≤ s.caml_gc_clock) (hi : s.caml_major_ring_index + 1 < s.caml_major_window) :
    (caml_major_collection_slice env fuel s howmuch).caml_major_window = s.caml_major_window
    ∧ (caml_major_collection_slice env fuel s howmuch).caml_major_ring_index
        = s.caml_major_ring_index + 1
    ∧ (caml_major_collection_slice env fuel s howmuch).caml_gc_clock = s.caml_gc_clock - 1 := by
  obtain ⟨e1, e2⟩ := slice_window_index env fuel s howmuch
  rw [e1, e2, slice_clock]
  simp only [slice_distribute]
  rw [if_pos (show s.caml_gc_clock ≥ 1 from hc)]
  simp only [true_and]
  refine ⟨?_, trivial⟩
  rw [if_neg (by omega)]

/-- Without a clock tick slice_distribute leaves the index where it is. -/
theorem slice_distribute_no_tick (s : State) (hc : s.caml_gc_clock < 1) :
    (slice_distribute s).caml_major_ring_index = s.caml_major_ring_index := by
  simp only [slice_distribute]
  rw [if_neg (by simpa using hc)]

theorem set_major_window_clock (s : State) (w : Nat) :
    (caml_set_major_window s w).caml_gc_clock = s.caml_gc_clock := by
  simp only [caml_set_major_window]
  split_ifs <;> rfl

/-- The window, the index and the clock after the operations of the example:
the window is set to 3, the clock is advanced by 2, two automatic slices are
run and the window is set to 1. -/
theorem ex_ring_run :
    (run_ops ex_env [PacingOp.set_window 3, PacingOp.clock_add 2, PacingOp.slice 5 (-1),
        PacingOp.slice 5 (-1)] ex_idle).caml_major_ring_index = 2
    ∧ (run_ops ex_env [PacingOp.set_window 3, PacingOp.clock_add 2, PacingOp.slice 5 (-1),
        PacingOp.slice 5 (-1), PacingOp.set_window 1] ex_idle).caml_major_ring_index = 2
    ∧ (run_ops ex_env [PacingOp.set_window 3, PacingOp.clock_add 2, PacingOp.slice 5 (-1),
        PacingOp.slice 5 (-1), PacingOp.set_window 1] ex_idle).caml_major_window = 1
    ∧ (run_ops ex_env [PacingOp.set_window 3, PacingOp.clock_add 2, PacingOp.slice 5 (-1),
        PacingOp.slice 5 (-1), PacingOp.set_window 1] ex_idle).caml_gc_clock = 0 := by
  have a0 : ex_idle.caml_major_ring_index = 0 := rfl
  have c0 : ex_idle.caml_gc_clock = 0 := rfl
  simp only [run_ops, List.foldl_cons, List.foldl_nil]
  generalize hs1 : run_op ex_env ex_idle (PacingOp.set_window 3) = s1
  have w1 : s1.caml_major_window = 3 := by
    rw [← hs1]; exact (set_major_window_window ex_idle 3).1
  have i1 : s1.caml_major_ring_index = 0 := by
    rw [← hs1]; exact (set_major_window_window ex_idle 3).2.trans a0
  have c1 : s1.caml_gc_clock = 0 := by
    rw [← hs1]; exact (set_major_window_clock ex_idle 3).trans c0
  generalize hs2 : run_op ex_env s1 (PacingOp.clock_add 2) = s2
  have w2 : s2.caml_major_window = 3 := by rw [← hs2]; exact w1
  have i2 : s2.caml_major_ring_index = 0 := by rw [← hs2]; exact i1
  have c2 : s2.caml_gc_clock = 2 := by
    rw [← hs2]
    show s1.caml_gc_clock + 2 = 2
    rw [c1]; norm_num
  generalize hs3 : run_op ex_env s2 (PacingOp.slice 5 (-1)) = s3
  obtain ⟨w3, i3, c3⟩ := slice_tick ex_env 5 s2 (-1) (by rw [c2]; norm_num)
    (by rw [i2, w2]; decide)
  have er3 : run_op ex_env s2 (PacingOp.slice 5 (-1))
      = caml_major_collection_slice ex_env 5 s2 (-1) := rfl
  rw [← er3, hs3] at w3 i3 c3
  rw [w2] at w3
  rw [i2] at i3
  rw [c2] at c3
  generalize hs4 : run_op ex_env s3 (PacingOp.slice 5 (-1)) = s4
  obtain ⟨w4, i4, c4⟩ := slice_tick ex_env 5 s3 (-1) (by rw [c3]; norm_num)
    (by rw [i3, w3]; decide)
  have er4 : run_op ex_env s3 (PacingOp.slice 5 (-1))
      = caml_major_collection_slice ex_env 5 s3 (-1) := rfl
  rw [← er4, hs4] at w4 i4 c4
  rw [w3] at w4
  rw [i3] at i4
  rw [c3] at c4
  have er5 : run_op ex_env s4 (PacingOp.set_window 1) = caml_set_major_window s4 1 := rfl
  rw [er5, (set_major_window_window s4 1).1, (set_major_window_window s4 1).2,
    set_major_window_clock, i4, c4]
  norm_num

/-- C39, counterexample.  From the initial values, window 1, index 0 and clock
0, the window is set to 3, the minor collector advances the clock by 2 and two
automatic slices move the index to 2; caml_set_major_window (1) then leaves
the index at 2, which is not below the window 1, and the next automatic slice
reads and clears the bucket 2, outside the window. -/
theorem ring_index_outside_window_counterexample :
    ex_idle.caml_major_window = 1
    ∧ ex_idle.caml_major_ring_index = 0
    ∧ ex_idle.caml_gc_clock = 0
    ∧ (run_ops ex_env [PacingOp.set_window 3, PacingOp.clock_add 2, PacingOp.slice 5 (-1),
        PacingOp.slice 5 (-1)] ex_idle).caml_major_ring_index = 2
    ∧ (run_ops ex_env [PacingOp.set_window 3, PacingOp.clock_add 2, PacingOp.slice 5 (-1),
        PacingOp.slice 5 (-1), PacingOp.set_window 1] ex_idle).caml_major_ring_index = 2
    ∧ (run_ops ex_env [PacingOp.set_window 3, PacingOp.clock_add 2, PacingOp.slice 5 (-1),
        PacingOp.slice 5 (-1), PacingOp.set_window 1] ex_idle).caml_major_window = 1
    ∧ slice_bucket (slice_distribute (run_ops ex_env [PacingOp.set_window 3,
        PacingOp.clock_add 2, PacingOp.slice 5 (-1), PacingOp.slice 5 (-1),
        PacingOp.set_window 1] ex_idle)) (-1) = some 2 := by
  obtain ⟨h1, h2, h3, h4⟩ := ex_ring_run
  refine ⟨rfl, rfl, rfl, h1, h2, h3, ?_⟩
  simp only [slice_bucket, if_true]
  rw [slice_distribute_no_tick _ (by rw [h4]; norm_num), h2]

/-- C39, amended.  From a state with window 1 and index 0, any sequence of
calls of caml_major_collection_slice, of calls of caml_set_major_window (w)
with 1 <= w <= Max_major_window and of advances of caml_gc_clock by the minor
collector leads to a state with 1 <= caml_major_window <= Max_major_window and
0 <= caml_major_ring_index < Max_major_window, so the bucket that the next
slice reads or clears lies inside the array caml_major_ring.  The index is
below the window after a slice when it was before, and after
caml_set_major_window (w) when it is below w; caml_set_major_window leaves the
index as it is. -/
theorem ring_index_inside_array (env : Env) (ops : List PacingOp) (s0 : State)
    (hw : s0.caml_major_window = 1) (hi : s0.caml_major_ring_index = 0)
    (hops : ∀ op ∈ ops, op_ok op) :
    (1 ≤ (run_ops env ops s0).caml_major_window
      ∧ (run_ops env ops s0).caml_major_window ≤ Max_major_window
      ∧ (run_ops env ops s0).caml_major_ring_index < Max_major_window)
    ∧ (∀ (howmuch : Int) (b : Nat),
        slice_bucket (slice_distribute (run_ops env ops s0)) howmuch = some b →
        b < Max_major_window)
    ∧ (∀ (s : State) (fuel : Nat) (howmuch : Int),
        s.caml_major_ring_index < s.caml_major_window →
        (caml_major_collection_slice env fuel s howmuch).caml_major_ring_index
          < (caml_major_collection_slice env fuel s howmuch).caml_major_window)
    ∧ (∀ (s : State) (w : Nat),
        (caml_set_major_window s w).caml_major_ring_index = s.caml_major_ring_index
        ∧ (caml_set_major_window s w).caml_major_window = w) := by
  have hb := run_ops_bounds env ops s0 hops
    ⟨by rw [hw], by rw [hw]; decide, by rw [hi]; decide⟩
  refine ⟨hb, ?_, ?_, fun s w => ⟨(set_major_window_window s w).2,
    (set_major_window_window s w).1⟩⟩
  · intro howmuch b hbk
    generalize run_ops env ops s0 = s at hb hbk
    obtain ⟨h1, h2, h3⟩ := hb
    have hd : (slice_distribute s).caml_major_ring_index < Max_major_window := by
      rcases slice_distribute_index_cases s with e | e | ⟨e, e'⟩
      · rw [e]; exact h3
      · rw [e]; decide
      · rw [e]; omega
    simp only [slice_bucket] at hbk
    split_ifs at hbk with a1 a2 a3
    · rw [← Option.some.inj hbk]; exact hd
    · rw [← Option.some.inj hbk]; decide
    · rw [← Option.some.inj hbk]
      rw [slice_distribute_window] at a3
      omega
  · intro s fuel howmuch hlt
    obtain ⟨e1, e2⟩ := slice_window_index env fuel s howmuch
    rw [e1, e2]
    exact slice_distribute_index s hlt

/-- Witness of C39 on the example heap: after the operations that leave the
index 2 outside the window 1, the index is below Max_major_window = 50 and
the window is at most Max_major_window. -/
theorem ring_index_inside_array_witness :
    ex_idle.caml_major_window = 1 ∧ ex_idle.caml_major_ring_index = 0
    ∧ (run_ops ex_env [PacingOp.set_window 3, PacingOp.clock_add 2, PacingOp.slice 5 (-1),
        PacingOp.slice 5 (-1), PacingOp.set_window 1] ex_idle).caml_major_ring_index
        < Max_major_window
    ∧ (run_ops ex_env [PacingOp.set_window 3, PacingOp.clock_add 2, PacingOp.slice 5 (-1),
        PacingOp.slice 5 (-1), PacingOp.set_window 1] ex_idle).caml_major_window
        ≤ Max_major_window :=
  ⟨rfl, rfl,
    (ring_index_inside_array ex_env [PacingOp.set_window 3, PacingOp.clock_add 2,
      PacingOp.slice 5 (-1), PacingOp.slice 5 (-1), PacingOp.set_window 1] ex_idle rfl rfl
      (by
        intro op hop
        simp only [List.mem_cons, List.mem_singleton, List.not_mem_nil, or_false] at hop
        rcases hop with e | e | e | e | e <;> subst e
        · exact ⟨by decide, by decide⟩
        · trivial
        · trivial
        · trivial
        · exact ⟨by decide, by decide⟩)).1.2.2,
    (ring_index_inside_array ex_env [PacingOp.set_window 3, PacingOp.clock_add 2,
      PacingOp.slice 5 (-1), PacingOp.slice 5 (-1), PacingOp.set_window 1] ex_idle rfl rfl
      (by
        intro op hop
        simp only [List.mem_cons, List.mem_singleton, List.not_mem_nil, or_false] at hop
        rcases hop with e | e | e | e | e <;> subst e
        · exact ⟨by decide, by decide⟩
        · trivial
        · trivial
        · trivial
        · exact ⟨by decide, by decide⟩)).1.2.1⟩

theorem HeapFrame.frame_events {a b : State} (h : HeapFrame a b) : b.events = a.events := by
  rw [h]

theorem mark_roots_events (env : Env) (st : MarkState) :
    (mark_roots env st).s.caml_gc_phase = st.s.caml_gc_phase
    ∧ final_calls (mark_roots env st).s.events = final_calls st.s.events
    ∧ (st.s.caml_gc_subphase = Subphase_roots →
        (mark_roots env st).s.caml_gc_subphase = Subphase_roots
        ∨ (mark_roots env st).s.caml_gc_subphase = Subphase_main) := by
  have hf := foldl_caml_darken_frame env (env.roots_slice st.s st.work).1
    { st.s with events := Event.darken_all_roots_slice st.work :: st.s.events }
  generalize hs2 : (env.roots_slice st.s st.work).1.foldl (caml_darken env)
    { st.s with events := Event.darken_all_roots_slice st.work :: st.s.events } = s2 at hf
  have e1 : s2.caml_gc_subphase = st.s.caml_gc_subphase := hf.frame_subphase
  have e2 : s2.events = Event.darken_all_roots_slice st.work :: st.s.events := hf.frame_events
  have e3 : s2.caml_gc_phase = st.s.caml_gc_phase := hf.frame_phase
  simp only [mark_roots, hs2]
  split_ifs
  · exact ⟨e3, by show final_calls s2.events = _; rw [e2]; rfl, fun _ => Or.inr rfl⟩
  · exact ⟨e3, by rw [e2]; rfl, fun h => Or.inl (e1.trans h)⟩

/-- The case Subphase_weak1 calls caml_final_update when the weak list has
been walked to its end, and then goes to Subphase_weak2. -/
theorem mark_weak1_events (env : Env) (st : MarkState) :
    (mark_weak1 env st).s.caml_gc_phase = st.s.caml_gc_phase
    ∧ ((st.s.mem st.s.weak_prev ≠ 0
        ∧ (mark_weak1 env st).s.caml_gc_subphase = st.s.caml_gc_subphase
        ∧ (mark_weak1 env st).s.events = st.s.events)
      ∨ (st.s.mem st.s.weak_prev = 0
        ∧ (mark_weak1 env st).s.caml_gc_subphase = Subphase_weak2
        ∧ (mark_weak1 env st).s.events = Event.final_update :: st.s.events)) := by
  simp only [mark_weak1]
  by_cases hc : st.s.mem st.s.weak_prev ≠ 0
  · rw [if_pos hc]
    have hf := weak_fields_frame env (st.s.mem st.s.weak_prev)
      (Wosize_hd (Hd_val st.s.mem (st.s.mem st.s.weak_prev)) - 1) 1 st.s
    generalize weak_fields env (st.s.mem st.s.weak_prev)
      (Wosize_hd (Hd_val st.s.mem (st.s.mem st.s.weak_prev)) - 1) 1 st.s = s1 at hf
    exact ⟨hf.frame_phase, Or.inl ⟨hc, hf.frame_subphase, hf.frame_events⟩⟩
  · rw [if_neg hc]
    have hf := foldl_caml_darken_frame env (env.final_update st.s)
      { st.s with events := Event.final_update :: st.s.events }
    generalize (env.final_update st.s).foldl (caml_darken env)
      { st.s with events := Event.final_update :: st.s.events } = s2 at hf
    have e2 : s2.events = Event.final_update :: st.s.events := hf.frame_events
    have e3 : s2.caml_gc_phase = st.s.caml_gc_phase := hf.frame_phase
    cases hs : s2.gray_vals with
    | nil => exact ⟨e3, Or.inr ⟨not_not.1 hc, rfl, e2⟩⟩
    | cons x rest => exact ⟨e3, Or.inr ⟨not_not.1 hc, rfl, e2⟩⟩

theorem mark_weak2_events (st : MarkState) :
    (mark_weak2 st).s.caml_gc_phase = st.s.caml_gc_phase
    ∧ (mark_weak2 st).s.events = st.s.events
    ∧ (st.s.caml_gc_subphase = Subphase_weak2 →
        (mark_weak2 st).s.caml_gc_subphase = Subphase_weak2
        ∨ (mark_weak2 st).s.caml_gc_subphase = Subphase_final) := by
  simp only [mark_weak2]
  split_ifs
  · exact ⟨rfl, rfl, fun h => Or.inl h⟩
  · exact ⟨rfl, rfl, fun h => Or.inl h⟩
  · exact ⟨rfl, rfl, fun _ => Or.inr rfl⟩

/-- The case Subphase_final sets the phase to Phase_sweep and the sweep
cursors to the start of the heap, and does not call caml_final_update. -/
theorem mark_final_events (env : Env) (st : MarkState) :
    (mark_final env st).s.caml_gc_phase = Phase_sweep
    ∧ (mark_final env st).work = 0
    ∧ final_calls (mark_final env st).s.events = final_calls st.s.events
    ∧ ((mark_final env st).s.events = Event.fl_init_merge :: st.s.events
      ∨ (mark_final env st).s.events
          = Event.major_gc_hook :: Event.fl_init_merge :: st.s.events)
    ∧ (mark_final env st).s.chunk = st.s.caml_heap_start
    ∧ (mark_final env st).s.caml_gc_sweep_hp = st.s.caml_heap_start
    ∧ (mark_final env st).s.limit
        = st.s.caml_heap_start + Chunk_size st.s.mem st.s.caml_heap_start := by
  simp only [mark_final]
  split_ifs
  · exact ⟨rfl, trivial, rfl, Or.inr rfl, rfl, rfl, rfl⟩
  · exact ⟨rfl, trivial, rfl, Or.inl rfl, rfl, rfl, rfl⟩

/-- One iteration of the loop of mark_slice keeps the count of the calls of
caml_final_update in step with the subphase. -/
theorem FinalMark.fm_step (env : Env) {base : Nat} {st : MarkState}
    (h : FinalMark base st.s) :
    FinalMark base (mark_step env st).s
    ∨ ((mark_step env st).work ≤ 0 ∧ FinalDone base (mark_step env st).s) := by
  obtain ⟨e0, e1, e2, e3, -⟩ := HeapCtx.mark_pop_fields st
  have ep := (mark_pop_pos st).1
  have hp : FinalMark base (mark_pop st).s := by
    unfold FinalMark
    rw [ep, e1, e3]
    exact h
  simp only [mark_step]
  generalize mark_pop st = st1 at hp
  obtain ⟨hph, hcnt⟩ := hp
  by_cases hv : st1.v ≠ 0
  · rw [if_pos hv]
    have hf := mark_value_frame env st1
    left
    unfold FinalMark
    rw [hf.frame_phase, hf.frame_subphase, hf.frame_events]
    exact ⟨hph, hcnt⟩
  rw [if_neg hv]
  by_cases hmk : st1.s.markhp ≠ 0
  · rw [if_pos hmk]
    left
    have : (mark_heap_scan st1).s.caml_gc_phase = st1.s.caml_gc_phase
        ∧ (mark_heap_scan st1).s.caml_gc_subphase = st1.s.caml_gc_subphase
        ∧ (mark_heap_scan st1).s.events = st1.s.events := by
      simp only [mark_heap_scan]
      split_ifs <;> exact ⟨rfl, rfl, rfl⟩
    unfold FinalMark
    rw [this.1, this.2.1, this.2.2]
    exact ⟨hph, hcnt⟩
  rw [if_neg hmk]
  by_cases hpure : (!st1.s.heap_is_pure) = true
  · rw [if_pos hpure]
    exact Or.inl ⟨hph, hcnt⟩
  rw [if_neg hpure]
  simp only [mark_subphase]
  split_ifs with h1 h2 h3 h4 h5
  · obtain ⟨k1, k2, k3⟩ := mark_roots_events env st1
    left
    refine ⟨k1.trans hph, Or.inl ⟨?_, ?_⟩⟩
    · rcases k3 h1 with e | e
      · exact Or.inl e
      · exact Or.inr (Or.inl e)
    · rw [k2]
      rcases hcnt with ⟨-, c⟩ | ⟨c, -⟩
      · exact c
      · rw [h1] at c
        rcases c with c | c <;> exact absurd c (by decide)
  · left
    refine ⟨hph, Or.inl ⟨Or.inr (Or.inr rfl), ?_⟩⟩
    rcases hcnt with ⟨-, c⟩ | ⟨c, -⟩
    · exact c
    · rw [h2] at c
      rcases c with c | c <;> exact absurd c (by decide)
  · obtain ⟨k1, k2⟩ := mark_weak1_events env st1
    have hc : final_calls st1.s.events = base := by
      rcases hcnt with ⟨-, c⟩ | ⟨c, -⟩
      · exact c
      · rw [h3] at c
        rcases c with c | c <;> exact absurd c (by decide)
    left
    refine ⟨k1.trans hph, ?_⟩
    rcases k2 with ⟨-, a, b⟩ | ⟨-, a, b⟩
    · exact Or.inl ⟨Or.inr (Or.inr (a.trans h3)), by rw [b]; exact hc⟩
    · refine Or.inr ⟨Or.inl a, ?_⟩
      rw [b]
      show final_calls st1.s.events + 1 = _
      rw [hc]
  · obtain ⟨k1, k2, k3⟩ := mark_weak2_events st1
    have hc : final_calls st1.s.events = base + 1 := by
      rcases hcnt with ⟨c, -⟩ | ⟨-, c⟩
      · rw [h4] at c
        rcases c with c | c | c <;> exact absurd c (by decide)
      · exact c
    left
    exact ⟨k1.trans hph, Or.inr ⟨k3 h4, by rw [k2]; exact hc⟩⟩
  · obtain ⟨k1, k2, k3, -⟩ := mark_final_events env st1
    have hc : final_calls st1.s.events = base + 1 := by
      rcases hcnt with ⟨c, -⟩ | ⟨-, c⟩
      · rw [h5] at c
        rcases c with c | c | c <;> exact absurd c (by decide)
      · exact c
    right
    exact ⟨le_of_eq k2, by rw [k1]; decide, by rw [k3]; exact hc⟩
  · exact Or.inl ⟨hph, hcnt⟩

theorem FinalMark.fm_loop (env : Env) {base : Nat} (fuel : Nat) {st : MarkState}
    (h : FinalMark base st.s ∨ (st.work ≤ 0 ∧ FinalDone base st.s)) :
    FinalMark base (mark_loop env fuel st).s
    ∨ ((mark_loop env fuel st).work ≤ 0 ∧ FinalDone base (mark_loop env fuel st).s) := by
  induction fuel generalizing st with
  | zero => exact h
  | succ fuel ih =>
    simp only [mark_loop]
    split_ifs with hw
    · rcases h with h | ⟨hw', -⟩
      · exact ih (h.fm_step env)
      · omega
    · exact h

theorem FinalMark.fm_slice (env : Env) {base : Nat} (fuel : Nat) (work : Int) {s : State}
    (h : FinalMark base s) :
    FinalMark base (mark_slice env fuel s work) ∨ FinalDone base (mark_slice env fuel s work) := by
  have hg : FinalMark base (mark_enter s work).s
      ∨ ((mark_enter s work).work ≤ 0 ∧ FinalDone base (mark_enter s work).s) := Or.inl h
  have := FinalMark.fm_loop env fuel hg
  simp only [mark_slice]
  generalize mark_loop env fuel (mark_enter s work) = st at this
  rcases this with a | ⟨-, a⟩
  · exact Or.inl a
  · exact Or.inr a

theorem FinalMark.fm_drive (env : Env) {base : Nat} (l : List (Nat × Int)) {s : State}
    (h : FinalMark base s ∨ FinalDone base s) :
    FinalMark base (drive env l s) ∨ FinalDone base (drive env l s) := by
  induction l generalizing s with
  | nil => exact h
  | cons p rest ih =>
    simp only [drive]
    split_ifs with hp
    · rcases h with h | h
      · exact ih (h.fm_slice env p.1 p.2)
      · exact absurd hp h.1
    · exact h

theorem FinalMark.fm_start (s0 : State) : FinalMark (final_calls s0.events) (start_cycle s0) :=
  ⟨rfl, Or.inl ⟨Or.inl rfl, rfl⟩⟩

theorem sweep_step_final_calls (env : Env) (st : SweepState) :
    final_calls (sweep_step env st).s.events = final_calls st.s.events := by
  simp only [sweep_step]
  split_ifs
  · simp only [sweep_white]
    split_ifs <;> rfl
  · rfl
  · rfl
  · rfl
  · rfl

theorem sweep_loop_final_calls (env : Env) (fuel : Nat) (st : SweepState) :
    final_calls (sweep_loop env fuel st).s.events = final_calls st.s.events := by
  induction fuel generalizing st with
  | zero => rfl
  | succ fuel ih =>
    simp only [sweep_loop]
    split_ifs
    · rw [ih, sweep_step_final_calls]
    · rfl

theorem sweeps_final_calls (env : Env) (l : List (Nat × Int)) (s : State) :
    final_calls (sweeps env l s).events = final_calls s.events := by
  induction l generalizing s with
  | nil => rfl
  | cons p rest ih =>
    simp only [sweeps]
    split_ifs
    · rw [ih]
      exact sweep_loop_final_calls env p.1 { s := s, work := p.2 }
    · rfl

/-- C32, counterexample.  On the example heap at Subphase_final the step that
sets the phase to Phase_sweep calls caml_fl_init_merge and does not call
caml_final_update; at the end of Subphase_weak1, the weak list being empty,
the step calls caml_final_update and goes to Subphase_weak2. -/
theorem final_update_not_at_final_counterexample :
    ex_final.caml_gc_phase = Phase_mark
    ∧ ex_final.caml_gc_subphase = Subphase_final
    ∧ ex_final.events = []
    ∧ (mark_slice ex_env 5 ex_final 10).caml_gc_phase = Phase_sweep
    ∧ (mark_slice ex_env 5 ex_final 10).events = [Event.fl_init_merge]
    ∧ ex_weak1_end.caml_gc_phase = Phase_mark
    ∧ ex_weak1_end.caml_gc_subphase = Subphase_weak1
    ∧ ex_weak1_end.events = [Event.darken_all_roots_start]
    ∧ (mark_step ex_env (mark_enter ex_weak1_end 10)).s.events
        = [Event.final_update, Event.darken_all_roots_start]
    ∧ (mark_step ex_env (mark_enter ex_weak1_end 10)).s.caml_gc_subphase = Subphase_weak2 := by
  refine ⟨?_, ?_, ?_, ?_, ?_, ?_, ?_, ?_, ?_, ?_⟩ <;> decide

/-- C32, amended.  A cycle is started by start_cycle and driven by calls of
mark_slice until the phase is Phase_sweep, and then by calls of sweep_slice.
caml_final_update is called exactly once in the cycle: the log of calls holds
one more call of it when the mark phase is over, and the sweep adds none.  It
is called by the step of Subphase_weak1 that finds the end of the weak list,
which then goes to Subphase_weak2: during the mark phase the log holds no new
call up to Subphase_weak1 and one in Subphase_weak2 and Subphase_final.  The
step taken at Subphase_final calls caml_fl_init_merge, and the hook if there is
one, sets the sweep cursors to the start of the heap and the phase to
Phase_sweep, and does not call caml_final_update. -/
theorem final_update_once_at_end_of_weak1 (env : Env) (s0 : State) (l1 l2 : List (Nat × Int))
    (hsw : (drive env l1 (start_cycle s0)).caml_gc_phase = Phase_sweep) :
    final_calls (drive env l1 (start_cycle s0)).events = final_calls s0.events + 1
    ∧ final_calls (sweeps env l2 (drive env l1 (start_cycle s0))).events
        = final_calls s0.events + 1
    ∧ (∀ l : List (Nat × Int),
        FinalMark (final_calls s0.events) (drive env l (start_cycle s0))
        ∨ FinalDone (final_calls s0.events) (drive env l (start_cycle s0)))
    ∧ (∀ st : MarkState,
        (st.s.mem st.s.weak_prev = 0 →
          (mark_weak1 env st).s.events = Event.final_update :: st.s.events
          ∧ (mark_weak1 env st).s.caml_gc_subphase = Subphase_weak2)
        ∧ (st.s.mem st.s.weak_prev ≠ 0 → (mark_weak1 env st).s.events = st.s.events))
    ∧ (∀ st : MarkState,
        (mark_final env st).s.caml_gc_phase = Phase_sweep
        ∧ ((mark_final env st).s.events = Event.fl_init_merge :: st.s.events
          ∨ (mark_final env st).s.events
              = Event.major_gc_hook :: Event.fl_init_merge :: st.s.events)
        ∧ (mark_final env st).s.chunk = st.s.caml_heap_start
        ∧ (mark_final env st).s.caml_gc_sweep_hp = st.s.caml_heap_start
        ∧ (mark_final env st).s.limit
            = st.s.caml_heap_start + Chunk_size st.s.mem st.s.caml_heap_start) := by
  have hd : ∀ l : List (Nat × Int),
      FinalMark (final_calls s0.events) (drive env l (start_cycle s0))
      ∨ FinalDone (final_calls s0.events) (drive env l (start_cycle s0)) :=
    fun l => FinalMark.fm_drive env l (Or.inl (FinalMark.fm_start s0))
  have h1 : final_calls (drive env l1 (start_cycle s0)).events = final_calls s0.events + 1 := by
    rcases hd l1 with a | a
    · have := a.1
      rw [hsw] at this
      exact absurd this (by decide)
    · exact a.2
  refine ⟨h1, by rw [sweeps_final_calls]; exact h1, hd, fun st => ⟨fun hc => ?_, fun hc => ?_⟩,
    fun st => ?_⟩
  · rcases (mark_weak1_events env st).2 with ⟨a, -, -⟩ | ⟨-, a, b⟩
    · exact absurd hc a
    · exact ⟨b, a⟩
  · rcases (mark_weak1_events env st).2 with ⟨-, -, b⟩ | ⟨a, -, -⟩
    · exact b
    · exact absurd a hc
  · obtain ⟨k1, -, -, k4, k5, k6, k7⟩ := mark_final_events env st
    exact ⟨k1, k4, k5, k6, k7⟩

/-- Witness of C32 on the example heap: three calls of mark_slice end the mark
phase, and the log then holds one call of caml_final_update, also after a
call of sweep_slice. -/
theorem final_update_once_at_end_of_weak1_witness :
    (drive ex_env [(4, 3), (4, 3), (40, 100)] (start_cycle ex_white)).caml_gc_phase
        = Phase_sweep
    ∧ final_calls ex_white.events = 0
    ∧ final_calls (drive ex_env [(4, 3), (4, 3), (40, 100)] (start_cycle ex_white)).events = 1
    ∧ final_calls (sweeps ex_env [(10, 5)]
        (drive ex_env [(4, 3), (4, 3), (40, 100)] (start_cycle ex_white))).events = 1 := by
  have h := final_update_once_at_end_of_weak1 ex_env ex_white [(4, 3), (4, 3), (40, 100)]
    [(10, 5)] (by decide)
  exact ⟨by decide, rfl, h.1, h.2.1⟩

theorem graph_field_node (env : Env) (m : Mem) (hd_parent parent field : Nat) (out : GraphOut) :
    (graph_field env m hd_parent parent field out).node_file = out.node_file := by
  simp only [graph_field]
  split_ifs <;> rfl

theorem graph_fields_node (env : Env) (m : Mem) (hd_parent parent n field : Nat)
    (out : GraphOut) :
    (graph_fields env m hd_parent parent n field out).node_file = out.node_file := by
  induction n generalizing field out with
  | zero => rfl
  | succ n ih =>
    simp only [graph_fields]
    rw [ih, graph_field_node]

theorem graph_block_node (env : Env) (m : Mem) (hp : Nat) (out : GraphOut) :
    (graph_block env m hp out).node_file = out.node_file := by
  simp only [graph_block]
  split_ifs
  · rfl
  · exact graph_fields_node _ _ _ _ _ _ _
  · rfl
  · rfl

theorem graph_blocks_node (env : Env) (m : Mem) (fuel hp limit : Nat) (out : GraphOut) :
    (graph_blocks env m fuel hp limit out).node_file = out.node_file := by
  induction fuel generalizing hp out with
  | zero => rfl
  | succ n ih =>
    simp only [graph_blocks]
    split_ifs
    · rw [ih, graph_block_node]
    · rfl

theorem graph_chunks_node (env : Env) (m : Mem) (fb fuel chunk : Nat) (out : GraphOut) :
    (graph_chunks env m fb fuel chunk out).node_file = out.node_file := by
  induction fuel generalizing chunk out with
  | zero => rfl
  | succ n ih =>
    simp only [graph_chunks]
    split_ifs
    · rw [ih, graph_blocks_node]
    · rfl

/-- A block that is blue, has no allocation-site information or is not scanned
adds nothing to either file. -/
theorem graph_block_skip (env : Env) (m : Mem) (hp : Nat) (out : GraphOut)
    (h : Color_hd (Hd_hp m hp) = Caml_blue ∨ Decode_profinfo_hd (Hd_hp m hp) = 0
      ∨ No_scan_tag ≤ Tag_hd (Hd_hp m hp)) :
    graph_block env m hp out = out := by
  simp only [graph_block]
  split_ifs with h1 h2 h3
  · rfl
  · rcases h with h | h | h
    · exact absurd h h1
    · exact absurd h h2
    · omega
  · rfl
  · rfl

/-- A field that is not a block of the value area with allocation-site
information adds nothing to either file. -/
theorem graph_field_skip (env : Env) (m : Mem) (hd_parent parent field : Nat) (out : GraphOut)
    (h : Is_block (Field m parent field) = false
      ∨ env.Is_in_value_area (Field m parent field) = false
      ∨ Decode_profinfo_hd (Hd_val m (Field m parent field)) = 0) :
    graph_field env m hd_parent parent field out = out := by
  simp only [graph_field]
  split_ifs with h1 h2
  · rcases h with h | h | h
    · rw [h] at h1
      simp at h1
    · rw [h] at h1
      simp at h1
    · exact absurd h h2
  · rfl
  · rfl

/-- C35, evaluated on the code: caml_dump_heapgraph never writes to the node
file, whatever the heap: on the heap ex_graph, whose record at 1008 (site
0xABCD, tag 0, two words) points to the string at 1032 (site 0x1234, tag 252,
two words), the node file stays empty and the edge file receives the two B
lines followed by the E line, the B line of the child carrying the tag 0 that
Tag_val reads at the address given by the header word instead of the tag 252 of
the child.  The condition under which the three lines are printed is the one of
the property: a block that is blue, has no allocation-site information or has a
tag from No_scan_tag on prints nothing, and neither does a field that is not a
block of the value area with allocation-site information. -/
theorem heapgraph_node_lines_go_to_edge_file :
    (∀ (env : Env) (full_major : State → State) (fuel : Nat) (s : State),
        (caml_dump_heapgraph env full_major fuel s).2.node_file = [])
    ∧ (caml_dump_heapgraph ex_env id 5 ex_graph).2
        = { node_file := [],
            edge_file := [GraphLine.B 43981 0 2, GraphLine.B 4660 0 2,
                          GraphLine.E 43981 4660] }
    ∧ Tag_hd (Hd_val ex_graph.mem 1032) = 252
    ∧ (∀ (env : Env) (m : Mem) (hp : Nat) (out : GraphOut),
        (Color_hd (Hd_hp m hp) = Caml_blue ∨ Decode_profinfo_hd (Hd_hp m hp) = 0
          ∨ No_scan_tag ≤ Tag_hd (Hd_hp m hp)) →
        graph_block env m hp out = out)
    ∧ (∀ (env : Env) (m : Mem) (hd_parent parent field : Nat) (out : GraphOut),
        (Is_block (Field m parent field) = false
          ∨ env.Is_in_value_area (Field m parent field) = false
          ∨ Decode_profinfo_hd (Hd_val m (Field m parent field)) = 0) →
        graph_field env m hd_parent parent field out = out) := by
  refine ⟨fun env full_major fuel s => ?_, by decide, by decide, ?_, ?_⟩
  · simp only [caml_dump_heapgraph]
    rw [graph_chunks_node]
  · exact fun env m hp out h => graph_block_skip env m hp out h
  · exact fun env m hd_parent parent field out h => graph_field_skip env m hd_parent parent field out h

theorem Tag_hd_Grayhd_hd (hd : Nat) : Tag_hd (Grayhd_hd hd) = Tag_hd hd :=
  Tag_hd_of_Whitehd_hd (Whitehd_hd_Grayhd_hd hd)

theorem Wosize_hd_Grayhd_hd (hd : Nat) : Wosize_hd (Grayhd_hd hd) = Wosize_hd hd :=
  Wosize_hd_of_Whitehd_hd (Whitehd_hd_Grayhd_hd hd)

/-- Making a header gray changes no tag of the memory. -/
theorem Tag_val_set_gray (m : Mem) (b x : Nat) :
    Tag_val (set_Hd_val m b (Grayhd_hd (Hd_val m b))) x = Tag_val m x := by
  simp only [Tag_val, Hd_val, set_Hd_val, Mem.set]
  split_ifs with h
  · rw [Tag_hd_Grayhd_hd, h]
  · rfl

/-- Making a header gray changes no size of the memory. -/
theorem Infix_offset_val_set_gray (m : Mem) (b x : Nat) :
    Infix_offset_val (set_Hd_val m b (Grayhd_hd (Hd_val m b))) x = Infix_offset_val m x := by
  simp only [Infix_offset_val, Hd_val, set_Hd_val, Mem.set]
  split_ifs with h
  · rw [Wosize_hd_Grayhd_hd, h]
  · rfl

theorem resolve_set_gray (m : Mem) (b x : Nat) :
    resolve (set_Hd_val m b (Grayhd_hd (Hd_val m b))) x = resolve m x := by
  simp only [resolve, Tag_val_set_gray, Infix_offset_val_set_gray]

theorem no_short_circuit_set_gray (env : Env) (m : Mem) (b f : Nat) :
    no_short_circuit env (set_Hd_val m b (Grayhd_hd (Hd_val m b))) f
      = no_short_circuit env m f := by
  simp only [no_short_circuit, Tag_val_set_gray]

/-- A field that is a pointer into the heap and is not a forwarding pointer
that is short-circuited is handled by mark_child on the block that the pointer
stands for. -/
theorem mark_field_resolve (env : Env) (v i : Nat) (s : State)
    (hb : Is_block (Field s.mem v i) = true)
    (hh : env.Is_in_heap (Field s.mem v i) = true)
    (hns : Tag_hd (Hd_val s.mem (Field s.mem v i)) = Forward_tag →
      no_short_circuit env s.mem (Forward_val s.mem (Field s.mem v i)) = true) :
    mark_field env v i s
      = mark_child env s (resolve s.mem (Field s.mem v i))
          (Hd_val s.mem (resolve s.mem (Field s.mem v i))) := by
  have hc : (Is_block (Field s.mem v i) && env.Is_in_heap (Field s.mem v i)) = true := by
    rw [hb, hh]; rfl
  simp only [mark_field, hc, if_true, resolve, Tag_val]
  by_cases h1 : Tag_hd (Hd_val s.mem (Field s.mem v i)) = Forward_tag
  · have h2 : Tag_hd (Hd_val s.mem (Field s.mem v i)) ≠ Infix_tag := by
      rw [h1]; decide
    rw [if_pos h1, if_pos (hns h1), if_neg h2]
  · rw [if_neg h1]
    by_cases h2 : Tag_hd (Hd_val s.mem (Field s.mem v i)) = Infix_tag
    · rw [if_pos h2, if_pos h2]
    · rw [if_neg h2, if_neg h2]

/-- The header of a block after it was made gray. -/
theorem Hd_val_set_gray_self (m : Mem) (b : Nat) :
    Hd_val (set_Hd_val m b (Grayhd_hd (Hd_val m b))) b = Grayhd_hd (Hd_val m b) := by
  simp [Hd_val, set_Hd_val, Mem.set]

theorem Is_white_hd_Grayhd_hd (hd : Nat) : Is_white_hd (Grayhd_hd hd) = false := by
  simp only [Is_white_hd, Color_hd_Grayhd_hd]
  decide

/-- C33, counterexample.  First, the field 0 of the record at 1008 points to
the white forwarding block at 1032 whose target is the white record at 1048
in the heap: the first scan of the field rewrites it to 1048 and makes the
forwarding block gray, leaving the record at 1048 white, and the second scan
makes the record at 1048 gray and pushes it, so two scans do not have the
effect of one.  Second, the field points to the white record at 1048 while
the gray stack has one entry and cannot grow: the record becomes gray and the
worklist is empty after the scan, the entry pushed having been dropped by
realloc_gray_vals. -/
theorem mark_field_twice_counterexample :
    ((mark_field ex_env 1008 0 ex_fwd_in).gray_vals = [1032]
      ∧ Color_hd (Hd_val (mark_field ex_env 1008 0 ex_fwd_in).mem 1048) = Caml_white
      ∧ (mark_field ex_env 1008 0 (mark_field ex_env 1008 0 ex_fwd_in)).gray_vals
          = [1048, 1032]
      ∧ Color_hd (Hd_val (mark_field ex_env 1008 0
          (mark_field ex_env 1008 0 ex_fwd_in)).mem 1048) = Caml_gray)
    ∧ (Field ex_plain_one.mem 1008 0 = 1048
      ∧ Color_hd (Hd_val ex_plain_one.mem 1048) = Caml_white
      ∧ Color_hd (Hd_val (mark_field ex_env_noroom 1008 0 ex_plain_one).mem 1048) = Caml_gray
      ∧ (mark_field ex_env_noroom 1008 0 ex_plain_one).gray_vals = []) := by
  refine ⟨⟨?_, ?_, ?_, ?_⟩, ?_, ?_, ?_, ?_⟩ <;> decide

/-- C33, amended.  For a field i of the scanned block v that holds a non-null
pointer into the heap which is not a forwarding pointer that mark_slice
short-circuits, write b for the block the pointer stands for, the base block
for an Infix_tag referent, and suppose the header of b is not the field
itself.  If b is white, the scan makes its header gray and pushes b once on
the gray stack, after which realloc_gray_vals runs when the push filled the
stack; when the push leaves room, the state changes in the header of b and in
the stack only, which is b followed by the old stack.  If b is gray or black
the state does not change.  In both cases a second scan of the field changes
nothing more. -/
theorem mark_field_gray_once (env : Env) (v i : Nat) (s : State)
    (hb : Is_block (Field s.mem v i) = true)
    (hh : env.Is_in_heap (Field s.mem v i) = true)
    (hz : Field s.mem v i ≠ 0)
    (hns : Tag_hd (Hd_val s.mem (Field s.mem v i)) = Forward_tag →
      no_short_circuit env s.mem (Forward_val s.mem (Field s.mem v i)) = true)
    (hsep : resolve s.mem (Field s.mem v i) - 8 ≠ v + 8 * i) :
    (Is_white_hd (Hd_val s.mem (resolve s.mem (Field s.mem v i))) = true →
        mark_field env v i s
            = gray_push env
                { s with mem := (set_Hd_val s.mem (resolve s.mem (Field s.mem v i))
                    (Grayhd_hd (Hd_val s.mem (resolve s.mem (Field s.mem v i))))) }
                (resolve s.mem (Field s.mem v i))
          ∧ Color_hd (Hd_val (mark_field env v i s).mem (resolve s.mem (Field s.mem v i)))
              = Caml_gray
          ∧ (s.gray_vals.length + 1 < s.gray_vals_size →
              mark_field env v i s
                = { s with
                    mem := (set_Hd_val s.mem (resolve s.mem (Field s.mem v i))
                      (Grayhd_hd (Hd_val s.mem (resolve s.mem (Field s.mem v i)))))
                    gray_vals := resolve s.mem (Field s.mem v i) :: s.gray_vals }))
    ∧ (Is_white_hd (Hd_val s.mem (resolve s.mem (Field s.mem v i))) = false →
        mark_field env v i s = s)
    ∧ mark_field env v i (mark_field env v i s) = mark_field env v i s := by
  have e1 := mark_field_resolve env v i s hb hh hns
  have hdark : Is_white_hd (Hd_val s.mem (resolve s.mem (Field s.mem v i))) = false →
      mark_field env v i s = s := by
    intro hw
    rw [e1]
    simp only [mark_child, hw]
    rfl
  have hwhite : Is_white_hd (Hd_val s.mem (resolve s.mem (Field s.mem v i))) = true →
      mark_field env v i s
        = gray_push env
            { s with mem := (set_Hd_val s.mem (resolve s.mem (Field s.mem v i))
                (Grayhd_hd (Hd_val s.mem (resolve s.mem (Field s.mem v i))))) }
            (resolve s.mem (Field s.mem v i)) := by
    intro hw
    rw [e1]
    simp only [mark_child, hw, if_true]
  refine ⟨fun hw => ⟨hwhite hw, ?_, ?_⟩, hdark, ?_⟩
  · rw [hwhite hw, gray_push_mem]
    show Color_hd (Hd_val (set_Hd_val s.mem _ _) _) = Caml_gray
    rw [Hd_val_set_gray_self, Color_hd_Grayhd_hd]
  · intro hl
    rw [hwhite hw]
    simp only [gray_push]
    rw [if_neg]
    simp only [List.length_cons]
    omega
  · by_cases hw : Is_white_hd (Hd_val s.mem (resolve s.mem (Field s.mem v i))) = true
    · have hm : (mark_field env v i s).mem
          = set_Hd_val s.mem (resolve s.mem (Field s.mem v i))
              (Grayhd_hd (Hd_val s.mem (resolve s.mem (Field s.mem v i)))) := by
        rw [hwhite hw, gray_push_mem]
      have hf : Field (mark_field env v i s).mem v i = Field s.mem v i := by
        rw [hm]
        simp only [Field, set_Hd_val, Mem.set]
        rw [if_neg (fun e => hsep e.symm)]
      have hfw : Tag_hd (Hd_val s.mem (Field s.mem v i)) = Forward_tag →
          Forward_val (mark_field env v i s).mem (Field s.mem v i)
            = Forward_val s.mem (Field s.mem v i) := by
        intro ht
        have hr : resolve s.mem (Field s.mem v i) = Field s.mem v i := by
          simp only [resolve, Tag_val]
          rw [if_neg]
          rw [ht]; decide
        rw [hm, hr]
        have hz2 := hz
        simp only [Forward_val, Field, set_Hd_val, Mem.set] at hz2 ⊢
        rw [if_neg]
        omega
      have e2 := mark_field_resolve env v i (mark_field env v i s)
        (by rw [hf]; exact hb) (by rw [hf]; exact hh)
        (by
          rw [hf]
          intro ht
          have ht0 : Tag_hd (Hd_val s.mem (Field s.mem v i)) = Forward_tag := by
            have := Tag_val_set_gray s.mem (resolve s.mem (Field s.mem v i)) (Field s.mem v i)
            simp only [Tag_val] at this
            rw [← this, ← hm]; exact ht
          rw [hfw ht0, hm, no_short_circuit_set_gray]
          exact hns ht0)
      rw [e2, hf]
      have hr2 : resolve (mark_field env v i s).mem (Field s.mem v i)
          = resolve s.mem (Field s.mem v i) := by
        rw [hm, resolve_set_gray]
      rw [hr2]
      have hd2 : Hd_val (mark_field env v i s).mem (resolve s.mem (Field s.mem v i))
          = Grayhd_hd (Hd_val s.mem (resolve s.mem (Field s.mem v i))) := by
        rw [hm, Hd_val_set_gray_self]
      rw [hd2]
      simp only [mark_child, Is_white_hd_Grayhd_hd]
      rfl
    · have hw2 : Is_white_hd (Hd_val s.mem (resolve s.mem (Field s.mem v i))) = false := by
        simpa using hw
      rw [hdark hw2, hdark hw2]

/-- Witness of C33 (amended): the field 0 of the record at 1008 points to the
white record at 1048; the scan pushes 1048 on the empty gray stack and a
second scan changes nothing. -/
theorem mark_field_gray_once_witness :
    (mark_field ex_env 1008 0 ex_plain).gray_vals = [1048]
    ∧ mark_field ex_env 1008 0 (mark_field ex_env 1008 0 ex_plain)
        = mark_field ex_env 1008 0 ex_plain :=
  ⟨(congrArg State.gray_vals
      (((mark_field_gray_once ex_env 1008 0 ex_plain (by decide) (by decide) (by decide)
        (by decide) (by decide)).1 (by decide)).2.2 (by decide))).trans (by decide),
   (mark_field_gray_once ex_env 1008 0 ex_plain (by decide) (by decide) (by decide)
      (by decide) (by decide)).2.2⟩

theorem HeapFrame.frame_weak_prev {a b : State} (h : HeapFrame a b) :
    b.weak_prev = a.weak_prev := by rw [h]

theorem HeapFrame.frame_markhp {a b : State} (h : HeapFrame a b) :
    b.markhp = a.markhp := by rw [h]

theorem kept_weak_congr {m m' : Mem} {l : List Nat} (h : ∀ x ∈ l, m' x = m x) :
    kept_weak m' l = kept_weak m l := by
  unfold kept_weak
  apply List.filter_congr
  intro x hx
  simp only [Hd_hp, h x hx]

theorem kept_weak_append (m : Mem) (a b : List Nat) :
    kept_weak m (a ++ b) = kept_weak m a ++ kept_weak m b := by
  unfold kept_weak
  exact List.filter_append _ _

theorem kept_weak_white {m : Mem} {h : Nat} (hw : Color_hd (m h) = Caml_white) :
    kept_weak m [h] = [] := by
  simp [kept_weak, Is_white_hd, Hd_hp, hw]

theorem kept_weak_dark {m : Mem} {h : Nat} (hw : Color_hd (m h) ≠ Caml_white) :
    kept_weak m [h] = [h] := by
  simp [kept_weak, Is_white_hd, Hd_hp, hw]

theorem kept_weak_sublist (m : Mem) (l : List Nat) : (kept_weak m l).Sublist l :=
  List.filter_sublist l

/-- The end of a segment of the list is its start or the link field of one of
its arrays. -/
theorem wseg_end {m : Mem} {a b : Nat} {l : List Nat} (h : wseg m a l b) :
    (l = [] ∧ b = a) ∨ ∃ k ∈ l, b = k + 8 := by
  induction l generalizing a with
  | nil => exact Or.inl ⟨rfl, h.symm⟩
  | cons x t ih =>
    right
    rcases ih h.2 with ⟨e, e'⟩ | ⟨k, hk, e⟩
    · exact ⟨x, List.mem_cons_self _ _, e'⟩
    · exact ⟨k, List.mem_cons_of_mem _ hk, e⟩

/-- A write at the end of a segment leaves the segment as it is. -/
theorem wseg_set {m : Mem} {a b : Nat} {l : List Nat} (h : wseg m a l b) (hnd : l.Nodup)
    (ha : ∀ k ∈ l, a ≠ k + 8) (x : Nat) : wseg (m.set b x) a l b := by
  induction l generalizing a with
  | nil => exact h
  | cons y t ih =>
    obtain ⟨e1, e2⟩ := h
    have hnd' := List.nodup_cons.1 hnd
    have hab : a ≠ b := by
      rcases wseg_end e2 with ⟨-, e⟩ | ⟨k, hk, e⟩
      · rw [e]; exact ha y (List.mem_cons_self _ _)
      · rw [e]; exact ha k (List.mem_cons_of_mem _ hk)
    refine ⟨by rw [Mem.set_other _ _ hab]; exact e1, ih e2 hnd'.2 ?_⟩
    intro k hk e
    have : y = k := by omega
    exact hnd'.1 (this ▸ hk)

theorem wseg_snoc {m : Mem} {a b h : Nat} {l : List Nat} (hs : wseg m a l b)
    (hb : m b = h + 8) : wseg m a (l ++ [h]) (h + 8) := by
  induction l generalizing a with
  | nil =>
    have e : a = b := hs
    subst e
    exact ⟨hb, rfl⟩
  | cons y t ih => exact ⟨hs.1, ih hs.2⟩

theorem wseg_wpath {m : Mem} {a b : Nat} {l r : List Nat} (hs : wseg m a l b)
    (hp : wpath m b r) : wpath m a (l ++ r) := by
  induction l generalizing a with
  | nil =>
    have e : a = b := hs
    subst e
    exact hp
  | cons y t ih => exact ⟨hs.1, ih hs.2⟩

theorem wseg_congr {m m' : Mem} {a b : Nat} {l : List Nat} (ha : m' a = m a)
    (hl : ∀ h ∈ l, m' (h + 8) = m (h + 8)) (hs : wseg m a l b) : wseg m' a l b := by
  induction l generalizing a with
  | nil => exact hs
  | cons y t ih =>
    exact ⟨by rw [ha]; exact hs.1,
      ih (hl y (List.mem_cons_self _ _)) (fun h hh => hl h (List.mem_cons_of_mem _ hh)) hs.2⟩

namespace HeapCtx

variable {c : HeapCtx}

theorem WeakPos.wk_weak2 {L : List Nat} {s : State} {v : Nat}
    (h : s.caml_gc_subphase = Subphase_weak2) :
    c.WeakPos L s v ↔
      ∃ seen rest, L = seen ++ rest
        ∧ wseg s.mem c.env.caml_weak_list_head (kept_weak s.mem seen) s.weak_prev
        ∧ wpath s.mem s.weak_prev rest
        ∧ (seen ≠ [] → MarkIdle s v) := by
  unfold WeakPos
  rw [if_pos h]

theorem WeakPos.wk_final {L : List Nat} {s : State} {v : Nat}
    (h : s.caml_gc_subphase = Subphase_final) :
    c.WeakPos L s v ↔
      (wpath s.mem c.env.caml_weak_list_head (kept_weak s.mem L) ∧ MarkIdle s v) := by
  unfold WeakPos
  rw [if_neg (by rw [h]; decide), if_pos h]

theorem WeakPos.wk_early {L : List Nat} {s : State} {v : Nat}
    (h2 : s.caml_gc_subphase ≠ Subphase_weak2) (h3 : s.caml_gc_subphase ≠ Subphase_final) :
    c.WeakPos L s v ↔ wpath s.mem c.env.caml_weak_list_head L := by
  unfold WeakPos
  rw [if_neg h2, if_neg h3]

/-- The place of the weak list depends on the memory, the subphase, weak_prev
and on whether something is left to mark. -/
theorem WeakPos.wk_congr {L : List Nat} {s s' : State} {v v' : Nat} (h : c.WeakPos L s v)
    (e0 : s'.mem = s.mem) (e1 : s'.caml_gc_subphase = s.caml_gc_subphase)
    (e2 : s'.weak_prev = s.weak_prev) (e3 : MarkIdle s v → MarkIdle s' v') :
    c.WeakPos L s' v' := by
  unfold WeakPos at h ⊢
  rw [e0, e1, e2]
  split_ifs at h ⊢ with h2 h3
  · obtain ⟨seen, rest, k1, k2, k3, k4⟩ := h
    exact ⟨seen, rest, k1, k2, k3, fun hne => e3 (k4 hne)⟩
  · exact ⟨h.1, e3 h.2⟩
  · exact h

/-- While something is left to mark, the writes of marking leave the weak
list in its place. -/
theorem WeakPos.wk_busy (wf : c.WF) {L : List Nat} (hLW : ∀ h ∈ L, h ∈ c.Wl)
    {s s' : State} {v v' : Nat} (h : c.WeakPos L s v) (hb : ¬ MarkIdle s v)
    (hwr : c.Wr s.mem s'.mem) (e1 : s'.caml_gc_subphase = s.caml_gc_subphase)
    (e2 : s'.weak_prev = s.weak_prev) : c.WeakPos L s' v' := by
  unfold WeakPos at h ⊢
  rw [e1, e2]
  split_ifs at h ⊢ with h2 h3
  · obtain ⟨seen, rest, k1, k2, k3, k4⟩ := h
    have hs : seen = [] := by
      by_contra hne
      exact hb (k4 hne)
    subst hs
    have ew : c.env.caml_weak_list_head = s.weak_prev := k2
    have eL : L = rest := k1
    subst eL
    refine ⟨[], L, rfl, ew, ?_, fun hne => absurd rfl hne⟩
    rw [← ew] at k3 ⊢
    exact wpath_wr_head wf hwr hLW k3
  · exact absurd h.2 hb
  · exact wpath_wr_head wf hwr hLW h

/-- Before Subphase_weak2 the writes of marking leave the weak list as it
is. -/
theorem WeakPos.wk_before (wf : c.WF) {L : List Nat} (hLW : ∀ h ∈ L, h ∈ c.Wl)
    {s s' : State} {v v' : Nat} (h : c.WeakPos L s v)
    (h2 : s.caml_gc_subphase ≠ Subphase_weak2) (h3 : s.caml_gc_subphase ≠ Subphase_final)
    (hwr : c.Wr s.mem s'.mem)
    (k2 : s'.caml_gc_subphase ≠ Subphase_weak2) (k3 : s'.caml_gc_subphase ≠ Subphase_final) :
    c.WeakPos L s' v' :=
  (WeakPos.wk_early k2 k3).2 (wpath_wr_head wf hwr hLW ((WeakPos.wk_early h2 h3).1 h))

/-- Taking a block from the gray stack leaves the weak list in its place. -/
theorem WeakPos.wk_pop {L : List Nat} {st : MarkState} (h : c.WeakPos L st.s st.v) :
    c.WeakPos L (mark_pop st).s (mark_pop st).v := by
  obtain ⟨e0, e1, e2, -⟩ := mark_pop_fields st
  refine h.wk_congr e0 e1 e2 ?_
  intro hi
  have : mark_pop st = st := by
    simp only [mark_pop, if_pos hi.1, hi.2.1]
  rw [this]; exact hi

end HeapCtx

theorem mark_weak1_prev (env : Env) (st : MarkState)
    (hs : st.s.caml_gc_subphase = Subphase_weak1)
    (h : (mark_weak1 env st).s.caml_gc_subphase = Subphase_weak2) :
    (mark_weak1 env st).s.weak_prev = env.caml_weak_list_head := by
  simp only [mark_weak1] at h ⊢
  by_cases hc : st.s.mem st.s.weak_prev ≠ 0
  · rw [if_pos hc] at h
    have hf := weak_fields_frame env (st.s.mem st.s.weak_prev)
      (Wosize_hd (Hd_val st.s.mem (st.s.mem st.s.weak_prev)) - 1) 1 st.s
    have e : (weak_fields env (st.s.mem st.s.weak_prev)
      (Wosize_hd (Hd_val st.s.mem (st.s.mem st.s.weak_prev)) - 1) 1 st.s).caml_gc_subphase
        = Subphase_weak2 := h
    rw [hf.frame_subphase, hs] at e
    exact absurd e (by decide)
  · rw [if_neg hc]
    split <;> rfl

theorem mark_weak2_phase (st : MarkState) :
    (mark_weak2 st).s.caml_gc_phase = st.s.caml_gc_phase := by
  simp only [mark_weak2]
  split_ifs <;> rfl

theorem mark_final_fields (env : Env) (st : MarkState) :
    (mark_final env st).s.mem = st.s.mem
    ∧ (mark_final env st).s.caml_gc_subphase = st.s.caml_gc_subphase
    ∧ (mark_final env st).s.weak_prev = st.s.weak_prev
    ∧ (mark_final env st).s.gray_vals = st.s.gray_vals
    ∧ (mark_final env st).s.markhp = st.s.markhp
    ∧ (mark_final env st).s.heap_is_pure = st.s.heap_is_pure
    ∧ (mark_final env st).v = st.v := by
  refine ⟨?_, ?_, ?_, ?_, ?_, ?_, ?_⟩ <;> simp only [mark_final] <;>
    first
      | rfl
      | (split_ifs <;> rfl)

theorem mark_heap_scan_fields (st : MarkState) :
    (mark_heap_scan st).s.mem = st.s.mem
    ∧ (mark_heap_scan st).s.caml_gc_subphase = st.s.caml_gc_subphase
    ∧ (mark_heap_scan st).s.weak_prev = st.s.weak_prev
    ∧ (mark_heap_scan st).s.caml_gc_phase = st.s.caml_gc_phase := by
  refine ⟨?_, ?_, ?_, ?_⟩ <;> simp only [mark_heap_scan] <;> split_ifs <;> rfl

namespace HeapCtx

variable {c : HeapCtx}

/-- The case Subphase_weak2 with nothing left to mark: a white array is taken
out of the list, another array is kept and becomes the last of the arrays
that were seen, and at the end of the list the arrays that are not white are
the list. -/
theorem WeakPos.wk_weak2_step (wf : c.WF) {L : List Nat} (hWL : c.WeakList L)
    {st : MarkState} (hwp : c.WP st.s.weak_prev)
    (hsub : st.s.caml_gc_subphase = Subphase_weak2) (hidle : MarkIdle st.s st.v)
    (h : c.WeakPos L st.s st.v) :
    c.WeakPos L (mark_weak2 st).s (mark_weak2 st).v := by
  obtain ⟨-, hnd, hLW⟩ := hWL
  obtain ⟨seen, rest, eL, hseg, hrest, -⟩ := (WeakPos.wk_weak2 hsub).1 h
  subst eL
  have hnd2 := List.nodup_append.1 hnd
  have hks : ∀ k ∈ kept_weak st.s.mem seen, k ∈ seen :=
    fun k hk => (kept_weak_sublist st.s.mem seen).subset hk
  simp only [mark_weak2]
  by_cases hc : st.s.mem st.s.weak_prev ≠ 0
  · obtain ⟨x, t, el, ec, ht⟩ := wpath_cons_of_ne hrest hc
    subst el
    rw [if_pos hc]
    have ehd : Hd_val st.s.mem (st.s.mem st.s.weak_prev) = st.s.mem x := by
      rw [ec, Hd_val_add]
    rw [ehd]
    by_cases hwh : Color_hd (st.s.mem x) = Caml_white
    · rw [if_pos hwh]
      have ef : Field st.s.mem (st.s.mem st.s.weak_prev) 0 = st.s.mem (x + 8) := by
        simp only [Field, Nat.mul_zero, Nat.add_zero, ec]
      rw [ef]
      have hk : kept_weak (st.s.mem.set st.s.weak_prev (st.s.mem (x + 8))) (seen ++ [x])
          = kept_weak st.s.mem seen := by
        rw [kept_weak_congr (m := st.s.mem), kept_weak_append, kept_weak_white hwh,
          List.append_nil]
        intro y hy
        have hyL : y ∈ seen ++ x :: t := by
          rcases List.mem_append.1 hy with e | e
          · exact List.mem_append_left _ e
          · rw [List.mem_singleton.1 e]
            exact List.mem_append_right _ (List.mem_cons_self _ _)
        exact Mem.set_other _ _ (hwp.wp_not_hdr wf y (wf.weak_sub y (hLW y hyL)).1)
      refine (WeakPos.wk_weak2
        (s := { st.s with mem := st.s.mem.set st.s.weak_prev (st.s.mem (x + 8)) }) hsub).2
        ⟨seen ++ [x], t, by simp, ?_, ?_, fun _ => hidle⟩
      · show wseg (st.s.mem.set st.s.weak_prev (st.s.mem (x + 8))) c.env.caml_weak_list_head
          (kept_weak (st.s.mem.set st.s.weak_prev (st.s.mem (x + 8))) (seen ++ [x]))
          st.s.weak_prev
        rw [hk]
        refine wseg_set hseg ((kept_weak_sublist _ _).nodup hnd2.1) ?_ _
        intro k hk'
        exact wf.head_ne_link (hLW k (List.mem_append_left _ (hks k hk')))
      · show wpath (st.s.mem.set st.s.weak_prev (st.s.mem (x + 8))) st.s.weak_prev t
        refine wpath_unlink ht ?_
        intro y hy
        have hyr : y ∈ x :: t := List.mem_cons_of_mem _ hy
        rcases wseg_end hseg with ⟨-, e⟩ | ⟨k, hk', e⟩
        · rw [e]
          exact wf.head_ne_link (hLW y (List.mem_append_right _ hyr))
        · rw [e]
          intro e'
          have : k = y := by omega
          exact hnd2.2.2 (hks k hk') (this ▸ hyr)
    · rw [if_neg hwh]
      refine (WeakPos.wk_weak2
        (s := { st.s with weak_prev := st.s.mem st.s.weak_prev }) hsub).2
        ⟨seen ++ [x], t, by simp, ?_, ?_, fun _ => hidle⟩
      · show wseg st.s.mem c.env.caml_weak_list_head (kept_weak st.s.mem (seen ++ [x]))
          (st.s.mem st.s.weak_prev)
        rw [kept_weak_append, kept_weak_dark hwh, ec]
        exact wseg_snoc hseg ec
      · show wpath st.s.mem (st.s.mem st.s.weak_prev) t
        rw [ec]; exact ht
  · rw [if_neg hc]
    have el := wpath_nil_of_zero hrest (not_not.1 hc)
    subst el
    refine (WeakPos.wk_final
      (s := { st.s with caml_gc_subphase := Subphase_final }) rfl).2 ⟨?_, hidle⟩
    show wpath st.s.mem c.env.caml_weak_list_head (kept_weak st.s.mem (seen ++ []))
    have := wseg_wpath hseg hrest
    simpa using this

/-- One iteration of the loop of mark_slice keeps the weak list in its place,
and the phase is Phase_sweep afterwards only with the subphase
Subphase_final. -/
theorem WeakPos.wk_step (wf : c.WF) {L : List Nat} (hWL : c.WeakList L) {st : MarkState}
    (hm : c.MInv st.s st.v st.start) (hw : c.WeakPos L st.s st.v) :
    c.WeakPos L (mark_step c.env st).s (mark_step c.env st).v
    ∧ ((mark_step c.env st).s.caml_gc_phase = Phase_sweep →
        (mark_step c.env st).s.caml_gc_subphase = Subphase_final) := by
  have hLW := hWL.2.2
  obtain ⟨hp, hpe⟩ := hm.mi_pop
  have hw1 := hw.wk_pop
  simp only [mark_step]
  generalize mark_pop st = st1 at hp hpe hw1 ⊢
  have hph := hp.phase
  have hno : ∀ {s' : State}, s'.caml_gc_phase = st1.s.caml_gc_phase →
      s'.caml_gc_phase = Phase_sweep → s'.caml_gc_subphase = Subphase_final := by
    intro s' e h
    rw [e, hph] at h
    exact absurd h (by decide)
  by_cases hv : st1.v ≠ 0
  · rw [if_pos hv]
    have hf := mark_value_frame c.env st1
    exact ⟨hw1.wk_busy wf hLW (fun hi => hv hi.1) (hp.wr_mark_value wf hv) hf.frame_subphase
      hf.frame_weak_prev, hno hf.frame_phase⟩
  rw [if_neg hv]
  have hv0 : st1.v = 0 := not_not.1 hv
  have hstack := hpe hv0
  by_cases hmk : st1.s.markhp ≠ 0
  · rw [if_pos hmk]
    obtain ⟨e0, e1, e2, e3⟩ := mark_heap_scan_fields st1
    refine ⟨hw1.wk_busy wf hLW (fun hi => hmk hi.2.2.1) ?_ e1 e2, hno e3⟩
    rw [e0]; exact Wr.wr_refl c _
  rw [if_neg hmk]
  have hmk0 : st1.s.markhp = 0 := not_not.1 hmk
  by_cases hpure : st1.s.heap_is_pure = true
  · have hnp : ¬ ((!st1.s.heap_is_pure) = true) := by simp [hpure]
    rw [if_neg hnp]
    have hidle : MarkIdle st1.s st1.v := ⟨hv0, hstack, hmk0, hpure⟩
    simp only [mark_subphase]
    split_ifs with h1 h2 h3 h4 h5
    · obtain ⟨k1, k2⟩ := mark_roots_step c.env st1 hph h1
      refine ⟨hw1.wk_before wf hLW (by rw [h1]; decide) (by rw [h1]; decide) (hp.wr_roots wf)
        ?_ ?_, hno (k1.trans hph.symm)⟩
      · rcases k2 with e | e <;> rw [e] <;> decide
      · rcases k2 with e | e <;> rw [e] <;> decide
    · refine ⟨?_, hno rfl⟩
      have hq : wpath st1.s.mem c.env.caml_weak_list_head L :=
        (WeakPos.wk_early (s := st1.s) (v := st1.v) (by rw [h2]; decide)
          (by rw [h2]; decide)).1 hw1
      exact (WeakPos.wk_early (show Subphase_weak1 ≠ Subphase_weak2 by decide)
        (show Subphase_weak1 ≠ Subphase_final by decide)).2 hq
    · obtain ⟨k1, k2⟩ := mark_weak1_step c.env st1 hph h3
      refine ⟨?_, hno (k1.trans hph.symm)⟩
      have hwr := hp.wr_weak1 wf h3
      have hpath := wpath_wr_head wf hwr hLW
        ((WeakPos.wk_early (by rw [h3]; decide) (by rw [h3]; decide)).1 hw1)
      rcases k2 with e | e
      · exact (WeakPos.wk_early (by rw [e]; decide) (by rw [e]; decide)).2 hpath
      · have ep := mark_weak1_prev c.env st1 h3 e
        refine (WeakPos.wk_weak2 e).2 ⟨[], L, rfl, ep.symm, ?_, fun hne => absurd rfl hne⟩
        rw [ep]; exact hpath
    · exact ⟨hw1.wk_weak2_step wf hWL (hp.wp (Or.inr h4)) h4 hidle,
        hno (mark_weak2_phase st1)⟩
    · obtain ⟨e0, e1, e2, e3, e4, e5, e6⟩ := mark_final_fields c.env st1
      refine ⟨hw1.wk_congr e0 e1 e2 ?_, fun _ => e1.trans h5⟩
      intro hi
      exact ⟨e6.trans hi.1, e3.trans hi.2.1, e4.trans hi.2.2.1, e5.trans hi.2.2.2⟩
    · exact ⟨hw1, hno rfl⟩
  · have hnp : (!st1.s.heap_is_pure) = true := by simp [hpure]
    rw [if_pos hnp]
    refine ⟨hw1.wk_busy wf hLW (fun hi => hpure hi.2.2.2) (Wr.wr_refl c _) rfl rfl, hno rfl⟩

theorem GoodWeak.gw_loop (wf : c.WF) {L : List Nat} (hWL : c.WeakList L) (fuel : Nat)
    {st : MarkState} (hg : c.GoodWeak L st) : c.GoodWeak L (mark_loop c.env fuel st) := by
  induction fuel generalizing st with
  | zero => exact hg
  | succ fuel ih =>
    simp only [mark_loop]
    split_ifs with hw
    · obtain ⟨h1, h2, -⟩ := hg
      rcases h1 with hm | ⟨hw', -⟩
      · obtain ⟨k1, k2⟩ := h2.wk_step wf hWL hm
        exact ih ⟨hm.mi_step wf, k1, k2⟩
      · omega
    · exact hg

/-- What holds of the globals between two calls of mark_slice, with the
place of the weak list. -/
theorem MInv.mi_slice_weak (wf : c.WF) {L : List Nat} (hWL : c.WeakList L) (fuel : Nat)
    (work : Int) {s : State} (hm : c.MInv s s.current_value s.current_index)
    (hw : c.WeakPos L s s.current_value) :
    (c.MInv (mark_slice c.env fuel s work) (mark_slice c.env fuel s work).current_value
        (mark_slice c.env fuel s work).current_index
      ∨ c.Done (mark_slice c.env fuel s work))
    ∧ c.WeakPos L (mark_slice c.env fuel s work) (mark_slice c.env fuel s work).current_value
    ∧ ((mark_slice c.env fuel s work).caml_gc_phase = Phase_sweep →
        (mark_slice c.env fuel s work).caml_gc_subphase = Subphase_final) := by
  have hg : c.GoodWeak L (mark_enter s work) := by
    refine ⟨Or.inl hm, hw, ?_⟩
    intro h
    have := hm.phase
    have h' : s.caml_gc_phase = Phase_sweep := h
    rw [this] at h'
    exact absurd h' (by decide)
  have := hg.gw_loop wf hWL fuel
  simp only [mark_slice]
  generalize mark_loop c.env fuel (mark_enter s work) = st at this
  obtain ⟨k1, k2, k3⟩ := this
  refine ⟨?_, k2.wk_congr rfl rfl rfl (fun h => h), k3⟩
  rcases k1 with hm' | ⟨-, hd'⟩
  · exact Or.inl hm'.mi_leave
  · exact Or.inr hd'

theorem MInv.mi_drive_weak (wf : c.WF) {L : List Nat} (hWL : c.WeakList L)
    (l : List (Nat × Int)) {s : State}
    (h : c.MInv s s.current_value s.current_index ∨ c.Done s)
    (hw : c.WeakPos L s s.current_value)
    (hs : s.caml_gc_phase = Phase_sweep → s.caml_gc_subphase = Subphase_final) :
    c.WeakPos L (drive c.env l s) (drive c.env l s).current_value
    ∧ ((drive c.env l s).caml_gc_phase = Phase_sweep →
        (drive c.env l s).caml_gc_subphase = Subphase_final) := by
  induction l generalizing s with
  | nil => exact ⟨hw, hs⟩
  | cons p rest ih =>
    simp only [drive]
    split_ifs with hp
    · rcases h with hm | hd
      · obtain ⟨k1, k2, k3⟩ := hm.mi_slice_weak wf hWL p.1 p.2 hw
        exact ih k1 k2 k3
      · have := hd.1
        rw [hp] at this
        exact absurd this (by decide)
    · exact ⟨hw, hs⟩

end HeapCtx

theorem ex_ctx_weak3_wf : ex_ctx_weak3.WF := by
  have hH : ∀ h ∈ ex_ctx_weak3.H, h = 1000 ∨ h = 1024 ∨ h = 1048 ∨ h = 1072 := by decide
  have s1 : ex_ctx_weak3.size0 1000 = 2 := by decide
  have s2 : ex_ctx_weak3.size0 1024 = 2 := by decide
  have s3 : ex_ctx_weak3.size0 1048 = 2 := by decide
  have s4 : ex_ctx_weak3.size0 1072 = 2 := by decide
  have w1 : ex_ctx_weak3.white0 1000 := by unfold HeapCtx.white0; decide
  have w3 : ex_ctx_weak3.white0 1048 := by unfold HeapCtx.white0; decide
  refine ⟨?_, ?_, ?_, ?_, ?_, ?_, ?_, ?_, ?_, ?_, ?_, ?_, ?_, ?_, ?_⟩
  · simp only [chain, tiles, ex_ctx_weak3]; decide
  · decide
  · decide
  · decide
  · decide
  · unfold HeapCtx.size0; decide
  · intro h hh h' hh' i j hi hj e
    rcases hH h hh with k | k | k | k <;> rcases hH h' hh' with k' | k' | k' | k' <;>
      subst k k' <;> simp only [s1, s2, s3, s4] at hi hj <;> omega
  · unfold HeapCtx.size0; decide
  · intro p hp a ha
    have hp' : p = (1000, [1000, 1024, 1048, 1072]) := by simpa [ex_ctx_weak3] using hp
    subst hp'
    have ha' : a = 984 ∨ a = 992 := ha
    refine ⟨?_, ?_, ?_⟩
    · rcases ha' with k | k <;> subst k <;> decide
    · rintro ⟨h, hh, i, hi, e⟩
      rcases hH h hh with k | k | k | k <;> subst k <;> omega
    · rcases ha' with k | k <;> subst k <;> decide
  · unfold HeapCtx.tag0 HeapCtx.size0; decide
  · intro h hh hw ht i hi
    have hv : ∀ x, x = 1056 ∨ x % 2 = 1 → ex_ctx_weak3.VPtr x := by
      intro x hx hb hin
      rcases hx with k | k
      · subst k; exact ⟨1048, by decide, w3, by decide⟩
      · simp [Is_block] at hb; omega
    apply hv
    rcases hH h hh with k | k | k | k <;> subst k
    · simp only [s1] at hi
      interval_cases i <;> decide
    · exact absurd ht (by decide)
    · exact absurd ht (by decide)
    · exact absurd ht (by decide)
  · unfold HeapCtx.tag0 HeapCtx.size0; decide
  · unfold HeapCtx.LinkOK; decide
  · intro s w x hx
    have : x = 1008 := by simpa [ex_ctx_weak3, ex_env] using hx
    subst this
    intro _ _
    exact ⟨1000, by decide, w1, by decide⟩
  · intro s x hx
    have : x ∈ ([] : List Nat) := hx
    exact absurd this (List.not_mem_nil _)

theorem ex_ctx_weak3_weak_list : ex_ctx_weak3.WeakList [1024, 1048, 1072] :=
  ⟨by simp only [wpath]; decide, by decide, by decide⟩

/-- C31.  A cycle is started by start_cycle on a well-formed heap whose weak
list is L, the weak arrays being linked from caml_weak_list_head in the order
of L, and driven by calls of mark_slice with any iteration bounds and budgets.
In a state where Subphase_weak2 has walked the whole list, so that the
subphase is Subphase_final or the phase is Phase_sweep, the links from
caml_weak_list_head go through exactly the arrays of L whose header is not
white, in the order of L, and end with NULL: every array of L with a white
header is out of the list and every other array of L is in it. -/
theorem weak2_leaves_the_arrays_that_are_not_white (c : HeapCtx) (wf : c.WF) (L : List Nat)
    (hWL : c.WeakList L) (s0 : State)
    (hmem : s0.mem = c.m0) (hhs : s0.caml_heap_start = c.heap_start)
    (hgv : s0.gray_vals = []) (hsz : 0 < s0.gray_vals_size)
    (hcv : s0.current_value = 0) (hci : s0.current_index = 0)
    (l : List (Nat × Int))
    (hend : (drive c.env l (start_cycle s0)).caml_gc_subphase = Subphase_final
      ∨ (drive c.env l (start_cycle s0)).caml_gc_phase = Phase_sweep) :
    wpath (drive c.env l (start_cycle s0)).mem c.env.caml_weak_list_head
      (kept_weak (drive c.env l (start_cycle s0)).mem L)
    ∧ (kept_weak (drive c.env l (start_cycle s0)).mem L).Sublist L
    ∧ ∀ h ∈ L, (h ∈ kept_weak (drive c.env l (start_cycle s0)).mem L
        ↔ Color_hd (Hd_hp (drive c.env l (start_cycle s0)).mem h) ≠ Caml_white) := by
  have hm := HeapCtx.MInv.mi_start wf hmem hhs hgv hsz hcv hci
  have hw : c.WeakPos L (start_cycle s0) (start_cycle s0).current_value := by
    refine (HeapCtx.WeakPos.wk_early (show Subphase_roots ≠ Subphase_weak2 by decide)
      (show Subphase_roots ≠ Subphase_final by decide)).2 ?_
    show wpath s0.mem c.env.caml_weak_list_head L
    rw [hmem]; exact hWL.1
  obtain ⟨k1, k2⟩ := HeapCtx.MInv.mi_drive_weak wf hWL l (Or.inl hm) hw
    (fun h => absurd (show Phase_mark = Phase_sweep from h) (by decide))
  have hfin : (drive c.env l (start_cycle s0)).caml_gc_subphase = Subphase_final :=
    hend.elim id k2
  refine ⟨((HeapCtx.WeakPos.wk_final hfin).1 k1).1, kept_weak_sublist _ _, ?_⟩
  intro h hh
  simp [kept_weak, Is_white_hd, hh]

/-- Witness of C31 on the heap of the three weak arrays W1, W2 and W3, of
which only W2 is reached from the root A: one call of mark_slice ends the
mark phase, W2 is the only array whose header is not white, and the list from
caml_weak_list_head, at 64, holds W2 alone. -/
theorem weak2_leaves_the_arrays_that_are_not_white_witness :
    ex_ctx_weak3.WF ∧ ex_ctx_weak3.WeakList [1024, 1048, 1072]
    ∧ (drive ex_env [(100, 1000)] (start_cycle ex_weak3)).caml_gc_phase = Phase_sweep
    ∧ kept_weak (drive ex_env [(100, 1000)] (start_cycle ex_weak3)).mem [1024, 1048, 1072]
        = [1048]
    ∧ wpath (drive ex_env [(100, 1000)] (start_cycle ex_weak3)).mem 64 [1048] := by
  have h := (weak2_leaves_the_arrays_that_are_not_white ex_ctx_weak3 ex_ctx_weak3_wf
    [1024, 1048, 1072] ex_ctx_weak3_weak_list ex_weak3 rfl rfl rfl (by decide) rfl rfl
    [(100, 1000)] (Or.inr (by decide))).1
  have e : kept_weak (drive ex_env [(100, 1000)] (start_cycle ex_weak3)).mem
      [1024, 1048, 1072] = [1048] := by decide
  refine ⟨ex_ctx_weak3_wf, ex_ctx_weak3_weak_list, by decide, e, ?_⟩
  have h' : wpath (drive ex_env [(100, 1000)] (start_cycle ex_weak3)).mem 64
      (kept_weak (drive ex_env [(100, 1000)] (start_cycle ex_weak3)).mem
        [1024, 1048, 1072]) := h
  rw [e] at h'
  exact h'

/-- C37, evaluated on the code.  When the program starts every bucket of both
histograms has total_blocks and total_words equal to the sums over its size
classes.  The header ex_empty_hd of a block of no words, allocated at time 10,
is sampled in the major heap at time 10010: the sample is accepted in bucket
333, whose total_blocks becomes 1 while none of the size classes 0 to
MAX_LOG2_OBJECT_SIZE is incremented, the size class of line 590 being the floor
of the logarithm of 0, which is negative.  After this call total_blocks of the
bucket is not the sum of num_blocks_by_log2_object_size, so the call does not
keep the equality; the minor histogram, which in_major_heap does not select,
keeps it.  For every header of at least one word, with a logarithm that is not
negative from 1 on and the two arrays allocated together, a call keeps the
equalities in both histograms, decreases no accumulator unless the addition
to the uint64_t passes 2^64, and leaves the histogram that in_major_heap does
not select as it was. -/
theorem lifetime_totals_break_for_empty_block :
    (hist_ok lifetime_start.lifetime_buckets_minor
      ∧ hist_ok lifetime_start.lifetime_buckets_major)
    ∧ Wosize_hd ex_empty_hd = 0
    ∧ log2_object_size ex_prof_env_neg ex_empty_hd < 0
    ∧ (∃ st, caml_record_lifetime_sample ex_prof_env_neg lifetime_start ex_empty_hd 1 10010
          = some st
        ∧ (lifetime_acc st.lifetime_buckets_major 333).total_blocks = 1
        ∧ sum_classes
            (lifetime_acc st.lifetime_buckets_major 333).num_blocks_by_log2_object_size = 0
        ∧ ¬ bucket_sums_ok (lifetime_acc st.lifetime_buckets_major 333)
        ∧ ¬ hist_ok st.lifetime_buckets_major
        ∧ hist_ok st.lifetime_buckets_minor)
    ∧ (∀ (env : ProfEnv) (st st' : LifetimeState) (hd : Nat) (in_major_heap : Int) (now : Nat),
        (st.lifetime_buckets_minor = none → st.lifetime_buckets_major = none) →
        (∀ x : ℚ, 1 ≤ x → 0 ≤ env.log x) →
        1 ≤ Wosize_hd hd →
        hist_ok st.lifetime_buckets_minor ∧ hist_ok st.lifetime_buckets_major →
        caml_record_lifetime_sample env st hd in_major_heap now = some st' →
        (hist_ok st'.lifetime_buckets_minor ∧ hist_ok st'.lifetime_buckets_major)
        ∧ (∀ b, bucket_le (Wosize_hd hd + 1) (lifetime_acc st.lifetime_buckets_minor b)
                  (lifetime_acc st'.lifetime_buckets_minor b)
              ∧ bucket_le (Wosize_hd hd + 1) (lifetime_acc st.lifetime_buckets_major b)
                  (lifetime_acc st'.lifetime_buckets_major b))
        ∧ (in_major_heap ≠ 0 → ∀ b, lifetime_acc st'.lifetime_buckets_minor b
              = lifetime_acc st.lifetime_buckets_minor b)
        ∧ (in_major_heap = 0 → ∀ b, lifetime_acc st'.lifetime_buckets_major b
              = lifetime_acc st.lifetime_buckets_major b)) := by
  have hw : Wosize_hd ex_empty_hd = 0 := by decide
  have ha : Decode_profinfo_hd ex_empty_hd = 10 := by decide
  have h0 : ex_prof_env_neg.log 0 = -1000 := by
    norm_num [ex_prof_env_neg, ex_log_neg]
  have hk : log2_object_size ex_prof_env_neg ex_empty_hd = -1000 := by
    unfold log2_object_size
    rw [hw]
    have e0 : ex_prof_env_neg.log ((0 : Nat) : ℚ) = ((-1000 : Int) : ℚ) := by
      rw [Nat.cast_zero, h0]; norm_num
    simp only [e0, Int.floor_intCast]
    decide
  obtain ⟨-, h⟩ := record_lifetime_sample_10001 ex_prof_env_neg ex_empty_hd 1
    rfl rfl rfl ex_log_neg_near.1 ex_log_neg_near.2 ha
  have e1 : (lifetime_count (fun _ => lifetime_bucket_zero) 333 (-1000) ex_empty_hd
      333).total_blocks = 1 := by
    simp only [lifetime_count, if_true, lifetime_bucket_zero]
    decide
  have e2 : sum_classes (lifetime_count (fun _ => lifetime_bucket_zero) 333 (-1000)
      ex_empty_hd 333).num_blocks_by_log2_object_size = 0 := by
    simp only [lifetime_count, if_true, lifetime_bucket_zero, sum_classes]
    decide
  have hbad : ¬ bucket_sums_ok (lifetime_count (fun _ => lifetime_bucket_zero) 333 (-1000)
      ex_empty_hd 333) := by
    intro hb
    have := hb.1
    rw [e1, e2] at this
    exact absurd this (by decide)
  refine ⟨lifetime_start_ok, hw, by rw [hk]; decide, ⟨_, h, ?_⟩, ?_⟩
  · rw [hk]
    simp only [ne_eq, one_ne_zero, not_false_eq_true, if_true, lifetime_acc]
    refine ⟨e1, e2, hbad, fun hh => hbad (hh 333), ?_⟩
    intro b
    exact ⟨rfl, rfl⟩
  · intro env st st' hd in_major_heap now hinv hlog hz hok hs
    exact (lifetime_totals_are_sums env st st' hd in_major_heap now hinv hlog hz hok hs).2

end MajorGC
